import Mathlib

/-!
# s21 containers: the red-black tree engine

A shallow embedding of `RBTree<Key, Comparator>` (rb_tree.h / rb_tree.tpp).

* A node pointer is `Option Nat`: `none` is `nullptr`, `some a` is the address
  of a heap cell.  Every tree object carries the memory its nodes live in
  (`mem`) together with the next address `new` hands out (`fresh`).
* Every function returns in `Option`; the result `none` stands for undefined
  behaviour (a null or dangling pointer is dereferenced) or for a loop or
  recursion that ran out of `fuel`.
* `size_t` bookkeeping is kept in `Nat`: memory holds fewer than `2 ^ 64`
  nodes, and `--size_` is only executed after a live node was unlinked.
-/

namespace s21

/-- A node pointer: `none` is `nullptr`. -/
abbrev Ptr := Option Nat

/-- The struct `RBTNode` (with its base `RBTBaseNode`): three links, the colour bit and the key. -/
structure RBTNode (Key : Type) where
  parent_ : Ptr
  left_ : Ptr
  right_ : Ptr
  red_ : Bool
  key_ : Key

/-- The class `RBTree`: the root pointer, the element counter and the comparator, plus the heap
its nodes are allocated in. -/
structure RBTree (Key : Type) where
  mem : Nat → Option (RBTNode Key)
  fresh : Nat
  root_ : Ptr
  size_ : Nat
  comparator_ : Key → Key → Bool

variable {Key : Type}

/-- Default constructor `RBTree()`: no node, size zero. -/
def RBTree.empty (cmp : Key → Key → Bool) : RBTree Key :=
  { mem := fun _ => none, fresh := 0, root_ := none, size_ := 0, comparator_ := cmp }

/-! ## Memory access -/

/-- Dereference a pointer: fails on `nullptr` and on a freed cell. -/
def RBTree.deref (t : RBTree Key) (p : Ptr) : Option (RBTNode Key) :=
  match p with
  | none => none
  | some a => t.mem a

/-- Overwrite the cell at address `a`. -/
def RBTree.store (t : RBTree Key) (a : Nat) (n : RBTNode Key) : RBTree Key :=
  { t with mem := fun x => if x = a then some n else t.mem x }

/-- Read of `p->parent_`. -/
def RBTree.parent (t : RBTree Key) (p : Ptr) : Option Ptr := (t.deref p).map (·.parent_)

/-- Read of `p->left_`. -/
def RBTree.left (t : RBTree Key) (p : Ptr) : Option Ptr := (t.deref p).map (·.left_)

/-- Read of `p->right_`. -/
def RBTree.right (t : RBTree Key) (p : Ptr) : Option Ptr := (t.deref p).map (·.right_)

/-- Read of `p->red_`. -/
def RBTree.red (t : RBTree Key) (p : Ptr) : Option Bool := (t.deref p).map (·.red_)

/-- Read of `p->key_`. -/
def RBTree.key (t : RBTree Key) (p : Ptr) : Option Key := (t.deref p).map (·.key_)

/-- Assignment `p->parent_ = v`. -/
def RBTree.setParent (t : RBTree Key) (p : Ptr) (v : Ptr) : Option (RBTree Key) :=
  match p with
  | none => none
  | some a => (t.mem a).map fun n => t.store a { n with parent_ := v }

/-- Assignment `p->left_ = v`. -/
def RBTree.setLeft (t : RBTree Key) (p : Ptr) (v : Ptr) : Option (RBTree Key) :=
  match p with
  | none => none
  | some a => (t.mem a).map fun n => t.store a { n with left_ := v }

/-- Assignment `p->right_ = v`. -/
def RBTree.setRight (t : RBTree Key) (p : Ptr) (v : Ptr) : Option (RBTree Key) :=
  match p with
  | none => none
  | some a => (t.mem a).map fun n => t.store a { n with right_ := v }

/-- Assignment `p->red_ = v`. -/
def RBTree.setRed (t : RBTree Key) (p : Ptr) (v : Bool) : Option (RBTree Key) :=
  match p with
  | none => none
  | some a => (t.mem a).map fun n => t.store a { n with red_ := v }

/-- The expression `new Node(key)`: a fresh cell with null links, coloured red. -/
def RBTree.alloc (t : RBTree Key) (key : Key) : RBTree Key × Ptr :=
  ({ t with
      mem := fun x => if x = t.fresh then
        some { parent_ := none, left_ := none, right_ := none, red_ := true, key_ := key }
        else t.mem x,
      fresh := t.fresh + 1 }, some t.fresh)

/-- The statement `delete p` on a non-null pointer: the cell is gone. -/
def RBTree.free (t : RBTree Key) (p : Ptr) : Option (RBTree Key) :=
  match p with
  | none => none
  | some a => (t.mem a).map fun _ => { t with mem := fun x => if x = a then none else t.mem x }

/-! ## Lookup -/

/-- The loop of `findNode`: comparator descent from `current`. -/
def RBTree.findNodeLoop (t : RBTree Key) (key : Key) : Nat → Ptr → Option Ptr
  | _, none => some none
  | 0, some _ => none
  | fuel + 1, some c =>
    match t.mem c with
    | none => none
    | some n =>
      if t.comparator_ key n.key_ then t.findNodeLoop key fuel n.left_
      else if t.comparator_ n.key_ key then t.findNodeLoop key fuel n.right_
      else some (some c)

/-- `RBTree::findNode`: the node holding a key equivalent to `key`, or `nullptr`. -/
def RBTree.findNode (t : RBTree Key) (fuel : Nat) (key : Key) : Option Ptr :=
  t.findNodeLoop key fuel t.root_

/-- `RBTree::contains`. -/
def RBTree.contains (t : RBTree Key) (fuel : Nat) (key : Key) : Option Bool :=
  (t.findNode fuel key).map fun node => decide (node ≠ none)

/-- `RBTree::find`: an iterator is its current-node pointer, `end()` is `nullptr`. -/
def RBTree.find (t : RBTree Key) (fuel : Nat) (key : Key) : Option Ptr :=
  (t.findNode fuel key).map fun node => if node = none then none else node

/-- `RBTree::findMinNode`: leftmost node below `node` (dereferences `node`). -/
def RBTree.findMinNode (t : RBTree Key) : Nat → Ptr → Option Ptr
  | 0, _ => none
  | fuel + 1, node =>
    match t.left node with
    | none => none
    | some none => some node
    | some l => t.findMinNode fuel l

/-- `RBTree::findMaxNode`: rightmost node below `node` (dereferences `node`). -/
def RBTree.findMaxNode (t : RBTree Key) : Nat → Ptr → Option Ptr
  | 0, _ => none
  | fuel + 1, node =>
    match t.right node with
    | none => none
    | some none => some node
    | some r => t.findMaxNode fuel r

/-! ## Rotations -/

/-- `RBTree::leftRotate`. -/
def RBTree.leftRotate (t : RBTree Key) (node : Ptr) : Option (RBTree Key) := do
  let rightSun ← t.right node
  let rl ← t.left rightSun
  let t ← t.setRight node rl
  let rl ← t.left rightSun
  let t ← (if rl ≠ none then t.setParent rl node else some t)
  let np ← t.parent node
  let t ← t.setParent rightSun np
  let np ← t.parent node
  let t ← (if np = none then some { t with root_ := rightSun }
    else (t.left np).bind fun npl =>
      if node = npl then t.setLeft np rightSun else t.setRight np rightSun)
  let t ← t.setLeft rightSun node
  t.setParent node rightSun

/-- `RBTree::rightRotate`. -/
def RBTree.rightRotate (t : RBTree Key) (node : Ptr) : Option (RBTree Key) := do
  let leftSun ← t.left node
  let lr ← t.right leftSun
  let t ← t.setLeft node lr
  let lr ← t.right leftSun
  let t ← (if lr ≠ none then t.setParent lr node else some t)
  let np ← t.parent node
  let t ← t.setParent leftSun np
  let np ← t.parent node
  let t ← (if np = none then some { t with root_ := leftSun }
    else (t.right np).bind fun npr =>
      if node = npr then t.setRight np leftSun else t.setLeft np leftSun)
  let t ← t.setRight leftSun node
  t.setParent node leftSun

/-! ## Insertion -/

/-- C++ `a && b` over operands whose evaluation may be undefined: `b` is evaluated only when
`a` is true. -/
def andThen (a b : Option Bool) : Option Bool :=
  a.bind fun x => if x then b else some false

/-- C++ `a || b` over operands whose evaluation may be undefined: `b` is evaluated only when
`a` is false. -/
def orElse (a b : Option Bool) : Option Bool :=
  a.bind fun x => if x then some true else b

/-- The guard shared by the four configuration tests:
`node != nullptr && node->parent_ != nullptr && node->parent_->parent_ != nullptr`. -/
def RBTree.hasGrandparent (t : RBTree Key) (node : Ptr) : Option Bool :=
  andThen (some (decide (node ≠ none)))
    (andThen ((t.parent node).map fun p => decide (p ≠ none))
      (do let p ← t.parent node
          let g ← t.parent p
          some (decide (g ≠ none))))

/-- `RBTree::leftDadRightSon`: parent is a left child, node is a right child. -/
def RBTree.leftDadRightSon (t : RBTree Key) (node : Ptr) : Option Bool := do
  if (← t.hasGrandparent node) then
    andThen (do let p ← t.parent node
                some (decide ((← t.right p) = node)))
      (do let p ← t.parent node
          let g ← t.parent p
          some (decide ((← t.left g) = p)))
  else some false

/-- `RBTree::rightDadLeftSon`: parent is a right child, node is a left child. -/
def RBTree.rightDadLeftSon (t : RBTree Key) (node : Ptr) : Option Bool := do
  if (← t.hasGrandparent node) then
    andThen (do let p ← t.parent node
                some (decide ((← t.left p) = node)))
      (do let p ← t.parent node
          let g ← t.parent p
          some (decide ((← t.right g) = p)))
  else some false

/-- `RBTree::leftDadLeftSon`: tests `node->parent_->parent_->left_->left_ == node`. -/
def RBTree.leftDadLeftSon (t : RBTree Key) (node : Ptr) : Option Bool := do
  if (← t.hasGrandparent node) then
    andThen (do let p ← t.parent node
                some (decide ((← t.left p) = node)))
      (do let p ← t.parent node
          let g ← t.parent p
          let gl ← t.left g
          some (decide ((← t.left gl) = node)))
  else some false

/-- `RBTree::rightDadRightSon`: tests `node->parent_->parent_->right_->right_ == node`. -/
def RBTree.rightDadRightSon (t : RBTree Key) (node : Ptr) : Option Bool := do
  if (← t.hasGrandparent node) then
    andThen (do let p ← t.parent node
                some (decide ((← t.right p) = node)))
      (do let p ← t.parent node
          let g ← t.parent p
          let gr ← t.right g
          some (decide ((← t.right gr) = node)))
  else some false

/-- `RBTree::redUncle`: false when the grandparent lacks a child; otherwise the colour of the
grandparent's left child if `node` is the right-right grandchild, and the colour of the
grandparent's right child in every other configuration. -/
def RBTree.redUncle (t : RBTree Key) (node : Ptr) : Option Bool := do
  let p ← t.parent node
  let g ← t.parent p
  let gr ← t.right g
  let gl ← t.left g
  if gr = none ∨ gl = none then some false
  else do
    let grr ← t.right gr
    if grr = node then t.red gl else t.red gr

/-- `RBTree::doubleRed`: `node->red_ && node->parent_->red_`. -/
def RBTree.doubleRed (t : RBTree Key) (node : Ptr) : Option Bool :=
  andThen (t.red node) (do t.red (← t.parent node))

/-- `RBTree::oppositeDadAndGrandpa`: the zig-zag configurations are rotated into zig-zig ones;
`node`, `parent` and `grandparent` are reference parameters. -/
def RBTree.oppositeDadAndGrandpa (t : RBTree Key) (node parent grandparent : Ptr) :
    Option (RBTree Key × Ptr × Ptr × Ptr) := do
  let c ← t.leftDadRightSon node
  let r ← (if c then do
      let node := parent
      let t ← t.leftRotate node
      let parent ← t.parent node
      let grandparent ← t.parent parent
      some (t, node, parent, grandparent)
    else some (t, node, parent, grandparent))
  let c ← r.1.rightDadLeftSon r.2.1
  if c then do
    let node := r.2.2.1
    let t ← r.1.rightRotate node
    let parent ← t.parent node
    let grandparent ← t.parent parent
    some (t, node, parent, grandparent)
  else some r

/-- `RBTree::sameSideDadAndGrandpa`: recolour parent and grandparent, rotate the grandparent. -/
def RBTree.sameSideDadAndGrandpa (t : RBTree Key) (node parent grandparent : Ptr) :
    Option (RBTree Key) := do
  let c ← t.leftDadLeftSon node
  let t ← (if c then do
      let t ← t.setRed parent false
      let t ← t.setRed grandparent true
      t.rightRotate grandparent
    else some t)
  let c ← t.rightDadRightSon node
  if c then do
    let t ← t.setRed parent false
    let t ← t.setRed grandparent true
    t.leftRotate grandparent
  else some t

/-- `RBTree::blackUncleFixup`. -/
def RBTree.blackUncleFixup (t : RBTree Key) (node : Ptr) : Option (RBTree Key) := do
  let parent ← t.parent node
  let grandparent ← t.parent parent
  let r ← t.oppositeDadAndGrandpa node parent grandparent
  let t ← r.1.sameSideDadAndGrandpa r.2.1 r.2.2.1 r.2.2.2
  t.setRed t.root_ false

mutual

/-- `RBTree::insertFixup`. -/
def RBTree.insertFixup (t : RBTree Key) : Nat → Ptr → Option (RBTree Key)
  | 0, _ => none
  | fuel + 1, node =>
    if node = t.root_ then some t
    else do
      let p ← t.parent node
      if p = t.root_ then some t
      else do
        let pr ← t.red p
        if !pr then some t
        else do
          let ru ← t.redUncle node
          if ru then t.redUncleChangeColors fuel node else t.blackUncleFixup node

/-- `RBTree::redUncleChangeColors`. -/
def RBTree.redUncleChangeColors (t : RBTree Key) : Nat → Ptr → Option (RBTree Key)
  | 0, _ => none
  | fuel + 1, node => do
    let p ← t.parent node
    let t ← t.setRed p false
    let p ← t.parent node
    let g ← t.parent p
    let t ← t.setRed g true
    let uncleLeft ← orElse (t.rightDadRightSon node) (t.rightDadLeftSon node)
    let t ← (if uncleLeft then do
        let p ← t.parent node
        let g ← t.parent p
        let gl ← t.left g
        t.setRed gl false
      else some t)
    let uncleRight ← orElse (t.leftDadLeftSon node) (t.leftDadRightSon node)
    let t ← (if uncleRight then do
        let p ← t.parent node
        let g ← t.parent p
        let gr ← t.right g
        t.setRed gr false
      else some t)
    let p ← t.parent node
    let g ← t.parent p
    if t.root_ = g then t.setRed g false else t.doubleRedFixup fuel node

/-- `RBTree::doubleRedFixup`: the loop `while (current && current->parent_)`, one iteration per
unit of fuel. -/
def RBTree.doubleRedFixup (t : RBTree Key) : Nat → Ptr → Option (RBTree Key)
  | 0, _ => none
  | fuel + 1, current => do
    let continues ← andThen (some (decide (current ≠ none)))
      ((t.parent current).map fun p => decide (p ≠ none))
    if continues then do
      let dr ← t.doubleRed current
      let t ← (if dr then t.insertFixup fuel current else some t)
      let p ← t.parent current
      t.doubleRedFixup fuel p
    else some t

end

/-- The loop of `RBTree::insertNode`: descends from `current`, returns the last node visited. -/
def RBTree.insertNodeLoop (t : RBTree Key) (key : Key) : Nat → Ptr → Ptr → Option Ptr
  | _, none, parent => some parent
  | 0, some _, _ => none
  | fuel + 1, some c, _ =>
    match t.mem c with
    | none => none
    | some n =>
      if t.comparator_ key n.key_ then t.insertNodeLoop key fuel n.left_ (some c)
      else t.insertNodeLoop key fuel n.right_ (some c)

/-- `RBTree::insertNode`: links `new_node` below the node where the descent from `root` ends.
The assignment `root = new_node` of the empty case only changes the by-value parameter. -/
def RBTree.insertNode (t : RBTree Key) (fuel : Nat) (root new_node : Ptr) :
    Option (RBTree Key) := do
  let key ← t.key new_node
  let parent ← t.insertNodeLoop key fuel root none
  let t ← t.setParent new_node parent
  if parent = none then some t
  else do
    let key ← t.key new_node
    let pkey ← t.key parent
    if t.comparator_ key pkey then t.setLeft parent new_node else t.setRight parent new_node

/-- `RBTree::insert(key, unique)`: returns the tree, the iterator and the flag. -/
def RBTree.insert (t : RBTree Key) (fuel : Nat) (key : Key) (unique : Bool) :
    Option (RBTree Key × Ptr × Bool) :=
  let (t, new_node) := t.alloc key
  if t.root_ = none then do
    let t := { t with root_ := new_node }
    let t ← t.setRed t.root_ false
    let t := { t with size_ := 1 }
    some (t, new_node, true)
  else do
    let key ← t.key new_node
    let found ← t.findNode fuel key
    if found ≠ none ∧ unique = true then do
      let t ← t.free new_node
      some (t, new_node, false)
    else do
      let t ← t.insertNode fuel t.root_ new_node
      let t ← t.insertFixup fuel new_node
      let t := { t with size_ := t.size_ + 1 }
      some (t, new_node, true)

/-- `RBTree::insert(key)`: duplicates allowed. -/
def RBTree.insertMulti (t : RBTree Key) (fuel : Nat) (key : Key) :
    Option (RBTree Key × Ptr × Bool) :=
  t.insert fuel key false

/-- `RBTree::insertUnique(key)`. -/
def RBTree.insertUnique (t : RBTree Key) (fuel : Nat) (key : Key) :
    Option (RBTree Key × Ptr × Bool) :=
  t.insert fuel key true

/-! ## Erase: sibling and nephew accessors, case predicates -/

/-- `RBTree::rSibling`: `node->right_`. -/
def RBTree.rSibling (t : RBTree Key) (node : Ptr) : Option Ptr := t.right node

/-- `RBTree::lSibling`: `node->left_`. -/
def RBTree.lSibling (t : RBTree Key) (node : Ptr) : Option Ptr := t.left node

/-- `RBTree::rNephewsRS`: `node->right_->right_`. -/
def RBTree.rNephewsRS (t : RBTree Key) (node : Ptr) : Option Ptr := do
  let r ← t.right node
  t.right r

/-- `RBTree::lNephewsRS`: `node->right_->left_`. -/
def RBTree.lNephewsRS (t : RBTree Key) (node : Ptr) : Option Ptr := do
  let r ← t.right node
  t.left r

/-- `RBTree::rNephewsLS`: `node->left_->right_`. -/
def RBTree.rNephewsLS (t : RBTree Key) (node : Ptr) : Option Ptr := do
  let l ← t.left node
  t.right l

/-- `RBTree::lNephewsLS`: `node->left_->left_`. -/
def RBTree.lNephewsLS (t : RBTree Key) (node : Ptr) : Option Ptr := do
  let l ← t.left node
  t.left l

/-- A pointer used as a condition: true when it is not `nullptr`. -/
def nonNull (p : Option Ptr) : Option Bool := p.map fun q => decide (q ≠ none)

/-- The condition `!p`: true when the pointer is `nullptr`. -/
def isNull (p : Option Ptr) : Option Bool := p.map fun q => decide (q = none)

/-- The condition `p->red_` for a pointer expression `p`. -/
def RBTree.redAt (t : RBTree Key) (p : Option Ptr) : Option Bool := p.bind t.red

/-- The condition `!p->red_` for a pointer expression `p`. -/
def RBTree.blackAt (t : RBTree Key) (p : Option Ptr) : Option Bool := (p.bind t.red).map not

/-- `RBTree::sR` (case 4a): the right child is red. -/
def RBTree.sR (t : RBTree Key) (node : Ptr) : Option Bool :=
  andThen (some (decide (node ≠ none)))
    (andThen (nonNull (t.rSibling node)) (t.redAt (t.rSibling node)))

/-- `RBTree::mirrorSR` (case 4b): the left child is red. -/
def RBTree.mirrorSR (t : RBTree Key) (node : Ptr) : Option Bool :=
  andThen (some (decide (node ≠ none)))
    (andThen (nonNull (t.lSibling node)) (t.redAt (t.lSibling node)))

/-- `RBTree::rNRlNA` (case 3a): right child black, its right child red. -/
def RBTree.rNRlNA (t : RBTree Key) (node : Ptr) : Option Bool :=
  andThen (some (decide (node ≠ none)))
    (andThen (nonNull (t.rSibling node))
      (andThen (t.blackAt (t.rSibling node))
        (andThen (nonNull (t.rNephewsRS node)) (t.redAt (t.rNephewsRS node)))))

/-- `RBTree::mirrorRNRlNA` (case 3b): left child black, its left child red. -/
def RBTree.mirrorRNRlNA (t : RBTree Key) (node : Ptr) : Option Bool :=
  andThen (some (decide (node ≠ none)))
    (andThen (nonNull (t.lSibling node))
      (andThen (t.blackAt (t.lSibling node))
        (andThen (nonNull (t.lNephewsLS node)) (t.redAt (t.lNephewsLS node)))))

/-- `RBTree::lNBrNB` (case 2a): right child black, both its children black or null. -/
def RBTree.lNBrNB (t : RBTree Key) (node : Ptr) : Option Bool :=
  andThen (some (decide (node ≠ none)))
    (andThen (nonNull (t.rSibling node))
      (andThen (t.blackAt (t.rSibling node))
        (andThen
          (orElse (andThen (nonNull (t.lNephewsRS node)) (t.blackAt (t.lNephewsRS node)))
            (isNull (t.lNephewsRS node)))
          (orElse (andThen (nonNull (t.rNephewsRS node)) (t.blackAt (t.rNephewsRS node)))
            (isNull (t.rNephewsRS node))))))

/-- `RBTree::mirrorLNBrNB` (case 2b): left child black, both its children black or null. -/
def RBTree.mirrorLNBrNB (t : RBTree Key) (node : Ptr) : Option Bool :=
  andThen (some (decide (node ≠ none)))
    (andThen (nonNull (t.lSibling node))
      (andThen (t.blackAt (t.lSibling node))
        (andThen
          (orElse (andThen (nonNull (t.lNephewsLS node)) (t.blackAt (t.lNephewsLS node)))
            (isNull (t.lNephewsLS node)))
          (orElse (andThen (nonNull (t.rNephewsLS node)) (t.blackAt (t.rNephewsLS node)))
            (isNull (t.rNephewsLS node))))))

/-- `RBTree::lNRrNB` (case 1a): right child black, its left child red, its right child black or
null. -/
def RBTree.lNRrNB (t : RBTree Key) (node : Ptr) : Option Bool :=
  andThen (some (decide (node ≠ none)))
    (andThen (nonNull (t.rSibling node))
      (andThen (t.blackAt (t.rSibling node))
        (andThen (nonNull (t.lNephewsRS node))
          (andThen (t.redAt (t.lNephewsRS node))
            (orElse (isNull (t.rNephewsRS node))
              (andThen (nonNull (t.rNephewsRS node)) (t.blackAt (t.rNephewsRS node))))))))

/-- `RBTree::mirrorLNRrNB` (case 1b): left child black, its right child red, its left child black
or null. -/
def RBTree.mirrorLNRrNB (t : RBTree Key) (node : Ptr) : Option Bool :=
  andThen (some (decide (node ≠ none)))
    (andThen (nonNull (t.lSibling node))
      (andThen (t.blackAt (t.lSibling node))
        (andThen (nonNull (t.rNephewsLS node))
          (andThen (t.redAt (t.rNephewsLS node))
            (orElse (isNull (t.lNephewsLS node))
              (andThen (nonNull (t.lNephewsLS node)) (t.blackAt (t.lNephewsLS node))))))))

/-! ## Erase: the rebalancing cases -/

/-- The call `std::swap(a->red_, b->red_)`. -/
def RBTree.swapRed (t : RBTree Key) (a b : Ptr) : Option (RBTree Key) := do
  let tmp ← t.red a
  let rb ← t.red b
  let t ← t.setRed a rb
  t.setRed b tmp

/-- `RBTree::rNephewsRedLNephewsAny` (case 3a). -/
def RBTree.rNephewsRedLNephewsAny (t : RBTree Key) (node : Ptr) : Option (RBTree Key) := do
  let c ← t.red node
  let rs ← t.rSibling node
  let t ← t.setRed rs c
  let rn ← t.rNephewsRS node
  let t ← t.setRed rn false
  let t ← t.setRed node false
  t.leftRotate node

/-- `RBTree::mirrorRNephewsRedLNephewsAny` (case 3b). -/
def RBTree.mirrorRNephewsRedLNephewsAny (t : RBTree Key) (node : Ptr) :
    Option (RBTree Key) := do
  let c ← t.red node
  let ls ← t.lSibling node
  let t ← t.setRed ls c
  let ln ← t.lNephewsLS node
  let t ← t.setRed ln false
  let t ← t.setRed node false
  t.rightRotate node

/-- `RBTree::lNephewsRedRNephewsBlack` (case 1a). -/
def RBTree.lNephewsRedRNephewsBlack (t : RBTree Key) (node : Ptr) : Option (RBTree Key) := do
  let ln ← t.lNephewsRS node
  let rs ← t.rSibling node
  let t ← t.swapRed ln rs
  let rs ← t.rSibling node
  let t ← t.rightRotate rs
  let c ← t.rNRlNA node
  if c then t.rNephewsRedLNephewsAny node else t.mirrorRNephewsRedLNephewsAny node

/-- `RBTree::mirrorLNephewsRedRNephewsBlack` (case 1b); its final test is `rNRlNA`, as in case
1a. -/
def RBTree.mirrorLNephewsRedRNephewsBlack (t : RBTree Key) (node : Ptr) :
    Option (RBTree Key) := do
  let rn ← t.rNephewsLS node
  let ls ← t.lSibling node
  let t ← t.swapRed rn ls
  let ls ← t.lSibling node
  let t ← t.leftRotate ls
  let c ← t.rNRlNA node
  if c then t.rNephewsRedLNephewsAny node else t.mirrorRNephewsRedLNephewsAny node

mutual

/-- `RBTree::eraseFixup`: the first case whose predicate holds is applied. -/
def RBTree.eraseFixup (t : RBTree Key) : Nat → Ptr → Option (RBTree Key)
  | 0, _ => none
  | fuel + 1, node => do
    let c1a ← t.lNRrNB node
    if c1a then t.lNephewsRedRNephewsBlack node
    else do
      let c1b ← t.mirrorLNRrNB node
      if c1b then t.mirrorLNephewsRedRNephewsBlack node
      else do
        let c2a ← t.lNBrNB node
        if c2a then t.lNephewsBlackRNephewsBlack fuel node
        else do
          let c2b ← t.mirrorLNBrNB node
          if c2b then t.mirrorLNephewsBlackRNephewsBlack fuel node
          else do
            let c3a ← t.rNRlNA node
            if c3a then t.rNephewsRedLNephewsAny node
            else do
              let c3b ← t.mirrorRNRlNA node
              if c3b then t.mirrorRNephewsRedLNephewsAny node
              else do
                let c4a ← t.sR node
                if c4a then t.redSibling fuel node
                else do
                  let c4b ← t.mirrorSR node
                  if c4b then t.mirrorRedSibling fuel node else some t

/-- `RBTree::redSibling` (case 4a). -/
def RBTree.redSibling (t : RBTree Key) : Nat → Ptr → Option (RBTree Key)
  | 0, _ => none
  | fuel + 1, node => do
    let rs ← t.rSibling node
    let t ← t.swapRed rs node
    let t ← t.leftRotate node
    t.eraseFixup fuel node

/-- `RBTree::mirrorRedSibling` (case 4b). -/
def RBTree.mirrorRedSibling (t : RBTree Key) : Nat → Ptr → Option (RBTree Key)
  | 0, _ => none
  | fuel + 1, node => do
    let ls ← t.lSibling node
    let t ← t.swapRed ls node
    let t ← t.rightRotate node
    t.eraseFixup fuel node

/-- `RBTree::lNephewsBlackRNephewsBlack` (case 2a): after the recolouring, when the node was
black and has a parent, `eraseFixup` is run on every ancestor up to the root. -/
def RBTree.lNephewsBlackRNephewsBlack (t : RBTree Key) : Nat → Ptr → Option (RBTree Key)
  | 0, _ => none
  | fuel + 1, node => do
    let color ← t.red node
    let t ← t.setRed node false
    let rs ← t.rSibling node
    let t ← t.setRed rs true
    let np ← t.parent node
    if !color ∧ np ≠ none then t.eraseFixupAncestors fuel np else some t

/-- The loop `while (parent) { eraseFixup(parent); parent = parent->parent_; }` of case 2a. -/
def RBTree.eraseFixupAncestors (t : RBTree Key) : Nat → Ptr → Option (RBTree Key)
  | 0, _ => none
  | fuel + 1, parent =>
    if parent = none then some t
    else do
      let t ← t.eraseFixup fuel parent
      let pp ← t.parent parent
      t.eraseFixupAncestors fuel pp

/-- `RBTree::mirrorLNephewsBlackRNephewsBlack` (case 2b): after the recolouring, when the node
was black and has a parent, `eraseFixup` is run once on the parent. -/
def RBTree.mirrorLNephewsBlackRNephewsBlack (t : RBTree Key) : Nat → Ptr → Option (RBTree Key)
  | 0, _ => none
  | fuel + 1, node => do
    let color ← t.red node
    let t ← t.setRed node false
    let ls ← t.lSibling node
    let t ← t.setRed ls true
    let np ← t.parent node
    if !color ∧ np ≠ none then t.eraseFixup fuel np else some t

end

/-! ## Erase: unlinking the node -/

/-- The statement of `swapNodes` that repairs the child link of the new parent of `a`:
`if (a->parent_) { if (a->parent_->left_ == b) a->parent_->left_ = a; else a->parent_->right_ = a; }`. -/
def RBTree.relinkParent (t : RBTree Key) (a b : Ptr) : Option (RBTree Key) := do
  let p ← t.parent a
  if p ≠ none then do
    let l ← t.left p
    if l = b then t.setLeft p a else t.setRight p a
  else some t

/-- The statement `if (a->left_) a->left_->parent_ = a;` of `swapNodes`. -/
def RBTree.adoptLeft (t : RBTree Key) (a : Ptr) : Option (RBTree Key) := do
  let l ← t.left a
  if l ≠ none then t.setParent l a else some t

/-- The statement `if (a->right_) a->right_->parent_ = a;` of `swapNodes`. -/
def RBTree.adoptRight (t : RBTree Key) (a : Ptr) : Option (RBTree Key) := do
  let r ← t.right a
  if r ≠ none then t.setParent r a else some t

/-- The first half of `swapNodes`: exchange of the parent pointers and repair of the two parents'
child links. -/
def RBTree.swapParents (t : RBTree Key) (node_1 node_2 : Ptr) : Option (RBTree Key) := do
  let tempParent ← t.parent node_1
  let p2 ← t.parent node_2
  let t ← t.setParent node_1 p2
  let t ← t.setParent node_2 tempParent
  let t ← t.relinkParent node_1 node_2
  t.relinkParent node_2 node_1

/-- The second half of `swapNodes`: exchange of the child pointers and repair of the children's
parent links. -/
def RBTree.swapChildren (t : RBTree Key) (node_1 node_2 : Ptr) : Option (RBTree Key) := do
  let tempLeft ← t.left node_1
  let l2 ← t.left node_2
  let t ← t.setLeft node_1 l2
  let t ← t.setLeft node_2 tempLeft
  let tempRight ← t.right node_1
  let r2 ← t.right node_2
  let t ← t.setRight node_1 r2
  let t ← t.setRight node_2 tempRight
  let t ← t.adoptLeft node_1
  let t ← t.adoptRight node_1
  let t ← t.adoptLeft node_2
  t.adoptRight node_2

/-- `RBTree::swapNodes`: exchanges the tree positions and colours of two nodes. -/
def RBTree.swapNodes (t : RBTree Key) (node_1 node_2 : Ptr) : Option (RBTree Key) :=
  if node_1 = node_2 then some t
  else do
    let t ← t.swapParents node_1 node_2
    let t ← t.swapChildren node_1 node_2
    let t ← t.swapRed node_1 node_2
    if t.root_ = node_1 then some { t with root_ := node_2 }
    else if t.root_ = node_2 then some { t with root_ := node_1 }
    else some t

/-- `RBTree::transplant`: the parent of `eraised_node` (or the root pointer) is made to point at
`successor`; when `successor` is not null the two parent pointers are swapped. -/
def RBTree.transplant (t : RBTree Key) (eraised_node successor : Ptr) :
    Option (RBTree Key) := do
  let ep ← t.parent eraised_node
  let t ← (if ep = none then some { t with root_ := successor }
    else (t.right ep).bind fun epr =>
      if epr = eraised_node then t.setRight ep successor else t.setLeft ep successor)
  if successor ≠ none then do
    let ep ← t.parent eraised_node
    let sp ← t.parent successor
    let t ← t.setParent eraised_node sp
    t.setParent successor ep
  else some t

/-- The enum `how_many_children`. -/
inductive HowManyChildren
  | no_children
  | one_child
  | two_children
  deriving DecidableEq

/-- `RBTree::howManyChildren`. -/
def RBTree.howManyChildren (t : RBTree Key) (node : Ptr) : Option HowManyChildren := do
  let r ← t.right node
  let l ← t.left node
  if r ≠ none ∧ l ≠ none then some .two_children
  else if r = none ∧ l = none then some .no_children
  else some .one_child

/-- `RBTree::noChildren`; returns the tree and the new value of `to_fix`. -/
def RBTree.noChildren (t : RBTree Key) (eraised_node : Ptr) : Option (RBTree Key × Ptr) := do
  let r ← t.red eraised_node
  let to_fix ← (if r then some none else t.parent eraised_node)
  let t ← t.transplant eraised_node none
  some (t, to_fix)

/-- `RBTree::oneChildren`; returns the tree and the new values of `to_fix` and `*color`. -/
def RBTree.oneChildren (t : RBTree Key) (eraised_node to_fix : Ptr) :
    Option (RBTree Key × Ptr × Bool) := do
  let l ← t.left eraised_node
  let r ← (if l = none then do
      let to_fix ← t.right eraised_node
      let t ← t.transplant eraised_node to_fix
      some (t, to_fix)
    else do
      let r ← t.right eraised_node
      if r = none then do
        let to_fix ← t.left eraised_node
        let t ← t.transplant eraised_node to_fix
        some (t, to_fix)
      else some (t, to_fix))
  let color ← r.1.red r.2
  let er ← r.1.red eraised_node
  let t ← r.1.setRed r.2 er
  some (t, r.2, color)

/-- `RBTree::eraseNode` with `RBTree::twoChildren` inlined at its only call site (the two call
each other); returns the tree and the new values of `to_fix` and `*color`. -/
def RBTree.eraseNode (t : RBTree Key) :
    Nat → Ptr → Ptr → Bool → Option (RBTree Key × Ptr × Bool)
  | 0, _, _, _ => none
  | fuel + 1, eraised_node, to_fix, color => do
    let n ← t.howManyChildren eraised_node
    match n with
    | .no_children => (t.noChildren eraised_node).map fun r => (r.1, r.2, color)
    | .one_child => t.oneChildren eraised_node to_fix
    | .two_children =>
      let er ← t.right eraised_node
      let successor ← t.findMinNode fuel er
      let to_fix ← t.right successor
      let color ← (if to_fix ≠ none then t.red to_fix else t.red successor)
      let t ← t.swapNodes eraised_node successor
      t.eraseNode fuel eraised_node to_fix color

/-- `RBTree::erase`: the iterator is its current-node pointer. -/
def RBTree.erase (t : RBTree Key) (fuel : Nat) (pos : Ptr) : Option (RBTree Key) :=
  let eraised_node := pos
  if eraised_node = none then some t
  else do
    let to_fix : Ptr := none
    let original_color ← t.red eraised_node
    let r ← t.eraseNode fuel eraised_node to_fix original_color
    let t ← (if !r.2.2 ∧ r.2.1 ≠ none then r.1.eraseFixup fuel r.2.1 else some r.1)
    let t ← t.free eraised_node
    some { t with size_ := t.size_ - 1 }

/-! ## Bounds, counting, size -/

/-- The loop of `lower_bound`: descent from `current` that records in `result` the last node
at which it turned left. -/
def RBTree.lowerBoundLoop (t : RBTree Key) (key : Key) : Nat → Ptr → Ptr → Option Ptr
  | _, none, result => some result
  | 0, some _, _ => none
  | fuel + 1, some c, result =>
    match t.mem c with
    | none => none
    | some n =>
      if t.comparator_ n.key_ key then t.lowerBoundLoop key fuel n.right_ result
      else t.lowerBoundLoop key fuel n.left_ (some c)

/-- `RBTree::lower_bound`. -/
def RBTree.lower_bound (t : RBTree Key) (fuel : Nat) (key : Key) : Option Ptr :=
  t.lowerBoundLoop key fuel t.root_ none

/-- The loop of `upper_bound`: `result` is assigned in the branch that goes right. -/
def RBTree.upperBoundLoop (t : RBTree Key) (key : Key) : Nat → Ptr → Ptr → Option Ptr
  | _, none, result => some result
  | 0, some _, _ => none
  | fuel + 1, some c, result =>
    match t.mem c with
    | none => none
    | some n =>
      if t.comparator_ key n.key_ then t.upperBoundLoop key fuel n.left_ result
      else t.upperBoundLoop key fuel n.right_ (some c)

/-- `RBTree::upper_bound`. -/
def RBTree.upper_bound (t : RBTree Key) (fuel : Nat) (key : Key) : Option Ptr :=
  t.upperBoundLoop key fuel t.root_ none

/-- `MultiSet::equal_range`: the pair `{lower_bound(key), upper_bound(key)}` of the tree. -/
def MultiSet.equal_range (tree_ : RBTree Key) (fuel : Nat) (key : Key) : Option (Ptr × Ptr) := do
  let first ← tree_.lower_bound fuel key
  let last ← tree_.upper_bound fuel key
  some (first, last)

/-- The loop of `countUniqueKey` over its explicit stack of node pointers; the keys are
compared with `operator==`. -/
def RBTree.countLoop [DecidableEq Key] (t : RBTree Key) (key : Key) :
    Nat → List Ptr → Nat → Option Nat
  | _, [], count => some count
  | 0, _ :: _, _ => none
  | fuel + 1, current :: stack, count =>
    match t.deref current with
    | none => none
    | some n =>
      let count := if key = n.key_ then count + 1 else count
      let stack := if n.right_ ≠ none then n.right_ :: stack else stack
      let stack := if n.left_ ≠ none then n.left_ :: stack else stack
      t.countLoop key fuel stack count

/-- `RBTree::countUniqueKey`; returns the new value of `count`. -/
def RBTree.countUniqueKey [DecidableEq Key] (t : RBTree Key) (fuel : Nat) (key : Key)
    (node : Ptr) (count : Nat) : Option Nat :=
  if node = none then some count else t.countLoop key fuel [node] count

/-- `RBTree::count`. -/
def RBTree.count [DecidableEq Key] (t : RBTree Key) (fuel : Nat) (key : Key) : Option Nat :=
  t.countUniqueKey fuel key t.root_ 0

/-- `RBTree::size`. -/
def RBTree.size (t : RBTree Key) : Nat := t.size_

/-- `RBTree::empty`; the constructor of the empty tree is `RBTree.empty`. -/
def RBTree.isEmpty (t : RBTree Key) : Bool := decide (t.size_ = 0)

/-! ## Iterators -/

/-- `RBTree::begin`: `findMinNode(root_)`. -/
def RBTree.begin (t : RBTree Key) (fuel : Nat) : Option Ptr := t.findMinNode fuel t.root_

/-- `RBTree::end`: the iterator whose current node is `nullptr`. -/
def RBTree.end_ (_t : RBTree Key) : Ptr := none

/-- The loop `while (parent != nullptr && current_ == parent->right_)` of `increment`, with
the final assignment `current_ = parent`. -/
def RBTree.incrementLoop (t : RBTree Key) : Nat → Ptr → Ptr → Option Ptr
  | _, _, none => some none
  | 0, _, some _ => none
  | fuel + 1, current, some p => do
    let pr ← t.right (some p)
    if current = pr then do
      let pp ← t.parent (some p)
      t.incrementLoop fuel (some p) pp
    else some (some p)

/-- `RBTreeBaseIterator::increment`; returns the new `current_`. -/
def RBTree.increment (t : RBTree Key) (fuel : Nat) (current : Ptr) : Option Ptr := do
  let r ← t.right current
  if r ≠ none then t.findMinNode fuel r
  else do
    let parent ← t.parent current
    t.incrementLoop fuel current parent

/-- The loop `while (parent != nullptr && current_ == parent->left_)` of `decrement`, with
the final assignment `current_ = parent`. -/
def RBTree.decrementLoop (t : RBTree Key) : Nat → Ptr → Ptr → Option Ptr
  | _, _, none => some none
  | 0, _, some _ => none
  | fuel + 1, current, some p => do
    let pl ← t.left (some p)
    if current = pl then do
      let pp ← t.parent (some p)
      t.decrementLoop fuel (some p) pp
    else some (some p)

/-- `RBTreeBaseIterator::decrement`; returns the new `current_`. -/
def RBTree.decrement (t : RBTree Key) (fuel : Nat) (current : Ptr) : Option Ptr :=
  if current = none then t.findMaxNode fuel t.root_
  else do
    let l ← t.left current
    if l ≠ none then t.findMaxNode fuel l
    else do
      let parent ← t.parent current
      t.decrementLoop fuel current parent

/-- The client loop `for (it = pos; it != end(); ++it)` that collects `*it`: at most `n`
elements are visited. -/
def RBTree.walk (t : RBTree Key) (fuel : Nat) : Nat → Ptr → Option (List Key)
  | _, none => some []
  | 0, some _ => none
  | n + 1, some a => do
    let k ← t.key (some a)
    let next ← t.increment fuel (some a)
    let rest ← t.walk fuel n next
    some (k :: rest)

/-! ## Destruction, copy, move, swap, merge

An operation on two tree objects takes and returns both. The two objects never share a node:
when an object takes over the root pointer of another one, it takes over its memory. -/

/-- The loop of `deleteSubtree` over its explicit stack of node pointers. -/
def RBTree.deleteSubtreeLoop (t : RBTree Key) : Nat → List Ptr → Option (RBTree Key)
  | _, [] => some t
  | 0, _ :: _ => none
  | fuel + 1, current :: stack =>
    match t.deref current with
    | none => none
    | some n =>
      let stack := if n.left_ ≠ none then n.left_ :: stack else stack
      let stack := if n.right_ ≠ none then n.right_ :: stack else stack
      match t.free current with
      | none => none
      | some t => t.deleteSubtreeLoop fuel stack

/-- `RBTree::deleteSubtree`. -/
def RBTree.deleteSubtree (t : RBTree Key) (fuel : Nat) (node : Ptr) : Option (RBTree Key) :=
  if node = none then some t else t.deleteSubtreeLoop fuel [node]

/-- `RBTree::clear`. -/
def RBTree.clear (t : RBTree Key) (fuel : Nat) : Option (RBTree Key) := do
  let t ← t.deleteSubtree fuel t.root_
  some { t with root_ := none, size_ := 0 }

/-- The loop `for (const auto &item : other) { insert(item, unique); }` of the copy constructor
and of the two merges, from the iterator `it` on and for at most `n` elements: `*it`, the
insertion into `this`, `++it`. The nodes of `other` are only read. -/
def RBTree.insertRange (other : RBTree Key) (fuel : Nat) (unique : Bool) :
    Nat → RBTree Key → Ptr → Option (RBTree Key)
  | _, this, none => some this
  | 0, _, some _ => none
  | n + 1, this, some a => do
    let item ← other.key (some a)
    let r ← this.insert fuel item unique
    let next ← other.increment fuel (some a)
    other.insertRange fuel unique n r.1 next

/-- The copy constructor `RBTree(const RBTree &other)`: the default constructor, with the
default comparator `cmp`, then `insert(item)` for every `item` of `other` from `begin()` on. -/
def RBTree.copy (cmp : Key → Key → Bool) (other : RBTree Key) (fuel : Nat) :
    Option (RBTree Key) := do
  let first ← other.begin fuel
  other.insertRange fuel false fuel (RBTree.empty cmp) first

/-- `RBTree::CopyTree`: copies the subtree of `other` below `node` into the memory of `this`;
`fake_node` is the address `&fake_node`, which every new node gets as its parent. Returns the
memory and the root of the copy. -/
def RBTree.CopyTree (other : RBTree Key) (fake_node : Ptr) :
    Nat → RBTree Key → Ptr → Option (RBTree Key × Ptr)
  | _, this, none => some (this, none)
  | 0, _, some _ => none
  | fuel + 1, this, some a => do
    let key ← other.key (some a)
    let new_node := (this.alloc key).2
    let l ← other.left (some a)
    let cl ← other.CopyTree fake_node fuel (this.alloc key).1 l
    let t ← cl.1.setLeft new_node cl.2
    let r ← other.right (some a)
    let cr ← other.CopyTree fake_node fuel t r
    let t ← cr.1.setRight new_node cr.2
    let t ← t.setParent new_node fake_node
    let c ← other.red (some a)
    let t ← t.setRed new_node c
    some (t, new_node)

/-- `RBTree::operator=(const RBTree &)` for `this != &other`; `fake_node` is the address of the
member `fake_node_` of `this`. The member `size_` is not assigned. -/
def RBTree.copyAssign (this other : RBTree Key) (fuel : Nat) (fake_node : Ptr) :
    Option (RBTree Key) := do
  let t ← this.deleteSubtree fuel this.root_
  let c ← other.CopyTree fake_node fuel t other.root_
  some { c.1 with root_ := c.2, comparator_ := other.comparator_ }

/-- The move constructor `RBTree(RBTree &&other)`; returns the new object and `other`
afterwards. `cmp` is the default comparator `Comparator()`. -/
def RBTree.move (cmp : Key → Key → Bool) (other : RBTree Key) : RBTree Key × RBTree Key :=
  ({ mem := other.mem, fresh := other.fresh, root_ := other.root_, size_ := other.size_,
     comparator_ := other.comparator_ },
   { mem := fun _ => none, fresh := other.fresh, root_ := none, size_ := 0,
     comparator_ := cmp })

/-- `RBTree::operator=(RBTree &&)` for `this != &other`; returns `this` and `other`
afterwards. -/
def RBTree.moveAssign (cmp : Key → Key → Bool) (this other : RBTree Key) (fuel : Nat) :
    Option (RBTree Key × RBTree Key) := do
  let _ ← this.deleteSubtree fuel this.root_
  some ({ mem := other.mem, fresh := other.fresh, root_ := other.root_, size_ := other.size_,
          comparator_ := other.comparator_ },
        { mem := fun _ => none, fresh := other.fresh, root_ := none, size_ := 0,
          comparator_ := cmp })

/-- `RBTree::swap`: the four `std::swap` calls on the members; returns `this` and `other`
afterwards. -/
def RBTree.swap (this other : RBTree Key) : RBTree Key × RBTree Key :=
  ({ mem := other.mem, fresh := other.fresh, root_ := other.root_, size_ := other.size_,
     comparator_ := other.comparator_ },
   { mem := this.mem, fresh := this.fresh, root_ := this.root_, size_ := this.size_,
     comparator_ := this.comparator_ })

/-- `Set::swap`, `MultiSet::swap` and `Map::swap`: `std::swap(this->tree_, other.tree_)`, which
is `RBTree tmp(std::move(a)); a = std::move(b); b = std::move(tmp);` followed by the destructor
of `tmp`, `clear()`. Returns the two trees afterwards. -/
def Set.swap (cmp : Key → Key → Bool) (tree_ other : RBTree Key) (fuel : Nat) :
    Option (RBTree Key × RBTree Key) := do
  let m ← some (RBTree.move cmp tree_)
  let a ← RBTree.moveAssign cmp m.2 other fuel
  let b ← RBTree.moveAssign cmp a.2 m.1 fuel
  let _ ← b.2.clear fuel
  some (a.1, b.1)

/-- `RBTree::merge` for `this != &other`; returns `this` and `other` afterwards. -/
def RBTree.merge (this other : RBTree Key) (fuel : Nat) :
    Option (RBTree Key × RBTree Key) :=
  if other.isEmpty = false then do
    let first ← other.begin fuel
    let t ← other.insertRange fuel false fuel this first
    let o ← other.clear fuel
    some (t, o)
  else some (this, other)

/-- `RBTree::mergeUnique` for `this != &other`; returns `this` and `other` afterwards. -/
def RBTree.mergeUnique (this other : RBTree Key) (fuel : Nat) :
    Option (RBTree Key × RBTree Key) :=
  if other.isEmpty = false then do
    let first ← other.begin fuel
    let t ← other.insertRange fuel true fuel this first
    let o ← other.clear fuel
    some (t, o)
  else some (this, other)

/-! ## The adapters `Set`, `MultiSet` and `Map`

An adapter is its member `tree_`. -/

/-- `Set::insert`. -/
def Set.insert (tree_ : RBTree Key) (fuel : Nat) (value : Key) :
    Option (RBTree Key × Ptr × Bool) :=
  tree_.insertUnique fuel value

/-- The fold `(results.push_back(insert(args)), ...)` of `Set::insert_many` from the left, with
the vector `results` so far. -/
def Set.insertManyLoop (fuel : Nat) :
    RBTree Key → List Key → List (Ptr × Bool) → Option (RBTree Key × List (Ptr × Bool))
  | tree_, [], results => some (tree_, results)
  | tree_, arg :: args, results => do
    let r ← Set.insert tree_ fuel arg
    Set.insertManyLoop fuel r.1 args (results ++ [r.2])

/-- `Set::insert_many`. -/
def Set.insert_many (tree_ : RBTree Key) (fuel : Nat) (args : List Key) :
    Option (RBTree Key × List (Ptr × Bool)) :=
  Set.insertManyLoop fuel tree_ args []

/-- `MultiSet::insert`: `tree_.insert(value).first`. -/
def MultiSet.insert (tree_ : RBTree Key) (fuel : Nat) (value : Key) :
    Option (RBTree Key × Ptr) :=
  (tree_.insertMulti fuel value).map fun r => (r.1, r.2.1)

/-- The fold `(results.push_back(this->insert(args)), ...)` of `MultiSet::insert_many` from the
left, with the vector `results` so far. -/
def MultiSet.insertManyLoop (fuel : Nat) :
    RBTree Key → List Key → List Ptr → Option (RBTree Key × List Ptr)
  | tree_, [], results => some (tree_, results)
  | tree_, arg :: args, results => do
    let r ← MultiSet.insert tree_ fuel arg
    MultiSet.insertManyLoop fuel r.1 args (results ++ [r.2])

/-- `MultiSet::insert_many`. -/
def MultiSet.insert_many (tree_ : RBTree Key) (fuel : Nat) (args : List Key) :
    Option (RBTree Key × List Ptr) :=
  MultiSet.insertManyLoop fuel tree_ args []

/-- `Map::MapComparator` over the order `lt` of the keys (`operator<` of `key_type`): the
elements of the tree are the pairs of a key and a value. -/
def MapComparator {K V : Type} (lt : K → K → Bool) (key_1 key_2 : K × V) : Bool :=
  lt key_1.1 key_2.1

/-- The exception `std::out_of_range`. -/
inductive OutOfRange
  | mk
  deriving DecidableEq

/-- `Map::find`: `tree_.find({key, mapped_type{}})`; `dflt` is the value `mapped_type{}`. -/
def Map.find {K V : Type} (tree_ : RBTree (K × V)) (fuel : Nat) (dflt : V) (key : K) :
    Option Ptr :=
  tree_.find fuel (key, dflt)

/-- `Map::at`: the exception, or the value that the returned reference `it->second`
designates. -/
def Map.at {K V : Type} (tree_ : RBTree (K × V)) (fuel : Nat) (dflt : V) (key : K) :
    Option (Except OutOfRange V) := do
  let it ← Map.find tree_ fuel dflt key
  if it = tree_.end_ then some (.error .mk)
  else do
    let e ← tree_.key it
    some (.ok e.2)

/-- `Map::operator[]`; returns the map afterwards and the node whose member `second` the
returned reference designates. -/
def Map.subscript {K V : Type} (tree_ : RBTree (K × V)) (fuel : Nat) (dflt : V) (key : K) :
    Option (RBTree (K × V) × Ptr) := do
  let it ← Map.find tree_ fuel dflt key
  if it ≠ tree_.end_ then do
    let _ ← tree_.key it
    some (tree_, it)
  else do
    let r ← tree_.insertUnique fuel (key, dflt)
    let _ ← r.1.key r.2.1
    some (r.1, r.2.1)

/-- The assignment `it->second = obj`. -/
def RBTree.assignSecond {K V : Type} (t : RBTree (K × V)) (it : Ptr) (obj : V) :
    Option (RBTree (K × V)) :=
  match it with
  | none => none
  | some a => (t.mem a).map fun n => t.store a { n with key_ := (n.key_.1, obj) }

/-- `Map::insert(const value_type &)`. -/
def Map.insert {K V : Type} (tree_ : RBTree (K × V)) (fuel : Nat) (value : K × V) :
    Option (RBTree (K × V) × Ptr × Bool) :=
  tree_.insertUnique fuel value

/-- `Map::insert_or_assign`. -/
def Map.insert_or_assign {K V : Type} (tree_ : RBTree (K × V)) (fuel : Nat) (dflt : V)
    (key : K) (obj : V) : Option (RBTree (K × V) × Ptr × Bool) := do
  let it ← Map.find tree_ fuel dflt key
  if it ≠ tree_.end_ then do
    let t ← tree_.assignSecond it obj
    some (t, it, false)
  else tree_.insertUnique fuel (key, obj)

/-- The fold `(results.push_back(insert(args)), ...)` of `Map::insert_many` from the left, with
the vector `results` so far. -/
def Map.insertManyLoop {K V : Type} (fuel : Nat) :
    RBTree (K × V) → List (K × V) → List (Ptr × Bool) →
      Option (RBTree (K × V) × List (Ptr × Bool))
  | tree_, [], results => some (tree_, results)
  | tree_, arg :: args, results => do
    let r ← Map.insert tree_ fuel arg
    Map.insertManyLoop fuel r.1 args (results ++ [r.2])

/-- `Map::insert_many`. -/
def Map.insert_many {K V : Type} (tree_ : RBTree (K × V)) (fuel : Nat) (args : List (K × V)) :
    Option (RBTree (K × V) × List (Ptr × Bool)) :=
  Map.insertManyLoop fuel tree_ args []

/-! ## Operation sequences and observations -/

/-- One public mutating call. -/
inductive Op (Key : Type)
  | insert (key : Key)
  | insertUnique (key : Key)
  | erase (pos : Ptr)

/-- Performs one call, keeping only the tree. -/
def RBTree.apply (t : RBTree Key) (fuel : Nat) : Op Key → Option (RBTree Key)
  | .insert key => (t.insert fuel key false).map (·.1)
  | .insertUnique key => (t.insert fuel key true).map (·.1)
  | .erase pos => t.erase fuel pos

/-- Performs a sequence of calls from left to right. -/
def RBTree.run (t : RBTree Key) (fuel : Nat) : List (Op Key) → Option (RBTree Key)
  | [] => some t
  | op :: ops => (t.apply fuel op).bind fun t => t.run fuel ops

/-- Number of black nodes on each path from `p` down to a null link, listed left to right. -/
def RBTree.blackCounts (t : RBTree Key) : Nat → Ptr → Option (List Nat)
  | _, none => some [0]
  | 0, some _ => none
  | fuel + 1, some a =>
    match t.mem a with
    | none => none
    | some n =>
      match t.blackCounts fuel n.left_, t.blackCounts fuel n.right_ with
      | some l, some r => some ((l ++ r).map fun c => if n.red_ then c else c + 1)
      | _, _ => none

/-- The red nodes below `p` that have a red child, as (parent key, child key), in pre-order. -/
def RBTree.redRedPairs (t : RBTree Key) : Nat → Ptr → Option (List (Key × Key))
  | _, none => some []
  | 0, some _ => none
  | fuel + 1, some a =>
    match t.mem a with
    | none => none
    | some n =>
      match t.redRedPairs fuel n.left_, t.redRedPairs fuel n.right_ with
      | some l, some r =>
        let here (c : Ptr) : List (Key × Key) :=
          match t.deref c with
          | some k => if n.red_ ∧ k.red_ then [(n.key_, k.key_)] else []
          | none => []
        some (here n.left_ ++ here n.right_ ++ l ++ r)
      | _, _ => none

/-- The keys below `p` in in-order. -/
def RBTree.inorder (t : RBTree Key) : Nat → Ptr → Option (List Key)
  | _, none => some []
  | 0, some _ => none
  | fuel + 1, some a =>
    match t.mem a with
    | none => none
    | some n =>
      match t.inorder fuel n.left_, t.inorder fuel n.right_ with
      | some l, some r => some (l ++ n.key_ :: r)
      | _, _ => none

/-- The comparator `std::less<Key>` at natural-number keys. -/
def natLess (a b : Nat) : Bool := decide (a < b)

/-! ## Specification vocabulary: shapes of linked trees, paths, invariants -/

/-- Shape of a linked tree: the node addresses in their positions. -/
inductive Shape
  | nil
  | node (l : Shape) (a : Nat) (r : Shape)

/-- Address of the topmost node, `nullptr` for the empty shape. -/
def Shape.root : Shape → Ptr
  | .nil => none
  | .node _ a _ => some a

/-- Node addresses in in-order. -/
def Shape.addrs : Shape → List Nat
  | .nil => []
  | .node l a r => l.addrs ++ a :: r.addrs

/-- Number of nodes on the longest downward path. -/
def Shape.height : Shape → Nat
  | .nil => 0
  | .node l _ r => max l.height r.height + 1

/-- The memory `m` holds the tree `s` below a node (or root slot) `par`: every node of `s` is a
live cell whose three links are the ones the shape prescribes. -/
def Rep (m : Nat → Option (RBTNode Key)) : Ptr → Shape → Prop
  | _, .nil => True
  | par, .node l a r =>
    ∃ n, m a = some n ∧ n.parent_ = par ∧ n.left_ = l.root ∧ n.right_ = r.root ∧
      Rep m (some a) l ∧ Rep m (some a) r

/-- One step of a path from a position up to the root: the position is the left
(`isLeft`) or right child of the node `a`, whose other subtree is `sib`. -/
structure Frame where
  isLeft : Bool
  a : Nat
  sib : Shape

/-- The shape with root `f.a` that has `s` at the position of the frame. -/
def Frame.fill (f : Frame) (s : Shape) : Shape :=
  if f.isLeft then .node s f.a f.sib else .node f.sib f.a s

/-- The shape obtained by putting `s` at the position described by the path `fs`
(innermost frame first). -/
def plug : List Frame → Shape → Shape
  | [], s => s
  | f :: fs, s => plug fs (f.fill s)

/-- Parent pointer of the position described by a path below `par`. -/
def holeParent (par : Ptr) : List Frame → Ptr
  | [] => par
  | f :: _ => some f.a

/-- Addresses of a path that precede the position in in-order. -/
def ctxBefore : List Frame → List Nat
  | [] => []
  | f :: fs => ctxBefore fs ++ (if f.isLeft then [] else f.sib.addrs ++ [f.a])

/-- Addresses of a path that follow the position in in-order. -/
def ctxAfter : List Frame → List Nat
  | [] => []
  | f :: fs => (if f.isLeft then f.a :: f.sib.addrs else []) ++ ctxAfter fs

/-- The memory holds the nodes of the path `fs` (below `par`), the position itself holding
the pointer `h`. -/
def RepCtx (m : Nat → Option (RBTNode Key)) (par : Ptr) : List Frame → Ptr → Prop
  | [], _ => True
  | f :: fs, h =>
    RepCtx m par fs (some f.a) ∧
    ∃ n, m f.a = some n ∧ n.parent_ = holeParent par fs ∧
      n.left_ = (if f.isLeft then h else f.sib.root) ∧
      n.right_ = (if f.isLeft then f.sib.root else h) ∧
      Rep m (some f.a) f.sib

/-- The three links of a cell. -/
def RBTNode.links (n : RBTNode Key) : Ptr × Ptr × Ptr := (n.parent_, n.left_, n.right_)

/-- Two memories hold cells with the same links at address `a`. -/
def SameLinks (m m' : Nat → Option (RBTNode Key)) (a : Nat) : Prop :=
  (m' a).map RBTNode.links = (m a).map RBTNode.links

/-- Finitely many cells laid over a memory; earlier entries shadow later ones. -/
def overlay (cells : List (Nat × RBTNode Key)) (m : Nat → Option (RBTNode Key)) (z : Nat) :
    Option (RBTNode Key) :=
  match cells with
  | [] => m z
  | c :: cs => if z = c.1 then some c.2 else overlay cs m z

/-- The tree `t` is the tree `t0` with `cells` laid over its memory and with root pointer `r`. -/
def View (t : RBTree Key) (cells : List (Nat × RBTNode Key)) (t0 : RBTree Key) (r : Ptr) : Prop :=
  t.mem = overlay cells t0.mem ∧ t.root_ = r ∧ t.fresh = t0.fresh ∧ t.size_ = t0.size_ ∧
    t.comparator_ = t0.comparator_

/-- Colour and key of a cell. -/
def RBTNode.data (n : RBTNode Key) : Bool × Key := (n.red_, n.key_)

/-- Every cell of `t'` carries the colour and key it has in `t` (and is live exactly when it is
live in `t`). -/
def SameData (t t' : RBTree Key) : Prop :=
  ∀ a, (t'.mem a).map RBTNode.data = (t.mem a).map RBTNode.data

/-- The allocation counter, the element counter and the comparator agree. -/
def SameMeta (t t' : RBTree Key) : Prop :=
  t'.fresh = t.fresh ∧ t'.size_ = t.size_ ∧ t'.comparator_ = t.comparator_

/-- The tree object `t` holds exactly the linked tree `s`. -/
structure Shaped (t : RBTree Key) (s : Shape) : Prop where
  root : t.root_ = s.root
  rep : Rep t.mem none s
  nodup : s.addrs.Nodup

/-- The pointer is null or the address of a node of the tree with addresses `A`. -/
def InTree (A : List Nat) (p : Ptr) : Prop := ∀ q, p = some q → q ∈ A

/-- Every cell of `t'` carries the key it has in `t`. -/
def SameKeys (t t' : RBTree Key) : Prop :=
  ∀ a, (t'.mem a).map (·.key_) = (t.mem a).map (·.key_)

/-- The outcome of a rebalancing step on a tree of shape `s`: the new memory again holds a
tree, with the same nodes in the same in-order, and no key has changed. -/
structure Kept (s : Shape) (t t' : RBTree Key) : Prop where
  shape : ∃ s', Shaped t' s' ∧ s'.addrs = s.addrs
  keys : SameKeys t t'
  same : SameMeta t t'

/-- The memory of `t` holds a linked tree whose in-order address list is `A`. -/
def Holds (A : List Nat) (t : RBTree Key) : Prop := ∃ s, Shaped t s ∧ s.addrs = A

/-- A step from `t` to `t'` on a tree with in-order address list `A`: the memory again holds a
tree with the same in-order, no key has changed, and the counters are the same. -/
structure Keeps (A : List Nat) (t t' : RBTree Key) : Prop where
  holds : Holds A t'
  keys : SameKeys t t'
  same : SameMeta t t'

/-- The path from the root of `s` to the null link where the comparator descent for `key`
ends (innermost frame first). -/
def descend (t : RBTree Key) (key : Key) : Shape → List Frame
  | .nil => []
  | .node l a r =>
    match t.mem a with
    | none => []
    | some n =>
      if t.comparator_ key n.key_ then descend t key l ++ [⟨true, a, r⟩]
      else descend t key r ++ [⟨false, a, l⟩]

/-- The requirement on a comparator: a strict weak ordering. -/
structure StrictWeak (lt : Key → Key → Bool) : Prop where
  irrefl : ∀ a, lt a a = false
  trans : ∀ a b c, lt a b = true → lt b c = true → lt a c = true
  negTrans : ∀ a b c, lt a c = true → lt a b = true ∨ lt b c = true

/-- The keys stored at the addresses `A`, in the order of `A`. -/
def keysAt (t : RBTree Key) (A : List Nat) : List Key :=
  A.filterMap fun a => (t.mem a).map (·.key_)

/-- The node addresses below `p` in in-order. -/
def RBTree.inorderNodes (t : RBTree Key) : Nat → Ptr → Option (List Nat)
  | _, none => some []
  | 0, some _ => none
  | fuel + 1, some a =>
    match t.mem a with
    | none => none
    | some n =>
      match t.inorderNodes fuel n.left_, t.inorderNodes fuel n.right_ with
      | some l, some r => some (l ++ a :: r)
      | _, _ => none

/-- The keys `a` and `b` are equivalent: neither is less than the other. -/
def Equiv (lt : Key → Key → Bool) (a b : Key) : Prop := lt a b = false ∧ lt b a = false

/-- The in-order key sequence of the nodes `A` is non-decreasing under the comparator of `t`. -/
def SortedAt (t : RBTree Key) (A : List Nat) : Prop :=
  (keysAt t A).Pairwise fun a b => t.comparator_ b a = false

/-- The links around a node at depth at least two. -/
structure Around (t : RBTree Key) (y p g : Nat) (b1 b2 : Bool) (l r u1 u2 : Shape)
    (top : Ptr) : Prop where
  py : t.parent (some y) = some (some p)
  ly : t.left (some y) = some l.root
  ry : t.right (some y) = some r.root
  pp : t.parent (some p) = some (some g)
  lp : t.left (some p) = some (if b1 then some y else u1.root)
  rp : t.right (some p) = some (if b1 then u1.root else some y)
  pg : t.parent (some g) = some top
  lg : t.left (some g) = some (if b2 then some p else u2.root)
  rg : t.right (some g) = some (if b2 then u2.root else some p)
  rep1 : Rep t.mem (some p) u1
  rep2 : Rep t.mem (some g) u2
  yp : y ≠ p
  yg : y ≠ g
  pgne : p ≠ g
  yu1 : y ∉ u1.addrs
  yu2 : y ∉ u2.addrs
  pu1 : p ∉ u1.addrs
  pu2 : p ∉ u2.addrs
  gu1 : g ∉ u1.addrs
  gu2 : g ∉ u2.addrs

/-- The tree is empty or its root is black. -/
def RootBlack (t : RBTree Key) : Prop := ∀ a, t.root_ = some a → t.red (some a) = some false

/-- The outcome of an insertion fix-up started at the node `y` of the tree
`plug fs (node l y r)`: the memory again holds a tree with the same nodes in the same in-order,
no key, counter or comparator has changed, `y` is not deeper than before, the subtrees it had
hang below it, not deeper than before, and a black root stays black. -/
structure Lifted (fs : List Frame) (l : Shape) (y : Nat) (r : Shape) (t t' : RBTree Key) :
    Prop where
  shape : ∃ fs' cl cr, Shaped t' (plug fs' (.node (plug cl l) y (plug cr r))) ∧
    fs'.length + cl.length ≤ fs.length ∧ fs'.length + cr.length ≤ fs.length ∧
    (plug fs' (.node (plug cl l) y (plug cr r))).addrs = (plug fs (.node l y r)).addrs
  keys : SameKeys t t'
  same : SameMeta t t'
  black : RootBlack t → RootBlack t'

/-- Totality of the loop of `doubleRedFixup` for nodes of depth at most `n`. -/
def DFTotal (Key : Type) (n : Nat) : Prop :=
  ∀ (fs : List Frame) (l : Shape) (y : Nat) (r : Shape) (t : RBTree Key) (fuel : Nat),
    fs.length ≤ n → Shaped t (plug fs (.node l y r)) → 3 * fs.length + 1 ≤ fuel →
    ∃ t', t.doubleRedFixup fuel (some y) = some t' ∧ Lifted fs l y r t t'

/-- The tree object is well formed: its memory holds the linked tree `s` below the root
pointer, the cells from `fresh` on are unallocated, every live cell is a node of the tree, and
`size_` counts the nodes. -/
structure WellFormed (t : RBTree Key) (s : Shape) : Prop where
  shaped : Shaped t s
  unused : ∀ a, t.fresh ≤ a → t.mem a = none
  live : ∀ a n, t.mem a = some n → a ∈ s.addrs
  size : t.size_ = s.addrs.length

/-- The outcome of a successful insertion of `key` into the well-formed tree `t` of shape `s`:
the new node is the cell `t.fresh`, it holds `key` and stands in the in-order sequence after
the elements `A` (none of them greater than `key`) and before the elements `B` (all of them
greater). -/
structure Inserted (t : RBTree Key) (s : Shape) (key : Key) (t' : RBTree Key) : Prop where
  wf : ∃ s' A B, WellFormed t' s' ∧ s.addrs = A ++ B ∧ s'.addrs = A ++ t.fresh :: B ∧
    (∀ k ∈ keysAt t A, t.comparator_ key k = false) ∧
    (∀ k ∈ keysAt t B, t.comparator_ key k = true)
  key : (t'.mem t.fresh).map (·.key_) = some key
  keys : ∀ a, a ≠ t.fresh → (t'.mem a).map (·.key_) = (t.mem a).map (·.key_)
  size : t'.size_ = t.size_ + 1
  fresh : t'.fresh = t.fresh + 1
  cmp : t'.comparator_ = t.comparator_
  black : RootBlack t → RootBlack t'

/-- Some stored element is equivalent to `key`. -/
def Present (t : RBTree Key) (s : Shape) (key : Key) : Prop :=
  ∃ e ∈ keysAt t s.addrs, Equiv t.comparator_ key e

/-- The memory with the cell at `a`, if live, changed by `f`. -/
def RBTree.modify (t : RBTree Key) (a : Nat) (f : RBTNode Key → RBTNode Key) : RBTree Key :=
  { t with mem := fun x => if x = a then (t.mem x).map f else t.mem x }

/-- The memory with the cell the pointer `p` leads to, if any, changed by `f`. -/
def RBTree.modifyOpt (t : RBTree Key) (p : Ptr) (f : RBTNode Key → RBTNode Key) : RBTree Key :=
  match p with
  | none => t
  | some a => t.modify a f

/-- The cell change made by the statement of `swapNodes` that repairs a child link: the link
that led to `b` (the left one if it did, else the right one) now leads to `a`. -/
def relink (a b : Nat) (n : RBTNode Key) : RBTNode Key :=
  if n.left_ = some b then { n with left_ := some a } else { n with right_ := some a }

/-- The pointer is null or leads to a live cell. -/
def Live (t : RBTree Key) (p : Ptr) : Prop := ∀ q, p = some q → ∃ n, t.mem q = some n

/-- The outcome of an accepted insertion of `key` into the tree `t` of shape `s`: the new node
`t.fresh` is linked at the place where the comparator descent for `key` leaves the tree. -/
structure Linked (t : RBTree Key) (s : Shape) (key : Key) (t' : RBTree Key) : Prop where
  wf : ∃ s', WellFormed t' s' ∧
    s.addrs = ctxBefore (descend (t.alloc key).1 key s) ++
      ctxAfter (descend (t.alloc key).1 key s) ∧
    s'.addrs = ctxBefore (descend (t.alloc key).1 key s) ++
      t.fresh :: ctxAfter (descend (t.alloc key).1 key s)
  key : (t'.mem t.fresh).map (·.key_) = some key
  keys : ∀ a, a ≠ t.fresh → (t'.mem a).map (·.key_) = (t.mem a).map (·.key_)
  size : t'.size_ = t.size_ + 1
  fresh : t'.fresh = t.fresh + 1
  cmp : t'.comparator_ = t.comparator_
  black : RootBlack t → RootBlack t'

/-- What a returned `erase` of the node `e` has done to the tree `t` of shape `s`. -/
structure Erased (t : RBTree Key) (s : Shape) (e : Nat) (t' : RBTree Key) : Prop where
  wf : ∃ s' A B, s.addrs = A ++ e :: B ∧ WellFormed t' s' ∧ s'.addrs = A ++ B
  keys : ∀ a, a ≠ e → (t'.mem a).map (·.key_) = (t.mem a).map (·.key_)
  size : t'.size_ + 1 = t.size_
  fresh : t'.fresh = t.fresh
  cmp : t'.comparator_ = t.comparator_
  black : RootBlack t → RootBlack t'

/-- The elements at the addresses `A` are strictly increasing. -/
def StrictAt (t : RBTree Key) (A : List Nat) : Prop :=
  (keysAt t A).Pairwise fun a b => t.comparator_ a b = true

/-- The invariants of a tree built by the public operations: the memory holds a linked tree
with exactly the live cells, the root is black, and under a strict weak order the in-order
sequence is sorted. -/
structure Good (t : RBTree Key) (s : Shape) : Prop where
  wf : WellFormed t s
  black : RootBlack t
  sorted : StrictWeak t.comparator_ → SortedAt t s.addrs

/-- The call is the duplicate-permitting `insert`. -/
def Op.isMulti : Op Key → Bool
  | .insert _ => true
  | _ => false

/-- The list holding the shape when it is not empty. -/
def Shape.nonNil : Shape → List Shape
  | .nil => []
  | .node l a r => [.node l a r]

/-- The node `x` has no left child and its right child `y` is a red leaf. -/
def RedLeafRight (t : RBTree Key) (x y : Nat) : Prop :=
  ∃ fs, Shaped t (plug fs (.node .nil x (.node .nil y .nil))) ∧ t.red (some y) = some true

/-- The node `y` has no right child and its left child `x` is a red leaf. -/
def RedLeafLeft (t : RBTree Key) (y x : Nat) : Prop :=
  ∃ fs, Shaped t (plug fs (.node (.node .nil x .nil) y .nil)) ∧ t.red (some x) = some true

/-- One iteration of the loop of case 2a: `eraseFixup(parent); parent = parent->parent_`. -/
def RBTree.ancestorStep (t : RBTree Key) (fuel : Nat) (parent : Ptr) :
    Option (RBTree Key × Ptr) := do
  let t ← t.eraseFixup fuel parent
  let pp ← t.parent parent
  some (t, pp)

/-- The first `k` iterations of the loop of case 2a, none of which is at `nullptr`. -/
def RBTree.ancestorSteps (fuel : Nat) : Nat → RBTree Key × Ptr → Option (RBTree Key × Ptr)
  | 0, s => some s
  | k + 1, s =>
    if s.2 = none then none
    else (s.1.ancestorStep fuel s.2).bind (RBTree.ancestorSteps fuel k)

/-- The part of `eraseFixup` that leads into the loop of case 2a: cases 1a and 1b do not apply,
case 2a does, the node is black and has a parent; returns the recoloured tree and the parent. -/
def RBTree.blackNephewsStep (t : RBTree Key) (node : Ptr) : Option (RBTree Key × Ptr) := do
  let c1a ← t.lNRrNB node
  let c1b ← t.mirrorLNRrNB node
  let c2a ← t.lNBrNB node
  if c1a ∨ c1b ∨ ¬ c2a then none
  else do
    let color ← t.red node
    let t ← t.setRed node false
    let rs ← t.rSibling node
    let t ← t.setRed rs true
    let np ← t.parent node
    if !color ∧ np ≠ none then some (t, np) else none

/-- The shape of the linked tree below the pointer `p`, read off the memory. -/
def RBTree.shapeOf (t : RBTree Key) : Nat → Ptr → Option Shape
  | _, none => some .nil
  | 0, some _ => none
  | fuel + 1, some a => do
    let n ← t.mem a
    let l ← t.shapeOf fuel n.left_
    let r ← t.shapeOf fuel n.right_
    some (.node l a r)

/-- Decision procedure for `Rep`. -/
def repB (m : Nat → Option (RBTNode Key)) : Ptr → Shape → Bool
  | _, .nil => true
  | par, .node l a r =>
    match m a with
    | none => false
    | some n =>
      decide (n.parent_ = par) && decide (n.left_ = l.root) && decide (n.right_ = r.root) &&
        repB m (some a) l && repB m (some a) r

/-- Decision procedure for `Shaped`. -/
def RBTree.shapedB (t : RBTree Key) (s : Shape) : Bool :=
  decide (t.root_ = s.root) && repB t.mem none s && decide s.addrs.Nodup

/-- Decision procedure for `RedLeafRight`, with the shape read off the memory. -/
def RBTree.redLeafRightB (t : RBTree Key) (fuel : Nat) (x y : Nat) : Bool :=
  match t.shapeOf fuel t.root_ with
  | none => false
  | some s =>
    t.shapedB s && decide (x ∈ s.addrs) && decide (t.left (some x) = some none) &&
      decide (t.right (some x) = some (some y)) && decide (t.left (some y) = some none) &&
      decide (t.right (some y) = some none) && decide (t.red (some y) = some true)

/-- The run of `erase(pos)` up to the ping-pong: the node at `pos` has at most one child, the
unlinking asks for a fix-up at `to_fix`, which is case 2a on a black node with a parent, and
after `k` iterations the loop stands on `x`, whose only child is the red leaf `y`. -/
def RBTree.pingPongAfter (t : RBTree Key) (fuel : Nat) (pos : Ptr) (k x y : Nat) :
    Option (RBTree Key) := do
  let c0 ← t.red pos
  let h ← t.howManyChildren pos
  if h = .two_children then none
  else do
    let r ← t.eraseNode 1 pos none c0
    if r.2.2 ∨ r.2.1 = none then none
    else do
      let s ← r.1.blackNephewsStep r.2.1
      let q ← RBTree.ancestorSteps fuel k s
      if q.2 = some x ∧ q.1.redLeafRightB fuel x y then some q.1 else none


/-- The tree `t` is the result of a sequence of public calls on the empty tree with comparator
`cmp`, run with enough fuel for the insertions. -/
def Reachable (cmp : Key → Key → Bool) (t : RBTree Key) : Prop :=
  ∃ fuel ops, 3 * ops.length + 1 ≤ fuel ∧ (RBTree.empty cmp).run fuel ops = some t


/-- The 30 calls `insertUnique(0)`, `insertUnique(1)`, ..., `insertUnique(29)`, in this order;
the node of the key `k` has the address `k`. -/
def ascendingInserts : List (Op Nat) :=
  [.insertUnique 0, .insertUnique 1, .insertUnique 2, .insertUnique 3, .insertUnique 4,
   .insertUnique 5, .insertUnique 6, .insertUnique 7, .insertUnique 8, .insertUnique 9,
   .insertUnique 10, .insertUnique 11, .insertUnique 12, .insertUnique 13, .insertUnique 14,
   .insertUnique 15, .insertUnique 16, .insertUnique 17, .insertUnique 18, .insertUnique 19,
   .insertUnique 20, .insertUnique 21, .insertUnique 22, .insertUnique 23, .insertUnique 24,
   .insertUnique 25, .insertUnique 26, .insertUnique 27, .insertUnique 28, .insertUnique 29]

/-- The 15 calls of `erase` at the positions of the distinct keys 22, 21, 18, 1, 5, 16, 23, 13,
25, 4, 24, 0, 26, 3, 19, in this order, for a tree in which the node of the key `k` has the
address `k`. -/
def erasesAfterInserts : List (Op Nat) :=
  [.erase (some 22), .erase (some 21), .erase (some 18), .erase (some 1), .erase (some 5),
   .erase (some 16), .erase (some 23), .erase (some 13), .erase (some 25), .erase (some 4),
   .erase (some 24), .erase (some 0), .erase (some 26), .erase (some 3), .erase (some 19)]


/-- A sequence of 27 `insertUnique` and `erase` calls (20 insertions, 7 erasures; the node of
the `k`-th insertion has address `k`) that leaves the 13 keys 0, 1, 4, 5, 6, 7, 8, 9, 10, 16,
17, 18, 19, the key 5 at address 10. -/
def eraseLoopOps : List (Op Nat) :=
  [.insertUnique 16, .insertUnique 3, .insertUnique 2, .insertUnique 13, .insertUnique 12,
   .insertUnique 11, .insertUnique 10, .insertUnique 8, .insertUnique 7, .insertUnique 6,
   .insertUnique 5, .insertUnique 4, .erase (some 1), .erase (some 5), .insertUnique 1,
   .insertUnique 17, .erase (some 2), .insertUnique 15, .insertUnique 14, .erase (some 4),
   .insertUnique 9, .erase (some 3), .insertUnique 0, .erase (some 15), .insertUnique 19,
   .erase (some 14), .insertUnique 18]

/-- A sequence of 27 `insertUnique` and `erase` calls on a set (20 insertions, 7 erasures) that
leaves the 13 keys 0, 1, 3, 4, 5, 6, 8, 9, 14, 16, 17, 18, 19, the key 4 at address 10. -/
def setEraseLoopOps : List (Op Nat) :=
  [.insertUnique 16, .insertUnique 2, .insertUnique 1, .insertUnique 13, .insertUnique 12,
   .insertUnique 11, .insertUnique 10, .insertUnique 7, .insertUnique 6, .insertUnique 5,
   .insertUnique 4, .insertUnique 3, .erase (some 1), .erase (some 5), .insertUnique 0,
   .insertUnique 17, .erase (some 4), .insertUnique 9, .erase (some 6), .insertUnique 18,
   .insertUnique 15, .erase (some 3), .insertUnique 14, .erase (some 16), .insertUnique 8,
   .erase (some 7), .insertUnique 19]

/-- The call that the loops over the elements of another tree make for an element:
`insertUnique` or `insert`. -/
def Op.ofKey (unique : Bool) (key : Key) : Op Key :=
  if unique then .insertUnique key else .insert key

/-- No element of `A` is equivalent to `k` under `lt`. -/
def absent (lt : Key → Key → Bool) (A : List Key) (k : Key) : Bool :=
  A.all fun e => lt k e || lt e k

/-- The tree `t` is the result of a sequence of `insertUnique` and `erase` calls on the empty
tree with comparator `cmp`, run with enough fuel for the insertions: the tree of a `Set` or of
a `Map`. -/
def UniqueReachable (cmp : Key → Key → Bool) (t : RBTree Key) : Prop :=
  ∃ fuel ops, 3 * ops.length + 1 ≤ fuel ∧ (∀ op ∈ ops, op.isMulti = false) ∧
    (RBTree.empty cmp).run fuel ops = some t


/-- One call on a `Map`: `insert(value)`, `insert_or_assign(key, obj)`, `operator[](key)`,
the assignment `m[key] = obj` through the returned reference, `erase(pos)`. -/
inductive MapOp (K V : Type)
  | insert (value : K × V)
  | insert_or_assign (key : K) (obj : V)
  | subscript (key : K)
  | assign (key : K) (obj : V)
  | erase (pos : Ptr)

/-- The statement `m[key] = obj`. -/
def Map.subscriptAssign {K V : Type} (tree_ : RBTree (K × V)) (fuel : Nat) (dflt : V)
    (key : K) (obj : V) : Option (RBTree (K × V)) := do
  let r ← Map.subscript tree_ fuel dflt key
  r.1.assignSecond r.2 obj

/-- Performs one call on a map, keeping only the map. -/
def Map.apply {K V : Type} (tree_ : RBTree (K × V)) (fuel : Nat) (dflt : V) :
    MapOp K V → Option (RBTree (K × V))
  | .insert value => (Map.insert tree_ fuel value).map (·.1)
  | .insert_or_assign key obj => (Map.insert_or_assign tree_ fuel dflt key obj).map (·.1)
  | .subscript key => (Map.subscript tree_ fuel dflt key).map (·.1)
  | .assign key obj => Map.subscriptAssign tree_ fuel dflt key obj
  | .erase pos => tree_.erase fuel pos

/-- Performs a sequence of calls on a map from left to right. -/
def Map.run {K V : Type} (tree_ : RBTree (K × V)) (fuel : Nat) (dflt : V) :
    List (MapOp K V) → Option (RBTree (K × V))
  | [] => some tree_
  | op :: ops => (Map.apply tree_ fuel dflt op).bind fun t => Map.run t fuel dflt ops

/-- The map `m` is the result of a sequence of calls on the empty map over the key order `lt`,
run with enough fuel for the insertions; `dflt` is the value `mapped_type{}`. -/
def MapReachable {K V : Type} (lt : K → K → Bool) (dflt : V) (m : RBTree (K × V)) : Prop :=
  ∃ fuel ops, 3 * ops.length + 1 ≤ fuel ∧
    Map.run (RBTree.empty (MapComparator lt)) fuel dflt ops = some m

/-- The calls `insert(a1)`, ..., `insert(an)` on a `Set`, one after the other, with the list
of their results: what `insert_many(a1, ..., an)` is specified to be. -/
def Set.insertEach (fuel : Nat) :
    RBTree Key → List Key → Option (RBTree Key × List (Ptr × Bool))
  | tree_, [] => some (tree_, [])
  | tree_, arg :: args => do
    let r ← Set.insert tree_ fuel arg
    let rest ← Set.insertEach fuel r.1 args
    some (rest.1, r.2 :: rest.2)

/-- The calls `insert(a1)`, ..., `insert(an)` on a `MultiSet`, one after the other, with the
list of their results. -/
def MultiSet.insertEach (fuel : Nat) :
    RBTree Key → List Key → Option (RBTree Key × List Ptr)
  | tree_, [] => some (tree_, [])
  | tree_, arg :: args => do
    let r ← MultiSet.insert tree_ fuel arg
    let rest ← MultiSet.insertEach fuel r.1 args
    some (rest.1, r.2 :: rest.2)

/-- The calls `insert(a1)`, ..., `insert(an)` on a `Map`, one after the other, with the list
of their results. -/
def Map.insertEach {K V : Type} (fuel : Nat) :
    RBTree (K × V) → List (K × V) → Option (RBTree (K × V) × List (Ptr × Bool))
  | tree_, [] => some (tree_, [])
  | tree_, arg :: args => do
    let r ← Map.insert tree_ fuel arg
    let rest ← Map.insertEach fuel r.1 args
    some (rest.1, r.2 :: rest.2)

/-- The calls `insert(a, unique)` of the tree for the elements of a list, one after the
other, with the list of their results. -/
def RBTree.insertEach (unique : Bool) (fuel : Nat) :
    RBTree Key → List Key → Option (RBTree Key × List (Ptr × Bool))
  | t, [] => some (t, [])
  | t, arg :: args => do
    let r ← t.insert fuel arg unique
    let rest ← RBTree.insertEach unique fuel r.1 args
    some (rest.1, r.2 :: rest.2)


/-- The shape and the colours of a tree, without addresses and keys. -/
inductive ColourTree
  | nil
  | node (l : ColourTree) (red : Bool) (r : ColourTree)
  deriving DecidableEq

/-- The mirror image: left and right exchanged everywhere. -/
def ColourTree.mirror : ColourTree → ColourTree
  | .nil => .nil
  | .node l c r => .node r.mirror c l.mirror

/-- The shape and the colours of the tree below `p`. -/
def RBTree.colourTree (t : RBTree Key) : Nat → Ptr → Option ColourTree
  | _, none => some .nil
  | 0, some _ => none
  | fuel + 1, some a =>
    match t.mem a with
    | none => none
    | some n =>
      match t.colourTree fuel n.left_, t.colourTree fuel n.right_ with
      | some l, some r => some (.node l n.red_ r)
      | _, _ => none

/-- The node with its two child links exchanged. -/
def RBTNode.mirror (n : RBTNode Key) : RBTNode Key :=
  { n with left_ := n.right_, right_ := n.left_ }

/-- The mirror image of a tree under the reversed comparator: the same nodes at the same
addresses, the two child links of every node exchanged. -/
def RBTree.mirror (t : RBTree Key) : RBTree Key :=
  { t with mem := fun a => (t.mem a).map RBTNode.mirror,
           comparator_ := fun a b => t.comparator_ b a }

/-- A sequence of 27 `insert` and `erase` calls (20 insertions, 7 erasures; the node of the
`k`-th insertion has address `k`) that leaves the 13 keys 0, 1, 3, 4, 5, 6, 8, 9, 14, 16, 17,
18, 19, the key 4 at address 10. -/
def multiEraseLoopOps : List (Op Nat) :=
  [.insert 16, .insert 2, .insert 1, .insert 13, .insert 12, .insert 11, .insert 10, .insert 7,
   .insert 6, .insert 5, .insert 4, .insert 3, .erase (some 1), .erase (some 5), .insert 0,
   .insert 17, .erase (some 4), .insert 9, .erase (some 6), .insert 19, .insert 15,
   .erase (some 3), .insert 14, .erase (some 16), .insert 8, .erase (some 7), .insert 18]


/-- Arithmetic of `size_t`: 64 bit, unsigned. -/
def sizeT (n : Nat) : Nat := n % 2 ^ 64

/-- The difference `n - 1` in `size_t`, for `n < 2 ^ 64`: it wraps from 0 to `2 ^ 64 - 1`. -/
def sizeT.pred (n : Nat) : Nat := if n = 0 then 2 ^ 64 - 1 else n - 1

/-- A `T*`, the `iterator` of `vector<T>`: null, or an array (by the number of its allocation)
and an index into it. -/
abbrev vector.iterator := Option (Nat × Nat)

/-- The class `vector<T>` (s21_vector.h): `size_`, `capacity_` and the `unique_ptr` `data_`,
which is null or owns an array: the number of its allocation and its cells. `fresh`, the
number of the next allocation, is not a member of the C++ object. -/
structure vector (T : Type) where
  size_ : Nat
  capacity_ : Nat
  data_ : Option (Nat × List T)
  fresh : Nat

/-- `vector() = default`: the member initialisers `size_ = 0`, `capacity_ = 0`,
`data_ = nullptr`. -/
def vector.create {T : Type} : vector T := ⟨0, 0, none, 0⟩

/-- `vector(size_type n)`: `size_(n), capacity_(size_), data_(make_unique<T[]>(capacity_))`;
the `n` cells are value-initialised (`default` is `T()`), the array is not null for `n = 0`
either. The allocation gets the number `fresh`. -/
def vector.ofSize {T : Type} [Inhabited T] (fresh n : Nat) : vector T :=
  ⟨n, n, some (fresh, List.replicate n default), fresh + 1⟩

/-- The cells after `std::copy`, `std::move` or `std::move_backward` of the values `xs` to
the cells from index `i` on. -/
def writeRange {T : Type} (cells : List T) (i : Nat) (xs : List T) : List T :=
  cells.take i ++ xs ++ cells.drop (i + xs.length)

/-- `vector(first, last)`: `vector(last - first)`, then `copy(first, last, data_.get())`;
`items` are the values of the range. -/
def vector.ofRange {T : Type} [Inhabited T] (fresh : Nat) (items : List T) : vector T :=
  let v : vector T := vector.ofSize fresh items.length
  { v with data_ := v.data_.map fun d => (d.1, writeRange d.2 0 items) }

/-- `vector(std::initializer_list<T> const &items)`:
`vector(items.begin(), items.begin() + items.size())`. -/
def vector.ofList {T : Type} [Inhabited T] (items : List T) : vector T :=
  vector.ofRange 0 items

/-- `vector(const vector &v)`: `vector(v.data_.get(), v.data_.get() + v.size_)`. The pointer
`v.data_.get() + v.size_` is defined for an index up to the length of the array, and for the
null pointer with `v.size_ = 0`. -/
def vector.copy {T : Type} [Inhabited T] (v : vector T) : Option (vector T) :=
  match v.data_ with
  | none => if v.size_ = 0 then some (vector.ofRange v.fresh []) else none
  | some (_, cells) =>
    if v.size_ ≤ cells.length then some (vector.ofRange v.fresh (cells.take v.size_)) else none

/-- `vector::at`: `(pos > size_-1) ? throw std::out_of_range(...) : data_[pos]`, the
subtraction in `size_t`. `none` is undefined behaviour: `data_` null, or `pos` outside the
array. -/
def vector.at {T : Type} (v : vector T) (pos : Nat) : Option (Except OutOfRange T) :=
  if pos > sizeT.pred v.size_ then some (.error .mk)
  else
    match v.data_ with
    | none => none
    | some (_, cells) => (cells.get? pos).map .ok

/-- `vector::size`. -/
def vector.size {T : Type} (v : vector T) : Nat := v.size_

/-- `vector::capacity`. -/
def vector.capacity {T : Type} (v : vector T) : Nat := v.capacity_

/-- `vector::back`: `at(size_-1)`. -/
def vector.back {T : Type} (v : vector T) : Option (Except OutOfRange T) :=
  v.at (sizeT.pred v.size_)

/-- `vector::empty`: `size_ == 0`. -/
def vector.empty {T : Type} (v : vector T) : Bool := v.size_ == 0

/-- `vector::clear`: `size_ = 0`. -/
def vector.clear {T : Type} (v : vector T) : vector T := { v with size_ := 0 }

/-- `vector::pop_back`: `if (!empty()) --size_`. -/
def vector.pop_back {T : Type} (v : vector T) : vector T :=
  if !v.empty then { v with size_ := sizeT.pred v.size_ } else v

/-- `vector::begin`: `data_.get()`. -/
def vector.begin {T : Type} (v : vector T) : vector.iterator :=
  v.data_.map fun d => (d.1, 0)

/-- The pointer `p + k` for a pointer `p` into the array of `v`: defined up to the end of the
array; on the null pointer only `+ 0` is defined. -/
def vector.ptrAdd {T : Type} (v : vector T) : vector.iterator → Nat → Option vector.iterator
  | none, k => if k = 0 then some none else none
  | some (b, i), k =>
    match v.data_ with
    | none => none
    | some (b', cells) =>
      if b = b' ∧ i + k ≤ cells.length then some (some (b, i + k)) else none

/-- `vector::end`: `begin() + size_`. -/
def vector.end_ {T : Type} (v : vector T) : Option vector.iterator :=
  v.ptrAdd v.begin v.size_

/-- The difference `p - q` of two pointers: defined for two pointers into the same array and
for two null pointers. The comparisons `p < q` and `p > q` are read off it. -/
def vector.iterator.sub : vector.iterator → vector.iterator → Option Int
  | none, none => some 0
  | some (a, i), some (b, j) => if a = b then some ((i : Int) - (j : Int)) else none
  | _, _ => none

/-- `vector::reserve`: if `size > capacity_`, then `vector Temp(size)`,
`std::move(begin(), end(), Temp.begin())`, `Temp.size_ = size_`, `*this = std::move(Temp)`;
the move assignment swaps the three members and `Temp` is destroyed with the old array. The
`std::move` writes `size_` cells of `Temp`, defined if `Temp` has that many. -/
def vector.reserve {T : Type} [Inhabited T] (v : vector T) (size : Nat) : Option (vector T) :=
  if size > v.capacity_ then
    let Temp : vector T := vector.ofSize v.fresh size
    match v.end_ with
    | none => none
    | some _ =>
      let elems : List T :=
        match v.data_ with
        | none => []
        | some (_, cells) => cells.take v.size_
      if v.size_ ≤ size then
        some { Temp with
          size_ := v.size_, data_ := Temp.data_.map fun d => (d.1, writeRange d.2 0 elems) }
      else none
  else some v

/-- A `const T&` argument (`const_reference`) of a member function of a vector: a reference to
an object that is no cell of an array of the vector, given by the value of the object, or a
reference to the cell with index `i` of the array with the allocation number `b`. -/
inductive vector.const_reference (T : Type)
  | object (x : T)
  | cell (b i : Nat)

/-- The value read through a reference while the vector owns the array `b` with the cells
`cells`. A cell of another array, one that the vector has freed, cannot be read, nor can a cell
beyond the end of the array. -/
def vector.const_reference.read {T : Type} :
    vector.const_reference T → Nat → List T → Option T
  | .object x, _, _ => some x
  | .cell b' i, b, cells => if b' = b then cells.get? i else none

/-- The reference `data_[pos]` that `vector::at` returns; `vector.at` is the value read through
it. Undefined if `data_` is null or `pos` is outside the array. -/
def vector.at_reference {T : Type} (v : vector T) (pos : Nat) :
    Option (Except OutOfRange (vector.const_reference T)) :=
  if pos > sizeT.pred v.size_ then some (.error .mk)
  else
    match v.data_ with
    | none => none
    | some (b, cells) => if pos < cells.length then some (.ok (.cell b pos)) else none

/-- The reference that `vector::back` returns: `at(size_-1)`. -/
def vector.back_reference {T : Type} (v : vector T) :
    Option (Except OutOfRange (vector.const_reference T)) :=
  v.at_reference (sizeT.pred v.size_)

/-- `vector::insert(iterator pos, const_reference value)`: throws if
`pos < begin() || pos > end()`; `position = pos - begin()`; if `size_ == capacity_` then
`reserve(capacity_ == 0 ? 1 : 2 * capacity_)`; `pos = begin() + position`;
`std::move_backward(pos, end(), end() + 1)`; `++size_`; `*pos = value`; `return pos`.
The result is the returned iterator and the vector. `value` is read by the last assignment,
after `reserve` and `std::move_backward`, from the array the vector owns then; a cell that
`std::move_backward` has moved from keeps its value. -/
def vector.insert {T : Type} [Inhabited T] (v : vector T) (pos : vector.iterator)
    (value : vector.const_reference T) :
    Option (Except OutOfRange (vector.iterator × vector T)) :=
  match v.end_ with
  | none => none
  | some e =>
    match vector.iterator.sub pos v.begin, vector.iterator.sub pos e with
    | some position, some d =>
      if position < 0 ∨ 0 < d then some (.error .mk)
      else
        let reserved : Option (vector T) :=
          if v.size_ = v.capacity_ then
            v.reserve (if v.capacity_ = 0 then 1 else sizeT (2 * v.capacity_))
          else some v
        match reserved with
        | none => none
        | some v1 =>
          match v1.data_ with
          | none => none
          | some (b, cells) =>
            let p := position.toNat
            if v1.size_ + 1 ≤ cells.length then
              let moved := writeRange cells (p + 1) ((cells.drop p).take (v1.size_ - p))
              match value.read b moved with
              | none => none
              | some x =>
                some (.ok (some (b, p),
                  { v1 with size_ := sizeT (v1.size_ + 1), data_ := some (b, moved.set p x) }))
            else none
    | _, _ => none

/-- `vector::push_back(const_reference value)`: `insert(end(), value)`. -/
def vector.push_back {T : Type} [Inhabited T] (v : vector T)
    (value : vector.const_reference T) :
    Option (Except OutOfRange (vector T)) :=
  match v.end_ with
  | none => none
  | some e => (v.insert e value).map fun r => r.map Prod.snd

/-- The fold `(results.push_back(insert(pos++, args)), ...)` of `vector::insert_many`, from
left to right: `pos` is incremented, `insert` is called with its old value and the reference
to the argument, and the iterator it returns, a temporary object, is appended to `results`. -/
def vector.insertManyLoop {T : Type} [Inhabited T] :
    vector T → vector vector.iterator → vector.iterator → List (vector.const_reference T) →
      Option (Except OutOfRange (vector vector.iterator × vector T))
  | v, results, _, [] => some (.ok (results, v))
  | v, results, pos, a :: args =>
    match v.ptrAdd pos 1 with
    | none => none
    | some pos1 =>
      match v.insert pos a with
      | none => none
      | some (.error e) => some (.error e)
      | some (.ok (it, v1)) =>
        match results.push_back (.object it) with
        | none => none
        | some (.error e) => some (.error e)
        | some (.ok results1) => vector.insertManyLoop v1 results1 pos1 args

/-- `vector::insert_many(iterator pos, Args&&... args)`:
`vector<iterator> results(sizeof...(args))`; `distance = pos - begin()`;
`reserve(size() + sizeof...(args))`; `pos = begin() + distance`; the fold; `return results`.
The arguments are references. The result is the returned vector of iterators and the
vector. -/
def vector.insert_many {T : Type} [Inhabited T] (v : vector T) (pos : vector.iterator)
    (args : List (vector.const_reference T)) :
    Option (Except OutOfRange (vector vector.iterator × vector T)) :=
  let results : vector vector.iterator := vector.ofSize 0 args.length
  match vector.iterator.sub pos v.begin with
  | none => none
  | some distance =>
    match v.reserve (sizeT (v.size + args.length)) with
    | none => none
    | some v1 =>
      if distance < 0 then none
      else
        match v1.ptrAdd v1.begin distance.toNat with
        | none => none
        | some pos1 => vector.insertManyLoop v1 results pos1 args

/-- The class `stack<T>` (s21_stack.h), derived privately from `vector<T>`: `base` is the
base class subobject. -/
structure stack (T : Type) where
  base : vector T

/-- `stack()`: `vector<T>()`. -/
def stack.create {T : Type} : stack T := ⟨vector.create⟩

/-- `stack(std::initializer_list<T> const &items)`: `vector<T>(items)`. -/
def stack.ofList {T : Type} [Inhabited T] (items : List T) : stack T := ⟨vector.ofList items⟩

/-- `stack(const stack &other)`: `vector<T>(other)`. -/
def stack.copy {T : Type} [Inhabited T] (other : stack T) : Option (stack T) :=
  (vector.copy other.base).map stack.mk

/-- `stack::top`: `vector<T>::back()`. -/
def stack.top {T : Type} (s : stack T) : Option (Except OutOfRange T) := s.base.back

/-- The reference that `stack::top` returns: that of `vector<T>::back()`. -/
def stack.top_reference {T : Type} (s : stack T) :
    Option (Except OutOfRange (vector.const_reference T)) :=
  s.base.back_reference

/-- `stack::push(const_reference value)`: `vector<T>::push_back(value)`. -/
def stack.push {T : Type} [Inhabited T] (s : stack T) (value : vector.const_reference T) :
    Option (Except OutOfRange (stack T)) :=
  (s.base.push_back value).map fun r => r.map stack.mk

/-- `stack::pop`: `vector<T>::pop_back()`. -/
def stack.pop {T : Type} (s : stack T) : stack T := ⟨s.base.pop_back⟩

/-- `stack::empty`: `vector<T>::empty()`. -/
def stack.empty {T : Type} (s : stack T) : Bool := s.base.empty

/-- `stack::size`: `vector<T>::size()`. -/
def stack.size {T : Type} (s : stack T) : Nat := s.base.size

/-- `stack::insert_many_back`: `vector<T>::insert_many(vector<T>::end(), args...)`, the
returned vector of iterators is dropped. -/
def stack.insert_many_back {T : Type} [Inhabited T] (s : stack T)
    (args : List (vector.const_reference T)) : Option (Except OutOfRange (stack T)) :=
  match s.base.end_ with
  | none => none
  | some e => (s.base.insert_many e args).map fun r => r.map fun x => stack.mk x.2

/-- The elements of a vector, from index 0 to index `size_ - 1`. -/
def vector.toList {T : Type} (v : vector T) : List T :=
  match v.data_ with
  | none => []
  | some (_, cells) => cells.take v.size_

/-- The invariant of the class: `size_ <= capacity_`, both `size_t` values, and `data_` is
null with capacity 0 or owns an array of `capacity_` cells that was allocated before. -/
def vector.WellFormed {T : Type} (v : vector T) : Prop :=
  v.size_ ≤ v.capacity_ ∧ v.capacity_ < 2 ^ 64 ∧
    match v.data_ with
    | none => v.capacity_ = 0
    | some (b, cells) => cells.length = v.capacity_ ∧ b < v.fresh

/-- The iterator `begin() + i` of a vector. -/
def vector.iteratorAt {T : Type} (v : vector T) (i : Nat) : vector.iterator :=
  v.data_.map fun d => (d.1, i)

/-- The client loop `while (!s.empty()) { out.push_back(s.top()); s.pop(); }`: the sequence
of the elements popped. -/
def stack.popAll {T : Type} : Nat → stack T → Option (List T)
  | 0, s => if s.empty then some [] else none
  | fuel + 1, s =>
    if s.empty then some []
    else
      match s.top with
      | some (.ok x) => (stack.popAll fuel s.pop).map fun xs => x :: xs
      | _ => none


/-- A `list<T>::BaseNode` (`prev_`, `next_`) or, with a value, a `list<T>::Node`, which is
derived from it and adds the member `value_`. The two pointers are addresses: in the functions
below they come from `&fakeNode_`, from `new Node` and from the links, never from null. -/
structure list.BaseNode (T : Type) where
  prev_ : Nat
  next_ : Nat
  value_ : Option T

/-- The memory in which the nodes of all lists live: the cell at an address, if allocated, and
the next free address. -/
structure list.Memory (T : Type) where
  mem : Nat → Option (list.BaseNode T)
  fresh : Nat

/-- The memory without any cell. -/
def list.Memory.empty {T : Type} : list.Memory T := ⟨fun _ => none, 0⟩

/-- The assignment `p->next_ = q`; undefined if `p` is not allocated. -/
def list.Memory.setNext {T : Type} (m : list.Memory T) (p q : Nat) : Option (list.Memory T) :=
  (m.mem p).map fun n =>
    { m with mem := fun a => if a = p then some { n with next_ := q } else m.mem a }

/-- The assignment `p->prev_ = q`; undefined if `p` is not allocated. -/
def list.Memory.setPrev {T : Type} (m : list.Memory T) (p q : Nat) : Option (list.Memory T) :=
  (m.mem p).map fun n =>
    { m with mem := fun a => if a = p then some { n with prev_ := q } else m.mem a }

/-- The class `list<T>` (s21_list.h): the member `fakeNode_`, the sentinel of the circular
list, is a cell of the memory and the object holds its address `&fakeNode_`; `sz_`. -/
structure list (T : Type) where
  fakeNode_ : Nat
  sz_ : Nat

/-- `list()`: `fakeNode_{&fakeNode_, &fakeNode_}, sz_(0)`; the new object gets the next free
address. -/
def list.create {T : Type} (m : list.Memory T) : list.Memory T × list T :=
  ({ mem := fun a => if a = m.fresh then some ⟨m.fresh, m.fresh, none⟩ else m.mem a,
     fresh := m.fresh + 1 }, ⟨m.fresh, 0⟩)

/-- `list::push_back`: `newNode = new Node(fakeNode_.prev_, &fakeNode_, value)`;
`fakeNode_.prev_->next_ = newNode`; `fakeNode_.prev_ = newNode`; `++sz_`. -/
def list.push_back {T : Type} (m : list.Memory T) (l : list T) (value : T) :
    Option (list.Memory T × list T) :=
  match m.mem l.fakeNode_ with
  | none => none
  | some fake =>
    let newNode := m.fresh
    let m1 : list.Memory T :=
      { mem := fun a =>
          if a = newNode then some ⟨fake.prev_, l.fakeNode_, some value⟩ else m.mem a,
        fresh := m.fresh + 1 }
    match m1.setNext fake.prev_ newNode with
    | none => none
    | some m2 =>
      match m2.setPrev l.fakeNode_ newNode with
      | none => none
      | some m3 => some (m3, { l with sz_ := sizeT (l.sz_ + 1) })

/-- The loop `for (const auto& item : items) push_back(item)`. -/
def list.pushAll {T : Type} : list.Memory T → list T → List T → Option (list.Memory T × list T)
  | m, l, [] => some (m, l)
  | m, l, item :: items =>
    match l.push_back m item with
    | none => none
    | some r => list.pushAll r.1 r.2 items

/-- `list(std::initializer_list<T> const& items)`: `list()`, then the loop of `push_back`. -/
def list.ofList {T : Type} (m : list.Memory T) (items : List T) :
    Option (list.Memory T × list T) :=
  list.pushAll (list.create m).1 (list.create m).2 items

/-- `list<T>::iterator`: the member `ptr_`, a `BaseNode*`. -/
abbrev list.iterator := Nat

/-- `list::begin`: `iterator(fakeNode_.next_)`. -/
def list.begin {T : Type} (m : list.Memory T) (l : list T) : Option list.iterator :=
  (m.mem l.fakeNode_).map fun n => n.next_

/-- `list::end`: `iterator(&fakeNode_)`. -/
def list.end_ {T : Type} (l : list T) : list.iterator := l.fakeNode_

/-- `list::size`: `sz_`. -/
def list.size {T : Type} (l : list T) : Nat := l.sz_

/-- `list::empty`: `sz_ == 0`. -/
def list.empty {T : Type} (l : list T) : Bool := l.sz_ == 0

/-- `iterator::operator*`: `reinterpret_cast<Node*>(ptr_)->value_`; undefined if the cell is
not a `Node`. -/
def list.iterator.deref {T : Type} (m : list.Memory T) (it : list.iterator) : Option T :=
  (m.mem it).bind fun n => n.value_

/-- `iterator::operator++`: `ptr_ = ptr_->next_`. -/
def list.iterator.incr {T : Type} (m : list.Memory T) (it : list.iterator) :
    Option list.iterator :=
  (m.mem it).map fun n => n.next_

/-- `iterator::operator--`: `ptr_ = ptr_->prev_`. -/
def list.iterator.decr {T : Type} (m : list.Memory T) (it : list.iterator) :
    Option list.iterator :=
  (m.mem it).map fun n => n.prev_

/-- `list::splice(iterator pos, list& other)`: the result is the memory, the list and
`other`. -/
def list.splice {T : Type} (m : list.Memory T) (l : list T) (pos : list.iterator)
    (other : list T) : Option (list.Memory T × list T × list T) :=
  match m.mem pos, m.mem other.fakeNode_ with
  | some posNode, some otherFake =>
    let previous_node := posNode.prev_
    let next_node := pos
    let first_insert_node := otherFake.next_
    let last_insert_node := otherFake.prev_
    match m.setNext previous_node first_insert_node with
    | none => none
    | some m1 =>
      match m1.setPrev next_node last_insert_node with
      | none => none
      | some m2 =>
        match m2.setPrev first_insert_node previous_node with
        | none => none
        | some m3 =>
          match m3.setNext last_insert_node next_node with
          | none => none
          | some m4 =>
            match m4.setNext other.fakeNode_ other.fakeNode_ with
            | none => none
            | some m5 =>
              match m5.setPrev other.fakeNode_ other.fakeNode_ with
              | none => none
              | some m6 =>
                some (m6, { l with sz_ := sizeT (l.sz_ + other.sz_) }, { other with sz_ := 0 })
  | _, _ => none

/-- The client loop `for (; it != end(); ++it) out.push_back(*it)`: the values from `it` up to
the sentinel `last`. -/
def list.walk {T : Type} (m : list.Memory T) (last : list.iterator) :
    Nat → list.iterator → Option (List T)
  | 0, it => if it = last then some [] else none
  | fuel + 1, it =>
    if it = last then some []
    else
      match list.iterator.deref m it, list.iterator.incr m it with
      | some x, some next => (list.walk m last fuel next).map fun xs => x :: xs
      | _, _ => none

/-- The elements of a list, by the loop from `begin()` to `end()`. -/
def list.toList {T : Type} (m : list.Memory T) (l : list T) (fuel : Nat) : Option (List T) :=
  (l.begin m).bind fun it => list.walk m l.end_ fuel it

/-- The client loop `for (it = end(); it != begin(); ) out.push_back(*--it)`, written with the
sentinel as the bound: the values from the last element backwards over the `prev_` links. -/
def list.walkBack {T : Type} (m : list.Memory T) (last : list.iterator) :
    Nat → list.iterator → Option (List T)
  | 0, it => if it = last then some [] else none
  | fuel + 1, it =>
    if it = last then some []
    else
      match list.iterator.deref m it, list.iterator.decr m it with
      | some x, some next => (list.walkBack m last fuel next).map fun xs => x :: xs
      | _, _ => none

/-- The elements of a list from the last to the first, over the `prev_` links. -/
def list.toListBack {T : Type} (m : list.Memory T) (l : list T) (fuel : Nat) :
    Option (List T) :=
  (list.iterator.decr m l.end_).bind fun it => list.walkBack m l.end_ fuel it

/-- The cells `p` and `q` are linked in both directions: `p->next_ == q` and
`q->prev_ == p`. -/
def list.Linked {T : Type} (m : list.Memory T) (p q : Nat) : Prop :=
  (m.mem p).map (fun n => n.next_) = some q ∧ (m.mem q).map (fun n => n.prev_) = some p

instance list.Linked.decidable {T : Type} (m : list.Memory T) (p q : Nat) :
    Decidable (list.Linked m p q) :=
  inferInstanceAs (Decidable
    ((m.mem p).map (fun n => n.next_) = some q ∧ (m.mem q).map (fun n => n.prev_) = some p))

/-- The list `l` is a well-formed circular list through its own sentinel: from the sentinel
over the nodes `nodes` (address and value, in the order of the list) back to the sentinel every
cell is linked with the next one in both directions, the cells are distinct, the nodes hold
their values, the sentinel is a plain `BaseNode`, and `sz_` is the number of nodes. -/
def list.Ring {T : Type} (m : list.Memory T) (l : list T) (nodes : List (Nat × T)) : Prop :=
  List.Chain' (list.Linked m) (l.fakeNode_ :: nodes.map Prod.fst ++ [l.fakeNode_]) ∧
    (l.fakeNode_ :: nodes.map Prod.fst).Nodup ∧
    (∀ p ∈ nodes, (m.mem p.1).map (fun n => n.value_) = some (some p.2)) ∧
    (m.mem l.fakeNode_).map (fun n => n.value_) = some none ∧
    l.sz_ = nodes.length

/-- The executable form of `List.Chain' (list.Linked m)`: every cell of the sequence is
linked with the next one in both directions. -/
def list.chainB {T : Type} (m : list.Memory T) : List Nat → Bool
  | [] => true
  | [_] => true
  | x :: y :: l => decide (list.Linked m x y) && list.chainB m (y :: l)

/-- The position of the node with index `i` of a list with the nodes `nodes`: its address, and
`end()`, the sentinel, for `i = size()`. -/
def list.position {T : Type} (l : list T) (nodes : List (Nat × T)) (i : Nat) : list.iterator :=
  ((nodes.drop i).map Prod.fst ++ [l.fakeNode_]).headD l.fakeNode_

/-! # Theorems -/

theorem plug_addrs (fs : List Frame) (s : Shape) :
    (plug fs s).addrs = ctxBefore fs ++ s.addrs ++ ctxAfter fs := by
  induction fs generalizing s with
  | nil => simp [plug, ctxBefore, ctxAfter]
  | cons f fs ih =>
    rw [plug, ih]
    cases hf : f.isLeft <;> simp [Frame.fill, hf, ctxBefore, ctxAfter, Shape.addrs]

theorem rep_of_sameLinks {m m' : Nat → Option (RBTNode Key)} {par : Ptr} {s : Shape}
    (h : ∀ a ∈ s.addrs, SameLinks m m' a) (hr : Rep m par s) : Rep m' par s := by
  induction s generalizing par with
  | nil => trivial
  | node l a r ihl ihr =>
    obtain ⟨n, hn, hp, hl, hr', hL, hR⟩ := hr
    have ha := h a (by simp [Shape.addrs])
    unfold SameLinks at ha
    rw [hn] at ha
    cases hm : m' a with
    | none => rw [hm] at ha; simp at ha
    | some n' =>
      rw [hm] at ha
      simp only [Option.map_some', Option.some.injEq, RBTNode.links, Prod.mk.injEq] at ha
      refine ⟨n', hm, ?_, ?_, ?_, ?_, ?_⟩
      · rw [ha.1, hp]
      · rw [ha.2.1, hl]
      · rw [ha.2.2, hr']
      · exact ihl (fun b hb => h b (by simp [Shape.addrs, hb])) hL
      · exact ihr (fun b hb => h b (by simp [Shape.addrs, hb])) hR

theorem rep_plug {m : Nat → Option (RBTNode Key)} {par : Ptr} (fs : List Frame) (s : Shape) :
    Rep m par (plug fs s) ↔ RepCtx m par fs s.root ∧ Rep m (holeParent par fs) s := by
  induction fs generalizing s with
  | nil => simp [plug, RepCtx, holeParent]
  | cons f fs ih =>
    rw [plug, ih]
    cases hf : f.isLeft
    · simp only [Frame.fill, hf, RepCtx, Rep, holeParent, Shape.root, if_false,
        Bool.false_eq_true]
      constructor
      · rintro ⟨h1, n, h2, h3, h4, h5, h6, h7⟩
        exact ⟨⟨h1, n, h2, h3, h4, h5, h6⟩, h7⟩
      · rintro ⟨⟨h1, n, h2, h3, h4, h5, h6⟩, h7⟩
        exact ⟨h1, n, h2, h3, h4, h5, h6, h7⟩
    · simp only [Frame.fill, hf, RepCtx, Rep, holeParent, Shape.root, if_true]
      constructor
      · rintro ⟨h1, n, h2, h3, h4, h5, h6, h7⟩
        exact ⟨⟨h1, n, h2, h3, h4, h5, h7⟩, h6⟩
      · rintro ⟨⟨h1, n, h2, h3, h4, h5, h6⟩, h7⟩
        exact ⟨h1, n, h2, h3, h4, h5, h7, h6⟩

theorem overlay_nil (m : Nat → Option (RBTNode Key)) (z : Nat) : overlay [] m z = m z := rfl

theorem overlay_cons (a : Nat) (n : RBTNode Key) (cs : List (Nat × RBTNode Key))
    (m : Nat → Option (RBTNode Key)) (z : Nat) :
    overlay ((a, n) :: cs) m z = if z = a then some n else overlay cs m z := rfl

theorem View.base (t : RBTree Key) : View t [] t t.root_ := ⟨rfl, rfl, rfl, rfl, rfl⟩

theorem View.sameMeta {t t0 : RBTree Key} {cells : List (Nat × RBTNode Key)} {r : Ptr}
    (hv : View t cells t0 r) : SameMeta t0 t := hv.2.2

theorem View.left_of {t t0 : RBTree Key} {cells : List (Nat × RBTNode Key)}
    {r : Ptr} {a : Nat} {n : RBTNode Key} (hv : View t cells t0 r) (h : overlay cells t0.mem a = some n) :
    t.left (some a) = some n.left_ := by
  simp [RBTree.left, RBTree.deref, hv.1, h]

theorem View.right_of {t t0 : RBTree Key} {cells : List (Nat × RBTNode Key)}
    {r : Ptr} {a : Nat} {n : RBTNode Key} (hv : View t cells t0 r) (h : overlay cells t0.mem a = some n) :
    t.right (some a) = some n.right_ := by
  simp [RBTree.right, RBTree.deref, hv.1, h]

theorem View.parent_of {t t0 : RBTree Key} {cells : List (Nat × RBTNode Key)}
    {r : Ptr} {a : Nat} {n : RBTNode Key} (hv : View t cells t0 r) (h : overlay cells t0.mem a = some n) :
    t.parent (some a) = some n.parent_ := by
  simp [RBTree.parent, RBTree.deref, hv.1, h]

theorem View.red_of {t t0 : RBTree Key} {cells : List (Nat × RBTNode Key)}
    {r : Ptr} {a : Nat} {n : RBTNode Key} (hv : View t cells t0 r) (h : overlay cells t0.mem a = some n) :
    t.red (some a) = some n.red_ := by
  simp [RBTree.red, RBTree.deref, hv.1, h]

theorem View.setLeft {t t0 : RBTree Key} {cells : List (Nat × RBTNode Key)}
    {r : Ptr} {a : Nat} {n : RBTNode Key} (hv : View t cells t0 r) (h : overlay cells t0.mem a = some n) (v : Ptr) :
    ∃ t1, t.setLeft (some a) v = some t1 ∧
      View t1 ((a, { n with left_ := v }) :: cells) t0 r := by
  refine ⟨t.store a { n with left_ := v }, by simp [RBTree.setLeft, hv.1, h], ?_, hv.2⟩
  funext z; simp only [RBTree.store, hv.1, overlay_cons]

theorem View.setRight {t t0 : RBTree Key} {cells : List (Nat × RBTNode Key)}
    {r : Ptr} {a : Nat} {n : RBTNode Key} (hv : View t cells t0 r) (h : overlay cells t0.mem a = some n) (v : Ptr) :
    ∃ t1, t.setRight (some a) v = some t1 ∧
      View t1 ((a, { n with right_ := v }) :: cells) t0 r := by
  refine ⟨t.store a { n with right_ := v }, by simp [RBTree.setRight, hv.1, h], ?_, hv.2⟩
  funext z; simp only [RBTree.store, hv.1, overlay_cons]

theorem View.setParent {t t0 : RBTree Key} {cells : List (Nat × RBTNode Key)}
    {r : Ptr} {a : Nat} {n : RBTNode Key} (hv : View t cells t0 r) (h : overlay cells t0.mem a = some n) (v : Ptr) :
    ∃ t1, t.setParent (some a) v = some t1 ∧
      View t1 ((a, { n with parent_ := v }) :: cells) t0 r := by
  refine ⟨t.store a { n with parent_ := v }, by simp [RBTree.setParent, hv.1, h], ?_, hv.2⟩
  funext z; simp only [RBTree.store, hv.1, overlay_cons]

theorem View.setRed {t t0 : RBTree Key} {cells : List (Nat × RBTNode Key)}
    {r : Ptr} {a : Nat} {n : RBTNode Key} (hv : View t cells t0 r) (h : overlay cells t0.mem a = some n) (v : Bool) :
    ∃ t1, t.setRed (some a) v = some t1 ∧
      View t1 ((a, { n with red_ := v }) :: cells) t0 r := by
  refine ⟨t.store a { n with red_ := v }, by simp [RBTree.setRed, hv.1, h], ?_, hv.2⟩
  funext z; simp only [RBTree.store, hv.1, overlay_cons]

theorem View.setRoot {t t0 : RBTree Key} {cells : List (Nat × RBTNode Key)}
    {r : Ptr} (hv : View t cells t0 r) (v : Ptr) :
    View { t with root_ := v } cells t0 v := ⟨hv.1, rfl, hv.2.2⟩

theorem leftRotate_eval (t : RBTree Key) (x y : Nat) (nx ny : RBTNode Key)
    (hx : t.mem x = some nx) (hy : t.mem y = some ny) (hxr : nx.right_ = some y)
    (hxy : x ≠ y)
    (hb : ∀ b, ny.left_ = some b → b ≠ x ∧ b ≠ y ∧ ∃ nb, t.mem b = some nb)
    (hp : ∀ p, nx.parent_ = some p → p ≠ x ∧ p ≠ y ∧ ny.left_ ≠ some p ∧
      ∃ np, t.mem p = some np) :
    ∃ t', t.leftRotate (some x) = some t' ∧ SameMeta t t' ∧
      t'.root_ = (if nx.parent_ = none then some y else t.root_) ∧
      (∀ a, a ≠ x → a ≠ y → ny.left_ ≠ some a → nx.parent_ ≠ some a → t'.mem a = t.mem a) ∧
      t'.mem x = some { nx with right_ := ny.left_, parent_ := some y } ∧
      t'.mem y = some { ny with left_ := some x, parent_ := nx.parent_ } ∧
      (∀ b nb, ny.left_ = some b → t.mem b = some nb →
        t'.mem b = some { nb with parent_ := some x }) ∧
      (∀ p np, nx.parent_ = some p → t.mem p = some np →
        t'.mem p = some (if np.left_ = some x then { np with left_ := some y }
          else { np with right_ := some y })) := by
  have hbx : ny.left_ ≠ some x := fun h => (hb x h).1 rfl
  have hby : ny.left_ ≠ some y := fun h => (hb y h).2.1 rfl
  have v0 := View.base t
  unfold RBTree.leftRotate
  simp only [Option.bind_eq_bind, Option.pure_def]
  rw [v0.right_of (by simpa [overlay] using hx), Option.some_bind, hxr,
    v0.left_of (by simpa [overlay] using hy), Option.some_bind]
  obtain ⟨t1, e1, v1⟩ := v0.setRight (by simpa [overlay] using hx) ny.left_
  rw [e1, Option.some_bind]
  rw [v1.left_of (show overlay _ t.mem y = some ny by simp [overlay, hxy.symm, hy]),
    Option.some_bind]
  -- the parent link of the moved subtree
  obtain ⟨t2, e2, cs2, v2, hc2⟩ : ∃ t2, (if ny.left_ ≠ none then t1.setParent ny.left_ (some x)
      else some t1) = some t2 ∧ ∃ cs2, View t2 cs2 t t.root_ ∧
      (∀ z, overlay cs2 t.mem z =
        if ny.left_ = some z then (t.mem z).map (fun nb => { nb with parent_ := some x })
        else if z = x then some { nx with right_ := ny.left_ } else t.mem z) := by
    rcases hnl : ny.left_ with _ | b
    · refine ⟨t1, by simp, _, v1, fun z => ?_⟩
      simp [overlay, hnl]
    · obtain ⟨hbx, hby, nb, hnb⟩ := hb b hnl
      obtain ⟨t2, e2, v2⟩ := v1.setParent
        (show overlay _ t.mem b = some nb by simp [overlay, hbx, hnb]) (some x)
      refine ⟨t2, by simpa using e2, _, v2, fun z => ?_⟩
      by_cases hz : z = b
      · subst hz; simp [overlay, hnb]
      · have : b ≠ z := fun h => hz h.symm
        simp [overlay, hz, this, hnl]
  rw [e2, Option.some_bind]
  have hx2 : overlay cs2 t.mem x = some { nx with right_ := ny.left_ } := by
    rw [hc2]; simp [hbx]
  have hy2 : overlay cs2 t.mem y = some ny := by
    rw [hc2]; simp [hby, hxy.symm, hy]
  rw [v2.parent_of hx2, Option.some_bind]
  obtain ⟨t3, e3, v3⟩ := v2.setParent hy2 nx.parent_
  rw [e3, Option.some_bind]
  have hx3 : overlay ((y, { ny with parent_ := nx.parent_ }) :: cs2) t.mem x =
      some { nx with right_ := ny.left_ } := by
    simp [overlay, hxy, hx2]
  rw [v3.parent_of hx3, Option.some_bind]
  -- the child link of the parent
  obtain ⟨t4, e4, cs4, v4, hc4⟩ : ∃ t4, (if nx.parent_ = none then
        some { t3 with root_ := some y }
      else (t3.left nx.parent_).bind fun npl =>
        if some x = npl then t3.setLeft nx.parent_ (some y)
        else t3.setRight nx.parent_ (some y)) = some t4 ∧
      ∃ cs4, View t4 cs4 t (if nx.parent_ = none then some y else t.root_) ∧
      (∀ z, overlay cs4 t.mem z =
        if nx.parent_ = some z then (t.mem z).map (fun np =>
          if np.left_ = some x then { np with left_ := some y }
          else { np with right_ := some y })
        else overlay ((y, { ny with parent_ := nx.parent_ }) :: cs2) t.mem z) := by
    rcases hnp : nx.parent_ with _ | p
    · refine ⟨{ t3 with root_ := some y }, by simp, _, by simpa [hnp] using v3.setRoot (some y), fun z => ?_⟩
      simp
    · obtain ⟨hpx, hpy, hpb, np, hnp'⟩ := hp p hnp
      have hp3 : overlay ((y, { ny with parent_ := some p }) :: cs2) t.mem p = some np := by
        simp [overlay, hpy, hc2, hpb, hpx, hnp']
      rw [hnp] at v3
      rw [if_neg (by simp), v3.left_of hp3, Option.some_bind]
      by_cases hl : np.left_ = some x
      · obtain ⟨t4, e4, v4⟩ := v3.setLeft hp3 (some y)
        refine ⟨t4, by simpa [hl] using e4, _, by simpa using v4, fun z => ?_⟩
        by_cases hz : z = p
        · subst hz; simp [overlay, hnp', hl]
        · have : p ≠ z := fun h => hz h.symm
          simp [overlay, hz, this]
      · obtain ⟨t4, e4, v4⟩ := v3.setRight hp3 (some y)
        have hl' : ¬ (some x = np.left_) := fun h => hl h.symm
        refine ⟨t4, by simpa [hl'] using e4, _, by simpa using v4, fun z => ?_⟩
        by_cases hz : z = p
        · subst hz; simp [overlay, hnp', hl]
        · have : p ≠ z := fun h => hz h.symm
          simp [overlay, hz, this]
  rw [e4, Option.some_bind]
  have hpx : nx.parent_ ≠ some x := fun h => (hp x h).1 rfl
  have hpy : nx.parent_ ≠ some y := fun h => (hp y h).2.1 rfl
  have hy4 : overlay cs4 t.mem y = some { ny with parent_ := nx.parent_ } := by
    rw [hc4]; simp [hpy, overlay]
  obtain ⟨t5, e5, v5⟩ := v4.setLeft hy4 (some x)
  rw [e5, Option.some_bind]
  have hx5 : overlay ((y, { ny with parent_ := nx.parent_, left_ := some x }) :: cs4) t.mem x =
      some { nx with right_ := ny.left_ } := by
    simp [overlay, hxy, hc4, hpx, hx2]
  obtain ⟨t6, e6, v6⟩ := v5.setParent hx5 (some y)
  refine ⟨t6, e6, v6.sameMeta, v6.2.1, ?_, ?_, ?_, ?_, ?_⟩
  · intro a h1 h2 h3 h4
    rw [v6.1]
    simp [overlay, h1, h2, hc4, Ne.symm h4, hc2, h3]
    intro h; exact absurd h h4
  · rw [v6.1]; simp [overlay]
  · rw [v6.1]; simp [overlay, hxy.symm]
  · intro b nb hb1 hb2
    have h1 : b ≠ x := fun h => hbx (h ▸ hb1)
    have h2 : b ≠ y := fun h => hby (h ▸ hb1)
    have h3 : nx.parent_ ≠ some b := fun h => (hp b h).2.2.1 hb1
    rw [v6.1]; simp [overlay, h1, h2, hc4, h3, hc2, hb1, hb2]
  · intro p np hp1 hp2
    have h1 : p ≠ x := fun h => hpx (h ▸ hp1)
    have h2 : p ≠ y := fun h => hpy (h ▸ hp1)
    rw [v6.1]; simp [overlay, h1, h2, hc4, hp1, hp2]

theorem rightRotate_eval (t : RBTree Key) (x y : Nat) (nx ny : RBTNode Key)
    (hx : t.mem x = some nx) (hy : t.mem y = some ny) (hxr : nx.left_ = some y)
    (hxy : x ≠ y)
    (hb : ∀ b, ny.right_ = some b → b ≠ x ∧ b ≠ y ∧ ∃ nb, t.mem b = some nb)
    (hp : ∀ p, nx.parent_ = some p → p ≠ x ∧ p ≠ y ∧ ny.right_ ≠ some p ∧
      ∃ np, t.mem p = some np) :
    ∃ t', t.rightRotate (some x) = some t' ∧ SameMeta t t' ∧
      t'.root_ = (if nx.parent_ = none then some y else t.root_) ∧
      (∀ a, a ≠ x → a ≠ y → ny.right_ ≠ some a → nx.parent_ ≠ some a → t'.mem a = t.mem a) ∧
      t'.mem x = some { nx with left_ := ny.right_, parent_ := some y } ∧
      t'.mem y = some { ny with right_ := some x, parent_ := nx.parent_ } ∧
      (∀ b nb, ny.right_ = some b → t.mem b = some nb →
        t'.mem b = some { nb with parent_ := some x }) ∧
      (∀ p np, nx.parent_ = some p → t.mem p = some np →
        t'.mem p = some (if np.right_ = some x then { np with right_ := some y }
          else { np with left_ := some y })) := by
  have hbx : ny.right_ ≠ some x := fun h => (hb x h).1 rfl
  have hby : ny.right_ ≠ some y := fun h => (hb y h).2.1 rfl
  have v0 := View.base t
  unfold RBTree.rightRotate
  simp only [Option.bind_eq_bind, Option.pure_def]
  rw [v0.left_of (by simpa [overlay] using hx), Option.some_bind, hxr,
    v0.right_of (by simpa [overlay] using hy), Option.some_bind]
  obtain ⟨t1, e1, v1⟩ := v0.setLeft (by simpa [overlay] using hx) ny.right_
  rw [e1, Option.some_bind]
  rw [v1.right_of (show overlay _ t.mem y = some ny by simp [overlay, hxy.symm, hy]),
    Option.some_bind]
  -- the parent link of the moved subtree
  obtain ⟨t2, e2, cs2, v2, hc2⟩ : ∃ t2, (if ny.right_ ≠ none then t1.setParent ny.right_ (some x)
      else some t1) = some t2 ∧ ∃ cs2, View t2 cs2 t t.root_ ∧
      (∀ z, overlay cs2 t.mem z =
        if ny.right_ = some z then (t.mem z).map (fun nb => { nb with parent_ := some x })
        else if z = x then some { nx with left_ := ny.right_ } else t.mem z) := by
    rcases hnl : ny.right_ with _ | b
    · refine ⟨t1, by simp, _, v1, fun z => ?_⟩
      simp [overlay, hnl]
    · obtain ⟨hbx, hby, nb, hnb⟩ := hb b hnl
      obtain ⟨t2, e2, v2⟩ := v1.setParent
        (show overlay _ t.mem b = some nb by simp [overlay, hbx, hnb]) (some x)
      refine ⟨t2, by simpa using e2, _, v2, fun z => ?_⟩
      by_cases hz : z = b
      · subst hz; simp [overlay, hnb]
      · have : b ≠ z := fun h => hz h.symm
        simp [overlay, hz, this, hnl]
  rw [e2, Option.some_bind]
  have hx2 : overlay cs2 t.mem x = some { nx with left_ := ny.right_ } := by
    rw [hc2]; simp [hbx]
  have hy2 : overlay cs2 t.mem y = some ny := by
    rw [hc2]; simp [hby, hxy.symm, hy]
  rw [v2.parent_of hx2, Option.some_bind]
  obtain ⟨t3, e3, v3⟩ := v2.setParent hy2 nx.parent_
  rw [e3, Option.some_bind]
  have hx3 : overlay ((y, { ny with parent_ := nx.parent_ }) :: cs2) t.mem x =
      some { nx with left_ := ny.right_ } := by
    simp [overlay, hxy, hx2]
  rw [v3.parent_of hx3, Option.some_bind]
  -- the child link of the parent
  obtain ⟨t4, e4, cs4, v4, hc4⟩ : ∃ t4, (if nx.parent_ = none then
        some { t3 with root_ := some y }
      else (t3.right nx.parent_).bind fun npl =>
        if some x = npl then t3.setRight nx.parent_ (some y)
        else t3.setLeft nx.parent_ (some y)) = some t4 ∧
      ∃ cs4, View t4 cs4 t (if nx.parent_ = none then some y else t.root_) ∧
      (∀ z, overlay cs4 t.mem z =
        if nx.parent_ = some z then (t.mem z).map (fun np =>
          if np.right_ = some x then { np with right_ := some y }
          else { np with left_ := some y })
        else overlay ((y, { ny with parent_ := nx.parent_ }) :: cs2) t.mem z) := by
    rcases hnp : nx.parent_ with _ | p
    · refine ⟨{ t3 with root_ := some y }, by simp, _, by simpa [hnp] using v3.setRoot (some y), fun z => ?_⟩
      simp
    · obtain ⟨hpx, hpy, hpb, np, hnp'⟩ := hp p hnp
      have hp3 : overlay ((y, { ny with parent_ := some p }) :: cs2) t.mem p = some np := by
        simp [overlay, hpy, hc2, hpb, hpx, hnp']
      rw [hnp] at v3
      rw [if_neg (by simp), v3.right_of hp3, Option.some_bind]
      by_cases hl : np.right_ = some x
      · obtain ⟨t4, e4, v4⟩ := v3.setRight hp3 (some y)
        refine ⟨t4, by simpa [hl] using e4, _, by simpa using v4, fun z => ?_⟩
        by_cases hz : z = p
        · subst hz; simp [overlay, hnp', hl]
        · have : p ≠ z := fun h => hz h.symm
          simp [overlay, hz, this]
      · obtain ⟨t4, e4, v4⟩ := v3.setLeft hp3 (some y)
        have hl' : ¬ (some x = np.right_) := fun h => hl h.symm
        refine ⟨t4, by simpa [hl'] using e4, _, by simpa using v4, fun z => ?_⟩
        by_cases hz : z = p
        · subst hz; simp [overlay, hnp', hl]
        · have : p ≠ z := fun h => hz h.symm
          simp [overlay, hz, this]
  rw [e4, Option.some_bind]
  have hpx : nx.parent_ ≠ some x := fun h => (hp x h).1 rfl
  have hpy : nx.parent_ ≠ some y := fun h => (hp y h).2.1 rfl
  have hy4 : overlay cs4 t.mem y = some { ny with parent_ := nx.parent_ } := by
    rw [hc4]; simp [hpy, overlay]
  obtain ⟨t5, e5, v5⟩ := v4.setRight hy4 (some x)
  rw [e5, Option.some_bind]
  have hx5 : overlay ((y, { ny with parent_ := nx.parent_, right_ := some x }) :: cs4) t.mem x =
      some { nx with left_ := ny.right_ } := by
    simp [overlay, hxy, hc4, hpx, hx2]
  obtain ⟨t6, e6, v6⟩ := v5.setParent hx5 (some y)
  refine ⟨t6, e6, v6.sameMeta, v6.2.1, ?_, ?_, ?_, ?_, ?_⟩
  · intro a h1 h2 h3 h4
    rw [v6.1]
    simp [overlay, h1, h2, hc4, Ne.symm h4, hc2, h3]
    intro h; exact absurd h h4
  · rw [v6.1]; simp [overlay]
  · rw [v6.1]; simp [overlay, hxy.symm]
  · intro b nb hb1 hb2
    have h1 : b ≠ x := fun h => hbx (h ▸ hb1)
    have h2 : b ≠ y := fun h => hby (h ▸ hb1)
    have h3 : nx.parent_ ≠ some b := fun h => (hp b h).2.2.1 hb1
    rw [v6.1]; simp [overlay, h1, h2, hc4, h3, hc2, hb1, hb2]
  · intro p np hp1 hp2
    have h1 : p ≠ x := fun h => hpx (h ▸ hp1)
    have h2 : p ≠ y := fun h => hpy (h ▸ hp1)
    rw [v6.1]; simp [overlay, h1, h2, hc4, hp1, hp2]

/-! ## Shapes, paths and memory -/

theorem Shape.root_eq_some {s : Shape} {b : Nat} (h : s.root = some b) :
    ∃ l r, s = .node l b r := by
  cases s with
  | nil => simp [Shape.root] at h
  | node l a r => simp only [Shape.root, Option.some.injEq] at h; exact ⟨l, r, by rw [h]⟩

theorem Shape.root_eq_none {s : Shape} (h : s.root = none) : s = .nil := by
  cases s with
  | nil => rfl
  | node l a r => simp [Shape.root] at h

theorem Shape.root_mem {s : Shape} {b : Nat} (h : s.root = some b) : b ∈ s.addrs := by
  obtain ⟨l, r, rfl⟩ := Shape.root_eq_some h
  simp [Shape.addrs]

theorem sameLinks_of_eq {m m' : Nat → Option (RBTNode Key)} {a : Nat} (h : m' a = m a) :
    SameLinks m m' a := by
  unfold SameLinks; rw [h]

theorem rep_frame {m m' : Nat → Option (RBTNode Key)} {par : Ptr} {s : Shape}
    (h : ∀ a ∈ s.addrs, m' a = m a) (hr : Rep m par s) : Rep m' par s :=
  rep_of_sameLinks (fun a ha => sameLinks_of_eq (h a ha)) hr

theorem rep_root {m : Nat → Option (RBTNode Key)} {par : Ptr} {s : Shape} {b : Nat}
    (hr : Rep m par s) (h : s.root = some b) : ∃ n, m b = some n ∧ n.parent_ = par := by
  obtain ⟨l, r, rfl⟩ := Shape.root_eq_some h
  obtain ⟨n, hn, hp, -⟩ := hr
  exact ⟨n, hn, hp⟩

theorem rep_live {m : Nat → Option (RBTNode Key)} {par : Ptr} {s : Shape} {b : Nat}
    (hr : Rep m par s) (h : b ∈ s.addrs) : ∃ n, m b = some n := by
  induction s generalizing par with
  | nil => simp [Shape.addrs] at h
  | node l a r ihl ihr =>
    obtain ⟨n, hn, -, -, -, hL, hR⟩ := hr
    simp only [Shape.addrs, List.mem_append, List.mem_cons] at h
    rcases h with h | rfl | h
    · exact ihl hL h
    · exact ⟨n, hn⟩
    · exact ihr hR h

/-- Changing the parent link of the topmost node moves a represented tree below another node. -/
theorem rep_reparent {m m' : Nat → Option (RBTNode Key)} {par par' : Ptr} {s : Shape}
    (hr : Rep m par s) (hnd : s.addrs.Nodup)
    (hroot : ∀ b nb, s.root = some b → m b = some nb → m' b = some { nb with parent_ := par' })
    (hrest : ∀ a ∈ s.addrs, s.root ≠ some a → m' a = m a) : Rep m' par' s := by
  cases s with
  | nil => trivial
  | node l a r =>
    obtain ⟨n, hn, -, hl, hr', hL, hR⟩ := hr
    simp only [Shape.addrs, List.nodup_append, List.nodup_cons, List.mem_cons] at hnd
    refine ⟨_, hroot a n rfl hn, rfl, hl, hr', ?_, ?_⟩
    · refine rep_frame (fun b hb => hrest b (by simp [Shape.addrs, hb]) ?_) hL
      simp only [Shape.root, ne_eq, Option.some.injEq]
      rintro rfl; exact hnd.2.2 hb (List.mem_cons_self _ _)
    · refine rep_frame (fun b hb => hrest b (by simp [Shape.addrs, hb]) ?_) hR
      simp only [Shape.root, ne_eq, Option.some.injEq]
      rintro rfl; exact hnd.2.1.1 hb

theorem repCtx_frame {m m' : Nat → Option (RBTNode Key)} {par : Ptr} {fs : List Frame} {h : Ptr}
    (hf : ∀ a, a ∈ ctxBefore fs ∨ a ∈ ctxAfter fs → m' a = m a)
    (hr : RepCtx m par fs h) : RepCtx m' par fs h := by
  induction fs generalizing h with
  | nil => trivial
  | cons f fs ih =>
    obtain ⟨h1, n, hn, hp, hl, hr', hs⟩ := hr
    refine ⟨ih (fun a ha => hf a ?_) h1, n, ?_, hp, hl, hr', rep_frame (fun a ha => hf a ?_) hs⟩
    · rcases ha with ha | ha
      · exact Or.inl (by simp [ctxBefore, ha])
      · exact Or.inr (by simp [ctxAfter, ha])
    · rw [hf, hn]
      cases hf' : f.isLeft <;> simp [ctxBefore, ctxAfter, hf']
    · cases hf' : f.isLeft <;> simp [ctxBefore, ctxAfter, hf', ha]

/-- Redirecting the child link of the innermost path node changes the pointer held at the
position. -/
theorem repCtx_hole {m m' : Nat → Option (RBTNode Key)} {par : Ptr} {f : Frame}
    {fs : List Frame} {h h' : Ptr}
    (hr : RepCtx m par (f :: fs) h)
    (hf : ∀ a, a ∈ ctxBefore (f :: fs) ∨ a ∈ ctxAfter (f :: fs) → a ≠ f.a → m' a = m a)
    (hnd : (ctxBefore (f :: fs) ++ ctxAfter (f :: fs)).Nodup)
    (hcell : ∀ n, m f.a = some n → m' f.a = some
      (if f.isLeft then { n with left_ := h' } else { n with right_ := h' })) :
    RepCtx m' par (f :: fs) h' := by
  obtain ⟨h1, n, hn, hp, hl, hr', hs⟩ := hr
  have hfa : ∀ a, a ∈ ctxBefore fs ∨ a ∈ ctxAfter fs → a ≠ f.a := by
    rintro a ha rfl
    cases hf' : f.isLeft <;>
      simp [ctxBefore, ctxAfter, hf', List.nodup_append, List.nodup_cons] at hnd <;>
      rcases ha with ha | ha <;> simp_all
  have hsa : ∀ a ∈ f.sib.addrs, a ≠ f.a := by
    rintro a ha rfl
    cases hf' : f.isLeft <;>
      simp [ctxBefore, ctxAfter, hf', List.nodup_append, List.nodup_cons] at hnd <;>
      simp_all
  refine ⟨repCtx_frame (fun a ha => hf a ?_ (hfa a ha)) h1, _, hcell n hn, ?_, ?_, ?_,
    rep_frame (fun a ha => hf a ?_ (hsa a ha)) hs⟩
  · rcases ha with ha | ha
    · exact Or.inl (by simp [ctxBefore, ha])
    · exact Or.inr (by simp [ctxAfter, ha])
  · cases hf' : f.isLeft <;> simp [hp]
  · cases hf' : f.isLeft <;> simp_all
  · cases hf' : f.isLeft <;> simp_all
  · cases hf' : f.isLeft <;> simp [ctxBefore, ctxAfter, hf', ha]

theorem plug_root_cons (f : Frame) (fs : List Frame) (s s' : Shape) :
    (plug (f :: fs) s).root = (plug (f :: fs) s').root := by
  induction fs generalizing f s s' with
  | nil => cases hf : f.isLeft <;> simp [plug, Frame.fill, hf, Shape.root]
  | cons g gs ih =>
    have := ih g (f.fill s) (f.fill s')
    simpa [plug] using this

theorem holeParent_mem {par : Ptr} {fs : List Frame} {p : Nat}
    (h : holeParent par fs = some p) (hpar : par = none) :
    p ∈ ctxBefore fs ∨ p ∈ ctxAfter fs := by
  cases fs with
  | nil => simp [holeParent, hpar] at h
  | cons f fs =>
    simp only [holeParent, Option.some.injEq] at h
    subst h
    cases hf : f.isLeft <;> simp [ctxBefore, ctxAfter, hf]

theorem leftRotate_shape {t : RBTree Key} {fs : List Frame} {α β γ : Shape} {x y : Nat}
    (hs : Shaped t (plug fs (.node α x (.node β y γ)))) :
    ∃ t', t.leftRotate (some x) = some t' ∧
      Shaped t' (plug fs (.node (.node α x β) y γ)) ∧ SameData t t' ∧ SameMeta t t' := by
  have hnd := hs.nodup
  rw [plug_addrs] at hnd
  simp only [Shape.addrs, List.nodup_append, List.nodup_cons, List.mem_append, List.mem_cons,
    List.append_assoc, List.disjoint_append_left, List.disjoint_append_right,
    List.disjoint_cons_left, List.disjoint_cons_right, not_or] at hnd
  obtain ⟨ndB, ⟨ndα, ⟨⟨⟨xβ, xy, xγ⟩, ndβ, ⟨yγ, ndγ⟩, yβ, dβγ⟩, ndA, xA, dβA, yA, dγA⟩,
    ⟨xα, dαβ, yα, dαγ⟩, dαA⟩, dBα, ⟨xB, dBβ, yB, dBγ⟩, dBA⟩ := hnd
  obtain ⟨hctx, hsub⟩ := (rep_plug fs _).1 hs.rep
  obtain ⟨nx, hx, hxp, hxl, hxr, hα, ny, hy, hyp, hyl, hyr, hβ, hγ⟩ := hsub
  simp only [Shape.root] at hxr hctx
  -- the cells the rotation touches besides `x` and `y`
  have hb : ∀ b, ny.left_ = some b → b ≠ x ∧ b ≠ y ∧ ∃ nb, t.mem b = some nb := by
    intro b hb
    have hbm : b ∈ β.addrs := Shape.root_mem (hyl ▸ hb)
    exact ⟨fun h => xβ (h ▸ hbm), fun h => yβ (h ▸ hbm), rep_live hβ hbm⟩
  have hpm : ∀ p, nx.parent_ = some p → p ∈ ctxBefore fs ∨ p ∈ ctxAfter fs :=
    fun p hp => holeParent_mem (hxp ▸ hp) rfl
  have hp : ∀ p, nx.parent_ = some p → p ≠ x ∧ p ≠ y ∧ ny.left_ ≠ some p ∧
      ∃ np, t.mem p = some np := by
    intro p hp
    have hpl : ∃ np, t.mem p = some np := by
      cases fs with
      | nil => rw [hxp] at hp; simp [holeParent] at hp
      | cons f fs =>
        obtain ⟨-, n, hn, -⟩ := hctx
        simp only [hxp, holeParent, Option.some.injEq] at hp
        exact ⟨n, hp ▸ hn⟩
    refine ⟨?_, ?_, ?_, hpl⟩
    · rintro rfl; rcases hpm _ hp with h | h
      · exact xB h
      · exact xA h
    · rintro rfl; rcases hpm _ hp with h | h
      · exact yB h
      · exact yA h
    · intro h
      have hbm : p ∈ β.addrs := Shape.root_mem (hyl ▸ h)
      rcases hpm _ hp with h | h
      · exact dBβ h hbm
      · exact dβA hbm h
  obtain ⟨t', e, hmeta, hroot, hfr, hx', hy', hb', hp'⟩ :=
    leftRotate_eval t x y nx ny hx hy hxr xy hb hp
  have hframe : ∀ l : List Nat, x ∉ l → y ∉ l → l.Disjoint β.addrs →
      (ctxBefore fs).Disjoint l → l.Disjoint (ctxAfter fs) → ∀ a ∈ l, t'.mem a = t.mem a := by
    intro l h1 h2 h3 h4 h5 a ha
    refine hfr a (fun h => h1 (h ▸ ha)) (fun h => h2 (h ▸ ha)) (fun h => ?_) (fun h => ?_)
    · exact h3 ha (Shape.root_mem (hyl ▸ h))
    · rcases hpm _ h with h | h
      · exact h4 h ha
      · exact h5 ha h
  refine ⟨t', e, ⟨?_, ?_, ?_⟩, ?_, hmeta⟩
  · -- root pointer
    rw [hroot]
    cases fs with
    | nil => simp [plug, Shape.root, hxp, holeParent]
    | cons f fs =>
      rw [if_neg (by simp [hxp, holeParent]), hs.root]
      exact plug_root_cons _ _ _ _
  · -- representation
    refine (rep_plug fs _).2 ⟨?_, ?_⟩
    · cases fs with
      | nil => trivial
      | cons f fs =>
        refine repCtx_hole hctx (fun a ha hne => ?_)
          (List.Nodup.append ndB ndA dBA) (fun n hn => ?_)
        · refine hfr a ?_ ?_ ?_ ?_
          · rintro rfl; rcases ha with h | h
            · exact xB h
            · exact xA h
          · rintro rfl; rcases ha with h | h
            · exact yB h
            · exact yA h
          · intro h
            have hbm : a ∈ β.addrs := Shape.root_mem (hyl ▸ h)
            rcases ha with h | h
            · exact dBβ h hbm
            · exact dβA hbm h
          · simp only [hxp, holeParent, ne_eq, Option.some.injEq]
            exact fun h => hne h.symm
        · rw [hp' f.a n (by simp [hxp, holeParent]) hn]
          obtain ⟨-, n', hn', -, hl', hr', -⟩ := hctx
          rw [hn] at hn'
          obtain rfl : n = n' := by simpa using hn'
          cases hf : f.isLeft
          · have : n.left_ ≠ some x := by
              rw [hl']; simp only [hf, Bool.false_eq_true, if_false]
              intro h
              have hm := Shape.root_mem h
              simp [ctxBefore, ctxAfter, hf] at xB
              exact xB.2.1 hm
            simp [this, Shape.root]
          · simp [hl', hf, Shape.root]
    · refine ⟨_, hy', ?_, rfl, hyr, ⟨_, hx', rfl, hxl, hyl, ?_, ?_⟩, ?_⟩
      · simp [hxp]
      · exact rep_frame (hframe _ xα yα dαβ dBα dαA) hα
      · refine rep_reparent hβ ndβ (fun b nb hb1 hb2 => ?_) (fun a ha hne => ?_)
        · exact hb' b nb (hyl ▸ hb1) hb2
        · refine hfr a (fun h => xβ (h ▸ ha)) (fun h => yβ (h ▸ ha)) (hyl ▸ hne) (fun h => ?_)
          rcases hpm _ h with h | h
          · exact dBβ h ha
          · exact dβA ha h
      · exact rep_frame (hframe _ xγ yγ dβγ.symm dBγ dγA) hγ
  · -- no address twice
    rw [plug_addrs]
    simp only [Shape.addrs, List.nodup_append, List.nodup_cons, List.mem_append, List.mem_cons,
      List.append_assoc, List.disjoint_append_left, List.disjoint_append_right,
      List.disjoint_cons_left, List.disjoint_cons_right, not_or]
    have yx : ¬ y = x := fun h => xy h.symm
    tauto
  · -- colours and keys
    intro a
    by_cases h1 : a = x
    · subst h1; simp [hx', hx, RBTNode.data]
    by_cases h2 : a = y
    · subst h2; simp [hy', hy, RBTNode.data]
    by_cases h3 : ny.left_ = some a
    · obtain ⟨-, -, nb, hnb⟩ := hb a h3
      simp [hb' a nb h3 hnb, hnb, RBTNode.data]
    by_cases h4 : nx.parent_ = some a
    · obtain ⟨-, -, -, np, hnp⟩ := hp a h4
      rw [hp' a np h4 hnp, hnp]
      split <;> simp [RBTNode.data]
    · rw [hfr a h1 h2 h3 h4]

theorem rightRotate_shape {t : RBTree Key} {fs : List Frame} {α β γ : Shape} {x y : Nat}
    (hs : Shaped t (plug fs (.node (.node α y β) x γ))) :
    ∃ t', t.rightRotate (some x) = some t' ∧
      Shaped t' (plug fs (.node α y (.node β x γ))) ∧ SameData t t' ∧ SameMeta t t' := by
  have hnd := hs.nodup
  rw [plug_addrs] at hnd
  simp only [Shape.addrs, List.nodup_append, List.nodup_cons, List.mem_append, List.mem_cons,
    List.append_assoc, List.disjoint_append_left, List.disjoint_append_right,
    List.disjoint_cons_left, List.disjoint_cons_right, not_or] at hnd
  obtain ⟨ndB, ⟨ndα, ⟨⟨yβ, ndβ⟩, ⟨⟨xγ, ndγ⟩, ndA, xA, dγA⟩, ⟨⟨xy, xβ⟩, yγ, dβγ⟩, yA, dβA⟩,
    ⟨yα, dαβ⟩, ⟨xα, dαγ⟩, dαA⟩, dBα, ⟨yB, dBβ⟩, ⟨xB, dBγ⟩, dBA⟩ := hnd
  obtain ⟨hctx, hsub⟩ := (rep_plug fs _).1 hs.rep
  obtain ⟨nx, hx, hxp, hxl, hxr, ⟨ny, hy, hyp, hyl, hyr, hα, hβ⟩, hγ⟩ := hsub
  simp only [Shape.root] at hxl hctx
  have hb : ∀ b, ny.right_ = some b → b ≠ x ∧ b ≠ y ∧ ∃ nb, t.mem b = some nb := by
    intro b hb
    have hbm : b ∈ β.addrs := Shape.root_mem (hyr ▸ hb)
    exact ⟨fun h => xβ (h ▸ hbm), fun h => yβ (h ▸ hbm), rep_live hβ hbm⟩
  have hpm : ∀ p, nx.parent_ = some p → p ∈ ctxBefore fs ∨ p ∈ ctxAfter fs :=
    fun p hp => holeParent_mem (hxp ▸ hp) rfl
  have hp : ∀ p, nx.parent_ = some p → p ≠ x ∧ p ≠ y ∧ ny.right_ ≠ some p ∧
      ∃ np, t.mem p = some np := by
    intro p hp
    have hpl : ∃ np, t.mem p = some np := by
      cases fs with
      | nil => rw [hxp] at hp; simp [holeParent] at hp
      | cons f fs =>
        obtain ⟨-, n, hn, -⟩ := hctx
        simp only [hxp, holeParent, Option.some.injEq] at hp
        exact ⟨n, hp ▸ hn⟩
    refine ⟨?_, ?_, ?_, hpl⟩
    · rintro rfl; rcases hpm _ hp with h | h
      · exact xB h
      · exact xA h
    · rintro rfl; rcases hpm _ hp with h | h
      · exact yB h
      · exact yA h
    · intro h
      have hbm : p ∈ β.addrs := Shape.root_mem (hyr ▸ h)
      rcases hpm _ hp with h | h
      · exact dBβ h hbm
      · exact dβA hbm h
  obtain ⟨t', e, hmeta, hroot, hfr, hx', hy', hb', hp'⟩ :=
    rightRotate_eval t x y nx ny hx hy hxl xy hb hp
  have hframe : ∀ l : List Nat, x ∉ l → y ∉ l → l.Disjoint β.addrs →
      (ctxBefore fs).Disjoint l → l.Disjoint (ctxAfter fs) → ∀ a ∈ l, t'.mem a = t.mem a := by
    intro l h1 h2 h3 h4 h5 a ha
    refine hfr a (fun h => h1 (h ▸ ha)) (fun h => h2 (h ▸ ha)) (fun h => ?_) (fun h => ?_)
    · exact h3 ha (Shape.root_mem (hyr ▸ h))
    · rcases hpm _ h with h | h
      · exact h4 h ha
      · exact h5 ha h
  refine ⟨t', e, ⟨?_, ?_, ?_⟩, ?_, hmeta⟩
  · rw [hroot]
    cases fs with
    | nil => simp [plug, Shape.root, hxp, holeParent]
    | cons f fs =>
      rw [if_neg (by simp [hxp, holeParent]), hs.root]
      exact plug_root_cons _ _ _ _
  · refine (rep_plug fs _).2 ⟨?_, ?_⟩
    · cases fs with
      | nil => trivial
      | cons f fs =>
        refine repCtx_hole hctx (fun a ha hne => ?_)
          (List.Nodup.append ndB ndA dBA) (fun n hn => ?_)
        · refine hfr a ?_ ?_ ?_ ?_
          · rintro rfl; rcases ha with h | h
            · exact xB h
            · exact xA h
          · rintro rfl; rcases ha with h | h
            · exact yB h
            · exact yA h
          · intro h
            have hbm : a ∈ β.addrs := Shape.root_mem (hyr ▸ h)
            rcases ha with h | h
            · exact dBβ h hbm
            · exact dβA hbm h
          · simp only [hxp, holeParent, ne_eq, Option.some.injEq]
            exact fun h => hne h.symm
        · rw [hp' f.a n (by simp [hxp, holeParent]) hn]
          obtain ⟨-, n', hn', -, hl', hr', -⟩ := hctx
          rw [hn] at hn'
          obtain rfl : n = n' := by simpa using hn'
          cases hf : f.isLeft
          · simp [hr', hf, Shape.root]
          · have : n.right_ ≠ some x := by
              rw [hr']; simp only [hf, if_true]
              intro h
              have hm := Shape.root_mem h
              simp [ctxBefore, ctxAfter, hf] at xA
              exact xA.2.1 hm
            simp [this, Shape.root]
    · refine ⟨_, hy', ?_, hyl, rfl, ?_, ⟨_, hx', rfl, hyr, hxr, ?_, ?_⟩⟩
      · simp [hxp]
      · exact rep_frame (hframe _ xα yα dαβ dBα dαA) hα
      · refine rep_reparent hβ ndβ (fun b nb hb1 hb2 => ?_) (fun a ha hne => ?_)
        · exact hb' b nb (hyr ▸ hb1) hb2
        · refine hfr a (fun h => xβ (h ▸ ha)) (fun h => yβ (h ▸ ha)) (hyr ▸ hne) (fun h => ?_)
          rcases hpm _ h with h | h
          · exact dBβ h ha
          · exact dβA ha h
      · exact rep_frame (hframe _ xγ yγ dβγ.symm dBγ dγA) hγ
  · rw [plug_addrs]
    simp only [Shape.addrs, List.nodup_append, List.nodup_cons, List.mem_append, List.mem_cons,
      List.append_assoc, List.disjoint_append_left, List.disjoint_append_right,
      List.disjoint_cons_left, List.disjoint_cons_right, not_or]
    have yx : ¬ y = x := fun h => xy h.symm
    tauto
  · intro a
    by_cases h1 : a = x
    · subst h1; simp [hx', hx, RBTNode.data]
    by_cases h2 : a = y
    · subst h2; simp [hy', hy, RBTNode.data]
    by_cases h3 : ny.right_ = some a
    · obtain ⟨-, -, nb, hnb⟩ := hb a h3
      simp [hb' a nb h3 hnb, hnb, RBTNode.data]
    by_cases h4 : nx.parent_ = some a
    · obtain ⟨-, -, -, np, hnp⟩ := hp a h4
      rw [hp' a np h4 hnp, hnp]
      split <;> simp [RBTNode.data]
    · rw [hfr a h1 h2 h3 h4]

theorem Shape.split {s : Shape} {x : Nat} (h : x ∈ s.addrs) :
    ∃ fs l r, s = plug fs (.node l x r) := by
  induction s with
  | nil => simp [Shape.addrs] at h
  | node l a r ihl ihr =>
    simp only [Shape.addrs, List.mem_append, List.mem_cons] at h
    rcases h with h | rfl | h
    · obtain ⟨fs, l', r', rfl⟩ := ihl h
      refine ⟨fs ++ [⟨true, a, r⟩], l', r', ?_⟩
      have : ∀ (gs : List Frame) (u : Shape), plug (gs ++ [⟨true, a, r⟩]) u = .node (plug gs u) a r := by
        intro gs
        induction gs with
        | nil => intro u; simp [plug, Frame.fill]
        | cons g gs ih => intro u; simp [plug, ih]
      rw [this]
    · exact ⟨[], l, r, rfl⟩
    · obtain ⟨fs, l', r', rfl⟩ := ihr h
      refine ⟨fs ++ [⟨false, a, l⟩], l', r', ?_⟩
      have : ∀ (gs : List Frame) (u : Shape), plug (gs ++ [⟨false, a, l⟩]) u = .node l a (plug gs u) := by
        intro gs
        induction gs with
        | nil => intro u; simp [plug, Frame.fill]
        | cons g gs ih => intro u; simp [plug, ih]
      rw [this]

theorem SameKeys.refl_keys (t : RBTree Key) : SameKeys t t := fun _ => rfl

theorem SameKeys.trans_keys {t t1 t2 : RBTree Key} (h1 : SameKeys t t1) (h2 : SameKeys t1 t2) :
    SameKeys t t2 := fun a => (h2 a).trans (h1 a)

theorem SameMeta.refl_meta (t : RBTree Key) : SameMeta t t := ⟨rfl, rfl, rfl⟩

theorem SameMeta.trans_meta {t t1 t2 : RBTree Key} (h1 : SameMeta t t1) (h2 : SameMeta t1 t2) :
    SameMeta t t2 :=
  ⟨h2.1.trans h1.1, h2.2.1.trans h1.2.1, h2.2.2.trans h1.2.2⟩

theorem SameData.keys {t t' : RBTree Key} (h : SameData t t') : SameKeys t t' := by
  intro a
  have := h a
  cases h1 : t'.mem a <;> cases h2 : t.mem a <;> simp_all [RBTNode.data]

theorem Kept.refl_kept {s : Shape} {t : RBTree Key} (hs : Shaped t s) : Kept s t t :=
  ⟨⟨s, hs, rfl⟩, SameKeys.refl_keys t, SameMeta.refl_meta t⟩

/-- Steps compose: the second step starts from whatever shape the first one produced. -/
theorem Kept.trans_kept {s : Shape} {t t1 t2 : RBTree Key} (h1 : Kept s t t1)
    (h2 : ∀ s1, Shaped t1 s1 → s1.addrs = s.addrs → Kept s1 t1 t2) : Kept s t t2 := by
  obtain ⟨s1, hs1, ha1⟩ := h1.shape
  have h := h2 s1 hs1 ha1
  obtain ⟨s2, hs2, ha2⟩ := h.shape
  exact ⟨⟨s2, hs2, ha2.trans ha1⟩, h1.keys.trans_keys h.keys, h1.same.trans_meta h.same⟩

/-- The cell of a tree node, together with its position. -/
theorem Shaped.cell {t : RBTree Key} {s : Shape} (hs : Shaped t s) {x : Nat}
    (hx : x ∈ s.addrs) :
    ∃ fs l r n, s = plug fs (.node l x r) ∧ t.mem x = some n ∧
      n.parent_ = holeParent none fs ∧ n.left_ = l.root ∧ n.right_ = r.root := by
  obtain ⟨fs, l, r, rfl⟩ := Shape.split hx
  obtain ⟨-, n, hn, hp, hl, hr, -⟩ := (rep_plug fs _).1 hs.rep
  exact ⟨fs, l, r, n, rfl, hn, hp, hl, hr⟩

theorem holeParent_inTree (fs : List Frame) (u : Shape) :
    InTree (plug fs u).addrs (holeParent none fs) := by
  intro q hq
  rw [plug_addrs]
  rcases holeParent_mem hq rfl with h | h <;> simp [h]

theorem root_inTree_plug_left (fs : List Frame) (l r : Shape) (x : Nat) :
    InTree (plug fs (.node l x r)).addrs l.root := by
  intro q hq
  rw [plug_addrs]
  simp [Shape.addrs, Shape.root_mem hq]

theorem root_inTree_plug_right (fs : List Frame) (l r : Shape) (x : Nat) :
    InTree (plug fs (.node l x r)).addrs r.root := by
  intro q hq
  rw [plug_addrs]
  simp [Shape.addrs, Shape.root_mem hq]

/-- Links read from a tree node lead to tree nodes. -/
theorem Shaped.parent_inTree {t : RBTree Key} {s : Shape} (hs : Shaped t s) {p q : Ptr}
    (hp : InTree s.addrs p) (h : t.parent p = some q) : InTree s.addrs q := by
  cases p with
  | none => simp [RBTree.parent, RBTree.deref] at h
  | some x =>
    obtain ⟨fs, l, r, n, rfl, hn, hpar, -, -⟩ := hs.cell (hp x rfl)
    simp only [RBTree.parent, RBTree.deref, hn, Option.map_some', Option.some.injEq] at h
    rw [← h, hpar]; exact holeParent_inTree fs _

theorem Shaped.left_inTree {t : RBTree Key} {s : Shape} (hs : Shaped t s) {p q : Ptr}
    (hp : InTree s.addrs p) (h : t.left p = some q) : InTree s.addrs q := by
  cases p with
  | none => simp [RBTree.left, RBTree.deref] at h
  | some x =>
    obtain ⟨fs, l, r, n, rfl, hn, -, hl, -⟩ := hs.cell (hp x rfl)
    simp only [RBTree.left, RBTree.deref, hn, Option.map_some', Option.some.injEq] at h
    rw [← h, hl]; exact root_inTree_plug_left fs l r x

theorem Shaped.right_inTree {t : RBTree Key} {s : Shape} (hs : Shaped t s) {p q : Ptr}
    (hp : InTree s.addrs p) (h : t.right p = some q) : InTree s.addrs q := by
  cases p with
  | none => simp [RBTree.right, RBTree.deref] at h
  | some x =>
    obtain ⟨fs, l, r, n, rfl, hn, -, -, hr⟩ := hs.cell (hp x rfl)
    simp only [RBTree.right, RBTree.deref, hn, Option.map_some', Option.some.injEq] at h
    rw [← h, hr]; exact root_inTree_plug_right fs l r x

theorem Shaped.root_inTree {t : RBTree Key} {s : Shape} (hs : Shaped t s) :
    InTree s.addrs t.root_ := by
  intro q hq
  exact Shape.root_mem (hs.root ▸ hq)

theorem leftRotate_kept {t t' : RBTree Key} {s : Shape} (hs : Shaped t s) {node : Ptr}
    (hin : InTree s.addrs node) (h : t.leftRotate node = some t') : Kept s t t' := by
  cases node with
  | none => simp [RBTree.leftRotate, RBTree.right, RBTree.deref] at h
  | some x =>
    obtain ⟨fs, l, r, n, rfl, hn, hpar, hl, hr⟩ := hs.cell (hin x rfl)
    cases r with
    | nil =>
      simp [RBTree.leftRotate, RBTree.right, RBTree.left, RBTree.deref, hn, hr, Shape.root] at h
    | node β y γ =>
      obtain ⟨t1, e, hs1, hd, hm⟩ := leftRotate_shape hs
      rw [e] at h
      obtain rfl : t1 = t' := by simpa using h
      refine ⟨⟨_, hs1, ?_⟩, hd.keys, hm⟩
      simp [plug_addrs, Shape.addrs]

theorem rightRotate_kept {t t' : RBTree Key} {s : Shape} (hs : Shaped t s) {node : Ptr}
    (hin : InTree s.addrs node) (h : t.rightRotate node = some t') : Kept s t t' := by
  cases node with
  | none => simp [RBTree.rightRotate, RBTree.left, RBTree.deref] at h
  | some x =>
    obtain ⟨fs, l, r, n, rfl, hn, hpar, hl, hr⟩ := hs.cell (hin x rfl)
    cases l with
    | nil =>
      simp [RBTree.rightRotate, RBTree.right, RBTree.left, RBTree.deref, hn, hl, Shape.root] at h
    | node α y β =>
      obtain ⟨t1, e, hs1, hd, hm⟩ := rightRotate_shape hs
      rw [e] at h
      obtain rfl : t1 = t' := by simpa using h
      refine ⟨⟨_, hs1, ?_⟩, hd.keys, hm⟩
      simp [plug_addrs, Shape.addrs]

theorem setRed_kept {t t' : RBTree Key} {s : Shape} (hs : Shaped t s) {p : Ptr} {c : Bool}
    (h : t.setRed p c = some t') : Kept s t t' := by
  cases p with
  | none => simp [RBTree.setRed] at h
  | some x =>
    simp only [RBTree.setRed, Option.map_eq_some'] at h
    obtain ⟨n, hn, rfl⟩ := h
    refine ⟨⟨s, ⟨hs.root, rep_of_sameLinks (fun a _ => ?_) hs.rep, hs.nodup⟩, rfl⟩, fun a => ?_,
      ⟨rfl, rfl, rfl⟩⟩
    · unfold SameLinks
      by_cases ha : a = x
      · subst ha; simp [RBTree.store, hn, RBTNode.links]
      · simp [RBTree.store, ha]
    · by_cases ha : a = x
      · subst ha; simp [RBTree.store, hn]
      · simp [RBTree.store, ha]

theorem Keeps.refl_keeps {A : List Nat} {t : RBTree Key} (h : Holds A t) : Keeps A t t :=
  ⟨h, SameKeys.refl_keys t, SameMeta.refl_meta t⟩

theorem Keeps.trans_keeps {A : List Nat} {t t1 t2 : RBTree Key} (h1 : Keeps A t t1)
    (h2 : Keeps A t1 t2) : Keeps A t t2 :=
  ⟨h2.holds, h1.keys.trans_keys h2.keys, h1.same.trans_meta h2.same⟩

theorem Kept.keeps {s : Shape} {t t' : RBTree Key} (h : Kept s t t') : Keeps s.addrs t t' :=
  ⟨h.shape, h.keys, h.same⟩

theorem Holds.parent_in {A : List Nat} {t : RBTree Key} (hg : Holds A t) {p q : Ptr}
    (hp : InTree A p) (h : t.parent p = some q) : InTree A q := by
  obtain ⟨s, hs, rfl⟩ := hg; exact hs.parent_inTree hp h

theorem Holds.left_in {A : List Nat} {t : RBTree Key} (hg : Holds A t) {p q : Ptr}
    (hp : InTree A p) (h : t.left p = some q) : InTree A q := by
  obtain ⟨s, hs, rfl⟩ := hg; exact hs.left_inTree hp h

theorem Holds.right_in {A : List Nat} {t : RBTree Key} (hg : Holds A t) {p q : Ptr}
    (hp : InTree A p) (h : t.right p = some q) : InTree A q := by
  obtain ⟨s, hs, rfl⟩ := hg; exact hs.right_inTree hp h

theorem Holds.root {A : List Nat} {t : RBTree Key} (hg : Holds A t) : InTree A t.root_ := by
  obtain ⟨s, hs, rfl⟩ := hg; exact hs.root_inTree

theorem leftRotate_keeps {A : List Nat} {t t' : RBTree Key} (hg : Holds A t) {node : Ptr}
    (hin : InTree A node) (h : t.leftRotate node = some t') : Keeps A t t' := by
  obtain ⟨s, hs, rfl⟩ := hg; exact (leftRotate_kept hs hin h).keeps

theorem rightRotate_keeps {A : List Nat} {t t' : RBTree Key} (hg : Holds A t) {node : Ptr}
    (hin : InTree A node) (h : t.rightRotate node = some t') : Keeps A t t' := by
  obtain ⟨s, hs, rfl⟩ := hg; exact (rightRotate_kept hs hin h).keeps

theorem setRed_keeps {A : List Nat} {t t' : RBTree Key} (hg : Holds A t) {p : Ptr} {c : Bool}
    (h : t.setRed p c = some t') : Keeps A t t' := by
  obtain ⟨s, hs, rfl⟩ := hg; exact (setRed_kept hs h).keeps

theorem oppositeDadAndGrandpa_keeps {A : List Nat} {t : RBTree Key} (hg : Holds A t)
    {node parent grandparent : Ptr} {r : RBTree Key × Ptr × Ptr × Ptr}
    (hn : InTree A node) (hp : InTree A parent) (hgp : InTree A grandparent)
    (h : t.oppositeDadAndGrandpa node parent grandparent = some r) :
    Keeps A t r.1 ∧ InTree A r.2.1 ∧ InTree A r.2.2.1 ∧ InTree A r.2.2.2 := by
  simp only [RBTree.oppositeDadAndGrandpa, Option.bind_eq_bind, Option.bind_eq_some,
    Option.pure_def] at h
  obtain ⟨c1, -, r1, h1, c2, -, h2⟩ := h
  have k1 : Keeps A t r1.1 ∧ InTree A r1.2.1 ∧ InTree A r1.2.2.1 ∧ InTree A r1.2.2.2 := by
    split at h1
    · simp only [Option.bind_eq_some, Option.some.injEq] at h1
      obtain ⟨t1, e1, p1, e2, g1, e3, rfl⟩ := h1
      have k := leftRotate_keeps hg hp e1
      have hp1 := k.holds.parent_in hp e2
      exact ⟨k, hp, hp1, k.holds.parent_in hp1 e3⟩
    · simp only [Option.some.injEq] at h1
      subst h1
      exact ⟨Keeps.refl_keeps hg, hn, hp, hgp⟩
  split at h2
  · simp only [Option.bind_eq_some, Option.some.injEq] at h2
    obtain ⟨t2, e1, p2, e2, g2, e3, rfl⟩ := h2
    have k := rightRotate_keeps k1.1.holds k1.2.2.1 e1
    have hp2 := k.holds.parent_in k1.2.2.1 e2
    exact ⟨k1.1.trans_keeps k, k1.2.2.1, hp2, k.holds.parent_in hp2 e3⟩
  · simp only [Option.some.injEq] at h2
    subst h2
    exact k1

theorem sameSideDadAndGrandpa_keeps {A : List Nat} {t t' : RBTree Key} (hg : Holds A t)
    {node parent grandparent : Ptr} (hgp : InTree A grandparent)
    (h : t.sameSideDadAndGrandpa node parent grandparent = some t') : Keeps A t t' := by
  simp only [RBTree.sameSideDadAndGrandpa, Option.bind_eq_bind, Option.bind_eq_some,
    Option.pure_def] at h
  obtain ⟨c1, -, t1, h1, c2, -, h2⟩ := h
  have k1 : Keeps A t t1 := by
    split at h1
    · simp only [Option.bind_eq_some] at h1
      obtain ⟨ta, e1, tb, e2, e3⟩ := h1
      have ka := setRed_keeps hg e1
      have kb := setRed_keeps ka.holds e2
      exact (ka.trans_keeps kb).trans_keeps (rightRotate_keeps kb.holds hgp e3)
    · simp only [Option.some.injEq] at h1
      subst h1; exact Keeps.refl_keeps hg
  split at h2
  · simp only [Option.bind_eq_some] at h2
    obtain ⟨ta, e1, tb, e2, e3⟩ := h2
    have ka := setRed_keeps k1.holds e1
    have kb := setRed_keeps ka.holds e2
    exact k1.trans_keeps ((ka.trans_keeps kb).trans_keeps (leftRotate_keeps kb.holds hgp e3))
  · simp only [Option.some.injEq] at h2
    subst h2; exact k1

theorem blackUncleFixup_keeps {A : List Nat} {t t' : RBTree Key} (hg : Holds A t)
    {node : Ptr} (hn : InTree A node) (h : t.blackUncleFixup node = some t') :
    Keeps A t t' := by
  simp only [RBTree.blackUncleFixup, Option.bind_eq_bind, Option.bind_eq_some] at h
  obtain ⟨p, e1, g, e2, r, e3, t1, e4, e5⟩ := h
  have hp := hg.parent_in hn e1
  have hgp := hg.parent_in hp e2
  obtain ⟨k1, -, -, hg1⟩ := oppositeDadAndGrandpa_keeps hg hn hp hgp e3
  have k2 := sameSideDadAndGrandpa_keeps k1.holds hg1 e4
  exact (k1.trans_keeps k2).trans_keeps (setRed_keeps k2.holds e5)

theorem insertFixup_keeps {A : List Nat} (fuel : Nat) :
    (∀ {t t' : RBTree Key} {node : Ptr}, Holds A t → InTree A node →
      t.insertFixup fuel node = some t' → Keeps A t t') ∧
    (∀ {t t' : RBTree Key} {node : Ptr}, Holds A t → InTree A node →
      t.redUncleChangeColors fuel node = some t' → Keeps A t t') ∧
    (∀ {t t' : RBTree Key} {node : Ptr}, Holds A t → InTree A node →
      t.doubleRedFixup fuel node = some t' → Keeps A t t') := by
  induction fuel with
  | zero =>
    refine ⟨?_, ?_, ?_⟩ <;> intro t t' node _ _ h
    · simp [RBTree.insertFixup] at h
    · simp [RBTree.redUncleChangeColors] at h
    · simp [RBTree.doubleRedFixup] at h
  | succ fuel ih =>
    obtain ⟨ih1, ih2, ih3⟩ := ih
    refine ⟨?_, ?_, ?_⟩ <;> intro t t' node hg hn h
    · rw [RBTree.insertFixup] at h
      split at h
      · simp only [Option.some.injEq] at h; subst h; exact Keeps.refl_keeps hg
      simp only [Option.bind_eq_bind, Option.bind_eq_some] at h
      obtain ⟨p, e1, h⟩ := h
      split at h
      · simp only [Option.some.injEq] at h; subst h; exact Keeps.refl_keeps hg
      simp only [Option.bind_eq_some] at h
      obtain ⟨pr, e2, h⟩ := h
      split at h
      · simp only [Option.some.injEq] at h; subst h; exact Keeps.refl_keeps hg
      simp only [Option.bind_eq_some] at h
      obtain ⟨ru, e3, h⟩ := h
      split at h
      · exact ih2 hg hn h
      · exact blackUncleFixup_keeps hg hn h
    · rw [RBTree.redUncleChangeColors] at h
      simp only [Option.bind_eq_bind, Option.bind_eq_some] at h
      obtain ⟨p, e1, t1, e2, p2, e3, g, e4, t2, e5, ul, e6, t3, e7, ur, e8, t4, e9, p3, e10,
        g3, e11, h⟩ := h
      have k1 := setRed_keeps hg e2
      have k2 := setRed_keeps k1.holds e5
      have k3 : Keeps A t2 t3 := by
        split at e7
        · simp only [Option.bind_eq_some] at e7
          obtain ⟨_, _, _, _, _, _, e⟩ := e7
          exact setRed_keeps k2.holds e
        · simp only [Option.some.injEq] at e7; subst e7; exact Keeps.refl_keeps k2.holds
      have k4 : Keeps A t3 t4 := by
        split at e9
        · simp only [Option.bind_eq_some] at e9
          obtain ⟨_, _, _, _, _, _, e⟩ := e9
          exact setRed_keeps k3.holds e
        · simp only [Option.some.injEq] at e9; subst e9; exact Keeps.refl_keeps k3.holds
      have k := ((k1.trans_keeps k2).trans_keeps k3).trans_keeps k4
      split at h
      · exact k.trans_keeps (setRed_keeps k4.holds h)
      · exact k.trans_keeps (ih3 k4.holds hn h)
    · rw [RBTree.doubleRedFixup] at h
      simp only [Option.bind_eq_bind, Option.bind_eq_some] at h
      obtain ⟨c, -, h⟩ := h
      split at h
      · simp only [Option.bind_eq_some] at h
        obtain ⟨dr, -, t1, e1, p, e2, h⟩ := h
        have k1 : Keeps A t t1 := by
          split at e1
          · exact ih1 hg hn e1
          · simp only [Option.some.injEq] at e1; subst e1; exact Keeps.refl_keeps hg
        exact k1.trans_keeps (ih3 k1.holds (k1.holds.parent_in hn e2) h)
      · simp only [Option.some.injEq] at h; subst h; exact Keeps.refl_keeps hg

theorem swapRed_keeps {A : List Nat} {t t' : RBTree Key} (hg : Holds A t) {a b : Ptr}
    (h : t.swapRed a b = some t') : Keeps A t t' := by
  simp only [RBTree.swapRed, Option.bind_eq_bind, Option.bind_eq_some] at h
  obtain ⟨_, -, _, -, t1, e1, e2⟩ := h
  have k1 := setRed_keeps hg e1
  exact k1.trans_keeps (setRed_keeps k1.holds e2)

theorem rNephewsRedLNephewsAny_keeps {A : List Nat} {t t' : RBTree Key} (hg : Holds A t)
    {node : Ptr} (hn : InTree A node) (h : t.rNephewsRedLNephewsAny node = some t') :
    Keeps A t t' := by
  simp only [RBTree.rNephewsRedLNephewsAny, Option.bind_eq_bind, Option.bind_eq_some] at h
  obtain ⟨_, -, _, -, t1, e1, _, -, t2, e2, t3, e3, e4⟩ := h
  have k1 := setRed_keeps hg e1
  have k2 := setRed_keeps k1.holds e2
  have k3 := setRed_keeps k2.holds e3
  exact ((k1.trans_keeps k2).trans_keeps k3).trans_keeps (leftRotate_keeps k3.holds hn e4)

theorem mirrorRNephewsRedLNephewsAny_keeps {A : List Nat} {t t' : RBTree Key}
    (hg : Holds A t) {node : Ptr} (hn : InTree A node)
    (h : t.mirrorRNephewsRedLNephewsAny node = some t') : Keeps A t t' := by
  simp only [RBTree.mirrorRNephewsRedLNephewsAny, Option.bind_eq_bind, Option.bind_eq_some] at h
  obtain ⟨_, -, _, -, t1, e1, _, -, t2, e2, t3, e3, e4⟩ := h
  have k1 := setRed_keeps hg e1
  have k2 := setRed_keeps k1.holds e2
  have k3 := setRed_keeps k2.holds e3
  exact ((k1.trans_keeps k2).trans_keeps k3).trans_keeps (rightRotate_keeps k3.holds hn e4)

theorem lNephewsRedRNephewsBlack_keeps {A : List Nat} {t t' : RBTree Key} (hg : Holds A t)
    {node : Ptr} (hn : InTree A node) (h : t.lNephewsRedRNephewsBlack node = some t') :
    Keeps A t t' := by
  simp only [RBTree.lNephewsRedRNephewsBlack, Option.bind_eq_bind, Option.bind_eq_some] at h
  obtain ⟨_, -, _, -, t1, e1, rs, e2, t2, e3, c, -, h⟩ := h
  have k1 := swapRed_keeps hg e1
  have k2 := rightRotate_keeps k1.holds (k1.holds.right_in hn e2) e3
  have k := k1.trans_keeps k2
  split at h
  · exact k.trans_keeps (rNephewsRedLNephewsAny_keeps k2.holds hn h)
  · exact k.trans_keeps (mirrorRNephewsRedLNephewsAny_keeps k2.holds hn h)

theorem mirrorLNephewsRedRNephewsBlack_keeps {A : List Nat} {t t' : RBTree Key}
    (hg : Holds A t) {node : Ptr} (hn : InTree A node)
    (h : t.mirrorLNephewsRedRNephewsBlack node = some t') : Keeps A t t' := by
  simp only [RBTree.mirrorLNephewsRedRNephewsBlack, Option.bind_eq_bind,
    Option.bind_eq_some] at h
  obtain ⟨_, -, _, -, t1, e1, ls, e2, t2, e3, c, -, h⟩ := h
  have k1 := swapRed_keeps hg e1
  have k2 := leftRotate_keeps k1.holds (k1.holds.left_in hn e2) e3
  have k := k1.trans_keeps k2
  split at h
  · exact k.trans_keeps (rNephewsRedLNephewsAny_keeps k2.holds hn h)
  · exact k.trans_keeps (mirrorRNephewsRedLNephewsAny_keeps k2.holds hn h)

theorem eraseFixup_keeps {A : List Nat} (fuel : Nat) :
    (∀ {t t' : RBTree Key} {node : Ptr}, Holds A t → InTree A node →
      t.eraseFixup fuel node = some t' → Keeps A t t') ∧
    (∀ {t t' : RBTree Key} {node : Ptr}, Holds A t → InTree A node →
      t.redSibling fuel node = some t' → Keeps A t t') ∧
    (∀ {t t' : RBTree Key} {node : Ptr}, Holds A t → InTree A node →
      t.mirrorRedSibling fuel node = some t' → Keeps A t t') ∧
    (∀ {t t' : RBTree Key} {node : Ptr}, Holds A t → InTree A node →
      t.lNephewsBlackRNephewsBlack fuel node = some t' → Keeps A t t') ∧
    (∀ {t t' : RBTree Key} {node : Ptr}, Holds A t → InTree A node →
      t.eraseFixupAncestors fuel node = some t' → Keeps A t t') ∧
    (∀ {t t' : RBTree Key} {node : Ptr}, Holds A t → InTree A node →
      t.mirrorLNephewsBlackRNephewsBlack fuel node = some t' → Keeps A t t') := by
  induction fuel with
  | zero =>
    refine ⟨?_, ?_, ?_, ?_, ?_, ?_⟩ <;> intro t t' node _ _ h
    · simp [RBTree.eraseFixup] at h
    · simp [RBTree.redSibling] at h
    · simp [RBTree.mirrorRedSibling] at h
    · simp [RBTree.lNephewsBlackRNephewsBlack] at h
    · simp [RBTree.eraseFixupAncestors] at h
    · simp [RBTree.mirrorLNephewsBlackRNephewsBlack] at h
  | succ fuel ih =>
    obtain ⟨ih1, ih2, ih3, ih4, ih5, ih6⟩ := ih
    refine ⟨?_, ?_, ?_, ?_, ?_, ?_⟩ <;> intro t t' node hg hn h
    · rw [RBTree.eraseFixup] at h
      obtain ⟨c, -, h⟩ := Option.bind_eq_some.1 h
      split at h
      · exact lNephewsRedRNephewsBlack_keeps hg hn h
      obtain ⟨c, -, h⟩ := Option.bind_eq_some.1 h
      split at h
      · exact mirrorLNephewsRedRNephewsBlack_keeps hg hn h
      obtain ⟨c, -, h⟩ := Option.bind_eq_some.1 h
      split at h
      · exact ih4 hg hn h
      obtain ⟨c, -, h⟩ := Option.bind_eq_some.1 h
      split at h
      · exact ih6 hg hn h
      obtain ⟨c, -, h⟩ := Option.bind_eq_some.1 h
      split at h
      · exact rNephewsRedLNephewsAny_keeps hg hn h
      obtain ⟨c, -, h⟩ := Option.bind_eq_some.1 h
      split at h
      · exact mirrorRNephewsRedLNephewsAny_keeps hg hn h
      obtain ⟨c, -, h⟩ := Option.bind_eq_some.1 h
      split at h
      · exact ih2 hg hn h
      obtain ⟨c, -, h⟩ := Option.bind_eq_some.1 h
      split at h
      · exact ih3 hg hn h
      · simp only [Option.some.injEq] at h; subst h; exact Keeps.refl_keeps hg
    · rw [RBTree.redSibling] at h
      simp only [Option.bind_eq_bind, Option.bind_eq_some] at h
      obtain ⟨_, -, t1, e1, t2, e2, h⟩ := h
      have k1 := swapRed_keeps hg e1
      have k2 := leftRotate_keeps k1.holds hn e2
      exact (k1.trans_keeps k2).trans_keeps (ih1 k2.holds hn h)
    · rw [RBTree.mirrorRedSibling] at h
      simp only [Option.bind_eq_bind, Option.bind_eq_some] at h
      obtain ⟨_, -, t1, e1, t2, e2, h⟩ := h
      have k1 := swapRed_keeps hg e1
      have k2 := rightRotate_keeps k1.holds hn e2
      exact (k1.trans_keeps k2).trans_keeps (ih1 k2.holds hn h)
    · rw [RBTree.lNephewsBlackRNephewsBlack] at h
      simp only [Option.bind_eq_bind, Option.bind_eq_some] at h
      obtain ⟨_, -, t1, e1, _, -, t2, e2, np, e3, h⟩ := h
      have k1 := setRed_keeps hg e1
      have k2 := setRed_keeps k1.holds e2
      split at h
      · exact (k1.trans_keeps k2).trans_keeps (ih5 k2.holds (k2.holds.parent_in hn e3) h)
      · simp only [Option.some.injEq] at h; subst h; exact k1.trans_keeps k2
    · rw [RBTree.eraseFixupAncestors] at h
      split at h
      · simp only [Option.some.injEq] at h; subst h; exact Keeps.refl_keeps hg
      simp only [Option.bind_eq_bind, Option.bind_eq_some] at h
      obtain ⟨t1, e1, pp, e2, h⟩ := h
      have k1 := ih1 hg hn e1
      exact k1.trans_keeps (ih5 k1.holds (k1.holds.parent_in hn e2) h)
    · rw [RBTree.mirrorLNephewsBlackRNephewsBlack] at h
      simp only [Option.bind_eq_bind, Option.bind_eq_some] at h
      obtain ⟨_, -, t1, e1, _, -, t2, e2, np, e3, h⟩ := h
      have k1 := setRed_keeps hg e1
      have k2 := setRed_keeps k1.holds e2
      split at h
      · exact (k1.trans_keeps k2).trans_keeps (ih1 k2.holds (k2.holds.parent_in hn e3) h)
      · simp only [Option.some.injEq] at h; subst h; exact k1.trans_keeps k2

theorem plug_append (gs hs : List Frame) (u : Shape) :
    plug (gs ++ hs) u = plug hs (plug gs u) := by
  induction gs generalizing u with
  | nil => rfl
  | cons g gs ih => simp [plug, ih]

theorem ctxBefore_append (gs hs : List Frame) :
    ctxBefore (gs ++ hs) = ctxBefore hs ++ ctxBefore gs := by
  induction gs with
  | nil => simp [ctxBefore]
  | cons g gs ih => simp [ctxBefore, ih]

theorem ctxAfter_append (gs hs : List Frame) :
    ctxAfter (gs ++ hs) = ctxAfter gs ++ ctxAfter hs := by
  induction gs with
  | nil => simp [ctxAfter]
  | cons g gs ih => simp [ctxAfter, ih]

theorem holeParent_append_ne (par : Ptr) {gs : List Frame} (hs : List Frame) (h : gs ≠ []) :
    holeParent par (gs ++ hs) = holeParent none gs := by
  cases gs with
  | nil => exact absurd rfl h
  | cons g gs => rfl

theorem descend_plug {t : RBTree Key} {key : Key} {par : Ptr} {s : Shape}
    (hr : Rep t.mem par s) : plug (descend t key s) .nil = s := by
  induction s generalizing par with
  | nil => rfl
  | node l a r ihl ihr =>
    obtain ⟨n, hn, -, -, -, hL, hR⟩ := hr
    simp only [descend, hn]
    split
    · rw [plug_append, ihl hL]; simp [plug, Frame.fill]
    · rw [plug_append, ihr hR]; simp [plug, Frame.fill]

theorem descend_head {t : RBTree Key} {key : Key} {par : Ptr} {s : Shape}
    (hr : Rep t.mem par s) {f : Frame} {gs : List Frame} (h : descend t key s = f :: gs) :
    ∃ n, t.mem f.a = some n ∧ f.isLeft = t.comparator_ key n.key_ := by
  induction s generalizing par f gs with
  | nil => simp [descend] at h
  | node l a r ihl ihr =>
    obtain ⟨n, hn, -, -, -, hL, hR⟩ := hr
    simp only [descend, hn] at h
    split at h
    · rename_i hc
      cases hd : descend t key l with
      | nil => rw [hd] at h; simp at h; obtain ⟨rfl, -⟩ := h; exact ⟨n, hn, by simp [hc]⟩
      | cons g gs' => rw [hd] at h; simp at h; obtain ⟨rfl, -⟩ := h; exact ihl hL hd
    · rename_i hc
      cases hd : descend t key r with
      | nil =>
        rw [hd] at h; simp at h; obtain ⟨rfl, -⟩ := h
        exact ⟨n, hn, by simp at hc; simp [hc]⟩
      | cons g gs' => rw [hd] at h; simp at h; obtain ⟨rfl, -⟩ := h; exact ihr hR hd

theorem insertNodeLoop_eq {t : RBTree Key} {key : Key} {par : Ptr} {s : Shape}
    (hr : Rep t.mem par s) {fuel : Nat} (hf : s.height ≤ fuel) (par0 : Ptr) :
    t.insertNodeLoop key fuel s.root par0 = some (holeParent par0 (descend t key s)) := by
  induction s generalizing par fuel par0 with
  | nil => cases fuel <;> simp [RBTree.insertNodeLoop, Shape.root, descend, holeParent]
  | node l a r ihl ihr =>
    obtain ⟨n, hn, -, hl, hr', hL, hR⟩ := hr
    cases fuel with
    | zero => simp [Shape.height] at hf
    | succ fuel =>
      simp only [Shape.height, Nat.add_le_add_iff_right, max_le_iff] at hf
      simp only [Shape.root, RBTree.insertNodeLoop, hn, descend]
      split
      · rw [hl, ihl hL hf.1]
        cases hd : descend t key l <;> simp [holeParent]
      · rw [hr', ihr hR hf.2]
        cases hd : descend t key r <;> simp [holeParent]

theorem View.key_of {t t0 : RBTree Key} {cells : List (Nat × RBTNode Key)} {r : Ptr} {a : Nat}
    {n : RBTNode Key} (hv : View t cells t0 r) (h : overlay cells t0.mem a = some n) :
    t.key (some a) = some n.key_ := by
  simp [RBTree.key, RBTree.deref, hv.1, h]

/-- `insertNode` links a fresh, unlinked cell at the null position the comparator descent
ends at. -/
theorem insertNode_shape {t : RBTree Key} {s : Shape} (hs : Shaped t s) {a0 : Nat}
    {n0 : RBTNode Key} (h0 : t.mem a0 = some n0) (hl0 : n0.left_ = none)
    (hr0 : n0.right_ = none) (ha0 : a0 ∉ s.addrs) (hne : s ≠ .nil) {fuel : Nat}
    (hf : s.height ≤ fuel) :
    ∃ t', t.insertNode fuel t.root_ (some a0) = some t' ∧
      s = plug (descend t n0.key_ s) .nil ∧
      Shaped t' (plug (descend t n0.key_ s) (.node .nil a0 .nil)) ∧
      SameData t t' ∧ SameMeta t t' := by
  have hplug : plug (descend t n0.key_ s) .nil = s := descend_plug hs.rep
  cases hd : descend t n0.key_ s with
  | nil => rw [hd] at hplug; exact absurd hplug.symm hne
  | cons f gs =>
    rw [hd] at hplug
    obtain ⟨np, hnp, hside⟩ := descend_head hs.rep hd
    have hnd := hs.nodup
    rw [← hplug, plug_addrs] at hnd ha0
    simp only [Shape.addrs, List.append_nil] at hnd ha0
    have hpa : f.a ≠ a0 := by
      rintro h
      apply ha0
      rw [← h]
      cases hf' : f.isLeft <;> simp [ctxBefore, ctxAfter, hf']
    have v0 := View.base t
    have e0 : overlay [] t.mem a0 = some n0 := h0
    unfold RBTree.insertNode
    simp only [Option.bind_eq_bind]
    rw [v0.key_of e0, Option.some_bind, hs.root, insertNodeLoop_eq hs.rep hf, Option.some_bind, hd]
    simp only [holeParent]
    obtain ⟨t1, e1, v1⟩ := v0.setParent e0 (some f.a)
    rw [e1, Option.some_bind, if_neg (by simp)]
    have ea : overlay [(a0, { n0 with parent_ := some f.a })] t.mem a0 =
        some { n0 with parent_ := some f.a } := by simp [overlay]
    have ep : overlay [(a0, { n0 with parent_ := some f.a })] t.mem f.a = some np := by
      simp [overlay, hpa, hnp]
    rw [v1.key_of ea, Option.some_bind, v1.key_of ep, Option.some_bind]
    obtain ⟨t2, e2, cs2, v2, hc2⟩ : ∃ t2, (if t1.comparator_ n0.key_ np.key_ = true then
          t1.setLeft (some f.a) (some a0) else t1.setRight (some f.a) (some a0)) = some t2 ∧
        ∃ cs2, View t2 cs2 t t.root_ ∧ ∀ z, overlay cs2 t.mem z =
          if z = f.a then some (if f.isLeft then { np with left_ := some a0 }
            else { np with right_ := some a0 })
          else if z = a0 then some { n0 with parent_ := some f.a } else t.mem z := by
      rw [v1.2.2.2.2, ← hside]
      cases hfl : f.isLeft
      · obtain ⟨t2, e2, v2⟩ := v1.setRight ep (some a0)
        exact ⟨t2, by simpa using e2, _, v2, fun z => by simp [overlay]⟩
      · obtain ⟨t2, e2, v2⟩ := v1.setLeft ep (some a0)
        exact ⟨t2, by simpa using e2, _, v2, fun z => by simp [overlay]⟩
    have hmem : ∀ z, t2.mem z = if z = f.a then some (if f.isLeft then { np with left_ := some a0 }
            else { np with right_ := some a0 })
          else if z = a0 then some { n0 with parent_ := some f.a } else t.mem z := by
      intro z; rw [v2.1]; exact hc2 z
    refine ⟨t2, e2, hplug.symm, ⟨?_, ?_, ?_⟩, ?_, v2.sameMeta⟩
    · rw [v2.2.1, hs.root, ← hplug]; exact plug_root_cons _ _ _ _
    · obtain ⟨hctx, -⟩ := (rep_plug (f :: gs) .nil).1 (hplug ▸ hs.rep)
      refine (rep_plug (f :: gs) _).2 ⟨?_, ?_⟩
      · refine repCtx_hole hctx (fun a ha hne => ?_) hnd (fun n hn => ?_)
        · rw [hmem, if_neg hne, if_neg]
          rintro rfl
          exact ha0 (by simpa using ha)
        · rw [hnp] at hn
          obtain rfl : np = n := by simpa using hn
          rw [hmem, if_pos rfl]; simp [Shape.root]
      · exact ⟨{ n0 with parent_ := some f.a }, by rw [hmem, if_neg (Ne.symm hpa), if_pos rfl],
          rfl, hl0, hr0, trivial, trivial⟩
    · rw [plug_addrs]
      simp only [Shape.addrs, List.nil_append, List.append_assoc, List.singleton_append]
      rw [List.nodup_append] at hnd ⊢
      refine ⟨hnd.1, List.nodup_cons.2 ⟨fun h => ha0 (by simp [h]), hnd.2.1⟩, ?_⟩
      intro a ha hb
      rcases List.mem_cons.1 hb with rfl | hb
      · exact ha0 (by simp [ha])
      · exact hnd.2.2 ha hb
    · intro a
      rw [hmem]
      by_cases h1 : a = f.a
      · subst h1; rw [if_pos rfl, hnp]; cases f.isLeft <;> simp [RBTNode.data]
      · rw [if_neg h1]
        by_cases h2 : a = a0
        · subst h2; simp [h0, RBTNode.data]
        · rw [if_neg h2]

theorem keysAt_nil (t : RBTree Key) : keysAt t [] = [] := rfl

theorem keysAt_append (t : RBTree Key) (A B : List Nat) :
    keysAt t (A ++ B) = keysAt t A ++ keysAt t B := by
  simp [keysAt, List.filterMap_append]

theorem keysAt_cons {t : RBTree Key} {a : Nat} {n : RBTNode Key} (h : t.mem a = some n)
    (A : List Nat) : keysAt t (a :: A) = n.key_ :: keysAt t A := by
  simp [keysAt, List.filterMap_cons, h]

theorem mem_keysAt {t : RBTree Key} {a : Nat} {n : RBTNode Key} {A : List Nat}
    (h : t.mem a = some n) (ha : a ∈ A) : n.key_ ∈ keysAt t A := by
  simp only [keysAt, List.mem_filterMap]
  exact ⟨a, ha, by simp [h]⟩

theorem keysAt_congr {t t' : RBTree Key} (h : SameKeys t t') (A : List Nat) :
    keysAt t' A = keysAt t A := by
  simp only [keysAt]
  congr 1
  funext a
  exact h a

theorem inorder_eq {t : RBTree Key} {par : Ptr} {s : Shape} (hr : Rep t.mem par s)
    {fuel : Nat} (hf : s.height ≤ fuel) :
    t.inorder fuel s.root = some (keysAt t s.addrs) := by
  induction s generalizing par fuel with
  | nil => cases fuel <;> simp [RBTree.inorder, Shape.root, keysAt, Shape.addrs]
  | node l a r ihl ihr =>
    obtain ⟨n, hn, -, hl, hr', hL, hR⟩ := hr
    cases fuel with
    | zero => simp [Shape.height] at hf
    | succ fuel =>
      simp only [Shape.height, Nat.add_le_add_iff_right, max_le_iff] at hf
      show t.inorder (fuel + 1) (some a) = _
      simp only [RBTree.inorder, hn, hl, hr']
      rw [ihl hL hf.1, ihr hR hf.2]
      simp [Shape.addrs, keysAt_append, keysAt_cons hn]

theorem inorderNodes_eq {t : RBTree Key} {par : Ptr} {s : Shape} (hr : Rep t.mem par s)
    {fuel : Nat} (hf : s.height ≤ fuel) :
    t.inorderNodes fuel s.root = some s.addrs := by
  induction s generalizing par fuel with
  | nil => cases fuel <;> simp [RBTree.inorderNodes, Shape.root, Shape.addrs]
  | node l a r ihl ihr =>
    obtain ⟨n, hn, -, hl, hr', hL, hR⟩ := hr
    cases fuel with
    | zero => simp [Shape.height] at hf
    | succ fuel =>
      simp only [Shape.height, Nat.add_le_add_iff_right, max_le_iff] at hf
      show t.inorderNodes (fuel + 1) (some a) = _
      simp only [RBTree.inorderNodes, hn, hl, hr']
      rw [ihl hL hf.1, ihr hR hf.2]
      simp [Shape.addrs]

theorem Shape.height_le_length (s : Shape) : s.height ≤ s.addrs.length := by
  induction s with
  | nil => simp [Shape.height]
  | node l a r ihl ihr =>
    simp only [Shape.height, Shape.addrs, List.length_append, List.length_cons]
    omega

theorem length_le_of_nodup_lt {A : List Nat} {n : Nat} (hnd : A.Nodup) (h : ∀ a ∈ A, a < n) :
    A.length ≤ n := by
  have hsub : A ⊆ List.range n := fun a ha => List.mem_range.2 (h a ha)
  have := (List.subperm_of_subset hnd hsub).length_le
  simpa using this

/-- The comparator descent for `key` splits a sorted in-order sequence: everything before the
final position is not greater than `key`, everything after it is greater. -/
theorem descend_sorted {t : RBTree Key} (hw : StrictWeak t.comparator_) (key : Key) {par : Ptr}
    {s : Shape} (hr : Rep t.mem par s)
    (hsort : (keysAt t s.addrs).Pairwise fun a b => t.comparator_ b a = false) :
    (∀ k ∈ keysAt t (ctxBefore (descend t key s)), t.comparator_ key k = false) ∧
    (∀ k ∈ keysAt t (ctxAfter (descend t key s)), t.comparator_ key k = true) := by
  induction s generalizing par with
  | nil => simp [descend, ctxBefore, ctxAfter, keysAt]
  | node l a r ihl ihr =>
    obtain ⟨n, hn, -, -, -, hL, hR⟩ := hr
    simp only [Shape.addrs, keysAt_append, keysAt_cons hn, List.pairwise_append,
      List.pairwise_cons, List.mem_cons] at hsort
    obtain ⟨hsl, ⟨hra, hsr⟩, hlr⟩ := hsort
    simp only [descend, hn]
    split
    · rename_i hc
      obtain ⟨ih1, ih2⟩ := ihl hL hsl
      simp only [ctxBefore_append, ctxAfter_append, ctxBefore, ctxAfter, if_true,
        List.nil_append, List.append_nil, keysAt_append, keysAt_cons hn, List.mem_append,
        List.mem_cons]
      refine ⟨ih1, ?_⟩
      rintro k (hk | rfl | hk)
      · exact ih2 k hk
      · exact hc
      · rcases hw.negTrans key k n.key_ hc with h | h
        · exact h
        · rw [hra k hk] at h; exact absurd h (by simp)
    · rename_i hc
      obtain ⟨ih1, ih2⟩ := ihr hR hsr
      simp only [ctxBefore_append, ctxAfter_append, ctxBefore, ctxAfter, Bool.false_eq_true,
        if_false, List.nil_append, List.append_nil, keysAt_append, keysAt_cons hn, keysAt_nil,
        List.mem_append, List.mem_cons, List.not_mem_nil, or_false]
      refine ⟨?_, ih2⟩
      rintro k ((hk | rfl) | hk)
      · by_contra hcon
        simp only [Bool.not_eq_false] at hcon
        rcases hw.negTrans key n.key_ k hcon with h | h
        · exact hc h
        · have := hlr k hk n.key_ (Or.inl rfl)
          rw [this] at h; exact absurd h (by simp)
      · simpa using hc
      · exact ih1 k hk

/-- On a sorted tree the comparator descent of `findNode` finds a node with an equivalent key
whenever one is stored, and returns the null pointer only when none is. -/
theorem findNodeLoop_spec {t : RBTree Key} (hw : StrictWeak t.comparator_) (key : Key)
    {par : Ptr} {s : Shape} (hr : Rep t.mem par s)
    (hsort : (keysAt t s.addrs).Pairwise fun a b => t.comparator_ b a = false)
    {fuel : Nat} (hf : s.height ≤ fuel) :
    ∃ r, t.findNodeLoop key fuel s.root = some r ∧
      (∀ a, r = some a → a ∈ s.addrs ∧ ∃ n, t.mem a = some n ∧ Equiv t.comparator_ key n.key_) ∧
      (r = none → ∀ k ∈ keysAt t s.addrs, ¬ Equiv t.comparator_ key k) := by
  induction s generalizing par fuel with
  | nil =>
    refine ⟨none, ?_, ?_, ?_⟩
    · cases fuel <;> simp [RBTree.findNodeLoop, Shape.root]
    · simp
    · simp [keysAt, Shape.addrs]
  | node l a r ihl ihr =>
    obtain ⟨n, hn, -, hl, hr', hL, hR⟩ := hr
    simp only [Shape.addrs, keysAt_append, keysAt_cons hn, List.pairwise_append,
      List.pairwise_cons, List.mem_cons] at hsort
    obtain ⟨hsl, ⟨hra, hsr⟩, hlr⟩ := hsort
    cases fuel with
    | zero => simp [Shape.height] at hf
    | succ fuel =>
      simp only [Shape.height, Nat.add_le_add_iff_right, max_le_iff] at hf
      show ∃ r', t.findNodeLoop key (fuel + 1) (some a) = some r' ∧ _
      simp only [RBTree.findNodeLoop, hn, Shape.addrs, keysAt_append, keysAt_cons hn,
        List.mem_append, List.mem_cons]
      by_cases h1 : t.comparator_ key n.key_ = true
      · rw [if_pos h1, hl]
        obtain ⟨r', e, hfound, hnone⟩ := ihl hL hsl hf.1
        refine ⟨r', e, fun b hb => ?_, fun hb k hk => ?_⟩
        · obtain ⟨h2, h3⟩ := hfound b hb
          exact ⟨Or.inl h2, h3⟩
        · rcases hk with hk | rfl | hk
          · exact hnone hb k hk
          · intro he; rw [he.1] at h1; exact absurd h1 (by simp)
          · intro he
            rcases hw.negTrans key k n.key_ h1 with h | h
            · rw [he.1] at h; exact absurd h (by simp)
            · rw [hra k hk] at h; exact absurd h (by simp)
      · rw [if_neg h1]
        by_cases h2 : t.comparator_ n.key_ key = true
        · rw [if_pos h2, hr']
          obtain ⟨r', e, hfound, hnone⟩ := ihr hR hsr hf.2
          refine ⟨r', e, fun b hb => ?_, fun hb k hk => ?_⟩
          · obtain ⟨h3, h4⟩ := hfound b hb
            exact ⟨Or.inr (Or.inr h3), h4⟩
          · rcases hk with hk | rfl | hk
            · intro he
              rcases hw.negTrans n.key_ k key h2 with h | h
              · rw [hlr k hk n.key_ (Or.inl rfl)] at h; exact absurd h (by simp)
              · rw [he.2] at h; exact absurd h (by simp)
            · intro he; rw [he.2] at h2; exact absurd h2 (by simp)
            · exact hnone hb k hk
        · rw [if_neg h2]
          refine ⟨some a, rfl, fun b hb => ?_, fun hb => by simp at hb⟩
          simp only [Option.some.injEq] at hb
          subst hb
          exact ⟨Or.inr (Or.inl rfl), n, hn, by simpa using h1, by simpa using h2⟩

theorem find_spec {t : RBTree Key} {s : Shape} (hw : StrictWeak t.comparator_)
    (hs : Shaped t s) (hsort : SortedAt t s.addrs) (key : Key) {fuel : Nat}
    (hf : s.height ≤ fuel) :
    ∃ r, t.find fuel key = some r ∧
      (∀ a, r = some a → a ∈ s.addrs ∧
        ∃ e, t.key (some a) = some e ∧ Equiv t.comparator_ key e) ∧
      (r = none ↔ ∀ e ∈ keysAt t s.addrs, ¬ Equiv t.comparator_ key e) ∧
      t.contains fuel key = some (decide (r ≠ none)) := by
  obtain ⟨r, e, hfound, hnone⟩ := findNodeLoop_spec hw key hs.rep hsort hf
  rw [← hs.root] at e
  refine ⟨r, ?_, ?_, ⟨hnone, fun h => ?_⟩, ?_⟩
  · simp only [RBTree.find, RBTree.findNode, e, Option.map_some']
    cases r <;> simp
  · intro a ha
    obtain ⟨h1, n, hn, h2⟩ := hfound a ha
    exact ⟨h1, n.key_, by simp [RBTree.key, RBTree.deref, hn], h2⟩
  · cases r with
    | none => rfl
    | some a =>
      obtain ⟨h1, n, hn, h2⟩ := hfound a rfl
      exact absurd h2 (h n.key_ (mem_keysAt hn h1))
  · simp [RBTree.contains, RBTree.findNode, e]

theorem read_parent {t : RBTree Key} {a : Nat} {n : RBTNode Key} (h : t.mem a = some n) :
    t.parent (some a) = some n.parent_ := by simp [RBTree.parent, RBTree.deref, h]

theorem read_left {t : RBTree Key} {a : Nat} {n : RBTNode Key} (h : t.mem a = some n) :
    t.left (some a) = some n.left_ := by simp [RBTree.left, RBTree.deref, h]

theorem read_right {t : RBTree Key} {a : Nat} {n : RBTNode Key} (h : t.mem a = some n) :
    t.right (some a) = some n.right_ := by simp [RBTree.right, RBTree.deref, h]

theorem read_red {t : RBTree Key} {a : Nat} {n : RBTNode Key} (h : t.mem a = some n) :
    t.red (some a) = some n.red_ := by simp [RBTree.red, RBTree.deref, h]

theorem read_key {t : RBTree Key} {a : Nat} {n : RBTNode Key} (h : t.mem a = some n) :
    t.key (some a) = some n.key_ := by simp [RBTree.key, RBTree.deref, h]

/-- The cell of the node at the position of a path. -/
theorem Shaped.focus {t : RBTree Key} {fs : List Frame} {l r : Shape} {y : Nat}
    (hs : Shaped t (plug fs (.node l y r))) :
    ∃ n, t.mem y = some n ∧ n.parent_ = holeParent none fs ∧ n.left_ = l.root ∧
      n.right_ = r.root ∧ Rep t.mem (some y) l ∧ Rep t.mem (some y) r := by
  obtain ⟨-, n, hn, hp, hl, hr, hL, hR⟩ := (rep_plug fs _).1 hs.rep
  exact ⟨n, hn, hp, hl, hr, hL, hR⟩

theorem Shaped.nodup_plug {t : RBTree Key} {fs : List Frame} {u : Shape}
    (hs : Shaped t (plug fs u)) : (ctxBefore fs ++ u.addrs ++ ctxAfter fs).Nodup := by
  have := hs.nodup
  rwa [plug_addrs] at this

/-- Address of the topmost node of a plugged shape. -/
theorem plug_root (fs : List Frame) (u : Shape) :
    (plug fs u).root = match fs.getLast? with
      | none => u.root
      | some f => some f.a := by
  induction fs generalizing u with
  | nil => rfl
  | cons f fs ih =>
    rw [plug, ih]
    cases fs with
    | nil => cases hf : f.isLeft <;> simp [Frame.fill, hf, Shape.root]
    | cons g gs =>
      rw [List.getLast?_cons_cons]
      cases h : (g :: gs).getLast? with
      | none => simp at h
      | some k => rfl

theorem getLast_mem_ctx {fs : List Frame} {f : Frame} (h : fs.getLast? = some f) :
    f.a ∈ ctxBefore fs ∨ f.a ∈ ctxAfter fs := by
  induction fs with
  | nil => simp at h
  | cons g gs ih =>
    cases gs with
    | nil =>
      simp only [List.getLast?_singleton, Option.some.injEq] at h
      subst h
      cases hf : g.isLeft <;> simp [ctxBefore, ctxAfter, hf]
    | cons k ks =>
      rw [List.getLast?_cons_cons] at h
      rcases ih h with h1 | h1
      · left; rw [ctxBefore]; simp [h1]
      · right; rw [ctxAfter]; simp [h1]

/-- The focused node is the root exactly when the path is empty. -/
theorem Shaped.root_eq_focus_iff {t : RBTree Key} {fs : List Frame} {l r : Shape} {y : Nat}
    (hs : Shaped t (plug fs (.node l y r))) : t.root_ = some y ↔ fs = [] := by
  constructor
  · intro h
    rw [hs.root, plug_root] at h
    cases hl : fs.getLast? with
    | none => simpa using hl
    | some f =>
      rw [hl] at h
      simp only [Option.some.injEq] at h
      have hnd := hs.nodup_plug
      have hm := getLast_mem_ctx hl
      rw [h] at hm
      simp only [Shape.addrs, List.nodup_append, List.nodup_cons, List.mem_append,
        List.mem_cons, List.disjoint_append_left, List.disjoint_append_right,
        List.disjoint_cons_left, List.disjoint_cons_right, not_or] at hnd
      rcases hm with hm | hm
      · exact absurd hm (by tauto)
      · exact absurd hm (by tauto)
  · rintro rfl
    rw [hs.root]; rfl

/-- The cells of a node at depth at least one and of its parent. -/
theorem Shaped.cells1 {t : RBTree Key} {fs : List Frame} {l r u1 : Shape} {y p : Nat}
    {b1 : Bool} (hs : Shaped t (plug (⟨b1, p, u1⟩ :: fs) (.node l y r))) :
    ∃ ny np, t.mem y = some ny ∧ t.mem p = some np ∧
      ny.parent_ = some p ∧ ny.left_ = l.root ∧ ny.right_ = r.root ∧
      np.parent_ = holeParent none fs ∧
      np.left_ = (if b1 then some y else u1.root) ∧
      np.right_ = (if b1 then u1.root else some y) ∧
      Rep t.mem (some p) u1 ∧ y ≠ p ∧ y ∉ u1.addrs ∧ p ∉ u1.addrs := by
  obtain ⟨ny, hy, hyp, hyl, hyr, -, -⟩ := hs.focus
  have hnd := hs.nodup_plug
  cases b1
  · have hs1 : Shaped t (plug fs (.node u1 p (.node l y r))) := hs
    obtain ⟨np, hp, hpp, hpl, hpr, hU, -⟩ := hs1.focus
    refine ⟨ny, np, hy, hp, hyp, hyl, hyr, hpp, by simpa using hpl, by simpa using hpr, hU, ?_⟩
    simp only [ctxBefore, ctxAfter, Shape.addrs, List.nodup_append, List.nodup_cons,
      List.mem_append, List.mem_cons, List.disjoint_append_left, List.disjoint_append_right,
      List.disjoint_cons_left, List.disjoint_cons_right, not_or, Bool.false_eq_true,
      if_false, List.nil_append, List.append_assoc, List.mem_singleton] at hnd
    refine ⟨?_, ?_, ?_⟩
    · rintro rfl; tauto
    · tauto
    · tauto
  · have hs1 : Shaped t (plug fs (.node (.node l y r) p u1)) := hs
    obtain ⟨np, hp, hpp, hpl, hpr, -, hU⟩ := hs1.focus
    refine ⟨ny, np, hy, hp, hyp, hyl, hyr, hpp, by simpa using hpl, by simpa using hpr, hU, ?_⟩
    simp only [ctxBefore, ctxAfter, Shape.addrs, List.nodup_append, List.nodup_cons,
      List.mem_append, List.mem_cons, List.disjoint_append_left, List.disjoint_append_right,
      List.disjoint_cons_left, List.disjoint_cons_right, not_or,
      if_true, List.append_nil, List.cons_append, List.append_assoc] at hnd
    refine ⟨?_, ?_, ?_⟩
    · rintro rfl; tauto
    · tauto
    · tauto

theorem Shaped.up {t : RBTree Key} {f : Frame} {fs : List Frame} {u : Shape}
    (hs : Shaped t (plug (f :: fs) u)) : Shaped t (plug fs (f.fill u)) := hs

theorem fill_left (p : Nat) (u1 u : Shape) : Frame.fill ⟨true, p, u1⟩ u = .node u p u1 := rfl

theorem fill_right (p : Nat) (u1 u : Shape) : Frame.fill ⟨false, p, u1⟩ u = .node u1 p u := rfl

theorem Frame.fill_eq (f : Frame) (u : Shape) :
    f.fill u = .node (if f.isLeft then u else f.sib) f.a (if f.isLeft then f.sib else u) := by
  cases hf : f.isLeft <;> simp [Frame.fill, hf]

/-- The left link of the root of a represented subtree never leads to a node outside of it. -/
theorem rep_left_ne {t : RBTree Key} {par : Ptr} {u : Shape} (hr : Rep t.mem par u)
    {y : Nat} (hy : y ∉ u.addrs) (hu : u.root ≠ none) :
    ∃ q, t.left u.root = some q ∧ q ≠ some y := by
  cases u with
  | nil => simp [Shape.root] at hu
  | node ul a ur =>
    obtain ⟨n, hn, -, hl, -⟩ := hr
    refine ⟨ul.root, by rw [Shape.root, read_left hn, hl], fun h => hy ?_⟩
    simp [Shape.addrs, Shape.root_mem h]

theorem rep_right_ne {t : RBTree Key} {par : Ptr} {u : Shape} (hr : Rep t.mem par u)
    {y : Nat} (hy : y ∉ u.addrs) (hu : u.root ≠ none) :
    ∃ q, t.right u.root = some q ∧ q ≠ some y := by
  cases u with
  | nil => simp [Shape.root] at hu
  | node ul a ur =>
    obtain ⟨n, hn, -, -, hr', -⟩ := hr
    refine ⟨ur.root, by rw [Shape.root, read_right hn, hr'], fun h => hy ?_⟩
    simp [Shape.addrs, Shape.root_mem h]

theorem root_ne_of_not_mem {u : Shape} {y : Nat} (hy : y ∉ u.addrs) : u.root ≠ some y :=
  fun h => hy (Shape.root_mem h)

theorem Shaped.around {t : RBTree Key} {fs : List Frame} {l r u1 u2 : Shape} {y p g : Nat}
    {b1 b2 : Bool}
    (hs : Shaped t (plug (⟨b1, p, u1⟩ :: ⟨b2, g, u2⟩ :: fs) (.node l y r))) :
    Around t y p g b1 b2 l r u1 u2 (holeParent none fs) := by
  obtain ⟨ny, np, hy, hp, e1, e2, e3, e4, e5, e6, hU1, d1, d2, d3⟩ := hs.cells1
  have hs1 := hs.up
  rw [Frame.fill_eq] at hs1
  obtain ⟨np', ng, hp', hg, -, -, -, f4, f5, f6, hU2, c1, c2, c3⟩ := hs1.cells1
  have hnd := hs.nodup_plug
  have key : y ≠ g ∧ y ∉ u2.addrs ∧ g ∉ u1.addrs := by
    cases b1 <;> cases b2 <;>
    · simp only [ctxBefore, ctxAfter, Shape.addrs, List.nodup_append, List.nodup_cons,
        List.mem_append, List.mem_cons, List.disjoint_append_left, List.disjoint_append_right,
        List.disjoint_cons_left, List.disjoint_cons_right, not_or, Bool.false_eq_true,
        if_false, if_true, List.nil_append, List.append_nil, List.cons_append,
        List.append_assoc, List.mem_singleton] at hnd
      refine ⟨?_, ?_, ?_⟩
      · rintro rfl; tauto
      · tauto
      · tauto
  refine ⟨?_, ?_, ?_, ?_, ?_, ?_, ?_, ?_, ?_, hU1, hU2, d1, key.1, c1, d2, key.2.1, d3, c2,
    key.2.2, c3⟩
  · rw [read_parent hy, e1]
  · rw [read_left hy, e2]
  · rw [read_right hy, e3]
  · rw [read_parent hp, e4]; rfl
  · rw [read_left hp, e5]
  · rw [read_right hp, e6]
  · rw [read_parent hg, f4]
  · rw [read_left hg, f5]
  · rw [read_right hg, f6]

theorem Around.hasGrandparent {t : RBTree Key} {y p g : Nat} {b1 b2 : Bool}
    {l r u1 u2 : Shape} {top : Ptr} (h : Around t y p g b1 b2 l r u1 u2 top) :
    t.hasGrandparent (some y) = some true := by
  simp [RBTree.hasGrandparent, andThen, h.py, h.pp]

theorem Around.leftDadRightSon {t : RBTree Key} {y p g : Nat} {b1 b2 : Bool}
    {l r u1 u2 : Shape} {top : Ptr} (h : Around t y p g b1 b2 l r u1 u2 top) :
    t.leftDadRightSon (some y) = some (!b1 && b2) := by
  have e1 := root_ne_of_not_mem h.yu1
  have e2 := root_ne_of_not_mem h.pu2
  cases b1 <;> cases b2 <;>
    simp [RBTree.leftDadRightSon, h.hasGrandparent, andThen, h.py, h.pp, h.rp, h.lg, e1, e2]

theorem Around.rightDadLeftSon {t : RBTree Key} {y p g : Nat} {b1 b2 : Bool}
    {l r u1 u2 : Shape} {top : Ptr} (h : Around t y p g b1 b2 l r u1 u2 top) :
    t.rightDadLeftSon (some y) = some (b1 && !b2) := by
  have e1 := root_ne_of_not_mem h.yu1
  have e2 := root_ne_of_not_mem h.pu2
  cases b1 <;> cases b2 <;>
    simp [RBTree.rightDadLeftSon, h.hasGrandparent, andThen, h.py, h.pp, h.lp, h.rg, e1, e2]

theorem Around.leftDadLeftSon {t : RBTree Key} {y p g : Nat} {b1 b2 : Bool}
    {l r u1 u2 : Shape} {top : Ptr} (h : Around t y p g b1 b2 l r u1 u2 top) :
    t.leftDadLeftSon (some y) =
      if b1 then (if b2 then some true else if u2.root = none then none else some false)
      else some false := by
  have e1 := root_ne_of_not_mem h.yu1
  cases b1
  · simp [RBTree.leftDadLeftSon, h.hasGrandparent, andThen, h.py, h.pp, h.lp, e1]
  · cases b2
    · by_cases hu : u2.root = none
      · have hn : t.left none = none := rfl
        simp [RBTree.leftDadLeftSon, h.hasGrandparent, andThen, h.py, h.pp, h.lp, h.lg, hu, hn]
      · obtain ⟨q, hq, hne⟩ := rep_left_ne h.rep2 h.yu2 hu
        simp [RBTree.leftDadLeftSon, h.hasGrandparent, andThen, h.py, h.pp, h.lp, h.lg, hu,
          hq, hne]
    · simp [RBTree.leftDadLeftSon, h.hasGrandparent, andThen, h.py, h.pp, h.lp, h.lg]

theorem Around.rightDadRightSon {t : RBTree Key} {y p g : Nat} {b1 b2 : Bool}
    {l r u1 u2 : Shape} {top : Ptr} (h : Around t y p g b1 b2 l r u1 u2 top) :
    t.rightDadRightSon (some y) =
      if b1 then some false
      else (if b2 then (if u2.root = none then none else some false) else some true) := by
  have e1 := root_ne_of_not_mem h.yu1
  cases b1
  · cases b2
    · simp [RBTree.rightDadRightSon, h.hasGrandparent, andThen, h.py, h.pp, h.rp, h.rg]
    · by_cases hu : u2.root = none
      · have hn : t.right none = none := rfl
        simp [RBTree.rightDadRightSon, h.hasGrandparent, andThen, h.py, h.pp, h.rp, h.rg, hu,
          hn]
      · obtain ⟨q, hq, hne⟩ := rep_right_ne h.rep2 h.yu2 hu
        simp [RBTree.rightDadRightSon, h.hasGrandparent, andThen, h.py, h.pp, h.rp, h.rg, hu,
          hq, hne]
  · simp [RBTree.rightDadRightSon, h.hasGrandparent, andThen, h.py, h.pp, h.rp, e1]

/-- Without a grandparent the four configuration tests fail. -/
theorem shallow_tests {t : RBTree Key} {fs : List Frame} {l r : Shape} {y : Nat}
    (hs : Shaped t (plug fs (.node l y r))) (hd : fs.length < 2) :
    t.leftDadRightSon (some y) = some false ∧ t.rightDadLeftSon (some y) = some false ∧
      t.leftDadLeftSon (some y) = some false ∧ t.rightDadRightSon (some y) = some false := by
  have hg : t.hasGrandparent (some y) = some false := by
    match fs, hs, hd with
    | [], hs, _ =>
      obtain ⟨n, hn, hp, -⟩ := hs.focus
      simp [RBTree.hasGrandparent, andThen, read_parent hn, hp, holeParent]
    | [f], hs, _ =>
      have hsf : Shaped t (plug (⟨f.isLeft, f.a, f.sib⟩ :: []) (.node l y r)) := hs
      obtain ⟨ny, np, hy, hp, e1, -, -, e4, -⟩ := Shaped.cells1 hsf
      simp [RBTree.hasGrandparent, andThen, read_parent hy, read_parent hp, e1, e4, holeParent]
  simp [RBTree.leftDadRightSon, RBTree.rightDadLeftSon, RBTree.leftDadLeftSon,
    RBTree.rightDadRightSon, hg]

theorem SameData.red_eq {t t' : RBTree Key} (h : SameData t t') (p : Ptr) : t'.red p = t.red p := by
  cases p with
  | none => rfl
  | some a =>
    have := h a
    simp only [RBTree.red, RBTree.deref]
    cases h1 : t'.mem a <;> cases h2 : t.mem a <;> simp_all [RBTNode.data]

/-- Recolouring a tree node leaves the tree in place. -/
theorem setRed_shape {t : RBTree Key} {s : Shape} (hs : Shaped t s) {a : Nat}
    (ha : a ∈ s.addrs) (c : Bool) :
    ∃ t', t.setRed (some a) c = some t' ∧ Shaped t' s ∧ SameKeys t t' ∧ SameMeta t t' ∧
      t'.root_ = t.root_ ∧ t'.red (some a) = some c ∧
      ∀ b, b ≠ a → t'.red (some b) = t.red (some b) := by
  obtain ⟨n, hn⟩ := rep_live hs.rep ha
  refine ⟨t.store a { n with red_ := c }, by simp [RBTree.setRed, hn], ?_, ?_, ⟨rfl, rfl, rfl⟩,
    rfl, ?_, ?_⟩
  · refine ⟨hs.root, rep_of_sameLinks (fun b _ => ?_) hs.rep, hs.nodup⟩
    unfold SameLinks
    by_cases hb : b = a
    · subst hb; simp [RBTree.store, hn, RBTNode.links]
    · simp [RBTree.store, hb]
  · intro b
    by_cases hb : b = a
    · subst hb; simp [RBTree.store, hn]
    · simp [RBTree.store, hb]
  · simp [RBTree.red, RBTree.deref, RBTree.store]
  · intro b hb
    simp [RBTree.red, RBTree.deref, RBTree.store, hb]

theorem plug_ne_nil (fs : List Frame) (l r : Shape) (y : Nat) :
    ∃ a, (plug fs (.node l y r)).root = some a := by
  rw [plug_root]
  cases fs.getLast? with
  | none => exact ⟨y, rfl⟩
  | some f => exact ⟨f.a, rfl⟩

/-- The statement `root_->red_ = false` on a non-empty tree. -/
theorem setRed_root_shape {t : RBTree Key} {fs : List Frame} {l r : Shape} {y : Nat}
    (hs : Shaped t (plug fs (.node l y r))) :
    ∃ t', t.setRed t.root_ false = some t' ∧ Shaped t' (plug fs (.node l y r)) ∧
      SameKeys t t' ∧ SameMeta t t' ∧ RootBlack t' := by
  obtain ⟨a, ha⟩ := plug_ne_nil fs l r y
  have hr : t.root_ = some a := by rw [hs.root, ha]
  obtain ⟨t', e, hs', k, m, hroot, hred, -⟩ := setRed_shape hs (Shape.root_mem ha) false
  refine ⟨t', by rw [hr, e], hs', k, m, fun b hb => ?_⟩
  rw [hroot, hr] at hb
  simp only [Option.some.injEq] at hb
  subst hb; exact hred

theorem rightDadRightSon_of_left {t : RBTree Key} {fs : List Frame} {l r u1 : Shape}
    {y p : Nat} (hs : Shaped t (plug (⟨true, p, u1⟩ :: fs) (.node l y r))) :
    t.rightDadRightSon (some y) = some false := by
  cases fs with
  | nil => exact (shallow_tests hs (by simp)).2.2.2
  | cons f fs =>
    have hsf : Shaped t (plug (⟨true, p, u1⟩ :: ⟨f.isLeft, f.a, f.sib⟩ :: fs) (.node l y r)) := hs
    simpa using (Shaped.around hsf).rightDadRightSon

theorem leftDadLeftSon_of_right {t : RBTree Key} {fs : List Frame} {l r u1 : Shape}
    {y p : Nat} (hs : Shaped t (plug (⟨false, p, u1⟩ :: fs) (.node l y r))) :
    t.leftDadLeftSon (some y) = some false := by
  cases fs with
  | nil => exact (shallow_tests hs (by simp)).2.2.1
  | cons f fs =>
    have hsf : Shaped t (plug (⟨false, p, u1⟩ :: ⟨f.isLeft, f.a, f.sib⟩ :: fs) (.node l y r)) := hs
    simpa using (Shaped.around hsf).leftDadLeftSon

/-- `sameSideDadAndGrandpa` on a zig-zig configuration: the parent takes the place of the
grandparent. -/
theorem sameSide_shape {t : RBTree Key} {fs : List Frame} {l r u1 u2 : Shape} {y p g : Nat}
    (b : Bool) (hs : Shaped t (plug (⟨b, p, u1⟩ :: ⟨b, g, u2⟩ :: fs) (.node l y r))) :
    ∃ t', t.sameSideDadAndGrandpa (some y) (some p) (some g) = some t' ∧
      Shaped t' (plug (⟨b, p, if b then .node u1 g u2 else .node u2 g u1⟩ :: fs)
        (.node l y r)) ∧
      SameKeys t t' ∧ SameMeta t t' := by
  have ha := hs.around
  have hp : p ∈ (plug (⟨b, p, u1⟩ :: ⟨b, g, u2⟩ :: fs) (.node l y r)).addrs := by
    rw [plug_addrs]; cases b <;> simp [ctxBefore, ctxAfter]
  have hg : g ∈ (plug (⟨b, p, u1⟩ :: ⟨b, g, u2⟩ :: fs) (.node l y r)).addrs := by
    rw [plug_addrs]; cases b <;> simp [ctxBefore, ctxAfter]
  obtain ⟨t1, e1, hs1, k1, m1, -⟩ := setRed_shape hs hp false
  obtain ⟨t2, e2, hs2, k2, m2, -⟩ := setRed_shape hs1 hg true
  cases b
  · have hs2' : Shaped t2 (plug fs (.node u2 g (.node u1 p (.node l y r)))) := hs2
    obtain ⟨t3, e3, hs3, d3, m3⟩ := leftRotate_shape hs2'
    refine ⟨t3, ?_, hs3, (k1.trans_keys k2).trans_keys d3.keys, (m1.trans_meta m2).trans_meta m3⟩
    simp only [RBTree.sameSideDadAndGrandpa, Option.bind_eq_bind, leftDadLeftSon_of_right hs,
      Option.some_bind, Bool.false_eq_true, if_false, ha.rightDadRightSon, if_true, e1, e2, e3]
  · have hs2' : Shaped t2 (plug fs (.node (.node (.node l y r) p u1) g u2)) := hs2
    obtain ⟨t3, e3, hs3, d3, m3⟩ := rightRotate_shape hs2'
    have hs3' : Shaped t3 (plug (⟨true, p, .node u1 g u2⟩ :: fs) (.node l y r)) := hs3
    refine ⟨t3, ?_, hs3, (k1.trans_keys k2).trans_keys d3.keys, (m1.trans_meta m2).trans_meta m3⟩
    simp only [RBTree.sameSideDadAndGrandpa, Option.bind_eq_bind, ha.leftDadLeftSon,
      Option.some_bind, if_true, e1, e2, e3, rightDadRightSon_of_left hs3', Bool.false_eq_true,
      if_false]

theorem Lifted.refl_lifted {t : RBTree Key} {fs : List Frame} {l r : Shape} {y : Nat}
    (hs : Shaped t (plug fs (.node l y r))) : Lifted fs l y r t t :=
  ⟨⟨fs, [], [], hs, by simp, by simp, rfl⟩, SameKeys.refl_keys t, SameMeta.refl_meta t, id⟩

/-- `oppositeDadAndGrandpa`: a zig-zag configuration is rotated into a zig-zig one, in which
the former parent is the node. -/
theorem opposite_shape {t : RBTree Key} {fs : List Frame} {l r u1 u2 : Shape} {y p g : Nat}
    (b1 b2 : Bool) (hs : Shaped t (plug (⟨b1, p, u1⟩ :: ⟨b2, g, u2⟩ :: fs) (.node l y r))) :
    ∃ t1, SameKeys t t1 ∧ SameMeta t t1 ∧
      t.oppositeDadAndGrandpa (some y) (some p) (some g) =
        some (if b1 = b2 then (t1, some y, some p, some g) else (t1, some p, some y, some g)) ∧
      (if b1 = b2 then Shaped t1 (plug (⟨b1, p, u1⟩ :: ⟨b2, g, u2⟩ :: fs) (.node l y r))
       else if b2 then Shaped t1 (plug (⟨true, y, r⟩ :: ⟨true, g, u2⟩ :: fs) (.node u1 p l))
       else Shaped t1 (plug (⟨false, y, l⟩ :: ⟨false, g, u2⟩ :: fs) (.node r p u1))) := by
  have ha := hs.around
  cases b1 <;> cases b2
  · refine ⟨t, SameKeys.refl_keys t, SameMeta.refl_meta t, ?_, by simpa using hs⟩
    simp [RBTree.oppositeDadAndGrandpa, ha.leftDadRightSon, ha.rightDadLeftSon]
  · have hs' : Shaped t (plug (⟨true, g, u2⟩ :: fs) (.node u1 p (.node l y r))) := hs
    obtain ⟨t1, e1, hs1, d1, m1⟩ := leftRotate_shape hs'
    have hs1' : Shaped t1 (plug (⟨true, y, r⟩ :: ⟨true, g, u2⟩ :: fs) (.node u1 p l)) := hs1
    have hb := hs1'.around
    refine ⟨t1, d1.keys, m1, ?_, by simpa using hs1'⟩
    simp [RBTree.oppositeDadAndGrandpa, ha.leftDadRightSon, e1, hb.py, hb.pp,
      hb.rightDadLeftSon]
  · have hs' : Shaped t (plug (⟨false, g, u2⟩ :: fs) (.node (.node l y r) p u1)) := hs
    obtain ⟨t1, e1, hs1, d1, m1⟩ := rightRotate_shape hs'
    have hs1' : Shaped t1 (plug (⟨false, y, l⟩ :: ⟨false, g, u2⟩ :: fs) (.node r p u1)) := hs1
    have hb := hs1'.around
    refine ⟨t1, d1.keys, m1, ?_, by simpa using hs1'⟩
    simp [RBTree.oppositeDadAndGrandpa, ha.leftDadRightSon, ha.rightDadLeftSon, e1, hb.py,
      hb.pp]
  · refine ⟨t, SameKeys.refl_keys t, SameMeta.refl_meta t, ?_, by simpa using hs⟩
    simp [RBTree.oppositeDadAndGrandpa, ha.leftDadRightSon, ha.rightDadLeftSon]

/-- `blackUncleFixup` returns on every node that has a grandparent. -/
theorem blackUncleFixup_lifted {t : RBTree Key} {fs : List Frame} {l r u1 u2 : Shape}
    {y p g : Nat} (b1 b2 : Bool)
    (hs : Shaped t (plug (⟨b1, p, u1⟩ :: ⟨b2, g, u2⟩ :: fs) (.node l y r))) :
    ∃ t', t.blackUncleFixup (some y) = some t' ∧
      Lifted (⟨b1, p, u1⟩ :: ⟨b2, g, u2⟩ :: fs) l y r t t' := by
  have ha := hs.around
  obtain ⟨t1, k1, m1, e1, hs1⟩ := opposite_shape b1 b2 hs
  cases b1 <;> cases b2
  · simp only [if_true] at e1 hs1
    obtain ⟨t2, e2, hs2, k2, m2⟩ := sameSide_shape false hs1
    obtain ⟨t3, e3, hs3, k3, m3, hb⟩ := setRed_root_shape hs2
    refine ⟨t3, ?_, ⟨⟨_, [], [], hs3, by simp, by simp, ?_⟩, (k1.trans_keys k2).trans_keys k3,
      (m1.trans_meta m2).trans_meta m3, fun _ => hb⟩⟩
    · simp [RBTree.blackUncleFixup, ha.py, ha.pp, e1, e2, e3]
    · simp [plug_addrs, plug, ctxBefore, ctxAfter, Shape.addrs]
  · simp only [Bool.false_eq_true, if_false, if_true] at e1 hs1
    obtain ⟨t2, e2, hs2, k2, m2⟩ := sameSide_shape true hs1
    have hs2' : Shaped t2 (plug fs (.node (plug [⟨false, p, u1⟩] l) y
        (plug [⟨true, g, u2⟩] r))) := hs2
    obtain ⟨t3, e3, hs3, k3, m3, hb⟩ := setRed_root_shape hs2'
    refine ⟨t3, ?_, ⟨⟨_, _, _, hs3, by simp, by simp, ?_⟩, (k1.trans_keys k2).trans_keys k3,
      (m1.trans_meta m2).trans_meta m3, fun _ => hb⟩⟩
    · simp [RBTree.blackUncleFixup, ha.py, ha.pp, e1, e2, e3]
    · simp [plug_addrs, plug, Frame.fill, ctxBefore, ctxAfter, Shape.addrs]
  · simp only [Bool.true_eq_false, if_false] at e1 hs1
    obtain ⟨t2, e2, hs2, k2, m2⟩ := sameSide_shape false hs1
    have hs2' : Shaped t2 (plug fs (.node (plug [⟨false, g, u2⟩] l) y
        (plug [⟨true, p, u1⟩] r))) := hs2
    obtain ⟨t3, e3, hs3, k3, m3, hb⟩ := setRed_root_shape hs2'
    refine ⟨t3, ?_, ⟨⟨_, _, _, hs3, by simp, by simp, ?_⟩, (k1.trans_keys k2).trans_keys k3,
      (m1.trans_meta m2).trans_meta m3, fun _ => hb⟩⟩
    · simp [RBTree.blackUncleFixup, ha.py, ha.pp, e1, e2, e3]
    · simp [plug_addrs, plug, Frame.fill, ctxBefore, ctxAfter, Shape.addrs]
  · simp only [if_true] at e1 hs1
    obtain ⟨t2, e2, hs2, k2, m2⟩ := sameSide_shape true hs1
    obtain ⟨t3, e3, hs3, k3, m3, hb⟩ := setRed_root_shape hs2
    refine ⟨t3, ?_, ⟨⟨_, [], [], hs3, by simp, by simp, ?_⟩, (k1.trans_keys k2).trans_keys k3,
      (m1.trans_meta m2).trans_meta m3, fun _ => hb⟩⟩
    · simp [RBTree.blackUncleFixup, ha.py, ha.pp, e1, e2, e3]
    · simp [plug_addrs, plug, ctxBefore, ctxAfter, Shape.addrs]

/-- The fix-up of a node composes with a later fix-up of its parent. -/
theorem lifted_step {t t1 t2 : RBTree Key} {fs fs1 cl cr : List Frame} {l r : Shape} {y : Nat}
    {f : Frame}
    (len1 : (f :: fs1).length + cl.length ≤ fs.length)
    (len2 : (f :: fs1).length + cr.length ≤ fs.length)
    (addr : (plug (f :: fs1) (.node (plug cl l) y (plug cr r))).addrs =
      (plug fs (.node l y r)).addrs)
    (k1 : SameKeys t t1) (m1 : SameMeta t t1) (b1 : RootBlack t → RootBlack t1)
    (h2 : Lifted fs1 (if f.isLeft then .node (plug cl l) y (plug cr r) else f.sib) f.a
      (if f.isLeft then f.sib else .node (plug cl l) y (plug cr r)) t1 t2) :
    Lifted fs l y r t t2 := by
  obtain ⟨⟨fs2, cL, cR, hs2, l1, l2, ad2⟩, k2, m2, b2⟩ := h2
  simp only [List.length_cons] at len1 len2
  refine ⟨?_, k1.trans_keys k2, m1.trans_meta m2, fun h => b2 (b1 h)⟩
  rw [← addr, plug, Frame.fill_eq, ← ad2]
  cases hf : f.isLeft
  · simp only [hf, Bool.false_eq_true, if_false] at hs2 ⊢
    refine ⟨cR ++ ⟨false, f.a, plug cL f.sib⟩ :: fs2, cl, cr, ?_, ?_, ?_, ?_⟩
    · rw [plug_append]; exact hs2
    · simp only [List.length_append, List.length_cons]; omega
    · simp only [List.length_append, List.length_cons]; omega
    · rw [plug_append]; rfl
  · simp only [hf, if_true] at hs2 ⊢
    refine ⟨cL ++ ⟨true, f.a, plug cR f.sib⟩ :: fs2, cl, cr, ?_, ?_, ?_, ?_⟩
    · rw [plug_append]; exact hs2
    · simp only [List.length_append, List.length_cons]; omega
    · simp only [List.length_append, List.length_cons]; omega
    · rw [plug_append]; rfl

theorem lifted_up {t1 t2 : RBTree Key} {fs1 : List Frame} {l r : Shape} {y : Nat} {f : Frame}
    (h2 : Lifted fs1 (if f.isLeft then .node l y r else f.sib) f.a
      (if f.isLeft then f.sib else .node l y r) t1 t2) :
    Lifted (f :: fs1) l y r t1 t2 :=
  lifted_step (show (f :: fs1).length + ([] : List Frame).length ≤ _ by simp)
    (show (f :: fs1).length + ([] : List Frame).length ≤ _ by simp) rfl (SameKeys.refl_keys t1)
    (SameMeta.refl_meta t1) id h2

theorem doubleRed_black_parent {t : RBTree Key} {fs : List Frame} {l r u1 : Shape} {y p : Nat}
    {b1 : Bool} (hs : Shaped t (plug (⟨b1, p, u1⟩ :: fs) (.node l y r)))
    (hp : t.red (some p) = some false) : t.doubleRed (some y) = some false := by
  obtain ⟨ny, np, hy, -, e1, -⟩ := hs.cells1
  simp only [RBTree.doubleRed, andThen, read_red hy, read_parent hy, e1, Option.some_bind,
    Option.bind_eq_bind, hp]
  cases ny.red_ <;> rfl

theorem doubleRed_of_black {t : RBTree Key} {y : Nat} (hp : t.red (some y) = some false) :
    t.doubleRed (some y) = some false := by
  simp [RBTree.doubleRed, andThen, hp]

/-- Two iterations of the loop pass a node whose parent is black. -/
theorem doubleRedFixup_skip2 {n : Nat} (ih : DFTotal Key n) {t : RBTree Key} {fs : List Frame}
    {l r u1 u2 : Shape} {y p g : Nat} {b1 b2 : Bool} (hn : fs.length ≤ n)
    (hs : Shaped t (plug (⟨b1, p, u1⟩ :: ⟨b2, g, u2⟩ :: fs) (.node l y r)))
    (hp : t.red (some p) = some false) {fuel : Nat} (hf : 3 * fs.length + 3 ≤ fuel) :
    ∃ t', t.doubleRedFixup fuel (some y) = some t' ∧
      Lifted (⟨b1, p, u1⟩ :: ⟨b2, g, u2⟩ :: fs) l y r t t' := by
  have ha := hs.around
  obtain ⟨k, rfl⟩ : ∃ k, fuel = k + 2 := ⟨fuel - 2, by omega⟩
  have hs1 := hs.up
  rw [Frame.fill_eq] at hs1
  have hs2 := hs1.up
  rw [Frame.fill_eq] at hs2
  obtain ⟨t', e, hl⟩ := ih fs _ g _ t k hn hs2 (by omega)
  refine ⟨t', ?_, lifted_up (lifted_up hl)⟩
  rw [RBTree.doubleRedFixup]
  simp only [andThen, ha.py, Option.map_some', Option.bind_eq_bind, Option.some_bind, ne_eq,
    not_false_eq_true, decide_True, if_true, doubleRed_black_parent hs hp, Bool.false_eq_true,
    if_false, reduceCtorEq]
  rw [RBTree.doubleRedFixup]
  simp only [andThen, ha.pp, Option.map_some', Option.bind_eq_bind, Option.some_bind, ne_eq,
    not_false_eq_true, decide_True, if_true, doubleRed_of_black hp, Bool.false_eq_true,
    if_false, reduceCtorEq]
  exact e

theorem rep_root_live {t : RBTree Key} {par : Ptr} {u : Shape} (hr : Rep t.mem par u)
    (hu : u.root ≠ none) : ∃ a n, u.root = some a ∧ a ∈ u.addrs ∧ t.mem a = some n := by
  cases u with
  | nil => simp [Shape.root] at hu
  | node ul a ur =>
    obtain ⟨n, hn, -⟩ := hr
    exact ⟨a, n, rfl, by simp [Shape.addrs], hn⟩

/-- `redUncle` returns on every node with a grandparent; it answers true only if the
grandparent has two children. -/
theorem redUncle_total {t : RBTree Key} {y p g : Nat} {b1 b2 : Bool}
    {l r u1 u2 : Shape} {top : Ptr} (h : Around t y p g b1 b2 l r u1 u2 top)
    (hp : ∃ np, t.mem p = some np) :
    ∃ b, t.redUncle (some y) = some b ∧ (b = true → u2.root ≠ none) := by
  obtain ⟨np, hnp⟩ := hp
  by_cases hu : u2.root = none
  · refine ⟨false, ?_, by simp⟩
    cases b2 <;> simp [RBTree.redUncle, h.py, h.pp, h.rg, h.lg, hu]
  · obtain ⟨a, na, ha, -, hna⟩ := rep_root_live h.rep2 hu
    suffices hx : ∃ b, t.redUncle (some y) = some b by
      obtain ⟨b, hb⟩ := hx
      exact ⟨b, hb, fun _ => hu⟩
    cases b2
    · simp only [RBTree.redUncle, h.py, h.pp, h.rg, h.lg, Option.bind_eq_bind,
        Option.some_bind, Bool.false_eq_true, if_false, ha, reduceCtorEq, or_self,
        read_right hnp, read_red hnp, read_red hna]
      split <;> exact ⟨_, rfl⟩
    · simp only [RBTree.redUncle, h.py, h.pp, h.rg, h.lg, Option.bind_eq_bind,
        Option.some_bind, if_true, ha, reduceCtorEq, or_self, if_false,
        read_right hna, read_red hnp, read_red hna]
      split <;> exact ⟨_, rfl⟩

theorem black_of_setRed {t t' : RBTree Key} {a b : Nat}
    (c1 : t'.red (some a) = some false) (o1 : ∀ b, b ≠ a → t'.red (some b) = t.red (some b))
    (h : t.red (some b) = some false) : t'.red (some b) = some false := by
  by_cases hb : b = a
  · subst hb; exact c1
  · rw [o1 b hb, h]

/-- `redUncleChangeColors` returns on every node whose grandparent has two children, given
that the loop of `doubleRedFixup` returns on the nodes above the grandparent. -/
theorem redUncleChangeColors_total {n : Nat} (ih : DFTotal Key n) {t : RBTree Key}
    {fs : List Frame} {l r u1 u2 : Shape} {y p g : Nat} {b1 b2 : Bool} (hn : fs.length ≤ n)
    (hs : Shaped t (plug (⟨b1, p, u1⟩ :: ⟨b2, g, u2⟩ :: fs) (.node l y r)))
    (hu : u2.root ≠ none) {fuel : Nat} (hf : 3 * fs.length + 4 ≤ fuel) :
    ∃ t', t.redUncleChangeColors fuel (some y) = some t' ∧
      Lifted (⟨b1, p, u1⟩ :: ⟨b2, g, u2⟩ :: fs) l y r t t' := by
  have ha := hs.around
  obtain ⟨a, na, hua, hau, -⟩ := rep_root_live ha.rep2 hu
  have hp : p ∈ (plug (⟨b1, p, u1⟩ :: ⟨b2, g, u2⟩ :: fs) (.node l y r)).addrs := by
    rw [plug_addrs]; cases b1 <;> simp [ctxBefore, ctxAfter]
  have hg : g ∈ (plug (⟨b1, p, u1⟩ :: ⟨b2, g, u2⟩ :: fs) (.node l y r)).addrs := by
    rw [plug_addrs]; cases b2 <;> simp [ctxBefore, ctxAfter]
  have hm : a ∈ (plug (⟨b1, p, u1⟩ :: ⟨b2, g, u2⟩ :: fs) (.node l y r)).addrs := by
    rw [plug_addrs]; cases b2 <;> simp [ctxBefore, ctxAfter, hau]
  have pa : p ≠ a := fun h => ha.pu2 (h ▸ hau)
  obtain ⟨t1, e1, hs1, k1, m1, r1, c1, o1⟩ := setRed_shape hs hp false
  obtain ⟨t2, e2, hs2, k2, m2, r2, c2, o2⟩ := setRed_shape hs1 hg true
  obtain ⟨t3, e3, hs3, k3, m3, r3, c3, o3⟩ := setRed_shape hs2 hm false
  have ha1 := hs1.around
  have ha2 := hs2.around
  have ha3 := hs3.around
  obtain ⟨k, rfl⟩ : ∃ k, fuel = k + 1 := ⟨fuel - 1, by omega⟩
  have hEval : t.redUncleChangeColors (k + 1) (some y) =
      if t3.root_ = some g then t3.setRed (some g) false
      else t3.doubleRedFixup k (some y) := by
    rw [RBTree.redUncleChangeColors]
    simp only [Option.bind_eq_bind, ha.py, Option.some_bind, e1, ha1.py, ha1.pp, e2, orElse,
      ha2.rightDadRightSon, ha2.rightDadLeftSon]
    cases b1 <;> cases b2 <;>
      simp only [Bool.false_eq_true, if_false, Option.some_bind, if_true, ha2.py, ha2.pp,
        ha2.lg, ha2.rg, hua, e3, ha3.leftDadLeftSon, ha3.leftDadRightSon, ha2.leftDadLeftSon,
        ha2.leftDadRightSon, Bool.not_false, Bool.not_true, Bool.and_false, Bool.and_true,
        Bool.and_self, ha3.py, ha3.pp, reduceCtorEq]
  have hpb : t3.red (some p) = some false := by
    rw [o3 p pa, o2 p ha.pgne, c1]
  have hs3g := hs3.up
  rw [Frame.fill_eq] at hs3g
  have hs3g' := hs3g.up
  rw [Frame.fill_eq] at hs3g'
  have hroot := hs3g'.root_eq_focus_iff
  rw [hEval]
  by_cases hfs : fs = []
  · rw [if_pos (hroot.2 hfs)]
    obtain ⟨t4, e4, hs4, k4, m4, r4, c4, -⟩ := setRed_shape hs3 hg false
    refine ⟨t4, e4, ⟨⟨_, [], [], hs4, by simp, by simp, rfl⟩,
      ((k1.trans_keys k2).trans_keys k3).trans_keys k4, ((m1.trans_meta m2).trans_meta m3).trans_meta m4, fun _ b hb => ?_⟩⟩
    rw [r4, hroot.2 hfs] at hb
    simp only [Option.some.injEq] at hb
    subst hb; exact c4
  · rw [if_neg (fun h => hfs (hroot.1 h))]
    obtain ⟨t', e, hl⟩ := doubleRedFixup_skip2 ih hn hs3 hpb (show _ ≤ k by omega)
    refine ⟨t', e, ⟨hl.shape, ((k1.trans_keys k2).trans_keys k3).trans_keys hl.keys,
      ((m1.trans_meta m2).trans_meta m3).trans_meta hl.same, fun hb => hl.black fun b hr => ?_⟩⟩
    have hbg : b ≠ g := by
      rintro rfl
      exact hfs (hroot.1 hr)
    have hr0 : t.root_ = some b := by rw [← r1, ← r2, ← r3, hr]
    have h0 := hb b hr0
    have h1 := black_of_setRed c1 o1 h0
    have h2 : t2.red (some b) = some false := by rw [o2 b hbg, h1]
    exact black_of_setRed c3 o3 h2

/-- `insertFixup` returns, given that the loop of `doubleRedFixup` returns on the nodes above
the grandparent. -/
theorem insertFixup_total {n : Nat} (ih : DFTotal Key n) {t : RBTree Key} :
    ∀ {fs : List Frame} {l r : Shape} {y : Nat}, fs.length ≤ n + 2 →
      Shaped t (plug fs (.node l y r)) → ∀ {fuel : Nat}, 3 * fs.length ≤ fuel → 1 ≤ fuel →
      ∃ t', t.insertFixup fuel (some y) = some t' ∧ Lifted fs l y r t t'
  | [], l, r, y, _, hs, fuel, _, hf1 => by
    obtain ⟨k, rfl⟩ : ∃ k, fuel = k + 1 := ⟨fuel - 1, by omega⟩
    refine ⟨t, ?_, Lifted.refl_lifted hs⟩
    rw [RBTree.insertFixup, if_pos (hs.root_eq_focus_iff.2 rfl).symm]
  | [f], l, r, y, _, hs, fuel, _, hf1 => by
    obtain ⟨k, rfl⟩ : ∃ k, fuel = k + 1 := ⟨fuel - 1, by omega⟩
    refine ⟨t, ?_, Lifted.refl_lifted hs⟩
    have h1 : ¬ some y = t.root_ := fun h => by simpa using hs.root_eq_focus_iff.1 h.symm
    have hsf : Shaped t (plug (⟨f.isLeft, f.a, f.sib⟩ :: []) (.node l y r)) := hs
    obtain ⟨ny, np, hy, hp, e1, -⟩ := Shaped.cells1 hsf
    have hs1 := hs.up
    rw [Frame.fill_eq] at hs1
    have h2 : some f.a = t.root_ := (hs1.root_eq_focus_iff.2 rfl).symm
    rw [RBTree.insertFixup, if_neg h1]
    simp only [Option.bind_eq_bind, read_parent hy, e1, Option.some_bind, h2, if_true]
  | ⟨b1, p, u1⟩ :: ⟨b2, g, u2⟩ :: fs, l, r, y, hn, hs, fuel, hf, hf1 => by
    obtain ⟨k, rfl⟩ : ∃ k, fuel = k + 1 := ⟨fuel - 1, by omega⟩
    simp only [List.length_cons] at hn hf
    have ha := hs.around
    have h1 : ¬ some y = t.root_ := fun h => by simpa using hs.root_eq_focus_iff.1 h.symm
    have hs1 := hs.up
    rw [Frame.fill_eq] at hs1
    have h2 : ¬ some p = t.root_ := fun h => by simpa using hs1.root_eq_focus_iff.1 h.symm
    obtain ⟨ny, np, -, hp, -⟩ := hs.cells1
    rw [RBTree.insertFixup, if_neg h1]
    simp only [Option.bind_eq_bind, ha.py, Option.some_bind, if_neg h2, read_red hp]
    cases hpr : np.red_
    · simp only [Bool.not_false, if_true]
      exact ⟨t, rfl, Lifted.refl_lifted hs⟩
    · simp only [Bool.not_true, Bool.false_eq_true, if_false]
      obtain ⟨b, hb, hbu⟩ := redUncle_total ha ⟨np, hp⟩
      rw [hb, Option.some_bind]
      cases b
      · simp only [Bool.false_eq_true, if_false]
        exact blackUncleFixup_lifted b1 b2 hs
      · simp only [if_true]
        exact redUncleChangeColors_total ih (by omega) hs (hbu rfl) (by omega)

/-- The remainder of an iteration of the loop of `doubleRedFixup`: the step to the parent. -/
theorem doubleRedFixup_rest {n : Nat} (ih : DFTotal Key n) {t t1 : RBTree Key}
    {fs : List Frame} {l r : Shape} {y : Nat} (hl : Lifted fs l y r t t1)
    (hn : fs.length ≤ n + 1) {k : Nat} (hk : 3 * fs.length ≤ k) (hk1 : 1 ≤ k) :
    ∃ t', ((t1.parent (some y)).bind fun q => t1.doubleRedFixup k q) = some t' ∧
      Lifted fs l y r t t' := by
  obtain ⟨⟨fs1, cl, cr, hs1, len1, len2, ad1⟩, k1, m1, bk1⟩ := hl
  match fs1, hs1, len1, len2, ad1 with
  | [], hs1, len1, len2, ad1 =>
    obtain ⟨ny, hy, e1, -⟩ := hs1.focus
    obtain ⟨j, rfl⟩ : ∃ j, k = j + 1 := ⟨k - 1, by omega⟩
    refine ⟨t1, ?_, ⟨⟨[], cl, cr, hs1, len1, len2, ad1⟩, k1, m1, bk1⟩⟩
    rw [read_parent hy, e1, Option.some_bind, holeParent, RBTree.doubleRedFixup]
    simp [andThen]
  | f1 :: fs1, hs1, len1, len2, ad1 =>
    obtain ⟨ny, hy, e1, -⟩ := hs1.focus
    have hs2 := hs1.up
    rw [Frame.fill_eq] at hs2
    simp only [List.length_cons] at len1 len2
    obtain ⟨t', e, hl2⟩ := ih fs1 _ f1.a _ t1 k (by omega) hs2 (by omega)
    refine ⟨t', ?_, lifted_step (by simpa using len1) (by simpa using len2) ad1 k1 m1 bk1 hl2⟩
    rw [read_parent hy, e1, Option.some_bind, holeParent, e]

/-- The loop of `doubleRedFixup` returns, on every node of every tree. -/
theorem doubleRedFixup_total : ∀ n, DFTotal Key n := by
  intro n
  induction n with
  | zero =>
    intro fs l y r t fuel hn hs hf
    obtain ⟨k, rfl⟩ : ∃ k, fuel = k + 1 := ⟨fuel - 1, by omega⟩
    have hfs : fs = [] := by simpa using hn
    subst hfs
    obtain ⟨ny, hy, e1, -⟩ := hs.focus
    refine ⟨t, ?_, Lifted.refl_lifted hs⟩
    rw [RBTree.doubleRedFixup]
    simp [andThen, read_parent hy, e1, holeParent]
  | succ n ih =>
    intro fs l y r t fuel hn hs hf
    by_cases hlt : fs.length ≤ n
    · exact ih fs l y r t fuel hlt hs hf
    obtain ⟨k, rfl⟩ : ∃ k, fuel = k + 1 := ⟨fuel - 1, by omega⟩
    match fs, hn, hs, hf, hlt with
    | [], _, _, _, hlt => simp at hlt
    | ⟨b1, p, u1⟩ :: fs, hn, hs, hf, hlt =>
      simp only [List.length_cons] at hn hf hlt
      obtain ⟨ny, np, hy, hp, e1, -⟩ := hs.cells1
      have hdr : ∃ dr, t.doubleRed (some y) = some dr := by
        simp only [RBTree.doubleRed, andThen, read_red hy, read_parent hy, e1,
          Option.some_bind, Option.bind_eq_bind, read_red hp]
        split <;> exact ⟨_, rfl⟩
      obtain ⟨dr, hdr⟩ := hdr
      rw [RBTree.doubleRedFixup]
      simp only [andThen, read_parent hy, e1, Option.map_some', Option.bind_eq_bind,
        Option.some_bind, ne_eq, not_false_eq_true, decide_True, if_true, reduceCtorEq, hdr]
      cases dr
      · simp only [Bool.false_eq_true, if_false, Option.some_bind]
        have := doubleRedFixup_rest ih (Lifted.refl_lifted hs) (by simp only [List.length_cons]; omega)
          (k := k) (by simp only [List.length_cons]; omega) (by omega)
        simpa only [read_parent hy, e1, Option.some_bind] using this
      · simp only [if_true]
        obtain ⟨t1, e, hl⟩ := insertFixup_total ih
          (by simp only [List.length_cons]; omega) hs
          (show _ ≤ k by simp only [List.length_cons]; omega) (by omega)
        rw [e, Option.some_bind]
        exact doubleRedFixup_rest ih hl (by simp only [List.length_cons]; omega)
          (by simp only [List.length_cons]; omega) (by omega)

/-- `insertFixup` returns on every node of every tree, with fuel three times the depth. -/
theorem insertFixup_lifted {t : RBTree Key} {fs : List Frame} {l r : Shape} {y : Nat}
    (hs : Shaped t (plug fs (.node l y r))) {fuel : Nat} (hf : 3 * fs.length ≤ fuel)
    (hf1 : 1 ≤ fuel) :
    ∃ t', t.insertFixup fuel (some y) = some t' ∧ Lifted fs l y r t t' :=
  insertFixup_total (doubleRedFixup_total fs.length) (by omega) hs hf hf1

theorem WellFormed.lt_fresh {t : RBTree Key} {s : Shape} (h : WellFormed t s) {a : Nat}
    (ha : a ∈ s.addrs) : a < t.fresh := by
  by_contra hlt
  obtain ⟨n, hn⟩ := rep_live h.shaped.rep ha
  rw [h.unused a (by omega)] at hn
  exact absurd hn (by simp)

theorem WellFormed.height_le {t : RBTree Key} {s : Shape} (h : WellFormed t s) :
    s.height ≤ t.size_ := by
  rw [h.size]; exact s.height_le_length

theorem descend_length_le (t : RBTree Key) (key : Key) (s : Shape) :
    (descend t key s).length ≤ s.height := by
  induction s with
  | nil => simp [descend]
  | node l a r ihl ihr =>
    simp only [descend, Shape.height]
    split
    · simp
    · split <;> simp only [List.length_append, List.length_singleton] <;> omega

theorem SameKeys.live_iff {t t' : RBTree Key} (h : SameKeys t t') (a : Nat) :
    (∃ n, t'.mem a = some n) ↔ ∃ n, t.mem a = some n := by
  have := h a
  cases h1 : t'.mem a <;> cases h2 : t.mem a <;> simp_all

theorem SameKeys.none {t t' : RBTree Key} (h : SameKeys t t') {a : Nat} (ha : t.mem a = none) :
    t'.mem a = none := by
  have := h a
  cases h1 : t'.mem a <;> simp_all

theorem SameKeys.key_eq {t t' : RBTree Key} (h : SameKeys t t') (p : Ptr) :
    t'.key p = t.key p := by
  cases p with
  | none => rfl
  | some a => exact h a

/-- The tree after `new Node(key)`: the memory still holds the old tree. -/
theorem alloc_shaped {t : RBTree Key} {s : Shape} (h : WellFormed t s) (key : Key) :
    Shaped (t.alloc key).1 s ∧ t.fresh ∉ s.addrs ∧
      (∀ a, a ≠ t.fresh → (t.alloc key).1.mem a = t.mem a) ∧
      (t.alloc key).1.mem t.fresh =
        some { parent_ := none, left_ := none, right_ := none, red_ := true, key_ := key } := by
  have hfr : t.fresh ∉ s.addrs := fun ha => absurd (h.lt_fresh ha) (by omega)
  have hmem : ∀ a, a ≠ t.fresh → (t.alloc key).1.mem a = t.mem a := by
    intro a ha; simp [RBTree.alloc, ha]
  refine ⟨⟨h.shaped.root, rep_frame (fun a ha => hmem a ?_) h.shaped.rep, h.shaped.nodup⟩, hfr,
    hmem, by simp [RBTree.alloc]⟩
  rintro rfl; exact hfr ha

theorem keysAt_eq_of_mem {t t' : RBTree Key} {A : List Nat}
    (h : ∀ a ∈ A, t'.mem a = t.mem a) : keysAt t' A = keysAt t A := by
  unfold keysAt
  apply List.filterMap_congr
  intro a ha
  rw [h a ha]

theorem insert_unfold (t : RBTree Key) (fuel : Nat) (key : Key) (unique : Bool) :
    t.insert fuel key unique =
      if (t.alloc key).1.root_ = none then
        (({ (t.alloc key).1 with root_ := some t.fresh } : RBTree Key).setRed
          (some t.fresh) false).bind fun t1 => some ({ t1 with size_ := 1 }, some t.fresh, true)
      else
        ((t.alloc key).1.key (some t.fresh)).bind fun k =>
        ((t.alloc key).1.findNode fuel k).bind fun found =>
          if found ≠ none ∧ unique = true then
            ((t.alloc key).1.free (some t.fresh)).bind fun t1 => some (t1, some t.fresh, false)
          else
            ((t.alloc key).1.insertNode fuel (t.alloc key).1.root_ (some t.fresh)).bind fun t1 =>
            (t1.insertFixup fuel (some t.fresh)).bind fun t2 =>
              some ({ t2 with size_ := t2.size_ + 1 }, some t.fresh, true) := rfl

/-- Insertion into the empty tree. -/
theorem insert_empty {t : RBTree Key} (h : WellFormed t .nil) (fuel : Nat) (key : Key)
    (unique : Bool) :
    ∃ t', t.insert fuel key unique = some (t', some t.fresh, true) ∧
      Inserted t .nil key t' := by
  obtain ⟨hs0, hfr, hmem, hcell⟩ := alloc_shaped h key
  have hroot : (t.alloc key).1.root_ = none := hs0.root
  rw [insert_unfold, if_pos hroot]
  refine ⟨{ (RBTree.store { (t.alloc key).1 with root_ := some t.fresh } t.fresh
      ⟨none, none, none, false, key⟩) with size_ := 1 }, by simp [RBTree.setRed, hcell],
    ⟨.node .nil t.fresh .nil, [], [], ⟨⟨rfl, ?_, ?_⟩,
    ?_, ?_, ?_⟩, rfl, rfl, by simp [keysAt], by simp [keysAt]⟩, ?_, ?_, ?_, rfl, rfl, ?_⟩
  · exact ⟨⟨none, none, none, false, key⟩, by simp [RBTree.store], rfl, rfl, rfl, trivial,
      trivial⟩
  · simp [Shape.addrs]
  · intro a ha
    have : a ≠ t.fresh := by
      have : t.fresh < a := ha
      omega
    simp only [RBTree.store, this, if_false]
    rw [hmem a this]
    exact h.unused a (by have : t.fresh + 1 ≤ a := ha; omega)
  · intro a n hn
    by_cases ha : a = t.fresh
    · simp [Shape.addrs, ha]
    · simp only [RBTree.store, ha, if_false] at hn
      rw [hmem a ha] at hn
      exact absurd (h.live a n hn) (by simp [Shape.addrs])
  · simp [Shape.addrs]
  · simp [RBTree.store]
  · intro a ha
    simp only [RBTree.store, ha, if_false]
    rw [hmem a ha]
  · simp [h.size, Shape.addrs]
  · intro _ a ha
    have ha' : some t.fresh = some a := ha
    simp only [Option.some.injEq] at ha'
    subst ha'
    simp [RBTree.red, RBTree.deref, RBTree.store]

/-- The lookup that `insert` performs after the allocation answers whether an equivalent
element is stored. -/
theorem alloc_findNode {t : RBTree Key} {s : Shape} (h : WellFormed t s)
    (hw : StrictWeak t.comparator_) (hsort : SortedAt t s.addrs) {fuel : Nat}
    (hf : s.height ≤ fuel) (key k : Key) :
    ∃ found, (t.alloc key).1.findNode fuel k = some found ∧
      (found ≠ none ↔ Present t s k) := by
  obtain ⟨hs0, hfr, hmem, hcell⟩ := alloc_shaped h key
  have hk : keysAt (t.alloc key).1 s.addrs = keysAt t s.addrs :=
    keysAt_eq_of_mem fun a ha => hmem a (by rintro rfl; exact hfr ha)
  have hsort0 : SortedAt (t.alloc key).1 s.addrs := by
    unfold SortedAt; rw [hk]; exact hsort
  obtain ⟨r, e, hfound, hnone⟩ := findNodeLoop_spec (t := (t.alloc key).1) hw k hs0.rep hsort0 hf
  rw [← hs0.root] at e
  refine ⟨r, e, ?_⟩
  constructor
  · intro hr
    cases r with
    | none => exact absurd rfl hr
    | some a =>
      obtain ⟨h1, n, hn, h2⟩ := hfound a rfl
      refine ⟨n.key_, ?_, h2⟩
      rw [← hk]; exact mem_keysAt hn h1
  · rintro ⟨e', he, heq⟩ hr
    rw [← hk] at he
    exact hnone hr e' he heq

theorem Shaped.of_size {t : RBTree Key} {s : Shape} (h : Shaped t s) (n : Nat) :
    Shaped { t with size_ := n } s := ⟨h.root, h.rep, h.nodup⟩

@[simp] theorem modify_mem_self (t : RBTree Key) (a : Nat) (f : RBTNode Key → RBTNode Key) :
    (t.modify a f).mem a = (t.mem a).map f := by simp [RBTree.modify]

theorem modify_mem_ne (t : RBTree Key) {a x : Nat} (f : RBTNode Key → RBTNode Key)
    (h : x ≠ a) : (t.modify a f).mem x = t.mem x := by simp [RBTree.modify, h]

@[simp] theorem modify_root (t : RBTree Key) (a : Nat) (f : RBTNode Key → RBTNode Key) :
    (t.modify a f).root_ = t.root_ := rfl

@[simp] theorem modify_fresh (t : RBTree Key) (a : Nat) (f : RBTNode Key → RBTNode Key) :
    (t.modify a f).fresh = t.fresh := rfl

@[simp] theorem modify_size (t : RBTree Key) (a : Nat) (f : RBTNode Key → RBTNode Key) :
    (t.modify a f).size_ = t.size_ := rfl

@[simp] theorem modify_comparator (t : RBTree Key) (a : Nat) (f : RBTNode Key → RBTNode Key) :
    (t.modify a f).comparator_ = t.comparator_ := rfl

theorem setParent_eq {t : RBTree Key} {a : Nat} {n : RBTNode Key} (h : t.mem a = some n)
    (v : Ptr) : t.setParent (some a) v = some (t.modify a fun n => { n with parent_ := v }) := by
  simp only [RBTree.setParent, h, Option.map_some', Option.some.injEq, RBTree.store,
    RBTree.modify]
  congr 1; funext x; split <;> simp_all

theorem setLeft_eq {t : RBTree Key} {a : Nat} {n : RBTNode Key} (h : t.mem a = some n)
    (v : Ptr) : t.setLeft (some a) v = some (t.modify a fun n => { n with left_ := v }) := by
  simp only [RBTree.setLeft, h, Option.map_some', Option.some.injEq, RBTree.store,
    RBTree.modify]
  congr 1; funext x; split <;> simp_all

theorem setRight_eq {t : RBTree Key} {a : Nat} {n : RBTNode Key} (h : t.mem a = some n)
    (v : Ptr) : t.setRight (some a) v = some (t.modify a fun n => { n with right_ := v }) := by
  simp only [RBTree.setRight, h, Option.map_some', Option.some.injEq, RBTree.store,
    RBTree.modify]
  congr 1; funext x; split <;> simp_all

theorem setRed_eq {t : RBTree Key} {a : Nat} {n : RBTNode Key} (h : t.mem a = some n)
    (v : Bool) : t.setRed (some a) v = some (t.modify a fun n => { n with red_ := v }) := by
  simp only [RBTree.setRed, h, Option.map_some', Option.some.injEq, RBTree.store,
    RBTree.modify]
  congr 1; funext x; split <;> simp_all

theorem sameData_modify (t : RBTree Key) (a : Nat) {f : RBTNode Key → RBTNode Key}
    (hf : ∀ n, (f n).data = n.data) : SameData t (t.modify a f) := by
  intro x
  by_cases hx : x = a
  · subst hx
    rw [modify_mem_self]
    cases t.mem x <;> simp [hf]
  · rw [modify_mem_ne t f hx]

theorem SameData.refl_data (t : RBTree Key) : SameData t t := fun _ => rfl

theorem SameData.trans_data {t t1 t2 : RBTree Key} (h1 : SameData t t1) (h2 : SameData t1 t2) :
    SameData t t2 := fun a => (h2 a).trans (h1 a)

theorem nodup_plug_sub {fs : List Frame} {l r : Shape} {e : Nat}
    (h : (plug fs (.node l e r)).addrs.Nodup) (C : Shape) (hC : C = l ∨ C = r) :
    (plug fs C).addrs.Nodup := by
  rw [plug_addrs] at h ⊢
  refine h.sublist ?_
  refine List.Sublist.append (List.Sublist.append (List.Sublist.refl _) ?_) (List.Sublist.refl _)
  rcases hC with rfl | rfl
  · exact List.sublist_append_left _ _
  · exact (List.sublist_cons_self e _).trans (List.sublist_append_right _ _)

theorem nodup_parts {fs : List Frame} {l r : Shape} {e : Nat}
    (h : (ctxBefore fs ++ (Shape.node l e r).addrs ++ ctxAfter fs).Nodup) :
    (∀ a, a ∈ ctxBefore fs ∨ a ∈ ctxAfter fs → a ∉ l.addrs ∧ a ≠ e ∧ a ∉ r.addrs) ∧
      e ∉ l.addrs ∧ e ∉ r.addrs ∧ (∀ a ∈ l.addrs, a ∉ r.addrs) ∧
      (∀ a ∈ ctxBefore fs, a ∉ ctxAfter fs) := by
  simp only [Shape.addrs, List.nodup_append, List.nodup_cons, List.mem_append,
    List.mem_cons, List.disjoint_left, not_or] at h
  obtain ⟨⟨-, ⟨-, ⟨h1, -⟩, h2⟩, h3⟩, -, h4⟩ := h
  refine ⟨?_, fun he => (h2 he).1 rfl, h1, fun a ha => (h2 ha).2, fun a ha => h4 (Or.inl ha)⟩
  rintro a (ha | ha)
  · exact h3 ha
  · refine ⟨fun hl => ?_, ?_, fun hr => ?_⟩
    · exact h4 (Or.inr (Or.inl hl)) ha
    · rintro rfl; exact h4 (Or.inr (Or.inr (Or.inl rfl))) ha
    · exact h4 (Or.inr (Or.inr (Or.inr hr))) ha

theorem nodup_ctx {fs : List Frame} {u : Shape}
    (h : (ctxBefore fs ++ u.addrs ++ ctxAfter fs).Nodup) :
    (ctxBefore fs ++ ctxAfter fs).Nodup := by
  refine h.sublist ?_
  exact List.Sublist.append (List.sublist_append_left _ _) (List.Sublist.refl _)

theorem frame_mem_ctx (f : Frame) (fs : List Frame) :
    f.a ∈ ctxBefore (f :: fs) ∨ f.a ∈ ctxAfter (f :: fs) := by
  cases hf : f.isLeft <;> simp [ctxBefore, ctxAfter, hf]

/-- `transplant` of a node that has at most one child: the child subtree `C` (possibly empty)
takes the place of the node. -/
theorem transplant_shape {t : RBTree Key} {fs : List Frame} {l r C : Shape} {e : Nat}
    (hs : Shaped t (plug fs (.node l e r))) (hC : (l = .nil ∧ C = r) ∨ (C = l ∧ r = .nil)) :
    ∃ t', t.transplant (some e) C.root = some t' ∧ Shaped t' (plug fs C) ∧
      SameData t t' ∧ SameMeta t t' := by
  obtain ⟨ne, hne, hep, -, -, hL, hR⟩ := hs.focus
  have hCrep : Rep t.mem (some e) C := by
    rcases hC with ⟨-, rfl⟩ | ⟨rfl, -⟩
    · exact hR
    · exact hL
  have hCsub : C = l ∨ C = r := by
    rcases hC with ⟨-, rfl⟩ | ⟨rfl, -⟩
    · exact Or.inr rfl
    · exact Or.inl rfl
  have hnd := hs.nodup_plug
  have hnd' := nodup_plug_sub hs.nodup C hCsub
  obtain ⟨p1, p2, p3, -, -⟩ := nodup_parts hnd
  have heC : e ∉ C.addrs := by
    rcases hCsub with rfl | rfl
    · exact p2
    · exact p3
  have hctxC : ∀ a, a ∈ ctxBefore fs ∨ a ∈ ctxAfter fs → a ∉ C.addrs ∧ a ≠ e := by
    intro a ha
    obtain ⟨q1, q2, q3⟩ := p1 a ha
    rcases hCsub with rfl | rfl
    · exact ⟨q1, q2⟩
    · exact ⟨q3, q2⟩
  obtain ⟨hctx0, -⟩ := (rep_plug fs _).1 hs.rep
  -- first statement: the link that led to the node
  obtain ⟨t1, e1, h1root, h1rep, h1mem, h1d, h1m⟩ : ∃ t1,
      (if ne.parent_ = none then some { t with root_ := C.root }
        else (t.right ne.parent_).bind fun epr =>
          if epr = some e then t.setRight ne.parent_ C.root
          else t.setLeft ne.parent_ C.root) = some t1 ∧
      t1.root_ = (plug fs C).root ∧ RepCtx t1.mem none fs C.root ∧
      (∀ a, (a ∈ C.addrs ∨ a = e) → t1.mem a = t.mem a) ∧ SameData t t1 ∧ SameMeta t t1 := by
    match fs, hs, hep, hnd, hctxC, hctx0 with
    | [], hs, hep, hnd, hctxC, hctx0 =>
      rw [hep, holeParent, if_pos rfl]
      exact ⟨_, rfl, rfl, trivial, fun _ _ => rfl, SameData.refl_data t, ⟨rfl, rfl, rfl⟩⟩
    | f :: fs, hs, hep, hnd, hctxC, hctx0 =>
      obtain ⟨_, nf, -, hnf, -, -, -, -, -, hfr, -, hef, hesib, -⟩ :=
        Shaped.cells1 (show Shaped t (plug (⟨f.isLeft, f.a, f.sib⟩ :: fs) (.node l e r)) from hs)
      rw [hep, holeParent, if_neg (by simp), read_right hnf, Option.some_bind, hfr]
      have hroot : t.root_ = (plug (f :: fs) C).root := by
        rw [hs.root]; exact plug_root_cons f fs _ _
      have hfa := hctxC f.a (frame_mem_ctx f fs)
      cases hfl : f.isLeft
      · simp only [Bool.false_eq_true, if_false, if_true, setRight_eq hnf]
        refine ⟨_, rfl, hroot, ?_, fun a ha => modify_mem_ne t _ ?_,
          sameData_modify t _ (fun _ => rfl), ⟨rfl, rfl, rfl⟩⟩
        · refine repCtx_hole hctx0 (fun a _ ha => modify_mem_ne t _ ha) (nodup_ctx hnd) ?_
          intro n hn
          rw [modify_mem_self, hn, hfl]; rfl
        · rintro rfl
          rcases ha with ha | ha
          · exact hfa.1 ha
          · exact hfa.2 ha
      · have hne' : ¬ f.sib.root = some e := root_ne_of_not_mem hesib
        simp only [if_true, if_neg hne', setLeft_eq hnf]
        refine ⟨_, rfl, hroot, ?_, fun a ha => modify_mem_ne t _ ?_,
          sameData_modify t _ (fun _ => rfl), ⟨rfl, rfl, rfl⟩⟩
        · refine repCtx_hole hctx0 (fun a _ ha => modify_mem_ne t _ ha) (nodup_ctx hnd) ?_
          intro n hn
          rw [modify_mem_self, hn, hfl]; rfl
        · rintro rfl
          rcases ha with ha | ha
          · exact hfa.1 ha
          · exact hfa.2 ha
  have hne1 : t1.mem e = some ne := by rw [h1mem e (Or.inr rfl), hne]
  unfold RBTree.transplant
  simp only [Option.bind_eq_bind, read_parent hne, Option.some_bind]
  rw [e1, Option.some_bind]
  cases C with
  | nil =>
    simp only [Shape.root, ne_eq, not_true_eq_false, if_false]
    refine ⟨t1, rfl, ⟨h1root, (rep_plug fs _).2 ⟨h1rep, trivial⟩, hnd'⟩, h1d, h1m⟩
  | node cl c cr =>
    obtain ⟨nc, hnc, hcp, hcl, hcr, hcL, hcR⟩ := hCrep
    have hce : c ≠ e := by
      rintro rfl; exact heC (by simp [Shape.addrs])
    have hnc1 : t1.mem c = some nc := by
      rw [h1mem c (Or.inl (by simp [Shape.addrs])), hnc]
    have hnc2 : (t1.modify e fun n => { n with parent_ := nc.parent_ }).mem c = some nc := by
      rw [modify_mem_ne _ _ hce, hnc1]
    simp only [Shape.root, ne_eq, reduceCtorEq, not_false_eq_true, if_true, read_parent hne1,
      read_parent hnc1, Option.some_bind, setParent_eq hne1, setParent_eq hnc2]
    refine ⟨_, rfl, ⟨h1root, (rep_plug fs _).2 ⟨?_, ?_⟩, hnd'⟩, ?_, h1m⟩
    · refine repCtx_frame (fun a ha => ?_) h1rep
      have := hctxC a ha
      rw [modify_mem_ne, modify_mem_ne]
      · exact this.2
      · rintro rfl; exact this.1 (by simp [Shape.addrs])
    · refine rep_reparent (m := t.mem) ⟨nc, hnc, hcp, hcl, hcr, hcL, hcR⟩
        (by
          have := hnd'
          rw [plug_addrs] at this
          exact (List.nodup_append.1 (List.nodup_append.1 this).1).2.1) ?_ ?_
      · intro b nb hb hnb
        simp only [Shape.root, Option.some.injEq] at hb
        subst hb
        rw [modify_mem_self, hnc2]
        rw [hnc] at hnb
        simp only [Option.some.injEq] at hnb
        subst hnb
        simp [hep]
      · intro a ha hac
        have hac' : a ≠ c := fun h => hac (by rw [h]; rfl)
        have hae : a ≠ e := by rintro rfl; exact heC ha
        rw [modify_mem_ne _ _ hac', modify_mem_ne _ _ hae, h1mem a (Or.inl ha)]
    · refine (h1d.trans_data (sameData_modify t1 e (f := fun n => { n with parent_ := nc.parent_ })
        (fun _ => rfl))).trans_data ?_
      exact sameData_modify _ c (f := fun n => { n with parent_ := ne.parent_ }) (fun _ => rfl)

theorem plug_root_ctx {fs : List Frame} (hfs : fs ≠ []) (u : Shape) :
    ∃ a, (plug fs u).root = some a ∧ (a ∈ ctxBefore fs ∨ a ∈ ctxAfter fs) := by
  rw [plug_root]
  cases h : fs.getLast? with
  | none => exact absurd (List.getLast?_eq_none_iff.1 h) hfs
  | some g => exact ⟨g.a, rfl, getLast_mem_ctx h⟩

theorem plug_root_congr {fs : List Frame} (hfs : fs ≠ []) (u u' : Shape) :
    (plug fs u).root = (plug fs u').root := by
  cases fs with
  | nil => exact absurd rfl hfs
  | cons f fs => exact plug_root_cons f fs u u'

/-- Unlinking a node that has at most one child: `eraseNode` returns, the child subtree takes
the place of the node and inherits its colour. -/
theorem eraseNode_simple {t : RBTree Key} {fs : List Frame} {l r C : Shape} {e : Nat}
    (hs : Shaped t (plug fs (.node l e r))) (hC : (l = .nil ∧ C = r) ∨ (C = l ∧ r = .nil))
    (tf : Ptr) (c : Bool) {fuel : Nat} (hf : 1 ≤ fuel) :
    ∃ res, t.eraseNode fuel (some e) tf c = some res ∧ Shaped res.1 (plug fs C) ∧
      SameKeys t res.1 ∧ SameMeta t res.1 ∧ InTree (plug fs C).addrs res.2.1 ∧
      (RootBlack t → RootBlack res.1) := by
  obtain ⟨k, rfl⟩ : ∃ k, fuel = k + 1 := ⟨fuel - 1, by omega⟩
  obtain ⟨ne, hne, hep, hel, her, hL, hR⟩ := hs.focus
  obtain ⟨t1, e1, hs1, d1, m1⟩ := transplant_shape hs hC
  have hnd := hs.nodup_plug
  obtain ⟨p1, p2, p3, -, -⟩ := nodup_parts hnd
  have hrootEq : ∀ b, t1.root_ = some b → fs ≠ [] → t.root_ = some b := by
    intro b hb hfs
    rw [hs.root, ← hb, hs1.root]
    exact plug_root_congr hfs _ _
  rw [RBTree.eraseNode]
  cases C with
  | nil =>
    have hl : l = .nil := by rcases hC with ⟨h, -⟩ | ⟨h, -⟩ <;> simp [h]
    have hr : r = .nil := by rcases hC with ⟨-, h⟩ | ⟨-, h⟩ <;> simp [← h]
    subst hl hr
    simp only [Shape.root] at hel her e1
    have hto : ∃ q, (if ne.red_ = true then some none else t.parent (some e)) = some q ∧
        InTree (plug fs .nil).addrs q := by
      split
      · exact ⟨none, rfl, fun _ h => by simp at h⟩
      · refine ⟨_, read_parent hne, ?_⟩
        rw [hep]
        intro q hq
        rw [plug_addrs]
        rcases holeParent_mem hq rfl with h | h <;> simp [h]
    obtain ⟨q, hq, hqin⟩ := hto
    simp only [RBTree.howManyChildren, Option.bind_eq_bind, read_right hne, read_left hne,
      Option.some_bind, hel, her, ne_eq, not_true_eq_false, and_self, if_false, if_true,
      RBTree.noChildren, read_red hne, hq, e1, Option.map_some']
    refine ⟨_, rfl, hs1, d1.keys, m1, hqin, fun hb a ha => ?_⟩
    by_cases hfs : fs = []
    · subst hfs
      rw [hs1.root] at ha
      simp [plug, Shape.root] at ha
    · rw [d1.red_eq]; exact hb a (hrootEq a ha hfs)
  | node cl x cr =>
    have hxin : x ∈ (plug fs (.node cl x cr)).addrs := by
      rw [plug_addrs]; simp [Shape.addrs]
    have hxe : x ≠ e := by
      rintro rfl
      rcases hC with ⟨-, h⟩ | ⟨h, -⟩
      · exact p3 (by rw [← h]; simp [Shape.addrs])
      · exact p2 (by rw [← h]; simp [Shape.addrs])
    obtain ⟨nx, hnx⟩ := rep_live hs1.rep hxin
    have hre1 : t1.red (some e) = some ne.red_ := by rw [d1.red_eq, read_red hne]
    obtain ⟨t2, e2, hs2, k2, m2, r2, c2, o2⟩ := setRed_shape hs1 hxin ne.red_
    have hone : t.oneChildren (some e) tf = some (t2, some x, nx.red_) := by
      rcases hC with ⟨hl, hr⟩ | ⟨hl, hr⟩
      · subst hl
        rw [← hr] at her
        simp only [Shape.root] at hel her e1
        simp only [RBTree.oneChildren, Option.bind_eq_bind, read_left hne, hel,
          Option.some_bind, if_true, read_right hne, her, e1, read_red hnx, hre1, e2]
      · subst hr
        rw [← hl] at hel
        simp only [Shape.root] at hel her e1
        simp only [RBTree.oneChildren, Option.bind_eq_bind, read_left hne, hel,
          Option.some_bind, reduceCtorEq, if_false, read_right hne, her, if_true, e1,
          read_red hnx, hre1, e2]
    have hhow : t.howManyChildren (some e) = some .one_child := by
      rcases hC with ⟨hl, hr⟩ | ⟨hl, hr⟩
      · subst hl
        rw [← hr] at her
        simp [RBTree.howManyChildren, read_right hne, read_left hne, hel, her, Shape.root]
      · subst hr
        rw [← hl] at hel
        simp [RBTree.howManyChildren, read_right hne, read_left hne, hel, her, Shape.root]
    simp only [hhow, Option.bind_eq_bind, Option.some_bind, hone]
    refine ⟨_, rfl, hs2, d1.keys.trans_keys k2, m1.trans_meta m2, fun q hq => ?_, fun hb a ha => ?_⟩
    · simp only [Option.some.injEq] at hq
      subst hq; exact hxin
    · rw [r2] at ha
      by_cases hfs : fs = []
      · subst hfs
        rw [hs1.root] at ha
        simp only [plug, Shape.root, Option.some.injEq] at ha
        subst ha
        rw [c2]
        have := hb e (by rw [hs.root]; rfl)
        rw [read_red hne] at this
        exact this
      · have hra := hrootEq a ha hfs
        have hax : a ≠ x := by
          rintro rfl
          obtain ⟨b, hb1, hb2⟩ := plug_root_ctx hfs (.node l e r)
          rw [hs.root, hb1] at hra
          simp only [Option.some.injEq] at hra
          subst hra
          have := p1 b hb2
          rcases hC with ⟨-, h⟩ | ⟨h, -⟩
          · exact this.2.2 (by rw [← h]; simp [Shape.addrs])
          · exact this.1 (by rw [← h]; simp [Shape.addrs])
        rw [o2 a hax, d1.red_eq]
        exact hb a hra

theorem modify_mem (t : RBTree Key) (a x : Nat) (f : RBTNode Key → RBTNode Key) :
    (t.modify a f).mem x = if x = a then (t.mem x).map f else t.mem x := rfl

theorem modifyOpt_mem (t : RBTree Key) (p : Ptr) (x : Nat) (f : RBTNode Key → RBTNode Key) :
    (t.modifyOpt p f).mem x = if p = some x then (t.mem x).map f else t.mem x := by
  cases p with
  | none => simp [RBTree.modifyOpt]
  | some a =>
    simp only [RBTree.modifyOpt, modify_mem, Option.some.injEq]
    by_cases h : x = a
    · subst h; simp
    · have : ¬ a = x := fun h' => h h'.symm
      simp [h, this]

@[simp] theorem modifyOpt_root (t : RBTree Key) (p : Ptr) (f : RBTNode Key → RBTNode Key) :
    (t.modifyOpt p f).root_ = t.root_ := by cases p <;> rfl

theorem modifyOpt_meta (t : RBTree Key) (p : Ptr) (f : RBTNode Key → RBTNode Key) :
    SameMeta t (t.modifyOpt p f) := by cases p <;> exact ⟨rfl, rfl, rfl⟩

theorem modify_congr (t : RBTree Key) (a : Nat) {f g : RBTNode Key → RBTNode Key}
    (h : ∀ n, t.mem a = some n → f n = g n) : t.modify a f = t.modify a g := by
  unfold RBTree.modify
  congr 1
  funext x
  by_cases hx : x = a
  · subst hx
    cases hn : t.mem x with
    | none => simp
    | some n => simp [h n hn]
  · simp [hx]

theorem Live.modify {t : RBTree Key} {p : Ptr} (h : Live t p) (a : Nat)
    (f : RBTNode Key → RBTNode Key) : Live (t.modify a f) p := by
  intro q hq
  obtain ⟨n, hn⟩ := h q hq
  rw [modify_mem]
  split
  · exact ⟨f n, by simp [hn]⟩
  · exact ⟨n, hn⟩

theorem Live.modifyOpt {t : RBTree Key} {p : Ptr} (h : Live t p) (q : Ptr)
    (f : RBTNode Key → RBTNode Key) : Live (t.modifyOpt q f) p := by
  cases q with
  | none => exact h
  | some a => exact h.modify a f

/-- The statement of `swapNodes` that repairs the child link of the new parent of `a`. -/
theorem relinkParent_eq {t : RBTree Key} {a : Nat} {p : Ptr} (b : Nat)
    (ha : t.parent (some a) = some p) (hp : Live t p) :
    t.relinkParent (some a) (some b) = some (t.modifyOpt p (relink a b)) := by
  unfold RBTree.relinkParent
  rw [ha]
  cases p with
  | none => simp [RBTree.modifyOpt]
  | some q =>
    obtain ⟨nq, hq⟩ := hp q rfl
    simp only [Option.bind_eq_bind, Option.some_bind, ne_eq, reduceCtorEq, not_false_eq_true,
      if_true, read_left hq, RBTree.modifyOpt]
    by_cases hl : nq.left_ = some b
    · rw [if_pos hl, setLeft_eq hq]
      congr 1
      exact modify_congr t q fun n hn => by
        rw [hq] at hn; simp only [Option.some.injEq] at hn; subst hn; simp [relink, hl]
    · rw [if_neg hl, setRight_eq hq]
      congr 1
      exact modify_congr t q fun n hn => by
        rw [hq] at hn; simp only [Option.some.injEq] at hn; subst hn; simp [relink, hl]

theorem adoptLeft_eq {t : RBTree Key} {a : Nat} {p : Ptr}
    (ha : t.left (some a) = some p) (hp : Live t p) :
    t.adoptLeft (some a) = some (t.modifyOpt p fun n => { n with parent_ := some a }) := by
  unfold RBTree.adoptLeft
  rw [ha]
  cases p with
  | none => simp [RBTree.modifyOpt]
  | some q =>
    obtain ⟨nq, hq⟩ := hp q rfl
    simp [RBTree.modifyOpt, setParent_eq hq]

theorem adoptRight_eq {t : RBTree Key} {a : Nat} {p : Ptr}
    (ha : t.right (some a) = some p) (hp : Live t p) :
    t.adoptRight (some a) = some (t.modifyOpt p fun n => { n with parent_ := some a }) := by
  unfold RBTree.adoptRight
  rw [ha]
  cases p with
  | none => simp [RBTree.modifyOpt]
  | some q =>
    obtain ⟨nq, hq⟩ := hp q rfl
    simp [RBTree.modifyOpt, setParent_eq hq]

theorem relink_parent (a b : Nat) (n : RBTNode Key) : (relink a b n).parent_ = n.parent_ := by
  unfold relink; split <;> rfl

theorem relink_red (a b : Nat) (n : RBTNode Key) : (relink a b n).red_ = n.red_ := by
  unfold relink; split <;> rfl

theorem relink_key (a b : Nat) (n : RBTNode Key) : (relink a b n).key_ = n.key_ := by
  unfold relink; split <;> rfl

/-- The first half of `swapNodes` in closed form. -/
theorem swapParents_eq {t : RBTree Key} {e m : Nat} {ne nm : RBTNode Key}
    (he : t.mem e = some ne) (hm : t.mem m = some nm) (hem : e ≠ m)
    (h1 : Live t ne.parent_) (h2 : Live t nm.parent_) :
    t.swapParents (some e) (some m) =
      some ((((t.modify e fun n => { n with parent_ := nm.parent_ }).modify m
        fun n => { n with parent_ := ne.parent_ }).modifyOpt nm.parent_
          (relink e m)).modifyOpt ne.parent_ (relink m e)) := by
  have he1 : (t.modify e fun n => { n with parent_ := nm.parent_ }).mem m = some nm := by
    rw [modify_mem_ne _ _ hem.symm, hm]
  unfold RBTree.swapParents
  simp only [Option.bind_eq_bind, read_parent he, read_parent hm, Option.some_bind,
    setParent_eq he, setParent_eq he1]
  rw [relinkParent_eq (p := nm.parent_) m]
  · rw [Option.some_bind]
    refine relinkParent_eq (p := ne.parent_) e ?_ (((h1.modify _ _).modify _ _).modifyOpt _ _)
    rw [RBTree.parent, RBTree.deref, modifyOpt_mem, modify_mem_self, he1]
    split
    · simp [relink_parent]
    · simp
  · rw [RBTree.parent, RBTree.deref, modify_mem_ne _ _ hem, modify_mem_self, he]
    simp
  · exact (h2.modify _ _).modify _ _

theorem swapRed_eq {t : RBTree Key} {a b : Nat} {na nb : RBTNode Key}
    (ha : t.mem a = some na) (hb : t.mem b = some nb) :
    t.swapRed (some a) (some b) =
      some ((t.modify a fun n => { n with red_ := nb.red_ }).modify b
        fun n => { n with red_ := na.red_ }) := by
  have hb1 : ∃ n, (t.modify a fun n => { n with red_ := nb.red_ }).mem b = some n := by
    rw [modify_mem]; split
    · exact ⟨_, by rw [hb]; rfl⟩
    · exact ⟨_, hb⟩
  obtain ⟨n, hn⟩ := hb1
  simp only [RBTree.swapRed, Option.bind_eq_bind, read_red ha, read_red hb, Option.some_bind,
    setRed_eq ha, setRed_eq hn]

theorem children_modifyOpt_parent (u : RBTree Key) (p : Ptr) (q : Ptr) (x : Ptr) :
    ((u.modifyOpt p fun n => { n with parent_ := q }).left x = u.left x) ∧
      ((u.modifyOpt p fun n => { n with parent_ := q }).right x = u.right x) := by
  cases x with
  | none => exact ⟨rfl, rfl⟩
  | some y =>
    simp only [RBTree.left, RBTree.right, RBTree.deref, modifyOpt_mem]
    cases hy : u.mem y <;> constructor <;> split <;> simp

/-- The second half of `swapNodes` in closed form. -/
theorem swapChildren_eq {t : RBTree Key} {e m : Nat} {ne nm : RBTNode Key}
    (he : t.mem e = some ne) (hm : t.mem m = some nm) (hem : e ≠ m)
    (h1 : Live t ne.left_) (h2 : Live t ne.right_) (h3 : Live t nm.left_)
    (h4 : Live t nm.right_) :
    t.swapChildren (some e) (some m) =
      some ((((((((t.modify e fun n => { n with left_ := nm.left_ }).modify m
        fun n => { n with left_ := ne.left_ }).modify e
        fun n => { n with right_ := nm.right_ }).modify m
        fun n => { n with right_ := ne.right_ }).modifyOpt nm.left_
        fun n => { n with parent_ := some e }).modifyOpt nm.right_
        fun n => { n with parent_ := some e }).modifyOpt ne.left_
        fun n => { n with parent_ := some m }).modifyOpt ne.right_
        fun n => { n with parent_ := some m }) := by
  have hme := hem.symm
  -- the four assignments to the child links
  have a1 : (t.modify e fun n => { n with left_ := nm.left_ }).mem m = some nm := by
    rw [modify_mem_ne _ _ hme, hm]
  have a2 : ((t.modify e fun n => { n with left_ := nm.left_ }).modify m
      fun n => { n with left_ := ne.left_ }).mem e = some { ne with left_ := nm.left_ } := by
    rw [modify_mem_ne _ _ hem, modify_mem_self, he]; rfl
  have a2' : ((t.modify e fun n => { n with left_ := nm.left_ }).modify m
      fun n => { n with left_ := ne.left_ }).mem m = some { nm with left_ := ne.left_ } := by
    rw [modify_mem_self, a1]; rfl
  have a3 : (((t.modify e fun n => { n with left_ := nm.left_ }).modify m
      fun n => { n with left_ := ne.left_ }).modify e
      fun n => { n with right_ := nm.right_ }).mem m = some { nm with left_ := ne.left_ } := by
    rw [modify_mem_ne _ _ hme, a2']
  unfold RBTree.swapChildren
  simp only [Option.bind_eq_bind, read_left he, read_left hm, Option.some_bind,
    setLeft_eq he, setLeft_eq a1, read_right a2, read_right a2', setRight_eq a2,
    setRight_eq a3]
  -- the cells of the two nodes now
  have c1 : ∀ t' : RBTree Key, t'.left (some e) = some nm.left_ →
      t'.right (some e) = some nm.right_ → t'.left (some m) = some ne.left_ →
      t'.right (some m) = some ne.right_ → Live t' nm.left_ → Live t' nm.right_ →
      Live t' ne.left_ → Live t' ne.right_ →
      ((t'.adoptLeft (some e)).bind fun t => (t.adoptRight (some e)).bind fun t =>
        (t.adoptLeft (some m)).bind fun t => t.adoptRight (some m)) =
      some ((((t'.modifyOpt nm.left_ fun n => { n with parent_ := some e }).modifyOpt nm.right_
        fun n => { n with parent_ := some e }).modifyOpt ne.left_
        fun n => { n with parent_ := some m }).modifyOpt ne.right_
        fun n => { n with parent_ := some m }) := by
    intro t' l1 l2 l3 l4 v1 v2 v3 v4
    have thru := @children_modifyOpt_parent Key
    rw [adoptLeft_eq l1 v1, Option.some_bind, adoptRight_eq (p := nm.right_), Option.some_bind,
      adoptLeft_eq (p := ne.left_), Option.some_bind, adoptRight_eq (p := ne.right_)]
    · rw [(thru _ _ _ _).2, (thru _ _ _ _).2, (thru _ _ _ _).2, l4]
    · exact ((v4.modifyOpt _ _).modifyOpt _ _).modifyOpt _ _
    · rw [(thru _ _ _ _).1, (thru _ _ _ _).1, l3]
    · exact (v3.modifyOpt _ _).modifyOpt _ _
    · rw [(thru _ _ _ _).2, l2]
    · exact v2.modifyOpt _ _
  refine c1 _ ?_ ?_ ?_ ?_ ((((h3.modify _ _).modify _ _).modify _ _).modify _ _)
    ((((h4.modify _ _).modify _ _).modify _ _).modify _ _)
    ((((h1.modify _ _).modify _ _).modify _ _).modify _ _)
    ((((h2.modify _ _).modify _ _).modify _ _).modify _ _)
  · rw [RBTree.left, RBTree.deref, modify_mem_ne _ _ hem, modify_mem_self, a2]; rfl
  · rw [RBTree.right, RBTree.deref, modify_mem_ne _ _ hem, modify_mem_self, a2]; rfl
  · rw [RBTree.left, RBTree.deref, modify_mem_self, a3]; rfl
  · rw [RBTree.right, RBTree.deref, modify_mem_self, a3]; rfl

theorem Shaped.live_cell {t : RBTree Key} {s : Shape} (hs : Shaped t s) {p : Ptr}
    (hp : InTree s.addrs p) : Live t p :=
  fun q hq => rep_live hs.rep (hp q hq)

theorem ctxBefore_allLeft {gs : List Frame} (h : ∀ g ∈ gs, g.isLeft = true) :
    ctxBefore gs = [] := by
  induction gs with
  | nil => rfl
  | cons g gs ih =>
    simp only [ctxBefore, h g (List.mem_cons_self _ _), if_true, List.append_nil]
    exact ih fun g' hg' => h g' (List.mem_cons_of_mem _ hg')

/-- The parent pointer of the position of a path is the start or a node of the path. -/
theorem holeParent_cases (par : Ptr) (gs : List Frame) :
    holeParent par gs = par ∧ gs = [] ∨
      ∃ a, holeParent par gs = some a ∧ (a ∈ ctxBefore gs ∨ a ∈ ctxAfter gs) := by
  cases gs with
  | nil => exact Or.inl ⟨rfl, rfl⟩
  | cons g gs => exact Or.inr ⟨g.a, rfl, frame_mem_ctx g gs⟩

/-- Changing the parent link of the outermost node of a path moves the path below another
node. -/
theorem repCtx_top {m m' : Nat → Option (RBTNode Key)} {par par' : Ptr} :
    ∀ {gs : List Frame} {h : Ptr}, RepCtx m par gs h →
      (∀ a, a ∈ ctxBefore gs ∨ a ∈ ctxAfter gs →
        m' a = if gs.getLast?.map (·.a) = some a then
          (m a).map (fun n => { n with parent_ := par' }) else m a) →
      (ctxBefore gs ++ ctxAfter gs).Nodup →
      RepCtx m' par' gs h
  | [], _, _, _, _ => trivial
  | g :: gs, h, hr, hc, hnd => by
    obtain ⟨h1, n, hn, hp, hl, hr', hs⟩ := hr
    have hga := frame_mem_ctx g gs
    have hsub : ∀ a, a ∈ ctxBefore gs ∨ a ∈ ctxAfter gs →
        a ∈ ctxBefore (g :: gs) ∨ a ∈ ctxAfter (g :: gs) := by
      intro a ha
      rcases ha with ha | ha
      · exact Or.inl (by simp [ctxBefore, ha])
      · exact Or.inr (by simp [ctxAfter, ha])
    have hsib : ∀ a ∈ g.sib.addrs, a ∈ ctxBefore (g :: gs) ∨ a ∈ ctxAfter (g :: gs) := by
      intro a ha
      cases hf : g.isLeft <;> simp [ctxBefore, ctxAfter, hf, ha]
    have hndl : ∀ a, a ∈ ctxBefore gs ∨ a ∈ ctxAfter gs → a ≠ g.a := by
      rintro a ha rfl
      cases hf' : g.isLeft <;>
        simp [ctxBefore, ctxAfter, hf', List.nodup_append, List.nodup_cons] at hnd <;>
        rcases ha with ha | ha <;> simp_all
    have hnds : ∀ a ∈ g.sib.addrs, a ≠ g.a := by
      rintro a ha rfl
      cases hf' : g.isLeft <;>
        simp [ctxBefore, ctxAfter, hf', List.nodup_append, List.nodup_cons] at hnd <;>
        simp_all
    have hndss : ∀ a ∈ g.sib.addrs, ¬ (a ∈ ctxBefore gs ∨ a ∈ ctxAfter gs) := by
      rintro a ha hb
      cases hf' : g.isLeft <;>
        simp [ctxBefore, ctxAfter, hf', List.nodup_append, List.nodup_cons,
          List.disjoint_left] at hnd <;>
        rcases hb with hb | hb <;> simp_all
    cases gs with
    | nil =>
      have hcell := hc g.a hga
      simp only [List.getLast?_singleton, Option.map_some', if_true, hn] at hcell
      refine ⟨trivial, _, hcell, rfl, hl, hr', rep_frame (fun a ha => ?_) hs⟩
      rw [hc a (hsib a ha)]
      simp only [List.getLast?_singleton, Option.map_some', Option.some.injEq]
      rw [if_neg (fun h => hnds a ha h.symm)]
    | cons g2 gs2 =>
      have hlast : ∀ a, (ctxBefore (g :: g2 :: gs2) ++ ctxAfter (g :: g2 :: gs2)).Nodup →
          ((g :: g2 :: gs2).getLast?.map (·.a) = some a) →
          a ∈ ctxBefore (g2 :: gs2) ∨ a ∈ ctxAfter (g2 :: gs2) := by
        intro a _ ha
        rw [List.getLast?_cons_cons] at ha
        cases hl : (g2 :: gs2).getLast? with
        | none => rw [hl] at ha; simp at ha
        | some k =>
          rw [hl] at ha
          simp only [Option.map_some', Option.some.injEq] at ha
          subst ha
          exact getLast_mem_ctx hl
      have hnd2 : (ctxBefore (g2 :: gs2) ++ ctxAfter (g2 :: gs2)).Nodup := by
        refine hnd.sublist ?_
        rw [ctxBefore, ctxAfter]
        exact List.Sublist.append (List.sublist_append_left _ _)
          (List.sublist_append_right _ _)
      refine ⟨repCtx_top h1 (fun a ha => ?_) hnd2, n, ?_, hp, hl, hr',
        rep_frame (fun a ha => ?_) hs⟩
      · rw [hc a (hsub a ha), List.getLast?_cons_cons]
      · rw [hc g.a hga, if_neg, hn]
        intro hx
        exact hndl g.a (hlast g.a hnd hx) rfl
      · rw [hc a (hsib a ha), if_neg]
        intro hx
        exact hndss a ha (hlast a hnd hx)

theorem holeParent_append (par : Ptr) (gs : List Frame) (f : Frame) (fs : List Frame) :
    holeParent par (gs ++ f :: fs) = holeParent (some f.a) gs := by
  cases gs <;> rfl

/-- The parts of a tree around a node `e` with successor `m` lie at distinct addresses. -/
theorem swap_regions {fs gs : List Frame} {L Rm : Shape} {e m : Nat}
    (hgs : ∀ g ∈ gs, g.isLeft = true)
    (hnd : (plug fs (.node L e (plug gs (.node .nil m Rm)))).addrs.Nodup) :
    (∀ a, a ∈ ctxBefore fs ∨ a ∈ ctxAfter fs →
      a ≠ e ∧ a ≠ m ∧ a ∉ L.addrs ∧ a ∉ Rm.addrs ∧ a ∉ ctxAfter gs) ∧
    (∀ a ∈ L.addrs, a ≠ e ∧ a ≠ m ∧ a ∉ Rm.addrs ∧ a ∉ ctxAfter gs) ∧
    (∀ a ∈ Rm.addrs, a ≠ e ∧ a ≠ m ∧ a ∉ ctxAfter gs) ∧
    (∀ a ∈ ctxAfter gs, a ≠ e ∧ a ≠ m) ∧ e ≠ m := by
  rw [plug_addrs] at hnd
  simp only [Shape.addrs, plug_addrs, ctxBefore_allLeft hgs, List.nil_append,
    List.nodup_append, List.nodup_cons, List.mem_append, List.mem_cons, List.disjoint_left,
    not_or, List.not_mem_nil, or_false, false_or, List.cons_append] at hnd
  obtain ⟨⟨-, ⟨-, ⟨⟨h1, h2, h3⟩, ⟨⟨h4, h5⟩, -, -, h6⟩⟩, h7⟩, h8⟩, -, h9⟩ := hnd
  refine ⟨?_, ?_, ?_, ?_, ?_⟩
  · rintro a (ha | ha)
    · have := h8 ha
      tauto
    · refine ⟨?_, ?_, ?_, ?_, ?_⟩
      · rintro rfl; exact h9 (Or.inr (Or.inr (Or.inl rfl))) ha
      · rintro rfl; exact h9 (Or.inr (Or.inr (Or.inr (Or.inl rfl)))) ha
      · intro h; exact h9 (Or.inr (Or.inl h)) ha
      · intro h; exact h9 (Or.inr (Or.inr (Or.inr (Or.inr (Or.inl h))))) ha
      · intro h; exact h9 (Or.inr (Or.inr (Or.inr (Or.inr (Or.inr h))))) ha
  · intro a ha
    have := h7 ha
    tauto
  · intro a ha
    refine ⟨?_, ?_, fun h => h6 ha h⟩
    · rintro rfl; exact h2 ha
    · rintro rfl; exact h4 ha
  · intro a ha
    refine ⟨?_, ?_⟩
    · rintro rfl; exact h3 ha
    · rintro rfl; exact h5 ha
  · exact h1

theorem red_modify (t : RBTree Key) (a : Nat) {f : RBTNode Key → RBTNode Key}
    (hf : ∀ n, (f n).red_ = n.red_) (x : Ptr) : (t.modify a f).red x = t.red x := by
  cases x with
  | none => rfl
  | some y =>
    simp only [RBTree.red, RBTree.deref, modify_mem]
    split
    · cases t.mem y <;> simp [hf]
    · rfl

theorem red_modifyOpt (t : RBTree Key) (p : Ptr) {f : RBTNode Key → RBTNode Key}
    (hf : ∀ n, (f n).red_ = n.red_) (x : Ptr) : (t.modifyOpt p f).red x = t.red x := by
  cases p with
  | none => rfl
  | some a => exact red_modify t a hf x

theorem red_modify_parent (t : RBTree Key) (a : Nat) (v : Ptr) (x : Ptr) :
    (t.modify a fun n => { n with parent_ := v }).red x = t.red x :=
  red_modify t a (f := fun n => { n with parent_ := v }) (fun _ => rfl) x

theorem red_modify_left (t : RBTree Key) (a : Nat) (v : Ptr) (x : Ptr) :
    (t.modify a fun n => { n with left_ := v }).red x = t.red x :=
  red_modify t a (f := fun n => { n with left_ := v }) (fun _ => rfl) x

theorem red_modify_right (t : RBTree Key) (a : Nat) (v : Ptr) (x : Ptr) :
    (t.modify a fun n => { n with right_ := v }).red x = t.red x :=
  red_modify t a (f := fun n => { n with right_ := v }) (fun _ => rfl) x

theorem red_modifyOpt_parent (t : RBTree Key) (p : Ptr) (v : Ptr) (x : Ptr) :
    (t.modifyOpt p fun n => { n with parent_ := v }).red x = t.red x :=
  red_modifyOpt t p (f := fun n => { n with parent_ := v }) (fun _ => rfl) x

theorem red_modifyOpt_relink (t : RBTree Key) (p : Ptr) (a b : Nat) (x : Ptr) :
    (t.modifyOpt p (relink a b)).red x = t.red x :=
  red_modifyOpt t p (relink_red a b) x

theorem cell_of_red {t : RBTree Key} {a : Nat} {c : Bool} (h : t.red (some a) = some c) :
    ∃ n, t.mem a = some n ∧ n.red_ = c := by
  simp only [RBTree.red, RBTree.deref, Option.map_eq_some'] at h
  exact h

theorem swap_rootfix {T : RBTree Key} {e m : Nat} {r : Ptr}
    (h : (T.root_ = some e ∧ r = some m) ∨
      (T.root_ ≠ some e ∧ T.root_ ≠ some m ∧ r = T.root_)) :
    (if T.root_ = some e then some { T with root_ := some m }
      else if T.root_ = some m then some { T with root_ := some e }
      else some T) = some { T with root_ := r } := by
  rcases h with ⟨h1, rfl⟩ | ⟨h1, h2, rfl⟩
  · rw [if_pos h1]
  · rw [if_neg h1, if_neg h2]

theorem shaped_refocus {t : RBTree Key} {fs gs : List Frame} {L X : Shape} {e : Nat}
    (hs : Shaped t (plug fs (.node L e (plug gs X)))) :
    Shaped t (plug (gs ++ ⟨false, e, L⟩ :: fs) X) := by
  rw [plug_append]; exact hs

set_option maxHeartbeats 400000 in
/-- `swapNodes` of a node with two children and its in-order successor, in closed form. -/
theorem swapNodes_closed {t : RBTree Key} {fs gs : List Frame} {L Rm : Shape} {e m : Nat}
    (hgs : ∀ g ∈ gs, g.isLeft = true)
    (hs : Shaped t (plug fs (.node L e (plug gs (.node .nil m Rm))))) :
    ∃ ne nm, t.mem e = some ne ∧ t.mem m = some nm ∧
      t.swapNodes (some e) (some m) = some
        { ((((((((((((((t.modify e fun n => { n with parent_ := holeParent (some e) gs }).modify m
          fun n => { n with parent_ := holeParent none fs }).modifyOpt (holeParent (some e) gs)
          (relink e m)).modifyOpt (holeParent none fs) (relink m e)).modify e
          fun n => { n with left_ := none }).modify m
          fun n => { n with left_ := L.root }).modify e
          fun n => { n with right_ := Rm.root }).modify m
          fun n => { n with right_ := (plug gs (.node .nil e Rm)).root }).modifyOpt none
          fun n => { n with parent_ := some e }).modifyOpt Rm.root
          fun n => { n with parent_ := some e }).modifyOpt L.root
          fun n => { n with parent_ := some m }).modifyOpt (plug gs (.node .nil e Rm)).root
          fun n => { n with parent_ := some m }).modify e
          fun n => { n with red_ := nm.red_ }).modify m
          fun n => { n with red_ := ne.red_ }) with
          root_ := (plug fs (.node L m (plug gs (.node .nil e Rm)))).root } := by
  obtain ⟨ne, hne, hep, hel, her, hL, hR⟩ := hs.focus
  obtain ⟨nm, hnm, hmp, hml, hmr, -, hRm⟩ := (shaped_refocus hs).focus
  rw [holeParent_append] at hmp
  change nm.parent_ = holeParent (some e) gs at hmp
  simp only [Shape.root] at hml
  obtain ⟨r1, r2, r3, r4, hem⟩ := swap_regions hgs hs.nodup
  refine ⟨ne, nm, hne, hnm, ?_⟩
  have he_in : InTree (plug fs (.node L e (plug gs (.node .nil m Rm)))).addrs (some e) := by
    intro q hq; simp only [Option.some.injEq] at hq; subst hq
    rw [plug_addrs]; simp [Shape.addrs]
  have hm_in : InTree (plug fs (.node L e (plug gs (.node .nil m Rm)))).addrs (some m) := by
    intro q hq; simp only [Option.some.injEq] at hq; subst hq
    rw [plug_addrs, Shape.addrs, plug_addrs]; simp [Shape.addrs]
  have lv1 : Live t ne.parent_ := hs.live_cell (hs.parent_inTree he_in (read_parent hne))
  have lv2 : Live t nm.parent_ := hs.live_cell (hs.parent_inTree hm_in (read_parent hnm))
  have lv3 : Live t ne.left_ := hs.live_cell (hs.left_inTree he_in (read_left hne))
  have lv4 : Live t ne.right_ := hs.live_cell (hs.right_inTree he_in (read_right hne))
  have lv5 : Live t nm.right_ := hs.live_cell (hs.right_inTree hm_in (read_right hnm))
  have hsp := swapParents_eq hne hnm hem lv1 lv2
  rw [hep, hmp] at hsp
  -- where the pointers lead
  have hpe : holeParent none fs ≠ some e := by
    intro h
    rcases holeParent_cases none fs with ⟨h1, -⟩ | ⟨a, h1, h2⟩
    · rw [h1] at h; simp at h
    · rw [h1] at h; simp only [Option.some.injEq] at h; subst h; exact (r1 a h2).1 rfl
  have hpm : holeParent none fs ≠ some m := by
    intro h
    rcases holeParent_cases none fs with ⟨h1, -⟩ | ⟨a, h1, h2⟩
    · rw [h1] at h; simp at h
    · rw [h1] at h; simp only [Option.some.injEq] at h; subst h; exact (r1 a h2).2.1 rfl
  have hgm : holeParent (some e) gs ≠ some m := by
    intro h
    rcases holeParent_cases (some e) gs with ⟨h1, -⟩ | ⟨a, h1, h2⟩
    · rw [h1] at h; simp only [Option.some.injEq] at h; exact hem h
    · rw [h1] at h; simp only [Option.some.injEq] at h; subst h
      rw [ctxBefore_allLeft hgs] at h2
      simp only [List.not_mem_nil, false_or] at h2
      exact (r4 a h2).2 rfl
  have hge : holeParent (some e) gs = some e ↔ gs = [] := by
    constructor
    · intro h
      rcases holeParent_cases (some e) gs with ⟨-, h1⟩ | ⟨a, h1, h2⟩
      · exact h1
      · rw [h1] at h; simp only [Option.some.injEq] at h; subst h
        rw [ctxBefore_allLeft hgs] at h2
        simp only [List.not_mem_nil, false_or] at h2
        exact absurd rfl (r4 a h2).1
    · rintro rfl; rfl
  have hLm : L.root ≠ some m := fun h => (r2 m (Shape.root_mem h)).2.1 rfl
  -- the two cells after the exchange of the parent links
  obtain ⟨ne4, hne4, e4l, e4r, e4c⟩ : ∃ ne4,
      ((((t.modify e fun n => { n with parent_ := holeParent (some e) gs }).modify m
        fun n => { n with parent_ := holeParent none fs }).modifyOpt (holeParent (some e) gs)
        (relink e m)).modifyOpt (holeParent none fs) (relink m e)).mem e = some ne4 ∧
      ne4.left_ = L.root ∧ ne4.right_ = (plug gs (.node .nil e Rm)).root ∧
      ne4.red_ = ne.red_ := by
    by_cases hg : gs = []
    · subst hg
      refine ⟨{ ne with parent_ := some e, right_ := some e }, ?_, hel, rfl, rfl⟩
      have hnil : holeParent (some e) [] = some e := rfl
      simp only [modifyOpt_mem, modify_mem, hpe, if_false, hem, if_true, hne, Option.map_some',
        hnil, relink, hel, hLm]
    · refine ⟨{ ne with parent_ := holeParent (some e) gs }, ?_, hel, ?_, rfl⟩
      · simp only [modifyOpt_mem, modify_mem, hpe, if_false, hem, if_true, hne,
          Option.map_some', mt hge.1 hg]
      · show ne.right_ = _
        rw [her]; exact plug_root_congr hg _ _
  obtain ⟨nm4, hnm4, m4l, m4r, m4c⟩ : ∃ nm4,
      ((((t.modify e fun n => { n with parent_ := holeParent (some e) gs }).modify m
        fun n => { n with parent_ := holeParent none fs }).modifyOpt (holeParent (some e) gs)
        (relink e m)).modifyOpt (holeParent none fs) (relink m e)).mem m = some nm4 ∧
      nm4.left_ = none ∧ nm4.right_ = Rm.root ∧ nm4.red_ = nm.red_ := by
    refine ⟨{ nm with parent_ := holeParent none fs }, ?_, hml, hmr, rfl⟩
    simp only [modifyOpt_mem, modify_mem, hpm, hgm, if_false, hem.symm, if_true, hnm,
      Option.map_some']
  have lvR : Live t (plug gs (.node .nil e Rm)).root := by
    by_cases hg : gs = []
    · subst hg
      intro q hq
      simp only [plug, Shape.root, Option.some.injEq] at hq
      subst hq; exact ⟨ne, hne⟩
    · rw [plug_root_congr hg _ (.node .nil m Rm), ← her]; exact lv4
  have lvN : Live t none := fun q hq => by simp at hq
  rw [hel] at lv3
  rw [hmr] at lv5
  have hsc := swapChildren_eq hne4 hnm4 hem
    (by rw [e4l]; exact (((lv3.modify _ _).modify _ _).modifyOpt _ _).modifyOpt _ _)
    (by rw [e4r]; exact (((lvR.modify _ _).modify _ _).modifyOpt _ _).modifyOpt _ _)
    (by rw [m4l]; exact (((lvN.modify _ _).modify _ _).modifyOpt _ _).modifyOpt _ _)
    (by rw [m4r]; exact (((lv5.modify _ _).modify _ _).modifyOpt _ _).modifyOpt _ _)
  rw [e4l, e4r, m4l, m4r] at hsc
  -- the colours
  have hredE := read_red hne4
  have hredM := read_red hnm4
  rw [e4c] at hredE
  rw [m4c] at hredM
  have pr : ∀ (u : RBTree Key) (x : Ptr),
      ((((((((u.modify e fun n => { n with left_ := none }).modify m
        fun n => { n with left_ := L.root }).modify e
        fun n => { n with right_ := Rm.root }).modify m
        fun n => { n with right_ := (plug gs (.node .nil e Rm)).root }).modifyOpt none
        fun n => { n with parent_ := some e }).modifyOpt Rm.root
        fun n => { n with parent_ := some e }).modifyOpt L.root
        fun n => { n with parent_ := some m }).modifyOpt (plug gs (.node .nil e Rm)).root
        fun n => { n with parent_ := some m }).red x = u.red x := by
    intro u x
    simp only [red_modifyOpt_parent, red_modify_left, red_modify_right]
  obtain ⟨ne12, hne12, e12c⟩ := cell_of_red ((pr _ _).trans hredE)
  obtain ⟨nm12, hnm12, m12c⟩ := cell_of_red ((pr _ _).trans hredM)
  have hsr := swapRed_eq hne12 hnm12
  rw [e12c, m12c] at hsr
  have hroot : t.root_ = (plug fs (.node L e (plug gs (.node .nil m Rm)))).root := hs.root
  have hrm : t.root_ ≠ some m := fun h => by
    have := (shaped_refocus hs).root_eq_focus_iff.1 h
    simp at this
  unfold RBTree.swapNodes
  rw [if_neg (by simpa using hem)]
  simp only [Option.bind_eq_bind, hsp, Option.some_bind, hsc, hsr]
  refine swap_rootfix ?_
  simp only [modify_root, modifyOpt_root]
  by_cases hfs : fs = []
  · subst hfs
    exact Or.inl ⟨hs.root_eq_focus_iff.2 rfl, rfl⟩
  · have hre : t.root_ ≠ some e := fun h => hfs (hs.root_eq_focus_iff.1 h)
    refine Or.inr ⟨hre, hrm, ?_⟩
    rw [hroot]; exact plug_root_congr hfs _ _

theorem modifyOpt_mem_fn (t : RBTree Key) (p : Ptr) (x : Nat) (f : RBTNode Key → RBTNode Key) :
    (t.modifyOpt p f).mem x = (if p = some x then Option.map f else id) (t.mem x) := by
  rw [modifyOpt_mem]; split <;> rfl

/-- The memory after `swapNodes`, at an address other than the two nodes. -/
theorem swap_eval_other (t : RBTree Key) (e m : Nat) (pm hp rm lr rr : Ptr) (ce cm : Bool)
    {x : Nat} (hxe : x ≠ e) (hxm : x ≠ m) :
    ((((((((((((((t.modify e fun n => { n with parent_ := pm }).modify m
          fun n => { n with parent_ := hp }).modifyOpt pm
          (relink e m)).modifyOpt hp (relink m e)).modify e
          fun n => { n with left_ := none }).modify m
          fun n => { n with left_ := lr }).modify e
          fun n => { n with right_ := rm }).modify m
          fun n => { n with right_ := rr }).modifyOpt none
          fun n => { n with parent_ := some e }).modifyOpt rm
          fun n => { n with parent_ := some e }).modifyOpt lr
          fun n => { n with parent_ := some m }).modifyOpt rr
          fun n => { n with parent_ := some m }).modify e
          fun n => { n with red_ := ce }).modify m
          fun n => { n with red_ := cm }).mem x =
      (if rr = some x then Option.map fun n => { n with parent_ := some m } else id)
      ((if lr = some x then Option.map fun n => { n with parent_ := some m } else id)
      ((if rm = some x then Option.map fun n => { n with parent_ := some e } else id)
      ((if hp = some x then Option.map (relink m e) else id)
      ((if pm = some x then Option.map (relink e m) else id) (t.mem x))))) := by
  simp only [modify_mem_ne _ _ hxe, modify_mem_ne _ _ hxm, modifyOpt_mem_fn, reduceCtorEq,
    if_false, id]

theorem swap_eval_m (t : RBTree Key) (e m : Nat) (pm hp rm lr rr : Ptr) (ce cm : Bool)
    {nm : RBTNode Key} (hnm : t.mem m = some nm) (hem : e ≠ m) (h1 : pm ≠ some m)
    (h2 : hp ≠ some m) (h3 : rm ≠ some m) (h4 : lr ≠ some m) (h5 : rr ≠ some m) :
    ((((((((((((((t.modify e fun n => { n with parent_ := pm }).modify m
          fun n => { n with parent_ := hp }).modifyOpt pm
          (relink e m)).modifyOpt hp (relink m e)).modify e
          fun n => { n with left_ := none }).modify m
          fun n => { n with left_ := lr }).modify e
          fun n => { n with right_ := rm }).modify m
          fun n => { n with right_ := rr }).modifyOpt none
          fun n => { n with parent_ := some e }).modifyOpt rm
          fun n => { n with parent_ := some e }).modifyOpt lr
          fun n => { n with parent_ := some m }).modifyOpt rr
          fun n => { n with parent_ := some m }).modify e
          fun n => { n with red_ := ce }).modify m
          fun n => { n with red_ := cm }).mem m =
      some { nm with parent_ := hp, left_ := lr, right_ := rr, red_ := cm } := by
  simp only [modify_mem, modifyOpt_mem, hem.symm, if_true, if_false, h1, h2, h3, h4, h5, hnm,
    Option.map_some', reduceCtorEq]

theorem swap_eval_e_adj (t : RBTree Key) (e m : Nat) (hp rm lr : Ptr) (ce cm : Bool)
    {ne : RBTNode Key} (hne : t.mem e = some ne) (hem : e ≠ m)
    (h2 : hp ≠ some e) (h3 : rm ≠ some e) (h4 : lr ≠ some e) (h6 : ne.left_ ≠ some m) :
    ((((((((((((((t.modify e fun n => { n with parent_ := some e }).modify m
          fun n => { n with parent_ := hp }).modifyOpt (some e)
          (relink e m)).modifyOpt hp (relink m e)).modify e
          fun n => { n with left_ := none }).modify m
          fun n => { n with left_ := lr }).modify e
          fun n => { n with right_ := rm }).modify m
          fun n => { n with right_ := some e }).modifyOpt none
          fun n => { n with parent_ := some e }).modifyOpt rm
          fun n => { n with parent_ := some e }).modifyOpt lr
          fun n => { n with parent_ := some m }).modifyOpt (some e)
          fun n => { n with parent_ := some m }).modify e
          fun n => { n with red_ := ce }).modify m
          fun n => { n with red_ := cm }).mem e =
      some { ne with parent_ := some m, left_ := none, right_ := rm, red_ := ce } := by
  simp only [modify_mem, modifyOpt_mem, hem, if_true, if_false, h2, h3, h4, hne,
    Option.map_some', reduceCtorEq, relink, h6]

theorem swap_eval_e_far (t : RBTree Key) (e m : Nat) (pm hp rm lr rr : Ptr) (ce cm : Bool)
    {ne : RBTNode Key} (hne : t.mem e = some ne) (hem : e ≠ m) (h1 : pm ≠ some e)
    (h2 : hp ≠ some e) (h3 : rm ≠ some e) (h4 : lr ≠ some e) (h5 : rr ≠ some e) :
    ((((((((((((((t.modify e fun n => { n with parent_ := pm }).modify m
          fun n => { n with parent_ := hp }).modifyOpt pm
          (relink e m)).modifyOpt hp (relink m e)).modify e
          fun n => { n with left_ := none }).modify m
          fun n => { n with left_ := lr }).modify e
          fun n => { n with right_ := rm }).modify m
          fun n => { n with right_ := rr }).modifyOpt none
          fun n => { n with parent_ := some e }).modifyOpt rm
          fun n => { n with parent_ := some e }).modifyOpt lr
          fun n => { n with parent_ := some m }).modifyOpt rr
          fun n => { n with parent_ := some m }).modify e
          fun n => { n with red_ := ce }).modify m
          fun n => { n with red_ := cm }).mem e =
      some { ne with parent_ := pm, left_ := none, right_ := rm, red_ := ce } := by
  simp only [modify_mem, modifyOpt_mem, hem, if_true, if_false, h1, h2, h3, h4, h5, hne,
    Option.map_some', reduceCtorEq]

theorem sameKeys_modify (t : RBTree Key) (a : Nat) {f : RBTNode Key → RBTNode Key}
    (hf : ∀ n, (f n).key_ = n.key_) : SameKeys t (t.modify a f) := by
  intro x
  rw [modify_mem]
  split
  · cases t.mem x <;> simp [hf]
  · rfl

theorem sameKeys_modifyOpt (t : RBTree Key) (p : Ptr) {f : RBTNode Key → RBTNode Key}
    (hf : ∀ n, (f n).key_ = n.key_) : SameKeys t (t.modifyOpt p f) := by
  cases p with
  | none => exact SameKeys.refl_keys t
  | some a => exact sameKeys_modify t a hf

theorem red_modify_ne (t : RBTree Key) {a x : Nat} (f : RBTNode Key → RBTNode Key)
    (h : x ≠ a) : (t.modify a f).red (some x) = t.red (some x) := by
  simp only [RBTree.red, RBTree.deref, modify_mem_ne t f h]

theorem red_root (t : RBTree Key) (r : Ptr) (x : Ptr) :
    ({ t with root_ := r } : RBTree Key).red x = t.red x := rfl

theorem sameKeys_root {t u : RBTree Key} (h : SameKeys t u) (r : Ptr) :
    SameKeys t { u with root_ := r } := h

@[simp] theorem modifyOpt_fresh (t : RBTree Key) (p : Ptr) (f : RBTNode Key → RBTNode Key) :
    (t.modifyOpt p f).fresh = t.fresh := by cases p <;> rfl

@[simp] theorem modifyOpt_size (t : RBTree Key) (p : Ptr) (f : RBTNode Key → RBTNode Key) :
    (t.modifyOpt p f).size_ = t.size_ := by cases p <;> rfl

@[simp] theorem modifyOpt_comparator (t : RBTree Key) (p : Ptr)
    (f : RBTNode Key → RBTNode Key) : (t.modifyOpt p f).comparator_ = t.comparator_ := by
  cases p <;> rfl

set_option maxHeartbeats 1000000 in
/-- The memory after `swapNodes` of a node `e` that has two children and its in-order successor
`m`. -/
theorem swapNodes_cells {t : RBTree Key} {fs gs : List Frame} {L Rm : Shape} {e m : Nat}
    (hgs : ∀ g ∈ gs, g.isLeft = true)
    (hs : Shaped t (plug fs (.node L e (plug gs (.node .nil m Rm))))) :
    ∃ ne nm t', t.mem e = some ne ∧ t.mem m = some nm ∧
      t.swapNodes (some e) (some m) = some t' ∧
      t'.root_ = (plug fs (.node L m (plug gs (.node .nil e Rm)))).root ∧
      SameMeta t t' ∧ SameKeys t t' ∧
      t'.mem m = some ⟨holeParent none fs, L.root, (plug gs (.node .nil e Rm)).root, ne.red_,
        nm.key_⟩ ∧
      t'.mem e = some ⟨holeParent (some m) gs, none, Rm.root, nm.red_, ne.key_⟩ ∧
      (∀ x, x ≠ e → x ≠ m → t'.mem x =
        (if (plug gs (.node .nil e Rm)).root = some x then
          Option.map fun n => { n with parent_ := some m } else id)
        ((if L.root = some x then Option.map fun n => { n with parent_ := some m } else id)
        ((if Rm.root = some x then Option.map fun n => { n with parent_ := some e } else id)
        ((if holeParent none fs = some x then Option.map (relink m e) else id)
        ((if holeParent (some e) gs = some x then Option.map (relink e m) else id)
          (t.mem x)))))) ∧
      ∀ b, b ≠ e → b ≠ m → t'.red (some b) = t.red (some b) := by
  obtain ⟨ne, nm, hne, hnm, hsw⟩ := swapNodes_closed hgs hs
  obtain ⟨ne', hne', hep, hel, her, hL, hR⟩ := hs.focus
  rw [hne] at hne'
  simp only [Option.some.injEq] at hne'
  subst hne'
  obtain ⟨r1, r2, r3, r4, hem⟩ := swap_regions hgs hs.nodup
  -- where the pointers lead
  have tpm : ∀ x, holeParent (some e) gs = some x → (x = e ∧ gs = []) ∨ x ∈ ctxAfter gs := by
    intro x h
    rcases holeParent_cases (some e) gs with ⟨h1, h2⟩ | ⟨a, h1, h2⟩
    · rw [h1] at h; simp only [Option.some.injEq] at h; exact Or.inl ⟨h.symm, h2⟩
    · rw [h1] at h; simp only [Option.some.injEq] at h; subst h
      rw [ctxBefore_allLeft hgs] at h2
      simp only [List.not_mem_nil, false_or] at h2
      exact Or.inr h2
  have thp : ∀ x, holeParent none fs = some x → x ∈ ctxBefore fs ∨ x ∈ ctxAfter fs := by
    intro x h
    rcases holeParent_cases none fs with ⟨h1, -⟩ | ⟨a, h1, h2⟩
    · rw [h1] at h; simp at h
    · rw [h1] at h; simp only [Option.some.injEq] at h; subst h; exact h2
  have trr : ∀ x, (plug gs (.node .nil e Rm)).root = some x →
      (x = e ∧ gs = []) ∨ x ∈ ctxAfter gs := by
    intro x h
    by_cases hg : gs = []
    · subst hg
      simp only [plug, Shape.root, Option.some.injEq] at h
      exact Or.inl ⟨h.symm, rfl⟩
    · obtain ⟨a, h1, h2⟩ := plug_root_ctx hg (.node .nil e Rm)
      rw [h1] at h; simp only [Option.some.injEq] at h; subst h
      rw [ctxBefore_allLeft hgs] at h2
      simp only [List.not_mem_nil, false_or] at h2
      exact Or.inr h2
  have d1 : holeParent (some e) gs ≠ some m := by
    intro h
    rcases tpm m h with ⟨h1, -⟩ | h1
    · exact hem h1.symm
    · exact (r4 m h1).2 rfl
  have d2 : holeParent none fs ≠ some m := fun h => (r1 m (thp m h)).2.1 rfl
  have d3 : Rm.root ≠ some m := fun h => (r3 m (Shape.root_mem h)).2.1 rfl
  have d4 : L.root ≠ some m := fun h => (r2 m (Shape.root_mem h)).2.1 rfl
  have d5 : (plug gs (.node .nil e Rm)).root ≠ some m := by
    intro h
    rcases trr m h with ⟨h1, -⟩ | h1
    · exact hem h1.symm
    · exact (r4 m h1).2 rfl
  have c2 : holeParent none fs ≠ some e := fun h => (r1 e (thp e h)).1 rfl
  have c3 : Rm.root ≠ some e := fun h => (r3 e (Shape.root_mem h)).1 rfl
  have c4 : L.root ≠ some e := fun h => (r2 e (Shape.root_mem h)).1 rfl
  refine ⟨ne, nm, _, hne, hnm, hsw, rfl, ⟨?_, ?_, ?_⟩, ?_,
    swap_eval_m t e m _ _ _ _ _ _ _ hnm hem d1 d2 d3 d4 d5, ?_,
    fun x hxe hxm => swap_eval_other t e m _ _ _ _ _ _ _ hxe hxm, ?_⟩
  · simp only [modify_fresh, modifyOpt_fresh]
  · simp only [modify_size, modifyOpt_size]
  · simp only [modify_comparator, modifyOpt_comparator]
  · apply sameKeys_root
    repeat (first
      | exact SameKeys.refl_keys _
      | refine SameKeys.trans_keys ?_ (sameKeys_modifyOpt _ _ (relink_key _ _))
      | refine SameKeys.trans_keys ?_ (sameKeys_modify _ _ (fun _ => rfl))
      | refine SameKeys.trans_keys ?_ (sameKeys_modifyOpt _ _ (fun _ => rfl)))
  · by_cases hg : gs = []
    · subst hg
      exact swap_eval_e_adj t e m _ _ _ _ _ hne hem c2 c3 c4 (by rw [hel]; exact d4)
    · have hne' : ∀ x, x ∈ ctxAfter gs → x ≠ e := fun x hx => (r4 x hx).1
      have hpm : holeParent (some m) gs = holeParent (some e) gs := by
        cases gs with
        | nil => exact absurd rfl hg
        | cons g gs => rfl
      rw [hpm]
      refine swap_eval_e_far t e m _ _ _ _ _ _ _ hne hem ?_ c2 c3 c4 ?_
      · intro h
        rcases tpm e h with ⟨-, h1⟩ | h1
        · exact hg h1
        · exact hne' e h1 rfl
      · intro h
        rcases trr e h with ⟨-, h1⟩ | h1
        · exact hg h1
        · exact hne' e h1 rfl
  · intro b hbe hbm
    rw [red_root, red_modify_ne _ _ hbm, red_modify_ne _ _ hbe]
    simp only [red_modifyOpt_parent, red_modify_left, red_modify_right, red_modifyOpt_relink,
      red_modify_parent]

theorem nodup_sub_parts {fs : List Frame} {u : Shape}
    (h : (ctxBefore fs ++ u.addrs ++ ctxAfter fs).Nodup) : u.addrs.Nodup :=
  (List.nodup_append.1 (List.nodup_append.1 h).1).2.1

theorem nodup_node_parts {l r : Shape} {a : Nat} (h : (Shape.node l a r).addrs.Nodup) :
    l.addrs.Nodup ∧ r.addrs.Nodup := by
  simp only [Shape.addrs, List.nodup_append, List.nodup_cons] at h
  exact ⟨h.1, h.2.1.2⟩

theorem plug_root_last (g : Frame) (gs : List Frame) (u : Shape) :
    (plug (g :: gs) u).root = (g :: gs).getLast?.map (·.a) := by
  rw [plug_root]
  cases h : (g :: gs).getLast? with
  | none => simp at h
  | some k => rfl

set_option maxHeartbeats 1000000 in
/-- `swapNodes` of a node `e` that has two children and its in-order successor `m`: the two
nodes exchange their positions and colours. -/
theorem swapNodes_shape {t : RBTree Key} {fs gs : List Frame} {L Rm : Shape} {e m : Nat}
    (hgs : ∀ g ∈ gs, g.isLeft = true)
    (hs : Shaped t (plug fs (.node L e (plug gs (.node .nil m Rm))))) :
    ∃ t', t.swapNodes (some e) (some m) = some t' ∧
      Shaped t' (plug fs (.node L m (plug gs (.node .nil e Rm)))) ∧
      SameKeys t t' ∧ SameMeta t t' ∧
      t'.red (some m) = t.red (some e) ∧ t'.red (some e) = t.red (some m) ∧
      ∀ b, b ≠ e → b ≠ m → t'.red (some b) = t.red (some b) := by
  obtain ⟨ne, nm, t', hne, hnm, hsw, hroot, hmeta, hkeys, cm, ce, co, cred⟩ :=
    swapNodes_cells hgs hs
  obtain ⟨-, -, -, -, -, hL, hR⟩ := hs.focus
  obtain ⟨-, -, -, -, -, -, hRm⟩ := (shaped_refocus hs).focus
  obtain ⟨r1, r2, r3, r4, hem⟩ := swap_regions hgs hs.nodup
  obtain ⟨hctxF, -⟩ := (rep_plug fs _).1 hs.rep
  obtain ⟨hctxG, -⟩ := (rep_plug gs _).1 hR
  have hndS := hs.nodup_plug
  have hndLR := nodup_node_parts (nodup_sub_parts hndS)
  have hndR : (ctxBefore gs ++ (Shape.node .nil m Rm).addrs ++ ctxAfter gs).Nodup := by
    have := hndLR.2
    rwa [plug_addrs] at this
  have hndRm := (nodup_node_parts (nodup_sub_parts hndR)).2
  have cB := ctxBefore_allLeft hgs
  -- where the pointers lead
  have tpm : ∀ x, holeParent (some e) gs = some x → (x = e ∧ gs = []) ∨ x ∈ ctxAfter gs := by
    intro x h
    rcases holeParent_cases (some e) gs with ⟨h1, h2⟩ | ⟨a, h1, h2⟩
    · rw [h1] at h; simp only [Option.some.injEq] at h; exact Or.inl ⟨h.symm, h2⟩
    · rw [h1] at h; simp only [Option.some.injEq] at h; subst h
      rw [cB] at h2
      simp only [List.not_mem_nil, false_or] at h2
      exact Or.inr h2
  have thp : ∀ x, holeParent none fs = some x → x ∈ ctxBefore fs ∨ x ∈ ctxAfter fs := by
    intro x h
    rcases holeParent_cases none fs with ⟨h1, -⟩ | ⟨a, h1, h2⟩
    · rw [h1] at h; simp at h
    · rw [h1] at h; simp only [Option.some.injEq] at h; subst h; exact h2
  have trr : ∀ x, (plug gs (.node .nil e Rm)).root = some x →
      (x = e ∧ gs = []) ∨ x ∈ ctxAfter gs := by
    intro x h
    by_cases hg : gs = []
    · subst hg
      simp only [plug, Shape.root, Option.some.injEq] at h
      exact Or.inl ⟨h.symm, rfl⟩
    · obtain ⟨a, h1, h2⟩ := plug_root_ctx hg (.node .nil e Rm)
      rw [h1] at h; simp only [Option.some.injEq] at h; subst h
      rw [cB] at h2
      simp only [List.not_mem_nil, false_or] at h2
      exact Or.inr h2
  -- the memory in the subtrees and on the path above
  have inL : ∀ a ∈ L.addrs, t'.mem a =
      (if L.root = some a then Option.map fun n => { n with parent_ := some m } else id)
        (t.mem a) := by
    intro a ha
    obtain ⟨h1, h2, h3, h4⟩ := r2 a ha
    have dpm : ¬ holeParent (some e) gs = some a := by
      intro h; rcases tpm a h with ⟨h5, -⟩ | h5
      · exact h1 h5
      · exact h4 h5
    have dhp : ¬ holeParent none fs = some a := fun h => (r1 a (thp a h)).2.2.1 ha
    have drr : ¬ (plug gs (.node .nil e Rm)).root = some a := by
      intro h; rcases trr a h with ⟨h5, -⟩ | h5
      · exact h1 h5
      · exact h4 h5
    have drm : ¬ Rm.root = some a := fun h => h3 (Shape.root_mem h)
    rw [co a h1 h2, if_neg drr, if_neg drm, if_neg dhp, if_neg dpm]
    rfl
  have inRm : ∀ a ∈ Rm.addrs, t'.mem a =
      (if Rm.root = some a then Option.map fun n => { n with parent_ := some e } else id)
        (t.mem a) := by
    intro a ha
    obtain ⟨h1, h2, h4⟩ := r3 a ha
    have dpm : ¬ holeParent (some e) gs = some a := by
      intro h; rcases tpm a h with ⟨h5, -⟩ | h5
      · exact h1 h5
      · exact h4 h5
    have dhp : ¬ holeParent none fs = some a := fun h => (r1 a (thp a h)).2.2.2.1 ha
    have drr : ¬ (plug gs (.node .nil e Rm)).root = some a := by
      intro h; rcases trr a h with ⟨h5, -⟩ | h5
      · exact h1 h5
      · exact h4 h5
    have dl : ¬ L.root = some a := fun h => (r2 a (Shape.root_mem h)).2.2.1 ha
    rw [co a h1 h2, if_neg drr, if_neg dl, if_neg dhp, if_neg dpm]
    rfl
  have inF : ∀ a, a ∈ ctxBefore fs ∨ a ∈ ctxAfter fs → t'.mem a =
      (if holeParent none fs = some a then Option.map (relink m e) else id) (t.mem a) := by
    intro a ha
    obtain ⟨h1, h2, h3, h4, h5⟩ := r1 a ha
    have dpm : ¬ holeParent (some e) gs = some a := by
      intro h; rcases tpm a h with ⟨h6, -⟩ | h6
      · exact h1 h6
      · exact h5 h6
    have drr : ¬ (plug gs (.node .nil e Rm)).root = some a := by
      intro h; rcases trr a h with ⟨h6, -⟩ | h6
      · exact h1 h6
      · exact h5 h6
    have dl : ¬ L.root = some a := fun h => h3 (Shape.root_mem h)
    have drm : ¬ Rm.root = some a := fun h => h4 (Shape.root_mem h)
    rw [co a h1 h2, if_neg drr, if_neg dl, if_neg drm, if_neg dpm]
    rfl
  have inG : ∀ a ∈ ctxAfter gs, t'.mem a =
      (if (plug gs (.node .nil e Rm)).root = some a then
          Option.map fun n => { n with parent_ := some m } else id)
        ((if holeParent (some e) gs = some a then Option.map (relink e m) else id)
          (t.mem a)) := by
    intro a ha
    obtain ⟨h1, h2⟩ := r4 a ha
    have dhp : ¬ holeParent none fs = some a := fun h => (r1 a (thp a h)).2.2.2.2 ha
    have dl : ¬ L.root = some a := fun h => (r2 a (Shape.root_mem h)).2.2.2 ha
    have drm : ¬ Rm.root = some a := fun h => (r3 a (Shape.root_mem h)).2.2 ha
    rw [co a h1 h2, if_neg dl, if_neg drm, if_neg dhp]
    rfl
  have cred_m : t'.red (some m) = t.red (some e) := by rw [read_red cm, read_red hne]
  have cred_e : t'.red (some e) = t.red (some m) := by rw [read_red ce, read_red hnm]
  refine ⟨t', hsw, ⟨hroot, ?_, ?_⟩, hkeys, hmeta, cred_m, cred_e, cred⟩
  · refine (rep_plug fs _).2 ⟨?_, _, cm, rfl, rfl, rfl, ?_, ?_⟩
    · -- the path above the node
      show RepCtx t'.mem none fs (some m)
      cases fs with
      | nil => trivial
      | cons f fs =>
        have hsibe : ∀ a ∈ f.sib.addrs, a ≠ e := fun a ha => (r1 a (by
          cases hf : f.isLeft <;> simp [ctxBefore, ctxAfter, hf, ha])).1
        obtain ⟨hc1, n0, hn0, hp0, hl0, hr0, hs0⟩ := hctxF
        refine repCtx_hole ⟨hc1, n0, hn0, hp0, hl0, hr0, hs0⟩
          (fun a ha hne => ?_) (nodup_ctx hndS) (fun n hn => ?_)
        · rw [inF a ha, if_neg]
          · rfl
          · intro h
            simp only [holeParent, Option.some.injEq] at h
            exact hne h.symm
        · rw [inF f.a (frame_mem_ctx f fs),
            if_pos (show holeParent none (f :: fs) = some f.a from rfl), hn]
          rw [hn0] at hn
          simp only [Option.some.injEq] at hn
          subst hn
          cases hf : f.isLeft
          · rw [hf] at hl0
            simp only [Bool.false_eq_true, if_false] at hl0
            have : ¬ n0.left_ = some e := by
              rw [hl0]; intro h; exact hsibe e (Shape.root_mem h) rfl
            simp [relink, this]
          · rw [hf] at hl0
            simp only [if_true, Shape.root] at hl0
            simp [relink, hl0]
    · -- the left subtree
      refine rep_reparent hL hndLR.1 (fun b nb hb hnb => ?_) (fun a ha hne => ?_)
      · rw [inL b (Shape.root_mem hb), if_pos hb, hnb]; rfl
      · rw [inL a ha, if_neg hne]; rfl
    · -- the right subtree
      refine (rep_plug gs _).2 ⟨?_, _, ce, rfl, rfl, rfl, trivial, ?_⟩
      · show RepCtx t'.mem (some m) gs (some e)
        cases gs with
        | nil => trivial
        | cons g gs =>
          have hg1 : g.isLeft = true := hgs g (List.mem_cons_self _ _)
          have hndG : (ctxBefore (g :: gs) ++ ctxAfter (g :: gs)).Nodup := nodup_ctx hndR
          obtain ⟨hc1, n0, hn0, hp0, hl0, hr0, hs0⟩ := hctxG
          have h1 : RepCtx (fun x => if x = g.a then (t.mem x).map (relink e m) else t.mem x)
              (some e) (g :: gs) (some e) := by
            refine repCtx_hole ⟨hc1, n0, hn0, hp0, hl0, hr0, hs0⟩
              (fun a _ hne => by simp [hne]) hndG (fun n hn => ?_)
            rw [hn0] at hn
            simp only [Option.some.injEq] at hn
            subst hn
            rw [hg1] at hl0
            simp only [if_true, Shape.root] at hl0
            simp [relink, hl0, hn0, hg1]
          refine repCtx_top h1 (fun a ha => ?_) hndG
          have ha' : a ∈ ctxAfter (g :: gs) := by
            rw [cB] at ha; simpa using ha
          rw [inG a ha', plug_root_last]
          have hpm : holeParent (some e) (g :: gs) = some g.a := rfl
          rw [hpm]
          by_cases hga : a = g.a
          · subst hga
            simp only [if_true]
            split <;> rfl
          · have : ¬ some g.a = some a := fun h => hga (by
              simp only [Option.some.injEq] at h; exact h.symm)
            simp only [if_neg this, if_neg hga]
            split <;> rfl
      · refine rep_reparent hRm hndRm (fun b nb hb hnb => ?_) (fun a ha hne => ?_)
        · rw [inRm b (Shape.root_mem hb), if_pos hb, hnb]; rfl
        · rw [inRm a ha, if_neg hne]; rfl
  · -- the node addresses are the old ones
    have hperm : (plug fs (.node L m (plug gs (.node .nil e Rm)))).addrs.Perm
        (plug fs (.node L e (plug gs (.node .nil m Rm)))).addrs := by
      simp only [plug_addrs, Shape.addrs, cB, List.nil_append, List.cons_append,
        List.append_assoc]
      refine List.Perm.append_left _ (List.Perm.append_left _ ?_)
      exact List.Perm.swap e m _
    exact hperm.nodup_iff.2 hs.nodup

/-- `findMinNode` on a non-empty subtree returns its leftmost node. -/
theorem findMinNode_spec {t : RBTree Key} {par : Ptr} {R : Shape} (hr : Rep t.mem par R)
    (hne : R ≠ .nil) {fuel : Nat} (hf : R.height ≤ fuel) :
    ∃ gs m Rm, R = plug gs (.node .nil m Rm) ∧ (∀ g ∈ gs, g.isLeft = true) ∧
      t.findMinNode fuel R.root = some (some m) := by
  induction R generalizing par fuel with
  | nil => exact absurd rfl hne
  | node l a r ihl _ =>
    obtain ⟨n, hn, -, hl, -, hL, -⟩ := hr
    obtain ⟨k, rfl⟩ : ∃ k, fuel = k + 1 := ⟨fuel - 1, by simp [Shape.height] at hf; omega⟩
    simp only [Shape.height, Nat.add_le_add_iff_right, max_le_iff] at hf
    cases l with
    | nil =>
      refine ⟨[], a, r, rfl, by simp, ?_⟩
      simp only [Shape.root] at hl ⊢
      rw [RBTree.findMinNode, read_left hn, hl]
    | node ll b lr =>
      obtain ⟨gs, m, Rm, e1, e2, e3⟩ := ihl hL (by simp) hf.1
      refine ⟨gs ++ [⟨true, a, r⟩], m, Rm, ?_, ?_, ?_⟩
      · rw [plug_append, ← e1]; rfl
      · intro g hg
        simp only [List.mem_append, List.mem_singleton] at hg
        rcases hg with hg | rfl
        · exact e2 g hg
        · rfl
      · simp only [Shape.root] at hl e3 ⊢
        rw [RBTree.findMinNode, read_left hn, hl]
        exact e3

theorem height_fill_ge (f : Frame) (u : Shape) : u.height + 1 ≤ (f.fill u).height := by
  rw [Frame.fill_eq]
  cases f.isLeft <;> simp [Shape.height]

theorem height_plug_ge (fs : List Frame) (u : Shape) :
    u.height + fs.length ≤ (plug fs u).height := by
  induction fs generalizing u with
  | nil => simp [plug]
  | cons f fs ih =>
    have := ih (f.fill u)
    have := height_fill_ge f u
    simp only [plug, List.length_cons]
    omega

theorem rootBlack_swap {t t1 : RBTree Key} {fs : List Frame} {L R R' : Shape} {e m : Nat}
    (hs : Shaped t (plug fs (.node L e R))) (hs1 : Shaped t1 (plug fs (.node L m R')))
    (hme : t1.red (some m) = t.red (some e))
    (hoth : ∀ b, b ≠ e → b ≠ m → t1.red (some b) = t.red (some b))
    (hnd : ∀ a, a ∈ ctxBefore fs ∨ a ∈ ctxAfter fs → a ≠ e ∧ a ≠ m)
    (hb : RootBlack t) : RootBlack t1 := by
  intro a ha
  by_cases hfs : fs = []
  · subst hfs
    rw [hs1.root] at ha
    simp only [plug, Shape.root, Option.some.injEq] at ha
    subst ha
    rw [hme]
    exact hb e (by rw [hs.root]; rfl)
  · have hra : t.root_ = some a := by
      rw [hs.root, ← ha, hs1.root]; exact plug_root_congr hfs _ _
    obtain ⟨b, hb1, hb2⟩ := plug_root_ctx hfs (.node L e R)
    rw [hs.root, hb1] at hra
    simp only [Option.some.injEq] at hra
    subst hra
    rw [hoth b (hnd b hb2).1 (hnd b hb2).2]
    exact hb b (by rw [hs.root, hb1])

/-- Unlinking a node: `eraseNode` returns, and the memory holds the tree without the node. -/
theorem eraseNode_spec {t : RBTree Key} {fs : List Frame} {l r : Shape} {e : Nat}
    (hs : Shaped t (plug fs (.node l e r))) (tf : Ptr) (c : Bool) {fuel : Nat}
    (hf : (Shape.node l e r).height + 1 ≤ fuel) :
    ∃ res s', t.eraseNode fuel (some e) tf c = some res ∧ Shaped res.1 s' ∧
      s'.addrs = ctxBefore fs ++ l.addrs ++ (r.addrs ++ ctxAfter fs) ∧
      SameKeys t res.1 ∧ SameMeta t res.1 ∧ InTree s'.addrs res.2.1 ∧
      (RootBlack t → RootBlack res.1) := by
  by_cases h01 : l = .nil ∨ r = .nil
  · rcases h01 with rfl | rfl
    · obtain ⟨res, e1, hs1, k1, m1, i1, b1⟩ :=
        eraseNode_simple hs (C := r) (Or.inl ⟨rfl, rfl⟩) tf c (show 1 ≤ fuel by omega)
      exact ⟨res, _, e1, hs1, by rw [plug_addrs]; simp [Shape.addrs], k1, m1, i1, b1⟩
    · obtain ⟨res, e1, hs1, k1, m1, i1, b1⟩ :=
        eraseNode_simple hs (C := l) (Or.inr ⟨rfl, rfl⟩) tf c (show 1 ≤ fuel by omega)
      exact ⟨res, _, e1, hs1, by rw [plug_addrs]; simp [Shape.addrs], k1, m1, i1, b1⟩
  · have hl : l ≠ .nil := fun h => h01 (Or.inl h)
    have hr : r ≠ .nil := fun h => h01 (Or.inr h)
    obtain ⟨ne, hne, hep, hel, her, hL, hR⟩ := hs.focus
    obtain ⟨k, rfl⟩ : ∃ k, fuel = k + 1 := ⟨fuel - 1, by omega⟩
    simp only [Shape.height, Nat.add_le_add_iff_right] at hf
    have hk : r.height + 1 ≤ k := by
      have := le_max_right l.height r.height
      omega
    obtain ⟨gs, m, Rm, rfl, hgs, hmin⟩ := findMinNode_spec hR hr (show _ ≤ k by omega)
    obtain ⟨nm, hnm, -, -, hmr, -, hRm⟩ := (shaped_refocus hs).focus
    obtain ⟨t1, e1, hs1, k1, m1, c1, c2, c3⟩ := swapNodes_shape hgs hs
    obtain ⟨r1, -, -, -, -⟩ := swap_regions hgs hs.nodup
    have hb1 := rootBlack_swap hs hs1 c1 c3 (fun a ha => ⟨(r1 a ha).1, (r1 a ha).2.1⟩)
    obtain ⟨res, e2, hs2, k2, m2, i2, b2⟩ := eraseNode_simple (shaped_refocus hs1) (C := Rm)
      (Or.inl ⟨rfl, rfl⟩) Rm.root
      (if Rm.root ≠ none then (t.red Rm.root).getD false else nm.red_) (show 1 ≤ k by omega)
    have hcol : (if Rm.root ≠ none then t.red Rm.root else t.red (some m)) =
        some (if Rm.root ≠ none then (t.red Rm.root).getD false else nm.red_) := by
      split
      · rename_i h
        obtain ⟨a, na, ha, -, hna⟩ := rep_root_live hRm h
        rw [ha, read_red hna]; rfl
      · exact read_red hnm
    have hhow : t.howManyChildren (some e) = some .two_children := by
      have h1 : l.root ≠ none := fun h => hl (Shape.root_eq_none h)
      have h2 : (plug gs (.node .nil m Rm)).root ≠ none := fun h => hr (Shape.root_eq_none h)
      simp [RBTree.howManyChildren, read_right hne, read_left hne, hel, her, h1, h2]
    refine ⟨res, _, ?_, hs2, ?_, k1.trans_keys k2, m1.trans_meta m2, i2, fun hb => b2 (hb1 hb)⟩
    · rw [RBTree.eraseNode]
      simp only [hhow, Option.bind_eq_bind, Option.some_bind, read_right hne, her, hmin,
        read_right hnm, hmr, hcol, e1, e2]
    · simp only [plug_addrs, ctxBefore_append, ctxAfter_append, ctxBefore, ctxAfter,
        ctxBefore_allLeft hgs, Shape.addrs, List.nil_append, List.append_nil,
        List.append_assoc, List.cons_append, Bool.false_eq_true, if_false,
        List.singleton_append]

/-- The comparator descent of `findNode` returns on every linked tree. -/
theorem findNodeLoop_total {t : RBTree Key} (key : Key) {par : Ptr} {s : Shape}
    (hr : Rep t.mem par s) {fuel : Nat} (hf : s.height ≤ fuel) :
    ∃ r, t.findNodeLoop key fuel s.root = some r ∧ InTree s.addrs r := by
  induction s generalizing par fuel with
  | nil =>
    refine ⟨none, ?_, fun q hq => by cases hq⟩
    cases fuel <;> simp [RBTree.findNodeLoop, Shape.root]
  | node l a r ihl ihr =>
    obtain ⟨n, hn, -, hl, hr', hL, hR⟩ := hr
    cases fuel with
    | zero => simp [Shape.height] at hf
    | succ fuel =>
      simp only [Shape.height, Nat.add_le_add_iff_right, max_le_iff] at hf
      simp only [Shape.root, RBTree.findNodeLoop, hn]
      split
      · obtain ⟨r1, e1, h1⟩ := ihl hL hf.1
        rw [hl]
        exact ⟨r1, e1, fun q hq => by simp [Shape.addrs, h1 q hq]⟩
      split
      · obtain ⟨r1, e1, h1⟩ := ihr hR hf.2
        rw [hr']
        exact ⟨r1, e1, fun q hq => by simp [Shape.addrs, h1 q hq]⟩
      · exact ⟨some a, rfl, fun q hq => by cases hq; simp [Shape.addrs]⟩

theorem Inserted.linked_nil {t t' : RBTree Key} {key : Key} (h : Inserted t .nil key t') :
    Linked t .nil key t' := by
  obtain ⟨s', A, B, hw, h1, h2, -, -⟩ := h.wf
  have hA : A = [] ∧ B = [] := by simpa [Shape.addrs, eq_comm] using h1
  obtain ⟨rfl, rfl⟩ := hA
  exact ⟨⟨s', hw, by simp [descend, ctxBefore, ctxAfter, Shape.addrs],
    by simpa [descend, ctxBefore, ctxAfter] using h2⟩, h.key, h.keys, h.size, h.fresh, h.cmp,
    h.black⟩

/-- An insertion into a non-empty tree returns: it is rejected when the lookup finds a node
and the mode is unique, and otherwise links the new node where the descent ends. -/
theorem insert_linked {t : RBTree Key} {s : Shape} (h : WellFormed t s) (hne : s ≠ .nil)
    {fuel : Nat} (hf : 3 * s.height + 1 ≤ fuel) (key : Key) (unique : Bool) :
    ∃ found, (t.alloc key).1.findNode fuel key = some found ∧ InTree s.addrs found ∧
      ((found ≠ none ∧ unique = true ∧
          t.insert fuel key unique =
            some ({ t with fresh := t.fresh + 1 }, some t.fresh, false)) ∨
        (¬ (found ≠ none ∧ unique = true) ∧
          ∃ t', t.insert fuel key unique = some (t', some t.fresh, true) ∧
            Linked t s key t')) := by
  obtain ⟨hs0, hfr, hmem, hcell⟩ := alloc_shaped h key
  obtain ⟨found, e, hin⟩ :=
    findNodeLoop_total (t := (t.alloc key).1) key hs0.rep (show s.height ≤ fuel by omega)
  rw [← hs0.root] at e
  replace e : (t.alloc key).1.findNode fuel key = some found := e
  have hroot : ¬ (t.alloc key).1.root_ = none := by
    intro hr
    rw [hs0.root] at hr
    exact hne (Shape.root_eq_none hr)
  refine ⟨found, e, hin, ?_⟩
  by_cases hcond : found ≠ none ∧ unique = true
  · refine Or.inl ⟨hcond.1, hcond.2, ?_⟩
    rw [insert_unfold, if_neg hroot, read_key hcell, Option.some_bind, e, Option.some_bind,
      if_pos hcond]
    simp only [RBTree.free, hcell, Option.map_some', Option.some_bind, Option.some.injEq,
      Prod.mk.injEq, and_true]
    have : (fun x => if x = t.fresh then none else (t.alloc key).1.mem x) = t.mem := by
      funext x
      by_cases hx : x = t.fresh
      · subst hx; simp [h.unused]
      · simp [hx, hmem x hx]
    rw [this]; rfl
  refine Or.inr ⟨hcond, ?_⟩
  obtain ⟨t1, e1, hplug, hs1, d1, m1⟩ : ∃ t', (t.alloc key).1.insertNode fuel
      (t.alloc key).1.root_ (some t.fresh) = some t' ∧
      s = plug (descend (t.alloc key).1 key s) .nil ∧
      Shaped t' (plug (descend (t.alloc key).1 key s) (.node .nil t.fresh .nil)) ∧
      SameData (t.alloc key).1 t' ∧ SameMeta (t.alloc key).1 t' :=
    insertNode_shape hs0 hcell rfl rfl hfr hne (show s.height ≤ fuel by omega)
  have hlen := descend_length_le (t.alloc key).1 key s
  obtain ⟨t2, e2, hl⟩ := insertFixup_lifted hs1
    (show 3 * (descend (t.alloc key).1 key s).length ≤ fuel by omega) (show 1 ≤ fuel by omega)
  refine ⟨{ t2 with size_ := t2.size_ + 1 }, ?_, ?_⟩
  · rw [insert_unfold, if_neg hroot, read_key hcell, Option.some_bind, e, Option.some_bind,
      if_neg hcond, e1, Option.some_bind, e2, Option.some_bind]
  have k02 : SameKeys (t.alloc key).1 t2 := d1.keys.trans_keys hl.keys
  have m02 : SameMeta (t.alloc key).1 t2 := m1.trans_meta hl.same
  obtain ⟨fs', cl, cr, hs2, -, -, had⟩ := hl.shape
  rw [plug_addrs (descend (t.alloc key).1 key s)] at had
  have hsa : s.addrs = ctxBefore (descend (t.alloc key).1 key s) ++
      ctxAfter (descend (t.alloc key).1 key s) := by
    conv_lhs => rw [hplug]
    rw [plug_addrs]; simp [Shape.addrs]
  refine ⟨⟨_, ⟨hs2.of_size _, ?_, ?_, ?_⟩, hsa, ?_⟩, ?_, ?_, ?_, ?_, ?_, ?_⟩
  · intro a ha
    have ha' : t.fresh + 1 ≤ a := by
      have : t2.fresh ≤ a := ha
      rw [m02.1] at this
      exact this
    apply k02.none
    rw [hmem a (by omega)]
    exact h.unused a (by omega)
  · intro a n hn
    have hlive : ∃ n, (t.alloc key).1.mem a = some n := (k02.live_iff a).1 ⟨n, hn⟩
    rw [had]
    by_cases ha : a = t.fresh
    · simp [Shape.addrs, ha]
    · rw [hmem a ha] at hlive
      obtain ⟨n', hn'⟩ := hlive
      have := h.live a n' hn'
      rw [hsa] at this
      simp only [List.mem_append] at this
      simp only [Shape.addrs, List.mem_append, List.mem_cons]
      tauto
  · show t2.size_ + 1 = _
    rw [had, m02.2.1]
    have : (t.alloc key).1.size_ = t.size_ := rfl
    rw [this, h.size, hsa]
    simp [Shape.addrs]; omega
  · rw [had]; simp [Shape.addrs]
  · show (t2.mem t.fresh).map (·.key_) = some key
    rw [k02 t.fresh, hcell]; rfl
  · intro a ha
    show (t2.mem a).map (·.key_) = _
    rw [k02 a, hmem a ha]
  · show t2.size_ + 1 = _
    rw [m02.2.1]; rfl
  · show t2.fresh = _
    rw [m02.1]; rfl
  · show t2.comparator_ = _
    rw [m02.2.2]; rfl
  · intro hb a ha
    have hb2 : RootBlack t2 := by
      apply hl.black
      intro b hb'
      have hr1 : t1.root_ = (t.alloc key).1.root_ := by
        rw [hs1.root, hs0.root]
        conv_rhs => rw [hplug]
        cases hd : descend (t.alloc key).1 key s with
        | nil => rw [hd] at hplug; exact absurd hplug hne
        | cons f gs => exact plug_root_cons f gs _ _
      rw [hr1] at hb'
      have hbne : b ≠ t.fresh := by
        rintro rfl
        exact hfr (Shape.root_mem (hs0.root ▸ hb'))
      rw [d1.red_eq, RBTree.red, RBTree.deref, hmem b hbne]
      exact hb b hb'
    exact hb2 a ha

/-- Every insertion returns, with the new node as iterator; a call that reports `false` has
changed nothing but the allocation counter, and a call that reports `true` has linked the
new node. -/
theorem insert_total {t : RBTree Key} {s : Shape} (h : WellFormed t s) {fuel : Nat}
    (hf : 3 * s.height + 1 ≤ fuel) (key : Key) (unique : Bool) :
    ∃ t' b, t.insert fuel key unique = some (t', some t.fresh, b) ∧
      ((b = false ∧ unique = true ∧ s ≠ .nil ∧ t' = { t with fresh := t.fresh + 1 }) ∨
        (b = true ∧ Linked t s key t')) := by
  by_cases hne : s = .nil
  · subst hne
    obtain ⟨t', e, hi⟩ := insert_empty h fuel key unique
    exact ⟨t', true, e, Or.inr ⟨rfl, hi.linked_nil⟩⟩
  · obtain ⟨found, -, -, h1 | h1⟩ := insert_linked h hne hf key unique
    · exact ⟨_, false, h1.2.2, Or.inl ⟨rfl, h1.2.1, hne, rfl⟩⟩
    · obtain ⟨-, t', e, hl⟩ := h1
      exact ⟨t', true, e, Or.inr ⟨rfl, hl⟩⟩

/-- The colours and the root pointer after a successful `setRed`. -/
theorem setRed_red {t t' : RBTree Key} {p : Ptr} {c : Bool} (h : t.setRed p c = some t') :
    ∃ a, p = some a ∧ t'.root_ = t.root_ ∧
      (∀ q, t'.red (some q) = if q = a then some c else t.red (some q)) ∧
      (∀ q, t'.left q = t.left q) ∧ (∀ q, t'.right q = t.right q) ∧
      (∀ q, t'.parent q = t.parent q) := by
  cases p with
  | none => simp [RBTree.setRed] at h
  | some a =>
    simp only [RBTree.setRed, Option.map_eq_some'] at h
    obtain ⟨n, hn, rfl⟩ := h
    refine ⟨a, rfl, rfl, fun q => ?_, fun q => ?_, fun q => ?_, fun q => ?_⟩
    · by_cases hq : q = a
      · subst hq; simp [RBTree.red, RBTree.deref, RBTree.store]
      · simp [RBTree.red, RBTree.deref, RBTree.store, hq]
    all_goals
      cases q with
      | none => rfl
      | some q =>
        by_cases hq : q = a
        · subst hq; simp [RBTree.left, RBTree.right, RBTree.parent, RBTree.deref, RBTree.store, hn]
        · simp [RBTree.left, RBTree.right, RBTree.parent, RBTree.deref, RBTree.store, hq]

/-- The colours and the root pointer after a successful `swapRed`. -/
theorem swapRed_red {t t' : RBTree Key} {p q : Ptr} (h : t.swapRed p q = some t') :
    ∃ a b ca cb, p = some a ∧ q = some b ∧ t.red p = some ca ∧ t.red q = some cb ∧
      t'.root_ = t.root_ ∧
      (∀ x, t'.red (some x) = if x = b then some ca else if x = a then some cb
        else t.red (some x)) ∧
      (∀ x, t'.left x = t.left x) ∧ (∀ x, t'.right x = t.right x) ∧
      (∀ x, t'.parent x = t.parent x) := by
  simp only [RBTree.swapRed, Option.bind_eq_bind, Option.bind_eq_some] at h
  obtain ⟨ca, hca, cb, hcb, t1, e1, e2⟩ := h
  obtain ⟨a, rfl, r1, c1, l1, rr1, p1⟩ := setRed_red e1
  obtain ⟨b, rfl, r2, c2, l2, rr2, p2⟩ := setRed_red e2
  refine ⟨a, b, ca, cb, rfl, rfl, hca, hcb, r2.trans r1, fun x => ?_, fun x => (l2 x).trans (l1 x),
    fun x => (rr2 x).trans (rr1 x), fun x => (p2 x).trans (p1 x)⟩
  rw [c2, c1]

/-- In a linked tree a child is not the root. -/
theorem Holds.right_ne_root {A : List Nat} {t : RBTree Key} (hg : Holds A t) {node : Ptr}
    (hn : InTree A node) {c : Nat} (h : t.right node = some (some c)) : t.root_ ≠ some c := by
  obtain ⟨s, hs, rfl⟩ := hg
  cases node with
  | none => simp [RBTree.right, RBTree.deref] at h
  | some x =>
    obtain ⟨fs, l, r, n, rfl, hn', -, -, hr⟩ := hs.cell (hn x rfl)
    simp only [RBTree.right, RBTree.deref, hn', Option.map_some', Option.some.injEq] at h
    have hc : c ∈ r.addrs := Shape.root_mem (by rw [← hr, h])
    have hnd := hs.nodup
    rw [plug_addrs] at hnd
    intro hroot
    rw [hs.root] at hroot
    by_cases hfs : fs = []
    · subst hfs
      simp only [plug, Shape.root, Option.some.injEq] at hroot
      subst hroot
      simp only [ctxBefore, ctxAfter, List.nil_append, List.append_nil, Shape.addrs] at hnd
      have := List.nodup_append.1 hnd
      simp [hc] at this
    · obtain ⟨b, hb1, hb2⟩ := plug_root_ctx hfs (.node l x r)
      rw [hb1] at hroot
      simp only [Option.some.injEq] at hroot
      subst hroot
      have hm : b ∈ l.addrs ++ x :: r.addrs := by simp [hc]
      obtain ⟨h1, -, h2⟩ := List.nodup_append.1 hnd
      obtain ⟨-, -, h3⟩ := List.nodup_append.1 h1
      rcases hb2 with hb | hb
      · exact h3 hb hm
      · exact h2 (List.mem_append_right _ hm) hb

theorem Holds.left_ne_root {A : List Nat} {t : RBTree Key} (hg : Holds A t) {node : Ptr}
    (hn : InTree A node) {c : Nat} (h : t.left node = some (some c)) : t.root_ ≠ some c := by
  obtain ⟨s, hs, rfl⟩ := hg
  cases node with
  | none => simp [RBTree.left, RBTree.deref] at h
  | some x =>
    obtain ⟨fs, l, r, n, rfl, hn', -, hl, -⟩ := hs.cell (hn x rfl)
    simp only [RBTree.left, RBTree.deref, hn', Option.map_some', Option.some.injEq] at h
    have hc : c ∈ l.addrs := Shape.root_mem (by rw [← hl, h])
    have hnd := hs.nodup
    rw [plug_addrs] at hnd
    intro hroot
    rw [hs.root] at hroot
    by_cases hfs : fs = []
    · subst hfs
      simp only [plug, Shape.root, Option.some.injEq] at hroot
      subst hroot
      simp only [ctxBefore, ctxAfter, List.nil_append, List.append_nil, Shape.addrs] at hnd
      have := List.nodup_append.1 hnd
      simp [hc] at this
    · obtain ⟨b, hb1, hb2⟩ := plug_root_ctx hfs (.node l x r)
      rw [hb1] at hroot
      simp only [Option.some.injEq] at hroot
      subst hroot
      have hm : b ∈ l.addrs ++ x :: r.addrs := by simp [hc]
      obtain ⟨h1, -, h2⟩ := List.nodup_append.1 hnd
      obtain ⟨-, -, h3⟩ := List.nodup_append.1 h1
      rcases hb2 with hb | hb
      · exact h3 hb hm
      · exact h2 (List.mem_append_right _ hm) hb

/-- The root pointer and the colours after a left rotation. -/
theorem leftRotate_root {A : List Nat} {t t' : RBTree Key} (hg : Holds A t) {node : Ptr}
    (hn : InTree A node) (h : t.leftRotate node = some t') :
    (∀ q, t'.red q = t.red q) ∧
      ((t.root_ = node ∧ t.right node = some t'.root_) ∨
        (t.root_ ≠ node ∧ t'.root_ = t.root_)) := by
  obtain ⟨s, hs, rfl⟩ := hg
  cases node with
  | none => simp [RBTree.leftRotate, RBTree.right, RBTree.deref] at h
  | some x =>
    obtain ⟨fs, l, r, n, rfl, hn', hpar, hl, hr⟩ := hs.cell (hn x rfl)
    cases r with
    | nil =>
      simp [RBTree.leftRotate, RBTree.right, RBTree.left, RBTree.deref, hn', hr, Shape.root] at h
    | node β y γ =>
      obtain ⟨t1, e, hs1, hd, hm⟩ := leftRotate_shape hs
      rw [e] at h
      obtain rfl : t1 = t' := by simpa using h
      refine ⟨fun q => hd.red_eq q, ?_⟩
      by_cases hfs : fs = []
      · subst hfs
        refine Or.inl ⟨by rw [hs.root]; rfl, ?_⟩
        rw [read_right hn', hr, hs1.root]; rfl
      · refine Or.inr ⟨?_, ?_⟩
        · rw [hs.root]
          obtain ⟨b, hb1, hb2⟩ := plug_root_ctx hfs (.node l x (.node β y γ))
          rw [hb1]
          intro hx
          simp only [Option.some.injEq] at hx
          subst hx
          have hnd := hs.nodup
          rw [plug_addrs] at hnd
          have hm : b ∈ (Shape.node l b (.node β y γ)).addrs := by simp [Shape.addrs]
          obtain ⟨h1, -, h2⟩ := List.nodup_append.1 hnd
          obtain ⟨-, -, h3⟩ := List.nodup_append.1 h1
          rcases hb2 with hb | hb
          · exact h3 hb hm
          · exact h2 (List.mem_append_right _ hm) hb
        · rw [hs1.root, hs.root]; exact plug_root_congr hfs _ _

/-- The root pointer and the colours after a right rotation. -/
theorem rightRotate_root {A : List Nat} {t t' : RBTree Key} (hg : Holds A t) {node : Ptr}
    (hn : InTree A node) (h : t.rightRotate node = some t') :
    (∀ q, t'.red q = t.red q) ∧
      ((t.root_ = node ∧ t.left node = some t'.root_) ∨
        (t.root_ ≠ node ∧ t'.root_ = t.root_)) := by
  obtain ⟨s, hs, rfl⟩ := hg
  cases node with
  | none => simp [RBTree.rightRotate, RBTree.left, RBTree.deref] at h
  | some x =>
    obtain ⟨fs, l, r, n, rfl, hn', hpar, hl, hr⟩ := hs.cell (hn x rfl)
    cases l with
    | nil =>
      simp [RBTree.rightRotate, RBTree.right, RBTree.left, RBTree.deref, hn', hl, Shape.root] at h
    | node α y β =>
      obtain ⟨t1, e, hs1, hd, hm⟩ := rightRotate_shape hs
      rw [e] at h
      obtain rfl : t1 = t' := by simpa using h
      refine ⟨fun q => hd.red_eq q, ?_⟩
      by_cases hfs : fs = []
      · subst hfs
        refine Or.inl ⟨by rw [hs.root]; rfl, ?_⟩
        rw [read_left hn', hl, hs1.root]; rfl
      · refine Or.inr ⟨?_, ?_⟩
        · rw [hs.root]
          obtain ⟨b, hb1, hb2⟩ := plug_root_ctx hfs (.node (.node α y β) x r)
          rw [hb1]
          intro hx
          simp only [Option.some.injEq] at hx
          subst hx
          have hnd := hs.nodup
          rw [plug_addrs] at hnd
          have hm : b ∈ (Shape.node (.node α y β) b r).addrs := by simp [Shape.addrs]
          obtain ⟨h1, -, h2⟩ := List.nodup_append.1 hnd
          obtain ⟨-, -, h3⟩ := List.nodup_append.1 h1
          rcases hb2 with hb | hb
          · exact h3 hb hm
          · exact h2 (List.mem_append_right _ hm) hb
        · rw [hs1.root, hs.root]; exact plug_root_congr hfs _ _

theorem rNephewsRedLNephewsAny_black {A : List Nat} {t t' : RBTree Key} (hg : Holds A t)
    {node : Ptr} (hn : InTree A node) (h : t.rNephewsRedLNephewsAny node = some t')
    (hb : RootBlack t) : RootBlack t' := by
  simp only [RBTree.rNephewsRedLNephewsAny, RBTree.rSibling, Option.bind_eq_bind,
    Option.bind_eq_some] at h
  obtain ⟨c, hc, rs, hrs, t1, e1, rn, -, t2, e2, t3, e3, e4⟩ := h
  have k1 := setRed_keeps hg e1
  have k2 := setRed_keeps k1.holds e2
  have k3 := setRed_keeps k2.holds e3
  obtain ⟨a, rfl, r1, c1, -, rr1, -⟩ := setRed_red e1
  obtain ⟨b, rfl, r2, c2, -, rr2, -⟩ := setRed_red e2
  obtain ⟨x, rfl, r3, c3, -, rr3, -⟩ := setRed_red e3
  obtain ⟨hred, hroot⟩ := leftRotate_root k3.holds hn e4
  intro z hz
  rw [hred, c3]
  by_cases zx : z = x
  · rw [if_pos zx]
  rw [if_neg zx, c2]
  by_cases zb : z = b
  · rw [if_pos zb]
  rw [if_neg zb, c1]
  rcases hroot with ⟨h1, h2⟩ | ⟨h1, h2⟩
  · have hza : z = a := by
      have : t.right (some x) = some (some z) := by rw [← rr1, ← rr2, ← rr3, h2, hz]
      rw [hrs] at this
      simpa using this.symm
    rw [if_pos hza, ← hc]
    exact hb x (by rw [← r1, ← r2, ← r3, h1])
  · have hr : t.root_ = some z := by rw [← r1, ← r2, ← r3, ← h2, hz]
    have hza : z ≠ a := fun e => hg.right_ne_root hn hrs (e ▸ hr)
    rw [if_neg hza]
    exact hb z hr

theorem mirrorRNephewsRedLNephewsAny_black {A : List Nat} {t t' : RBTree Key}
    (hg : Holds A t) {node : Ptr} (hn : InTree A node)
    (h : t.mirrorRNephewsRedLNephewsAny node = some t') (hb : RootBlack t) :
    RootBlack t' := by
  simp only [RBTree.mirrorRNephewsRedLNephewsAny, RBTree.lSibling, Option.bind_eq_bind,
    Option.bind_eq_some] at h
  obtain ⟨c, hc, rs, hrs, t1, e1, rn, -, t2, e2, t3, e3, e4⟩ := h
  have k1 := setRed_keeps hg e1
  have k2 := setRed_keeps k1.holds e2
  have k3 := setRed_keeps k2.holds e3
  obtain ⟨a, rfl, r1, c1, ll1, -, -⟩ := setRed_red e1
  obtain ⟨b, rfl, r2, c2, ll2, -, -⟩ := setRed_red e2
  obtain ⟨x, rfl, r3, c3, ll3, -, -⟩ := setRed_red e3
  obtain ⟨hred, hroot⟩ := rightRotate_root k3.holds hn e4
  intro z hz
  rw [hred, c3]
  by_cases zx : z = x
  · rw [if_pos zx]
  rw [if_neg zx, c2]
  by_cases zb : z = b
  · rw [if_pos zb]
  rw [if_neg zb, c1]
  rcases hroot with ⟨h1, h2⟩ | ⟨h1, h2⟩
  · have hza : z = a := by
      have : t.left (some x) = some (some z) := by rw [← ll1, ← ll2, ← ll3, h2, hz]
      rw [hrs] at this
      simpa using this.symm
    rw [if_pos hza, ← hc]
    exact hb x (by rw [← r1, ← r2, ← r3, h1])
  · have hr : t.root_ = some z := by rw [← r1, ← r2, ← r3, ← h2, hz]
    have hza : z ≠ a := fun e => hg.left_ne_root hn hrs (e ▸ hr)
    rw [if_neg hza]
    exact hb z hr

/-- Exchanging the colours of two nodes, neither of which is the root, keeps the root black. -/
theorem swapRed_black {t t' : RBTree Key} {p q : Ptr} (h : t.swapRed p q = some t')
    (hp : t.root_ ≠ p) (hq : t.root_ ≠ q) (hb : RootBlack t) : RootBlack t' := by
  obtain ⟨a, b, ca, cb, rfl, rfl, -, -, hr, hc, -, -, -⟩ := swapRed_red h
  intro z hz
  rw [hr] at hz
  rw [hc, if_neg (fun e : z = b => hq (by rw [hz, e])),
    if_neg (fun e : z = a => hp (by rw [hz, e]))]
  exact hb z hz

/-- A rotation about a node that is not the root keeps the root black. -/
theorem leftRotate_black {A : List Nat} {t t' : RBTree Key} (hg : Holds A t) {node : Ptr}
    (hn : InTree A node) (h : t.leftRotate node = some t') (hne : t.root_ ≠ node)
    (hb : RootBlack t) : RootBlack t' := by
  obtain ⟨hred, hroot⟩ := leftRotate_root hg hn h
  rcases hroot with ⟨h1, -⟩ | ⟨-, h2⟩
  · exact absurd h1 hne
  · intro z hz
    rw [hred]; exact hb z (h2 ▸ hz)

theorem rightRotate_black {A : List Nat} {t t' : RBTree Key} (hg : Holds A t) {node : Ptr}
    (hn : InTree A node) (h : t.rightRotate node = some t') (hne : t.root_ ≠ node)
    (hb : RootBlack t) : RootBlack t' := by
  obtain ⟨hred, hroot⟩ := rightRotate_root hg hn h
  rcases hroot with ⟨h1, -⟩ | ⟨-, h2⟩
  · exact absurd h1 hne
  · intro z hz
    rw [hred]; exact hb z (h2 ▸ hz)

theorem lNephewsRedRNephewsBlack_black {A : List Nat} {t t' : RBTree Key} (hg : Holds A t)
    {node : Ptr} (hn : InTree A node) (h : t.lNephewsRedRNephewsBlack node = some t')
    (hb : RootBlack t) : RootBlack t' := by
  simp only [RBTree.lNephewsRedRNephewsBlack, RBTree.lNephewsRS, RBTree.rSibling,
    Option.bind_eq_bind, Option.bind_eq_some] at h
  obtain ⟨ln, ⟨r0, hr0, hln⟩, rs, hrs, t1, e1, rs', e2, t2, e3, c, -, h⟩ := h
  obtain rfl : r0 = rs := by rw [hr0] at hrs; simpa using hrs
  have k1 := swapRed_keeps hg e1
  have k2 := rightRotate_keeps k1.holds (k1.holds.right_in hn e2) e3
  obtain ⟨a, b, ca, cb, rfl, rfl, -, -, -, -, -, rr1, -⟩ := swapRed_red e1
  have b1 : RootBlack t1 := swapRed_black e1
    (hg.left_ne_root (hg.right_in hn hrs) hln) (hg.right_ne_root hn hrs) hb
  have b2 : RootBlack t2 := by
    have hrs' : rs' = some b := by
      rw [rr1, hrs] at e2; simpa using e2.symm
    subst hrs'
    exact rightRotate_black k1.holds (k1.holds.right_in hn e2) e3 (k1.holds.right_ne_root hn e2) b1
  split at h
  · exact rNephewsRedLNephewsAny_black k2.holds hn h b2
  · exact mirrorRNephewsRedLNephewsAny_black k2.holds hn h b2

theorem mirrorLNephewsRedRNephewsBlack_black {A : List Nat} {t t' : RBTree Key}
    (hg : Holds A t) {node : Ptr} (hn : InTree A node)
    (h : t.mirrorLNephewsRedRNephewsBlack node = some t') (hb : RootBlack t) :
    RootBlack t' := by
  simp only [RBTree.mirrorLNephewsRedRNephewsBlack, RBTree.rNephewsLS, RBTree.lSibling,
    Option.bind_eq_bind, Option.bind_eq_some] at h
  obtain ⟨rn, ⟨l0, hl0, hrn⟩, ls, hls, t1, e1, ls', e2, t2, e3, c, -, h⟩ := h
  obtain rfl : l0 = ls := by rw [hl0] at hls; simpa using hls
  have k1 := swapRed_keeps hg e1
  have k2 := leftRotate_keeps k1.holds (k1.holds.left_in hn e2) e3
  obtain ⟨a, b, ca, cb, rfl, rfl, -, -, -, -, ll1, -, -⟩ := swapRed_red e1
  have b1 : RootBlack t1 := swapRed_black e1
    (hg.right_ne_root (hg.left_in hn hls) hrn) (hg.left_ne_root hn hls) hb
  have b2 : RootBlack t2 := by
    have hls' : ls' = some b := by
      rw [ll1, hls] at e2; simpa using e2.symm
    subst hls'
    exact leftRotate_black k1.holds (k1.holds.left_in hn e2) e3 (k1.holds.left_ne_root hn e2) b1
  split at h
  · exact rNephewsRedLNephewsAny_black k2.holds hn h b2
  · exact mirrorRNephewsRedLNephewsAny_black k2.holds hn h b2

/-- Colouring a node black, or colouring a node other than the root, keeps the root black. -/
theorem setRed_black {t t' : RBTree Key} {p : Ptr} {c : Bool} (h : t.setRed p c = some t')
    (hc : c = false ∨ t.root_ ≠ p) (hb : RootBlack t) : RootBlack t' := by
  obtain ⟨a, rfl, hr, hcol, -, -, -⟩ := setRed_red h
  intro z hz
  rw [hr] at hz
  rw [hcol]
  by_cases hza : z = a
  · rw [if_pos hza]
    rcases hc with rfl | hc
    · rfl
    · exact absurd (by rw [hz, hza]) hc
  · rw [if_neg hza]; exact hb z hz

/-- The colour exchange and rotation of the cases 4a keeps the root black. -/
theorem redSibling_step_black {A : List Nat} {t t1 t2 : RBTree Key} (hg : Holds A t)
    {node rs : Ptr} (hn : InTree A node) (hrs : t.right node = some rs)
    (e1 : t.swapRed rs node = some t1) (e2 : t1.leftRotate node = some t2)
    (hb : RootBlack t) : RootBlack t2 := by
  have k1 := swapRed_keeps hg e1
  obtain ⟨a, x, ca, cx, rfl, rfl, hca, hcx, hr, hc, -, rr1, -⟩ := swapRed_red e1
  obtain ⟨hred, hroot⟩ := leftRotate_root k1.holds hn e2
  intro z hz
  rw [hred, hc]
  rcases hroot with ⟨h1, h2⟩ | ⟨h1, h2⟩
  · have hza : z = a := by
      have : t.right (some x) = some (some z) := by rw [← rr1, h2, hz]
      rw [hrs] at this
      simpa using this.symm
    have hx : t.red (some x) = some false := hb x (by rw [← hr, h1])
    rw [hx] at hcx
    by_cases zx : z = x
    · rw [if_pos zx, ← hca, ← hza, zx, hx]
    · rw [if_neg zx, if_pos hza, hcx]
  · have hrz : t.root_ = some z := by rw [← hr, ← h2, hz]
    have zx : z ≠ x := fun e => h1 (by rw [hr, hrz, e])
    have hza : z ≠ a := fun e => hg.right_ne_root hn hrs (e ▸ hrz)
    rw [if_neg zx, if_neg hza]
    exact hb z hrz

theorem mirrorRedSibling_step_black {A : List Nat} {t t1 t2 : RBTree Key} (hg : Holds A t)
    {node ls : Ptr} (hn : InTree A node) (hls : t.left node = some ls)
    (e1 : t.swapRed ls node = some t1) (e2 : t1.rightRotate node = some t2)
    (hb : RootBlack t) : RootBlack t2 := by
  have k1 := swapRed_keeps hg e1
  obtain ⟨a, x, ca, cx, rfl, rfl, hca, hcx, hr, hc, ll1, -, -⟩ := swapRed_red e1
  obtain ⟨hred, hroot⟩ := rightRotate_root k1.holds hn e2
  intro z hz
  rw [hred, hc]
  rcases hroot with ⟨h1, h2⟩ | ⟨h1, h2⟩
  · have hza : z = a := by
      have : t.left (some x) = some (some z) := by rw [← ll1, h2, hz]
      rw [hls] at this
      simpa using this.symm
    have hx : t.red (some x) = some false := hb x (by rw [← hr, h1])
    rw [hx] at hcx
    by_cases zx : z = x
    · rw [if_pos zx, ← hca, ← hza, zx, hx]
    · rw [if_neg zx, if_pos hza, hcx]
  · have hrz : t.root_ = some z := by rw [← hr, ← h2, hz]
    have zx : z ≠ x := fun e => h1 (by rw [hr, hrz, e])
    have hza : z ≠ a := fun e => hg.left_ne_root hn hls (e ▸ hrz)
    rw [if_neg zx, if_neg hza]
    exact hb z hrz

/-- The fix-up after an erase keeps a black root black. -/
theorem eraseFixup_black {A : List Nat} (fuel : Nat) :
    (∀ {t t' : RBTree Key} {node : Ptr}, Holds A t → InTree A node →
      t.eraseFixup fuel node = some t' → RootBlack t → RootBlack t') ∧
    (∀ {t t' : RBTree Key} {node : Ptr}, Holds A t → InTree A node →
      t.redSibling fuel node = some t' → RootBlack t → RootBlack t') ∧
    (∀ {t t' : RBTree Key} {node : Ptr}, Holds A t → InTree A node →
      t.mirrorRedSibling fuel node = some t' → RootBlack t → RootBlack t') ∧
    (∀ {t t' : RBTree Key} {node : Ptr}, Holds A t → InTree A node →
      t.lNephewsBlackRNephewsBlack fuel node = some t' → RootBlack t → RootBlack t') ∧
    (∀ {t t' : RBTree Key} {node : Ptr}, Holds A t → InTree A node →
      t.eraseFixupAncestors fuel node = some t' → RootBlack t → RootBlack t') ∧
    (∀ {t t' : RBTree Key} {node : Ptr}, Holds A t → InTree A node →
      t.mirrorLNephewsBlackRNephewsBlack fuel node = some t' → RootBlack t →
        RootBlack t') := by
  induction fuel with
  | zero =>
    refine ⟨?_, ?_, ?_, ?_, ?_, ?_⟩ <;> intro t t' node _ _ h
    · simp [RBTree.eraseFixup] at h
    · simp [RBTree.redSibling] at h
    · simp [RBTree.mirrorRedSibling] at h
    · simp [RBTree.lNephewsBlackRNephewsBlack] at h
    · simp [RBTree.eraseFixupAncestors] at h
    · simp [RBTree.mirrorLNephewsBlackRNephewsBlack] at h
  | succ fuel ih =>
    obtain ⟨ih1, ih2, ih3, ih4, ih5, ih6⟩ := ih
    obtain ⟨kp1, -, -, -, -, -⟩ := @eraseFixup_keeps Key A fuel
    refine ⟨?_, ?_, ?_, ?_, ?_, ?_⟩ <;> intro t t' node hg hn h hb
    · rw [RBTree.eraseFixup] at h
      obtain ⟨c, -, h⟩ := Option.bind_eq_some.1 h
      split at h
      · exact lNephewsRedRNephewsBlack_black hg hn h hb
      obtain ⟨c, -, h⟩ := Option.bind_eq_some.1 h
      split at h
      · exact mirrorLNephewsRedRNephewsBlack_black hg hn h hb
      obtain ⟨c, -, h⟩ := Option.bind_eq_some.1 h
      split at h
      · exact ih4 hg hn h hb
      obtain ⟨c, -, h⟩ := Option.bind_eq_some.1 h
      split at h
      · exact ih6 hg hn h hb
      obtain ⟨c, -, h⟩ := Option.bind_eq_some.1 h
      split at h
      · exact rNephewsRedLNephewsAny_black hg hn h hb
      obtain ⟨c, -, h⟩ := Option.bind_eq_some.1 h
      split at h
      · exact mirrorRNephewsRedLNephewsAny_black hg hn h hb
      obtain ⟨c, -, h⟩ := Option.bind_eq_some.1 h
      split at h
      · exact ih2 hg hn h hb
      obtain ⟨c, -, h⟩ := Option.bind_eq_some.1 h
      split at h
      · exact ih3 hg hn h hb
      · simp only [Option.some.injEq] at h; subst h; exact hb
    · rw [RBTree.redSibling] at h
      simp only [RBTree.rSibling, Option.bind_eq_bind, Option.bind_eq_some] at h
      obtain ⟨rs, hrs, t1, e1, t2, e2, h⟩ := h
      have k1 := swapRed_keeps hg e1
      have k2 := leftRotate_keeps k1.holds hn e2
      exact ih1 k2.holds hn h (redSibling_step_black hg hn hrs e1 e2 hb)
    · rw [RBTree.mirrorRedSibling] at h
      simp only [RBTree.lSibling, Option.bind_eq_bind, Option.bind_eq_some] at h
      obtain ⟨ls, hls, t1, e1, t2, e2, h⟩ := h
      have k1 := swapRed_keeps hg e1
      have k2 := rightRotate_keeps k1.holds hn e2
      exact ih1 k2.holds hn h (mirrorRedSibling_step_black hg hn hls e1 e2 hb)
    · rw [RBTree.lNephewsBlackRNephewsBlack] at h
      simp only [RBTree.rSibling, Option.bind_eq_bind, Option.bind_eq_some] at h
      obtain ⟨_, -, t1, e1, rs, hrs, t2, e2, np, e3, h⟩ := h
      have k1 := setRed_keeps hg e1
      have k2 := setRed_keeps k1.holds e2
      have b1 := setRed_black e1 (Or.inl rfl) hb
      have b2 : RootBlack t2 := by
        obtain ⟨a, rfl, -⟩ := setRed_red e2
        exact setRed_black e2 (Or.inr (k1.holds.right_ne_root hn hrs)) b1
      split at h
      · exact ih5 k2.holds (k2.holds.parent_in hn e3) h b2
      · simp only [Option.some.injEq] at h; subst h; exact b2
    · rw [RBTree.eraseFixupAncestors] at h
      split at h
      · simp only [Option.some.injEq] at h; subst h; exact hb
      simp only [Option.bind_eq_bind, Option.bind_eq_some] at h
      obtain ⟨t1, e1, pp, e2, h⟩ := h
      have k1 := kp1 hg hn e1
      exact ih5 k1.holds (k1.holds.parent_in hn e2) h (ih1 hg hn e1 hb)
    · rw [RBTree.mirrorLNephewsBlackRNephewsBlack] at h
      simp only [RBTree.lSibling, Option.bind_eq_bind, Option.bind_eq_some] at h
      obtain ⟨_, -, t1, e1, ls, hls, t2, e2, np, e3, h⟩ := h
      have k1 := setRed_keeps hg e1
      have k2 := setRed_keeps k1.holds e2
      have b1 := setRed_black e1 (Or.inl rfl) hb
      have b2 : RootBlack t2 := by
        obtain ⟨a, rfl, -⟩ := setRed_red e2
        exact setRed_black e2 (Or.inr (k1.holds.left_ne_root hn hls)) b1
      split at h
      · exact ih1 k2.holds (k2.holds.parent_in hn e3) h b2
      · simp only [Option.some.injEq] at h; subst h; exact b2

/-- Partial correctness of `erase`: a returned call at a tree node has removed exactly that
node. -/
theorem erase_spec {t : RBTree Key} {s : Shape} (h : WellFormed t s) {e : Nat}
    (he : e ∈ s.addrs) {fuel : Nat} (hf : s.height + 1 ≤ fuel) {t' : RBTree Key}
    (hres : t.erase fuel (some e) = some t') : Erased t s e t' := by
  obtain ⟨fs, l, r, rfl⟩ := Shape.split he
  have hs := h.shaped
  obtain ⟨ne, hne, -⟩ := hs.focus
  have hh := height_plug_ge fs (.node l e r)
  obtain ⟨res, s1, e1, hs1, had, k1, m1, i1, b1⟩ :=
    eraseNode_spec hs none ne.red_ (show (Shape.node l e r).height + 1 ≤ fuel by omega)
  simp only [RBTree.erase, reduceCtorEq, if_false, Option.bind_eq_bind, read_red hne,
    Option.some_bind, e1] at hres
  obtain ⟨t2, e2, hres⟩ := Option.bind_eq_some.1 hres
  obtain ⟨t3, e3, hres⟩ := Option.bind_eq_some.1 hres
  simp only [Option.some.injEq] at hres
  have hk2 : Keeps s1.addrs res.1 t2 ∧ (RootBlack res.1 → RootBlack t2) := by
    split at e2
    · exact ⟨(eraseFixup_keeps fuel).1 ⟨s1, hs1, rfl⟩ i1 e2,
        (eraseFixup_black fuel).1 ⟨s1, hs1, rfl⟩ i1 e2⟩
    · simp only [Option.some.injEq] at e2; subst e2
      exact ⟨Keeps.refl_keeps ⟨s1, hs1, rfl⟩, id⟩
  obtain ⟨⟨⟨s2, hs2, had2⟩, k2, m2⟩, b2⟩ := hk2
  have hsa : (plug fs (.node l e r)).addrs =
      (ctxBefore fs ++ l.addrs) ++ e :: (r.addrs ++ ctxAfter fs) := by
    rw [plug_addrs]; simp [Shape.addrs]
  have hnd := hs.nodup
  rw [hsa] at hnd
  have he2 : e ∉ s2.addrs := by
    rw [had2, had]
    exact (List.nodup_cons.1 (List.nodup_middle.1 hnd)).1
  have k02 : SameKeys t t2 := k1.trans_keys k2
  have m02 : SameMeta t t2 := m1.trans_meta m2
  obtain ⟨n2, hn2⟩ : ∃ n, t2.mem e = some n := (k02.live_iff e).2 ⟨ne, hne⟩
  simp only [RBTree.free, hn2, Option.map_some', Option.some.injEq] at e3
  subst e3
  subst hres
  refine ⟨⟨s2, _, _, hsa, ⟨⟨hs2.root, rep_frame (fun a ha => ?_) hs2.rep, hs2.nodup⟩, ?_, ?_, ?_⟩,
    by rw [had2, had]⟩, ?_, ?_, m02.1, m02.2.2, ?_⟩
  · show (if a = e then none else t2.mem a) = t2.mem a
    rw [if_neg]; rintro rfl; exact he2 ha
  · intro a ha
    show (if a = e then none else t2.mem a) = none
    split
    · rfl
    · apply k02.none
      exact h.unused a (by have : t2.fresh = t.fresh := m02.1; rw [← this]; exact ha)
  · intro a n hn
    have hn' : (if a = e then none else t2.mem a) = some n := hn
    by_cases hae : a = e
    · rw [if_pos hae] at hn'; cases hn'
    · rw [if_neg hae] at hn'
      obtain ⟨n0, hn0⟩ := (k02.live_iff a).1 ⟨n, hn'⟩
      have := h.live a n0 hn0
      rw [hsa] at this
      rw [had2, had]
      simp only [List.mem_append, List.mem_cons] at this ⊢
      tauto
  · show t2.size_ - 1 = _
    rw [had2, had, m02.2.1, h.size, hsa]
    simp only [List.length_append, List.length_cons]
    omega
  · intro a hae
    show ((if a = e then none else t2.mem a)).map (·.key_) = _
    rw [if_neg hae, k02 a]
  · show t2.size_ - 1 + 1 = _
    rw [m02.2.1, h.size, hsa]
    simp only [List.length_append, List.length_cons]
    omega
  · intro hb a ha
    have := b2 (b1 hb) a ha
    have hae : a ≠ e := by
      rintro rfl
      exact he2 (Shape.root_mem (by rw [← hs2.root]; exact ha))
    show ((if a = e then none else t2.mem a)).map (·.red_) = _
    simp only [RBTree.red, RBTree.deref] at this
    rw [if_neg hae]; exact this

theorem keysAt_eq_of_keys {t t' : RBTree Key} {A : List Nat}
    (h : ∀ a ∈ A, (t'.mem a).map (·.key_) = (t.mem a).map (·.key_)) :
    keysAt t' A = keysAt t A := by
  unfold keysAt
  exact List.filterMap_congr h

theorem StrictWeak.asymm {lt : Key → Key → Bool} (hw : StrictWeak lt) {a b : Key}
    (h : lt a b = true) : lt b a = false := by
  by_contra h'
  have h2 : lt b a = true := by simpa using h'
  have := hw.trans a b a h h2
  rw [hw.irrefl] at this
  cases this

/-- A rejected insertion leaves a well-formed tree. -/
theorem WellFormed.bump {t : RBTree Key} {s : Shape} (h : WellFormed t s) :
    WellFormed { t with fresh := t.fresh + 1 } s :=
  ⟨⟨h.shaped.root, h.shaped.rep, h.shaped.nodup⟩,
    fun a ha => h.unused a (by have : t.fresh + 1 ≤ a := ha; omega), h.live, h.size⟩

/-- The keys of a tree after a linked insertion. -/
theorem Linked.keys_split {t t' : RBTree Key} {s : Shape} {key : Key} (h : WellFormed t s)
    (hl : Linked t s key t') :
    ∃ s' A B, WellFormed t' s' ∧ s.addrs = A ++ B ∧ s'.addrs = A ++ t.fresh :: B ∧
      A = ctxBefore (descend (t.alloc key).1 key s) ∧
      B = ctxAfter (descend (t.alloc key).1 key s) ∧
      keysAt t' s'.addrs = keysAt t A ++ key :: keysAt t B := by
  obtain ⟨s', hw, h1, h2⟩ := hl.wf
  refine ⟨s', _, _, hw, h1, h2, rfl, rfl, ?_⟩
  have hfr : ∀ a ∈ s.addrs, a ≠ t.fresh := fun a ha => by
    have := h.lt_fresh ha; omega
  obtain ⟨n, hn, hk⟩ : ∃ n, t'.mem t.fresh = some n ∧ n.key_ = key := by
    have := hl.key
    simpa [Option.map_eq_some'] using this
  rw [h2, keysAt_append, keysAt_cons hn, hk]
  congr 1
  · exact keysAt_eq_of_keys fun a ha => hl.keys a (hfr a (by rw [h1]; simp [ha]))
  · congr 1
    exact keysAt_eq_of_keys fun a ha => hl.keys a (hfr a (by rw [h1]; simp [ha]))

theorem pairwise_insert {R : Key → Key → Prop} {A B : List Key} {k : Key}
    (h : (A ++ B).Pairwise R) (hA : ∀ a ∈ A, R a k) (hB : ∀ b ∈ B, R k b) :
    (A ++ k :: B).Pairwise R := by
  rw [List.pairwise_append] at h ⊢
  obtain ⟨h1, h2, h3⟩ := h
  refine ⟨h1, List.pairwise_cons.2 ⟨hB, h2⟩, fun a ha b hb => ?_⟩
  rcases List.mem_cons.1 hb with rfl | hb
  · exact hA a ha
  · exact h3 a ha b hb

/-- One returned insertion keeps the invariants. -/
theorem insert_step {t : RBTree Key} {s : Shape} (h : Good t s) {fuel : Nat}
    (hf : 3 * s.addrs.length + 1 ≤ fuel) {key : Key} {unique : Bool}
    {r : RBTree Key × Ptr × Bool} (hres : t.insert fuel key unique = some r) :
    ∃ s', Good r.1 s' ∧ r.1.comparator_ = t.comparator_ ∧
      s'.addrs.length ≤ s.addrs.length + 1 ∧
      (StrictWeak t.comparator_ → unique = true → StrictAt t s.addrs →
        StrictAt r.1 s'.addrs) := by
  have hh := s.height_le_length
  by_cases hne : s = .nil
  · subst hne
    obtain ⟨t', e, hi⟩ := insert_empty h.wf fuel key unique
    rw [e] at hres
    simp only [Option.some.injEq] at hres
    subst hres
    obtain ⟨s', A, B, hw, h1, h2, hk⟩ := hi.linked_nil.keys_split h.wf
    have hA : A = [] ∧ B = [] := by simpa [Shape.addrs, eq_comm] using h1
    obtain ⟨rfl, rfl⟩ := hA
    have hk' : keysAt t' s'.addrs = [key] := by simpa [keysAt] using hk.2.2
    refine ⟨s', ⟨hw, hi.black h.black, fun _ => ?_⟩, hi.cmp, by rw [h2]; simp [Shape.addrs],
      fun _ _ _ => ?_⟩
    · unfold SortedAt; rw [hk']; simp
    · unfold StrictAt; rw [hk']; simp
  obtain ⟨found, e0, -, h1 | h1⟩ := insert_linked h.wf hne (show 3 * s.height + 1 ≤ fuel by omega)
    key unique
  · rw [h1.2.2] at hres
    simp only [Option.some.injEq] at hres
    subst hres
    exact ⟨s, ⟨h.wf.bump, h.black, h.sorted⟩, rfl, by omega, fun _ _ hs => hs⟩
  obtain ⟨hcond, t', e, hl⟩ := h1
  rw [e] at hres
  simp only [Option.some.injEq] at hres
  subst hres
  obtain ⟨s', A, B, hw, h1, h2, hA, hB, hk⟩ := hl.keys_split h.wf
  obtain ⟨hs0, hfr, hmem, hcell⟩ := alloc_shaped h.wf key
  have hk0 : keysAt (t.alloc key).1 s.addrs = keysAt t s.addrs :=
    keysAt_eq_of_mem fun a ha => hmem a (by rintro rfl; exact hfr ha)
  have hsub : ∀ X, (∀ a ∈ X, a ∈ s.addrs) → keysAt (t.alloc key).1 X = keysAt t X :=
    fun X hX => keysAt_eq_of_mem fun a ha => hmem a (by rintro rfl; exact hfr (hX _ ha))
  have hord : StrictWeak t.comparator_ →
      (∀ k ∈ keysAt t A, t.comparator_ key k = false) ∧
      (∀ k ∈ keysAt t B, t.comparator_ key k = true) := by
    intro hw'
    have := descend_sorted (t := (t.alloc key).1) hw' key hs0.rep (by
      rw [hk0]; exact h.sorted hw')
    rw [← hA, ← hB, hsub A (fun a ha => by rw [h1]; simp [ha]),
      hsub B (fun a ha => by rw [h1]; simp [ha])] at this
    exact this
  have hsplit : keysAt t s.addrs = keysAt t A ++ keysAt t B := by rw [h1, keysAt_append]
  refine ⟨s', ⟨hw, hl.black h.black, fun hw' => ?_⟩, hl.cmp, by rw [h2, h1]; simp only [List.length_append, List.length_cons]; omega,
    fun hw' hu hst => ?_⟩
  · have hw0 : StrictWeak t.comparator_ := hl.cmp ▸ hw'
    have hso := h.sorted hw0
    unfold SortedAt at hso ⊢
    rw [hk, hl.cmp]
    rw [hsplit] at hso
    exact pairwise_insert hso (fun a ha => (hord hw0).1 a ha)
      (fun b hb => hw0.asymm ((hord hw0).2 b hb))
  · unfold StrictAt at hst ⊢
    rw [hk, hl.cmp]
    rw [hsplit] at hst
    obtain ⟨found', e', hiff⟩ := alloc_findNode h.wf hw' (h.sorted hw')
      (show s.height ≤ fuel by omega) key key
    rw [e0] at e'
    simp only [Option.some.injEq] at e'
    subst e'
    have hnp : ¬ Present t s key := fun hp => hcond ⟨hiff.2 hp, hu⟩
    refine pairwise_insert hst (fun a ha => ?_) (fun b hb => (hord hw').2 b hb)
    by_contra hc
    apply hnp
    refine ⟨a, by rw [hsplit]; simp [ha], (hord hw').1 a ha, by simpa using hc⟩

theorem keysAt_sublist (t : RBTree Key) (A B : List Nat) (e : Nat) :
    (keysAt t (A ++ B)).Sublist (keysAt t (A ++ e :: B)) := by
  unfold keysAt
  apply List.Sublist.filterMap
  simp

/-- One returned erase keeps the invariants. -/
theorem erase_step {t : RBTree Key} {s : Shape} (h : Good t s) {fuel : Nat}
    (hf : s.addrs.length + 1 ≤ fuel) {pos : Ptr} {t' : RBTree Key}
    (hres : t.erase fuel pos = some t') :
    ∃ s', Good t' s' ∧ t'.comparator_ = t.comparator_ ∧ s'.addrs.length ≤ s.addrs.length ∧
      (StrictAt t s.addrs → StrictAt t' s'.addrs) := by
  have hh := s.height_le_length
  cases pos with
  | none =>
    simp only [RBTree.erase, if_true, Option.some.injEq] at hres
    subst hres
    exact ⟨s, h, rfl, le_refl _, id⟩
  | some e =>
    have he : e ∈ s.addrs := by
      simp only [RBTree.erase, reduceCtorEq, if_false, Option.bind_eq_bind,
        Option.bind_eq_some] at hres
      obtain ⟨c, hc, -⟩ := hres
      obtain ⟨n, hn, -⟩ := cell_of_red hc
      exact h.wf.live e n hn
    obtain ⟨⟨s', A, B, h1, hw, h2⟩, hk, -, -, hc, hb⟩ :=
      erase_spec h.wf he (show s.height + 1 ≤ fuel by omega) hres
    have hnd := h.wf.shaped.nodup
    rw [h1] at hnd
    have heAB : e ∉ A ++ B := (List.nodup_cons.1 (List.nodup_middle.1 hnd)).1
    have hk' : keysAt t' s'.addrs = keysAt t (A ++ B) := by
      rw [h2]
      exact keysAt_eq_of_keys fun a ha => hk a (by rintro rfl; exact heAB ha)
    refine ⟨s', ⟨hw, hb h.black, fun hw' => ?_⟩, hc, by rw [h2, h1]; simp, fun hst => ?_⟩
    · have hso := h.sorted (hc ▸ hw')
      unfold SortedAt at hso ⊢
      rw [hk', hc]
      rw [h1] at hso
      exact hso.sublist (keysAt_sublist t A B e)
    · unfold StrictAt at hst ⊢
      rw [hk', hc]
      rw [h1] at hst
      exact hst.sublist (keysAt_sublist t A B e)

theorem good_empty (cmp : Key → Key → Bool) : Good (RBTree.empty cmp) .nil :=
  { wf := { shaped := ⟨rfl, trivial, List.nodup_nil⟩
            unused := fun _ _ => rfl
            live := fun a n h => by cases h
            size := rfl }
    black := fun a h => by cases h
    sorted := fun _ => List.Pairwise.nil }

/-- One returned public call keeps the invariants. -/
theorem apply_step {t : RBTree Key} {s : Shape} (h : Good t s) {fuel : Nat}
    (hf : 3 * s.addrs.length + 1 ≤ fuel) {op : Op Key} {t' : RBTree Key}
    (hres : t.apply fuel op = some t') :
    ∃ s', Good t' s' ∧ t'.comparator_ = t.comparator_ ∧
      s'.addrs.length ≤ s.addrs.length + 1 ∧
      (StrictWeak t.comparator_ → op.isMulti = false → StrictAt t s.addrs →
        StrictAt t' s'.addrs) := by
  cases op with
  | insert key =>
    simp only [RBTree.apply, Option.map_eq_some'] at hres
    obtain ⟨r, hr, rfl⟩ := hres
    obtain ⟨s', g, c, l, -⟩ := insert_step h hf hr
    exact ⟨s', g, c, l, fun _ hm => by cases hm⟩
  | insertUnique key =>
    simp only [RBTree.apply, Option.map_eq_some'] at hres
    obtain ⟨r, hr, rfl⟩ := hres
    obtain ⟨s', g, c, l, hst⟩ := insert_step h hf hr
    exact ⟨s', g, c, l, fun hw _ => hst hw rfl⟩
  | erase pos =>
    obtain ⟨s', g, c, l, hst⟩ := erase_step h (show s.addrs.length + 1 ≤ fuel by omega) hres
    exact ⟨s', g, c, by omega, fun _ _ => hst⟩

/-- Every returned sequence of public calls keeps the invariants. -/
theorem run_good {ops : List (Op Key)} {t : RBTree Key} {s : Shape} (h : Good t s)
    {fuel : Nat} (hf : 3 * (s.addrs.length + ops.length) + 1 ≤ fuel) {t' : RBTree Key}
    (hres : t.run fuel ops = some t') :
    ∃ s', Good t' s' ∧ t'.comparator_ = t.comparator_ ∧
      s'.addrs.length ≤ s.addrs.length + ops.length ∧
      (StrictWeak t.comparator_ → (∀ op ∈ ops, op.isMulti = false) → StrictAt t s.addrs →
        StrictAt t' s'.addrs) := by
  induction ops generalizing t s with
  | nil =>
    simp only [RBTree.run, Option.some.injEq] at hres
    subst hres
    exact ⟨s, h, rfl, by simp, fun _ _ hs => hs⟩
  | cons op ops ih =>
    simp only [RBTree.run, Option.bind_eq_some] at hres
    obtain ⟨t1, e1, e2⟩ := hres
    simp only [List.length_cons] at hf
    obtain ⟨s1, g1, c1, l1, hst1⟩ := apply_step h (show 3 * s.addrs.length + 1 ≤ fuel by omega) e1
    obtain ⟨s2, g2, c2, l2, hst2⟩ := ih g1 (by omega) e2
    refine ⟨s2, g2, c2.trans c1, by simp only [List.length_cons]; omega, fun hw hm hs => ?_⟩
    exact hst2 (c1 ▸ hw) (fun o ho => hm o (List.mem_cons_of_mem _ ho))
      (hst1 hw (hm op (List.mem_cons_self _ _)) hs)

/-- A linked insertion into a tree with the invariants gives a tree with the invariants, whose
in-order sequence is the old one with the new key put between the elements that are not
greater than it and the elements that are greater. -/
theorem Linked.good {t t' : RBTree Key} {s : Shape} {key : Key} (h : Good t s)
    (hl : Linked t s key t') :
    ∃ s' A B, Good t' s' ∧ s.addrs = A ++ B ∧ s'.addrs = A ++ t.fresh :: B ∧
      keysAt t' s'.addrs = keysAt t A ++ key :: keysAt t B ∧
      (StrictWeak t.comparator_ →
        (∀ k ∈ keysAt t A, t.comparator_ key k = false) ∧
        (∀ k ∈ keysAt t B, t.comparator_ key k = true)) := by
  obtain ⟨s', A, B, hw, h1, h2, hA, hB, hk⟩ := hl.keys_split h.wf
  obtain ⟨hs0, hfr, hmem, hcell⟩ := alloc_shaped h.wf key
  have hk0 : keysAt (t.alloc key).1 s.addrs = keysAt t s.addrs :=
    keysAt_eq_of_mem fun a ha => hmem a (by rintro rfl; exact hfr ha)
  have hsub : ∀ X, (∀ a ∈ X, a ∈ s.addrs) → keysAt (t.alloc key).1 X = keysAt t X :=
    fun X hX => keysAt_eq_of_mem fun a ha => hmem a (by rintro rfl; exact hfr (hX _ ha))
  have hord : StrictWeak t.comparator_ →
      (∀ k ∈ keysAt t A, t.comparator_ key k = false) ∧
      (∀ k ∈ keysAt t B, t.comparator_ key k = true) := by
    intro hw'
    have := descend_sorted (t := (t.alloc key).1) hw' key hs0.rep (by
      rw [hk0]; exact h.sorted hw')
    rw [← hA, ← hB, hsub A (fun a ha => by rw [h1]; simp [ha]),
      hsub B (fun a ha => by rw [h1]; simp [ha])] at this
    exact this
  have hsplit : keysAt t s.addrs = keysAt t A ++ keysAt t B := by rw [h1, keysAt_append]
  refine ⟨s', A, B, ⟨hw, hl.black h.black, fun hw' => ?_⟩, h1, h2, hk, hord⟩
  have hw0 : StrictWeak t.comparator_ := hl.cmp ▸ hw'
  have hso := h.sorted hw0
  unfold SortedAt at hso ⊢
  rw [hk, hl.cmp]
  rw [hsplit] at hso
  exact pairwise_insert hso (fun a ha => (hord hw0).1 a ha)
    (fun b hb => hw0.asymm ((hord hw0).2 b hb))

/-- The two outcomes of an insertion into a tree with the invariants, under a strict weak
order: a unique-mode insertion of a key with an equivalent element changes only the allocation
counter and reports `false`; every other insertion links the new node and reports `true`. -/
theorem insert_outcome {t : RBTree Key} {s : Shape} (h : Good t s)
    (hw : StrictWeak t.comparator_) {fuel : Nat} (hf : 3 * t.size_ + 1 ≤ fuel) (key : Key)
    (unique : Bool) :
    (unique = true ∧ Present t s key ∧
        t.insert fuel key unique =
          some ({ t with fresh := t.fresh + 1 }, some t.fresh, false)) ∨
      (¬ (unique = true ∧ Present t s key) ∧
        ∃ t', t.insert fuel key unique = some (t', some t.fresh, true) ∧ Linked t s key t') := by
  have hh := h.wf.height_le
  by_cases hne : s = .nil
  · subst hne
    obtain ⟨t', e, hi⟩ := insert_empty h.wf fuel key unique
    refine Or.inr ⟨?_, t', e, hi.linked_nil⟩
    rintro ⟨-, e', he, -⟩
    simp [keysAt, Shape.addrs] at he
  obtain ⟨found, e0, -, h1 | h1⟩ := insert_linked h.wf hne (show 3 * s.height + 1 ≤ fuel by omega)
    key unique
  all_goals
    obtain ⟨found', e', hiff⟩ := alloc_findNode h.wf hw (h.sorted hw)
      (show s.height ≤ fuel by omega) key key
    rw [e0] at e'
    simp only [Option.some.injEq] at e'
    subst e'
  · exact Or.inl ⟨h1.2.1, hiff.1 h1.1, h1.2.2⟩
  · exact Or.inr ⟨fun hp => h1.1 ⟨hiff.2 hp.2, hp.1⟩, h1.2⟩

theorem Shape.addrs_ne_nil {s : Shape} (h : s ≠ .nil) : s.addrs ≠ [] := by
  cases s with
  | nil => exact absurd rfl h
  | node l a r => simp [Shape.addrs]

/-- `findMinNode` on a non-empty subtree returns its first node in in-order. -/
theorem findMinNode_head {t : RBTree Key} {par : Ptr} {R : Shape} (hr : Rep t.mem par R)
    (hne : R ≠ .nil) {fuel : Nat} (hf : R.height ≤ fuel) :
    t.findMinNode fuel R.root = some R.addrs.head? := by
  induction R generalizing par fuel with
  | nil => exact absurd rfl hne
  | node l a r ihl _ =>
    obtain ⟨n, hn, -, hl, -, hL, -⟩ := hr
    obtain ⟨k, rfl⟩ : ∃ k, fuel = k + 1 := ⟨fuel - 1, by simp [Shape.height] at hf; omega⟩
    simp only [Shape.height, Nat.add_le_add_iff_right, max_le_iff] at hf
    simp only [Shape.root, RBTree.findMinNode, read_left hn, hl]
    cases l with
    | nil => simp [Shape.root, Shape.addrs]
    | node ll b lr =>
      have := ihl hL (by simp) hf.1
      simp only [Shape.root] at this ⊢
      rw [this]
      simp [Shape.addrs]

/-- `findMaxNode` on a non-empty subtree returns its last node in in-order. -/
theorem findMaxNode_last {t : RBTree Key} {par : Ptr} {R : Shape} (hr : Rep t.mem par R)
    (hne : R ≠ .nil) {fuel : Nat} (hf : R.height ≤ fuel) :
    t.findMaxNode fuel R.root = some R.addrs.getLast? := by
  induction R generalizing par fuel with
  | nil => exact absurd rfl hne
  | node l a r _ ihr =>
    obtain ⟨n, hn, -, -, hr', -, hR⟩ := hr
    obtain ⟨k, rfl⟩ : ∃ k, fuel = k + 1 := ⟨fuel - 1, by simp [Shape.height] at hf; omega⟩
    simp only [Shape.height, Nat.add_le_add_iff_right, max_le_iff] at hf
    simp only [Shape.root, RBTree.findMaxNode, read_right hn, hr']
    cases r with
    | nil => simp [Shape.root, Shape.addrs]
    | node rl b rr =>
      have := ihr hR (by simp) hf.2
      simp only [Shape.root] at this ⊢
      rw [this]
      have hX : (Shape.node rl b rr).addrs ≠ [] := Shape.addrs_ne_nil (by simp)
      show _ = some (l.addrs ++ a :: (Shape.node rl b rr).addrs).getLast?
      rw [show l.addrs ++ a :: (Shape.node rl b rr).addrs =
        (l.addrs ++ [a]) ++ (Shape.node rl b rr).addrs by simp,
        List.getLast?_append_of_ne_nil _ hX]

/-- The climb of `increment` from the root of the subtree at the position `fs` ends at the
first node that follows the position in in-order. -/
theorem incrementLoop_spec {t : RBTree Key} {fs : List Frame} {u : Shape} {x : Nat}
    (hx : u.root = some x) (hs : Shaped t (plug fs u)) {fuel : Nat} (hf : fs.length ≤ fuel) :
    t.incrementLoop fuel u.root (holeParent none fs) = some (ctxAfter fs).head? := by
  induction fs generalizing u x fuel with
  | nil => cases fuel <;> simp [holeParent, ctxAfter, RBTree.incrementLoop]
  | cons f fs ih =>
    obtain ⟨k, rfl⟩ : ∃ k, fuel = k + 1 := ⟨fuel - 1, by simp at hf; omega⟩
    have hs1 := hs.up
    have hnd := hs1.nodup_plug
    rw [Frame.fill_eq] at hs1 hnd
    obtain ⟨n, hn, hp, -, hr, -, -⟩ := hs1.focus
    have e0 : holeParent none (f :: fs) = some f.a := rfl
    rw [e0]
    simp only [RBTree.incrementLoop, Option.bind_eq_bind, read_right hn,
      read_parent hn, Option.some_bind, hr, hp]
    cases hfl : f.isLeft with
    | true =>
      simp only [hfl, if_true] at hnd ⊢
      have hne : ¬ u.root = f.sib.root := by
        intro h
        have h1 : x ∈ u.addrs := Shape.root_mem hx
        have h2 : x ∈ f.sib.addrs := Shape.root_mem (h ▸ hx)
        have hmid := (List.nodup_append.1 (List.nodup_append.1 hnd).1).2.1
        simp only [Shape.addrs] at hmid
        exact (List.nodup_append.1 hmid).2.2 h1 (List.mem_cons_of_mem _ h2)
      rw [if_neg hne]
      simp [ctxAfter, hfl]
    | false =>
      simp only [hfl, Bool.false_eq_true, if_false, if_true] at hs1 ⊢
      have := ih (u := .node f.sib f.a u) (x := f.a) rfl hs1 (show fs.length ≤ k by simpa using hf)
      simp only [Shape.root] at this
      rw [this]
      simp [ctxAfter, hfl]

/-- The climb of `decrement` from the root of the subtree at the position `fs` ends at the
last node that precedes the position in in-order. -/
theorem decrementLoop_spec {t : RBTree Key} {fs : List Frame} {u : Shape} {x : Nat}
    (hx : u.root = some x) (hs : Shaped t (plug fs u)) {fuel : Nat} (hf : fs.length ≤ fuel) :
    t.decrementLoop fuel u.root (holeParent none fs) = some (ctxBefore fs).getLast? := by
  induction fs generalizing u x fuel with
  | nil => cases fuel <;> simp [holeParent, ctxBefore, RBTree.decrementLoop]
  | cons f fs ih =>
    obtain ⟨k, rfl⟩ : ∃ k, fuel = k + 1 := ⟨fuel - 1, by simp at hf; omega⟩
    have hs1 := hs.up
    have hnd := hs1.nodup_plug
    rw [Frame.fill_eq] at hs1 hnd
    obtain ⟨n, hn, hp, hl, -, -, -⟩ := hs1.focus
    have e0 : holeParent none (f :: fs) = some f.a := rfl
    rw [e0]
    simp only [RBTree.decrementLoop, Option.bind_eq_bind, read_left hn,
      read_parent hn, Option.some_bind, hl, hp]
    cases hfl : f.isLeft with
    | false =>
      simp only [hfl, Bool.false_eq_true, if_false] at hnd ⊢
      have hne : ¬ u.root = f.sib.root := by
        intro h
        have h1 : x ∈ u.addrs := Shape.root_mem hx
        have h2 : x ∈ f.sib.addrs := Shape.root_mem (h ▸ hx)
        have hmid := (List.nodup_append.1 (List.nodup_append.1 hnd).1).2.1
        simp only [Shape.addrs] at hmid
        exact (List.nodup_append.1 hmid).2.2 h2 (List.mem_cons_of_mem _ h1)
      rw [if_neg hne]
      simp [ctxBefore, hfl]
    | true =>
      simp only [hfl, if_true] at hs1 ⊢
      have := ih (u := .node u f.a f.sib) (x := f.a) rfl hs1 (show fs.length ≤ k by simpa using hf)
      simp only [Shape.root] at this
      rw [this]
      simp [ctxBefore, hfl]

/-- In a list without repetitions the place of an element is determined. -/
theorem nodup_split_unique {L X Y X' Y' : List Nat} {a : Nat} (hnd : L.Nodup)
    (h : L = X ++ a :: Y) (h' : L = X' ++ a :: Y') : X = X' ∧ Y = Y' := by
  subst h
  induction X generalizing X' with
  | nil =>
    cases X' with
    | nil => simpa using h'
    | cons b X' =>
      simp only [List.nil_append, List.cons_append, List.cons.injEq] at h'
      obtain ⟨rfl, rfl⟩ := h'
      simp at hnd
  | cons b X ih =>
    cases X' with
    | nil =>
      simp only [List.nil_append, List.cons_append, List.cons.injEq] at h'
      obtain ⟨rfl, rfl⟩ := h'
      simp at hnd
    | cons c X' =>
      simp only [List.cons_append, List.cons.injEq] at h'
      obtain ⟨rfl, h'⟩ := h'
      obtain ⟨h1, h2⟩ := ih (List.nodup_cons.1 hnd).2 h'
      exact ⟨by rw [h1], h2⟩

/-- The place of a tree node: the path to it and its subtrees, with the in-order sequence
before and after it. -/
theorem Shaped.locate {t : RBTree Key} {s : Shape} (hs : Shaped t s) {X Y : List Nat} {a : Nat}
    (h : s.addrs = X ++ a :: Y) :
    ∃ fs l r, s = plug fs (.node l a r) ∧ X = ctxBefore fs ++ l.addrs ∧
      Y = r.addrs ++ ctxAfter fs := by
  obtain ⟨fs, l, r, rfl⟩ := Shape.split (show a ∈ s.addrs by rw [h]; simp)
  have h2 : (plug fs (.node l a r)).addrs =
      (ctxBefore fs ++ l.addrs) ++ a :: (r.addrs ++ ctxAfter fs) := by
    rw [plug_addrs]; simp [Shape.addrs]
  obtain ⟨h3, h4⟩ := nodup_split_unique hs.nodup h h2
  exact ⟨fs, l, r, rfl, h3, h4⟩

/-- `increment` at a tree node moves to its in-order successor, or to `end()`. -/
theorem increment_spec {t : RBTree Key} {s : Shape} (hs : Shaped t s) {X Y : List Nat}
    {a : Nat} (h : s.addrs = X ++ a :: Y) {fuel : Nat} (hf : s.height ≤ fuel) :
    t.increment fuel (some a) = some Y.head? := by
  obtain ⟨fs, l, r, rfl, rfl, rfl⟩ := hs.locate h
  have hh := height_plug_ge fs (.node l a r)
  obtain ⟨n, hn, hp, -, hr, -, hR⟩ := hs.focus
  simp only [RBTree.increment, Option.bind_eq_bind, read_right hn, read_parent hn,
    Option.some_bind, hr, hp]
  cases r with
  | nil =>
    simp only [Shape.root, ne_eq, not_true_eq_false, if_false, Shape.addrs, List.nil_append]
    exact incrementLoop_spec (u := .node l a .nil) rfl hs (by omega)
  | node rl b rr =>
    have hne : Shape.node rl b rr ≠ .nil := by simp
    rw [if_pos (by simp [Shape.root])]
    rw [findMinNode_head hR hne (by simp only [Shape.height] at hh ⊢; omega)]
    rw [List.head?_append_of_ne_nil _ (Shape.addrs_ne_nil hne)]

/-- `decrement` at a tree node moves to its in-order predecessor, or to `end()`. -/
theorem decrement_spec {t : RBTree Key} {s : Shape} (hs : Shaped t s) {X Y : List Nat}
    {a : Nat} (h : s.addrs = X ++ a :: Y) {fuel : Nat} (hf : s.height ≤ fuel) :
    t.decrement fuel (some a) = some X.getLast? := by
  obtain ⟨fs, l, r, rfl, rfl, rfl⟩ := hs.locate h
  have hh := height_plug_ge fs (.node l a r)
  obtain ⟨n, hn, hp, hl, -, hL, -⟩ := hs.focus
  simp only [RBTree.decrement, reduceCtorEq, if_false, Option.bind_eq_bind, read_left hn,
    read_parent hn, Option.some_bind, hl, hp]
  cases l with
  | nil =>
    simp only [Shape.root, ne_eq, not_true_eq_false, if_false, Shape.addrs, List.append_nil]
    exact decrementLoop_spec (u := .node .nil a r) rfl hs (by omega)
  | node ll b lr =>
    have hne : Shape.node ll b lr ≠ .nil := by simp
    rw [if_pos (by simp [Shape.root])]
    rw [findMaxNode_last hL hne (by simp only [Shape.height] at hh ⊢; omega)]
    rw [List.getLast?_append_of_ne_nil _ (Shape.addrs_ne_nil hne)]

/-- `decrement` at `end()` moves to the last node of a non-empty tree. -/
theorem decrement_end {t : RBTree Key} {s : Shape} (hs : Shaped t s) (hne : s ≠ .nil)
    {fuel : Nat} (hf : s.height ≤ fuel) : t.decrement fuel none = some s.addrs.getLast? := by
  simp only [RBTree.decrement, if_true]
  rw [hs.root]
  exact findMaxNode_last hs.rep hne hf

/-- `begin()` is the first node of a non-empty tree. -/
theorem begin_spec {t : RBTree Key} {s : Shape} (hs : Shaped t s) (hne : s ≠ .nil)
    {fuel : Nat} (hf : s.height ≤ fuel) : t.begin fuel = some s.addrs.head? := by
  simp only [RBTree.begin]
  rw [hs.root]
  exact findMinNode_head hs.rep hne hf

theorem Shape.nonNil_root (u : Shape) (st : List Ptr) :
    (if u.root ≠ none then u.root :: st else st) = u.nonNil.map (·.root) ++ st := by
  cases u <;> simp [Shape.root, Shape.nonNil]

theorem Shape.nonNil_mem {u s : Shape} (h : s ∈ u.nonNil) : s = u ∧ s ≠ .nil := by
  cases u with
  | nil => simp [Shape.nonNil] at h
  | node l a r =>
    simp only [Shape.nonNil, List.mem_singleton] at h
    subst h
    exact ⟨rfl, by simp⟩

theorem Shape.nonNil_sum (u : Shape) (f : Shape → Nat) (h : f .nil = 0) :
    (u.nonNil.map f).sum = f u := by
  cases u <;> simp [Shape.nonNil, h]

theorem countLoop_spec [DecidableEq Key] {t : RBTree Key} (key : Key) :
    ∀ (fuel : Nat) (ss : List Shape) (c : Nat),
      (∀ s ∈ ss, s ≠ .nil ∧ ∃ par, Rep t.mem par s) →
      (ss.map fun s => s.addrs.length).sum ≤ fuel →
      t.countLoop key fuel (ss.map (·.root)) c =
        some (c + (ss.map fun s => (keysAt t s.addrs).count key).sum) := by
  intro fuel
  induction fuel with
  | zero =>
    intro ss c hss hf
    cases ss with
    | nil => simp [RBTree.countLoop]
    | cons s rest =>
      obtain ⟨hne, -⟩ := hss s (List.mem_cons_self _ _)
      cases s with
      | nil => exact absurd rfl hne
      | node l a r => simp [Shape.addrs] at hf
  | succ k ih =>
    intro ss c hss hf
    cases ss with
    | nil => simp [RBTree.countLoop]
    | cons s rest =>
      obtain ⟨hne, par, hr⟩ := hss s (List.mem_cons_self _ _)
      have hrest : ∀ s ∈ rest, s ≠ .nil ∧ ∃ par, Rep t.mem par s :=
        fun s hs => hss s (List.mem_cons_of_mem _ hs)
      cases s with
      | nil => exact absurd rfl hne
      | node l a r =>
        obtain ⟨n, hn, -, hl, hr', hL, hR⟩ := hr
        simp only [List.map_cons, List.sum_cons, Shape.addrs, List.length_append,
          List.length_cons] at hf
        have hcnt : (keysAt t (Shape.node l a r).addrs).count key =
            (keysAt t l.addrs).count key + (if key = n.key_ then 1 else 0) +
              (keysAt t r.addrs).count key := by
          simp only [Shape.addrs, keysAt_append, keysAt_cons hn, List.count_append,
            List.count_cons]
          simp only [beq_iff_eq, eq_comm (a := n.key_)]
          omega
        have hstep : t.countLoop key (k + 1) (List.map (·.root) (Shape.node l a r :: rest)) c =
            t.countLoop key k ((l.nonNil ++ (r.nonNil ++ rest)).map (·.root))
              (if key = n.key_ then c + 1 else c) := by
          have e1 : List.map (·.root) (Shape.node l a r :: rest) =
              some a :: rest.map (·.root) := rfl
          rw [e1]
          simp only [RBTree.countLoop, RBTree.deref, hn, hl, hr']
          rw [Shape.nonNil_root r, Shape.nonNil_root l]
          simp only [List.map_append]
        rw [hstep, ih]
        · simp only [List.map_append, List.sum_append, List.map_cons, List.sum_cons, hcnt]
          rw [Shape.nonNil_sum l (fun s => (keysAt t s.addrs).count key) (by simp [keysAt, Shape.addrs]),
            Shape.nonNil_sum r (fun s => (keysAt t s.addrs).count key) (by simp [keysAt, Shape.addrs])]
          congr 1
          split <;> omega
        · intro s hs
          simp only [List.mem_append] at hs
          rcases hs with hs | hs | hs
          · obtain ⟨rfl, h2⟩ := Shape.nonNil_mem hs
            exact ⟨h2, _, hL⟩
          · obtain ⟨rfl, h2⟩ := Shape.nonNil_mem hs
            exact ⟨h2, _, hR⟩
          · exact hrest s hs
        · simp only [List.map_append, List.sum_append]
          rw [Shape.nonNil_sum l (fun s => s.addrs.length) (by simp [Shape.addrs]),
            Shape.nonNil_sum r (fun s => s.addrs.length) (by simp [Shape.addrs])]
          omega

/-- `count(key)` is the multiplicity of `key` in the in-order sequence. -/
theorem count_spec [DecidableEq Key] {t : RBTree Key} {s : Shape} (hs : Shaped t s) (key : Key)
    {fuel : Nat} (hf : s.addrs.length ≤ fuel) :
    t.count fuel key = some ((keysAt t s.addrs).count key) := by
  simp only [RBTree.count, RBTree.countUniqueKey]
  cases s with
  | nil =>
    have : t.root_ = none := hs.root
    simp [this, keysAt, Shape.addrs]
  | node l a r =>
    have hroot : t.root_ = some a := hs.root
    rw [if_neg (by rw [hroot]; simp)]
    have := countLoop_spec (t := t) key fuel [.node l a r] 0
      (by simpa using ⟨_, hs.rep⟩) (by simpa using hf)
    rw [hroot]
    simpa [Shape.root] using this

/-- The descent of `lower_bound` below a sorted subtree: the subtree splits into the elements
less than the key and the elements not less than it, and the answer is the first of the
latter, or the candidate `res` when there is none. -/
theorem lowerBoundLoop_spec {t : RBTree Key} (hw : StrictWeak t.comparator_) (key : Key)
    {par : Ptr} {s : Shape} (hr : Rep t.mem par s)
    (hsort : (keysAt t s.addrs).Pairwise fun a b => t.comparator_ b a = false)
    {fuel : Nat} (hf : s.height ≤ fuel) (res : Ptr) :
    ∃ A B, s.addrs = A ++ B ∧ (∀ k ∈ keysAt t A, t.comparator_ k key = true) ∧
      (∀ k ∈ keysAt t B, t.comparator_ k key = false) ∧
      t.lowerBoundLoop key fuel s.root res = some (if B = [] then res else B.head?) := by
  induction s generalizing par fuel res with
  | nil =>
    refine ⟨[], [], rfl, by simp [keysAt], by simp [keysAt], ?_⟩
    cases fuel <;> simp [RBTree.lowerBoundLoop, Shape.root]
  | node l a r ihl ihr =>
    obtain ⟨n, hn, -, hl, hr', hL, hR⟩ := hr
    simp only [Shape.addrs, keysAt_append, keysAt_cons hn, List.pairwise_append,
      List.pairwise_cons, List.mem_cons] at hsort
    obtain ⟨hsl, ⟨hra, hsr⟩, hlr⟩ := hsort
    cases fuel with
    | zero => simp [Shape.height] at hf
    | succ fuel =>
      simp only [Shape.height, Nat.add_le_add_iff_right, max_le_iff] at hf
      simp only [Shape.root, RBTree.lowerBoundLoop, hn]
      by_cases hc : t.comparator_ n.key_ key = true
      · rw [if_pos hc, hr']
        obtain ⟨A, B, h1, h2, h3, h4⟩ := ihr hR hsr hf.2 res
        refine ⟨l.addrs ++ a :: A, B, by simp [Shape.addrs, h1], ?_, h3, h4⟩
        intro k hk
        simp only [keysAt_append, keysAt_cons hn, List.mem_append, List.mem_cons] at hk
        rcases hk with hk | rfl | hk
        · have h5 := hlr k hk n.key_ (Or.inl rfl)
          rcases hw.negTrans _ k _ hc with h6 | h6
          · rw [h5] at h6; cases h6
          · exact h6
        · exact hc
        · exact h2 k hk
      · rw [if_neg hc, hl]
        have hc' : t.comparator_ n.key_ key = false := by simpa using hc
        obtain ⟨A, B, h1, h2, h3, h4⟩ := ihl hL hsl hf.1 (some a)
        refine ⟨A, B ++ a :: r.addrs, by simp [Shape.addrs, h1], h2, ?_, ?_⟩
        · intro k hk
          simp only [keysAt_append, keysAt_cons hn, List.mem_append, List.mem_cons] at hk
          rcases hk with hk | rfl | hk
          · exact h3 k hk
          · exact hc'
          · have h5 := hra k hk
            by_contra h6
            have h6' : t.comparator_ k key = true := by simpa using h6
            rcases hw.negTrans _ n.key_ _ h6' with h7 | h7
            · rw [h5] at h7; cases h7
            · rw [hc'] at h7; cases h7
        · rw [h4]
          cases B with
          | nil => simp
          | cons b B => simp

/-- More fuel does not change a result of the erase fix-up: each of the mutually recursive
functions that returns with `fuel` returns the same tree with `fuel + 1`. -/
theorem eraseFixup_fuel_succ (fuel : Nat) :
    (∀ {t t' : RBTree Key} {node : Ptr},
      t.eraseFixup fuel node = some t' → t.eraseFixup (fuel + 1) node = some t') ∧
    (∀ {t t' : RBTree Key} {node : Ptr},
      t.redSibling fuel node = some t' → t.redSibling (fuel + 1) node = some t') ∧
    (∀ {t t' : RBTree Key} {node : Ptr},
      t.mirrorRedSibling fuel node = some t' → t.mirrorRedSibling (fuel + 1) node = some t') ∧
    (∀ {t t' : RBTree Key} {node : Ptr},
      t.lNephewsBlackRNephewsBlack fuel node = some t' →
        t.lNephewsBlackRNephewsBlack (fuel + 1) node = some t') ∧
    (∀ {t t' : RBTree Key} {node : Ptr},
      t.eraseFixupAncestors fuel node = some t' →
        t.eraseFixupAncestors (fuel + 1) node = some t') ∧
    (∀ {t t' : RBTree Key} {node : Ptr},
      t.mirrorLNephewsBlackRNephewsBlack fuel node = some t' →
        t.mirrorLNephewsBlackRNephewsBlack (fuel + 1) node = some t') := by
  induction fuel with
  | zero =>
    refine ⟨?_, ?_, ?_, ?_, ?_, ?_⟩ <;> intro t t' node h
    · simp [RBTree.eraseFixup] at h
    · simp [RBTree.redSibling] at h
    · simp [RBTree.mirrorRedSibling] at h
    · simp [RBTree.lNephewsBlackRNephewsBlack] at h
    · simp [RBTree.eraseFixupAncestors] at h
    · simp [RBTree.mirrorLNephewsBlackRNephewsBlack] at h
  | succ fuel ih =>
    obtain ⟨ih1, ih2, ih3, ih4, ih5, ih6⟩ := ih
    refine ⟨?_, ?_, ?_, ?_, ?_, ?_⟩ <;> intro t t' node h
    · rw [RBTree.eraseFixup] at h ⊢
      obtain ⟨c, hc, h⟩ := Option.bind_eq_some.1 h
      refine Option.bind_eq_some.2 ⟨c, hc, ?_⟩
      cases c
      swap
      · simpa using h
      simp only [Bool.false_eq_true, if_false] at h ⊢
      obtain ⟨c, hc, h⟩ := Option.bind_eq_some.1 h
      refine Option.bind_eq_some.2 ⟨c, hc, ?_⟩
      cases c
      swap
      · simpa using h
      simp only [Bool.false_eq_true, if_false] at h ⊢
      obtain ⟨c, hc, h⟩ := Option.bind_eq_some.1 h
      refine Option.bind_eq_some.2 ⟨c, hc, ?_⟩
      cases c
      swap
      · simp only [if_true] at h ⊢; exact ih4 h
      simp only [Bool.false_eq_true, if_false] at h ⊢
      obtain ⟨c, hc, h⟩ := Option.bind_eq_some.1 h
      refine Option.bind_eq_some.2 ⟨c, hc, ?_⟩
      cases c
      swap
      · simp only [if_true] at h ⊢; exact ih6 h
      simp only [Bool.false_eq_true, if_false] at h ⊢
      obtain ⟨c, hc, h⟩ := Option.bind_eq_some.1 h
      refine Option.bind_eq_some.2 ⟨c, hc, ?_⟩
      cases c
      swap
      · simpa using h
      simp only [Bool.false_eq_true, if_false] at h ⊢
      obtain ⟨c, hc, h⟩ := Option.bind_eq_some.1 h
      refine Option.bind_eq_some.2 ⟨c, hc, ?_⟩
      cases c
      swap
      · simpa using h
      simp only [Bool.false_eq_true, if_false] at h ⊢
      obtain ⟨c, hc, h⟩ := Option.bind_eq_some.1 h
      refine Option.bind_eq_some.2 ⟨c, hc, ?_⟩
      cases c
      swap
      · simp only [if_true] at h ⊢; exact ih2 h
      simp only [Bool.false_eq_true, if_false] at h ⊢
      obtain ⟨c, hc, h⟩ := Option.bind_eq_some.1 h
      refine Option.bind_eq_some.2 ⟨c, hc, ?_⟩
      cases c
      swap
      · simp only [if_true] at h ⊢; exact ih3 h
      simpa using h
    · rw [RBTree.redSibling] at h ⊢
      simp only [Option.bind_eq_bind, Option.bind_eq_some] at h ⊢
      obtain ⟨rs, e0, t1, e1, t2, e2, h⟩ := h
      exact ⟨rs, e0, t1, e1, t2, e2, ih1 h⟩
    · rw [RBTree.mirrorRedSibling] at h ⊢
      simp only [Option.bind_eq_bind, Option.bind_eq_some] at h ⊢
      obtain ⟨rs, e0, t1, e1, t2, e2, h⟩ := h
      exact ⟨rs, e0, t1, e1, t2, e2, ih1 h⟩
    · rw [RBTree.lNephewsBlackRNephewsBlack] at h ⊢
      simp only [Option.bind_eq_bind, Option.bind_eq_some] at h ⊢
      obtain ⟨c, e0, t1, e1, rs, e2, t2, e3, np, e4, h⟩ := h
      refine ⟨c, e0, t1, e1, rs, e2, t2, e3, np, e4, ?_⟩
      split at h
      · rename_i hc; rw [if_pos hc]; exact ih5 h
      · rename_i hc; rw [if_neg hc]; exact h
    · rw [RBTree.eraseFixupAncestors] at h ⊢
      split at h
      · rename_i hc; rw [if_pos hc]; exact h
      · rename_i hc
        rw [if_neg hc]
        simp only [Option.bind_eq_bind, Option.bind_eq_some] at h ⊢
        obtain ⟨t1, e1, pp, e2, h⟩ := h
        exact ⟨t1, ih1 e1, pp, e2, ih5 h⟩
    · rw [RBTree.mirrorLNephewsBlackRNephewsBlack] at h ⊢
      simp only [Option.bind_eq_bind, Option.bind_eq_some] at h ⊢
      obtain ⟨c, e0, t1, e1, rs, e2, t2, e3, np, e4, h⟩ := h
      refine ⟨c, e0, t1, e1, rs, e2, t2, e3, np, e4, ?_⟩
      split at h
      · rename_i hc; rw [if_pos hc]; exact ih1 h
      · rename_i hc; rw [if_neg hc]; exact h

/-- A result of `eraseFixup` is the result for every larger fuel. -/
theorem eraseFixup_fuel_le {t t' : RBTree Key} {node : Ptr} {f g : Nat}
    (h : t.eraseFixup f node = some t') (hfg : f ≤ g) : t.eraseFixup g node = some t' := by
  induction hfg with
  | refl => exact h
  | step _ ih => exact (eraseFixup_fuel_succ _).1 ih

/-- Whatever the fuel, `eraseFixup` either gives up or returns the one result. -/
theorem eraseFixup_fuel_det {t t' : RBTree Key} {node : Ptr} {f : Nat}
    (h : t.eraseFixup f node = some t') (g : Nat) :
    t.eraseFixup g node = none ∨ t.eraseFixup g node = some t' := by
  cases hg : t.eraseFixup g node with
  | none => exact Or.inl rfl
  | some t2 =>
    right
    have h1 := eraseFixup_fuel_le h (Nat.le_max_left f g)
    have h2 := eraseFixup_fuel_le hg (Nat.le_max_right f g)
    rw [h1] at h2
    exact h2.symm

/-- On a node without children no case of `eraseFixup` applies. -/
theorem eraseFixup_leaf {t : RBTree Key} {x : Nat} (hl : t.left (some x) = some none)
    (hr : t.right (some x) = some none) (fuel : Nat) :
    t.eraseFixup (fuel + 1) (some x) = some t := by
  simp [RBTree.eraseFixup, RBTree.lNRrNB, RBTree.mirrorLNRrNB, RBTree.lNBrNB,
    RBTree.mirrorLNBrNB, RBTree.rNRlNA, RBTree.mirrorRNRlNA, RBTree.sR, RBTree.mirrorSR,
    RBTree.rSibling, RBTree.lSibling, andThen, nonNull, hl, hr]

/-- With a red right child and no left child `eraseFixup` takes case 4a. -/
theorem eraseFixup_redRight {t : RBTree Key} {x y : Nat} (hl : t.left (some x) = some none)
    (hr : t.right (some x) = some (some y)) (hy : t.red (some y) = some true) (fuel : Nat) :
    t.eraseFixup (fuel + 1) (some x) = t.redSibling fuel (some x) := by
  simp [RBTree.eraseFixup, RBTree.lNRrNB, RBTree.mirrorLNRrNB, RBTree.lNBrNB,
    RBTree.mirrorLNBrNB, RBTree.rNRlNA, RBTree.mirrorRNRlNA, RBTree.sR, RBTree.mirrorSR,
    RBTree.rSibling, RBTree.lSibling, RBTree.redAt, RBTree.blackAt, andThen, nonNull, hl, hr, hy]

/-- With a red left child and no right child `eraseFixup` takes case 4b. -/
theorem eraseFixup_redLeft {t : RBTree Key} {y x : Nat} (hl : t.left (some y) = some (some x))
    (hr : t.right (some y) = some none) (hx : t.red (some x) = some true) (fuel : Nat) :
    t.eraseFixup (fuel + 1) (some y) = t.mirrorRedSibling fuel (some y) := by
  simp [RBTree.eraseFixup, RBTree.lNRrNB, RBTree.mirrorLNRrNB, RBTree.lNBrNB,
    RBTree.mirrorLNBrNB, RBTree.rNRlNA, RBTree.mirrorRNRlNA, RBTree.sR, RBTree.mirrorSR,
    RBTree.rSibling, RBTree.lSibling, RBTree.redAt, RBTree.blackAt, andThen, nonNull, hl, hr, hx]

/-- Swapping the colours of two tree nodes keeps the tree in place. -/
theorem swapRed_shape {t : RBTree Key} {s : Shape} (hs : Shaped t s) {a b : Nat}
    (ha : a ∈ s.addrs) (hb : b ∈ s.addrs) (hab : a ≠ b) {ca cb : Bool}
    (hca : t.red (some a) = some ca) (hcb : t.red (some b) = some cb) :
    ∃ t', t.swapRed (some a) (some b) = some t' ∧ Shaped t' s ∧
      t'.red (some a) = some cb ∧ t'.red (some b) = some ca := by
  obtain ⟨t1, e1, s1, -, -, -, r1, o1⟩ := setRed_shape hs ha cb
  obtain ⟨t2, e2, s2, -, -, -, r2, o2⟩ := setRed_shape s1 hb ca
  refine ⟨t2, ?_, s2, ?_, r2⟩
  · simp [RBTree.swapRed, hca, hcb, e1, e2]
  · rw [o2 a hab, r1]

/-- Case 4a on a node whose only child is a red leaf on the right: the leaf is rotated over the
node, which becomes its red left leaf. -/
theorem eraseFixup_redLeafRight {t : RBTree Key} {x y : Nat} (h : RedLeafRight t x y) :
    ∃ t2, t.eraseFixup 3 (some x) = some t2 ∧ RedLeafLeft t2 y x ∧
      t2.parent (some x) = some (some y) := by
  obtain ⟨fs, hs, hy⟩ := h
  obtain ⟨nx, hnx, -, hxl, hxr, -, -⟩ := hs.focus
  have hnd := hs.nodup_plug
  have hxy : y ≠ x := by
    rintro rfl
    simp only [Shape.addrs, List.nil_append, List.append_nil, List.append_assoc,
      List.cons_append, List.singleton_append] at hnd
    have h1 := (List.nodup_append.1 hnd).2.1
    simp at h1
  have hx : x ∈ (plug fs (.node .nil x (.node .nil y .nil))).addrs := by
    rw [plug_addrs]; simp [Shape.addrs]
  have hyA : y ∈ (plug fs (.node .nil x (.node .nil y .nil))).addrs := by
    rw [plug_addrs]; simp [Shape.addrs]
  obtain ⟨t1, e1, s1, r1y, r1x⟩ := swapRed_shape hs hyA hx hxy hy (read_red hnx)
  obtain ⟨t2, e2, s2, d2, -⟩ := leftRotate_shape s1
  have s2' : Shaped t2 (plug (⟨true, y, .nil⟩ :: fs) (.node .nil x .nil)) := s2
  obtain ⟨mx, my, hmx, hmy, hxp, hxl2, hxr2, -, -, -, -, -, -, -⟩ := s2'.cells1
  refine ⟨t2, ?_, ⟨fs, s2, ?_⟩, ?_⟩
  · rw [eraseFixup_redRight (by rw [read_left hnx, hxl]; rfl) (by rw [read_right hnx, hxr]; rfl) hy]
    simp only [RBTree.redSibling, RBTree.rSibling, read_right hnx, hxr, Shape.root,
      Option.bind_eq_bind, Option.some_bind, e1, e2]
    exact eraseFixup_leaf (by rw [read_left hmx, hxl2]; rfl) (by rw [read_right hmx, hxr2]; rfl) 0
  · rw [d2.red_eq, r1x]
  · rw [read_parent hmx, hxp]

/-- Case 4b on a node whose only child is a red leaf on the left: the leaf is rotated over the
node, which becomes its red right leaf. -/
theorem eraseFixup_redLeafLeft {t : RBTree Key} {y x : Nat} (h : RedLeafLeft t y x) :
    ∃ t2, t.eraseFixup 3 (some y) = some t2 ∧ RedLeafRight t2 x y ∧
      t2.parent (some y) = some (some x) := by
  obtain ⟨fs, hs, hx⟩ := h
  obtain ⟨ny, hny, -, hyl, hyr, -, -⟩ := hs.focus
  have hnd := hs.nodup_plug
  have hxy : x ≠ y := by
    rintro rfl
    simp only [Shape.addrs, List.nil_append, List.append_nil, List.append_assoc,
      List.cons_append, List.singleton_append] at hnd
    have h1 := (List.nodup_append.1 hnd).2.1
    simp at h1
  have hxA : x ∈ (plug fs (.node (.node .nil x .nil) y .nil)).addrs := by
    rw [plug_addrs]; simp [Shape.addrs]
  have hyA : y ∈ (plug fs (.node (.node .nil x .nil) y .nil)).addrs := by
    rw [plug_addrs]; simp [Shape.addrs]
  obtain ⟨t1, e1, s1, r1x, r1y⟩ := swapRed_shape hs hxA hyA hxy hx (read_red hny)
  obtain ⟨t2, e2, s2, d2, -⟩ := rightRotate_shape s1
  have s2' : Shaped t2 (plug (⟨false, x, .nil⟩ :: fs) (.node .nil y .nil)) := s2
  obtain ⟨my, mx, hmy, hmx, hyp, hyl2, hyr2, -, -, -, -, -, -, -⟩ := s2'.cells1
  refine ⟨t2, ?_, ⟨fs, s2, ?_⟩, ?_⟩
  · rw [eraseFixup_redLeft (by rw [read_left hny, hyl]; rfl) (by rw [read_right hny, hyr]; rfl) hx]
    simp only [RBTree.mirrorRedSibling, RBTree.lSibling, read_left hny, hyl, Shape.root,
      Option.bind_eq_bind, Option.some_bind, e1, e2]
    exact eraseFixup_leaf (by rw [read_left hmy, hyl2]; rfl) (by rw [read_right hmy, hyr2]; rfl) 0
  · rw [d2.red_eq, r1y]
  · rw [read_parent hmy, hyp]

/-- The ancestor loop of case 2a never ends once it stands on a node whose only child is a red
leaf: cases 4a and 4b rotate the pair back and forth and the loop follows the parent link
from one to the other. -/
theorem eraseFixupAncestors_pingPong (fuel : Nat) :
    (∀ {t : RBTree Key} {x y : Nat}, RedLeafRight t x y →
      t.eraseFixupAncestors fuel (some x) = none) ∧
    (∀ {t : RBTree Key} {x y : Nat}, RedLeafLeft t y x →
      t.eraseFixupAncestors fuel (some y) = none) := by
  induction fuel with
  | zero => exact ⟨fun _ => rfl, fun _ => rfl⟩
  | succ fuel ih =>
    refine ⟨?_, ?_⟩
    · intro t x y h
      obtain ⟨t2, e, h2, hp⟩ := eraseFixup_redLeafRight h
      rw [RBTree.eraseFixupAncestors, if_neg (by simp)]
      rcases eraseFixup_fuel_det e fuel with h0 | h0
      · rw [h0]; rfl
      · rw [h0]
        simp only [Option.bind_eq_bind, Option.some_bind, hp]
        exact ih.2 h2
    · intro t x y h
      obtain ⟨t2, e, h2, hp⟩ := eraseFixup_redLeafLeft h
      rw [RBTree.eraseFixupAncestors, if_neg (by simp)]
      rcases eraseFixup_fuel_det e fuel with h0 | h0
      · rw [h0]; rfl
      · rw [h0]
        simp only [Option.bind_eq_bind, Option.some_bind, hp]
        exact ih.1 h2

theorem repB_sound {m : Nat → Option (RBTNode Key)} {par : Ptr} {s : Shape}
    (h : repB m par s = true) : Rep m par s := by
  induction s generalizing par with
  | nil => trivial
  | node l a r ihl ihr =>
    unfold repB at h
    cases hm : m a with
    | none => simp [hm] at h
    | some n =>
      simp only [hm, Bool.and_eq_true, decide_eq_true_eq] at h
      obtain ⟨⟨⟨⟨h1, h2⟩, h3⟩, h4⟩, h5⟩ := h
      exact ⟨n, hm, h1, h2, h3, ihl h4, ihr h5⟩

theorem shapedB_sound {t : RBTree Key} {s : Shape} (h : t.shapedB s = true) : Shaped t s := by
  simp only [RBTree.shapedB, Bool.and_eq_true, decide_eq_true_eq] at h
  exact ⟨h.1.1, repB_sound h.1.2, h.2⟩

/-- A node of a linked tree whose left link is null and whose right link leads to a red node
without children is in the ping-pong configuration. -/
theorem redLeafRight_of_links {t : RBTree Key} {s : Shape} (hs : Shaped t s) {x y : Nat}
    (hx : x ∈ s.addrs) (hxl : t.left (some x) = some none)
    (hxr : t.right (some x) = some (some y)) (hyl : t.left (some y) = some none)
    (hyr : t.right (some y) = some none) (hy : t.red (some y) = some true) :
    RedLeafRight t x y := by
  obtain ⟨fs, l, r, rfl⟩ := Shape.split hx
  obtain ⟨nx, hnx, -, hl, hr, -, -⟩ := hs.focus
  rw [read_left hnx, Option.some.injEq, hl] at hxl
  rw [read_right hnx, Option.some.injEq, hr] at hxr
  obtain rfl := Shape.root_eq_none hxl
  cases r with
  | nil => simp [Shape.root] at hxr
  | node rl z rr =>
    simp only [Shape.root, Option.some.injEq] at hxr
    subst hxr
    have hs2 : Shaped t (plug (⟨false, x, .nil⟩ :: fs) (.node rl z rr)) := hs
    obtain ⟨nz, hnz, -, hzl, hzr, -, -⟩ := hs2.focus
    rw [read_left hnz, Option.some.injEq, hzl] at hyl
    rw [read_right hnz, Option.some.injEq, hzr] at hyr
    obtain rfl := Shape.root_eq_none hyl
    obtain rfl := Shape.root_eq_none hyr
    exact ⟨fs, hs, hy⟩

theorem redLeafRightB_sound {t : RBTree Key} {fuel x y : Nat}
    (h : t.redLeafRightB fuel x y = true) : RedLeafRight t x y := by
  unfold RBTree.redLeafRightB at h
  cases hs : t.shapeOf fuel t.root_ with
  | none => simp [hs] at h
  | some s =>
    simp only [hs, Bool.and_eq_true, decide_eq_true_eq] at h
    obtain ⟨⟨⟨⟨⟨⟨h1, h2⟩, h3⟩, h4⟩, h5⟩, h6⟩, h7⟩ := h
    exact redLeafRight_of_links (shapedB_sound h1) h2 h3 h4 h5 h6 h7

/-- When the loop of case 2a never ends after `k` iterations, it never ends. -/
theorem eraseFixupAncestors_of_steps {F : Nat} (k : Nat) :
    ∀ {s q : RBTree Key × Ptr}, RBTree.ancestorSteps F k s = some q →
      (∀ fuel, q.1.eraseFixupAncestors fuel q.2 = none) →
      ∀ fuel, s.1.eraseFixupAncestors fuel s.2 = none := by
  induction k with
  | zero =>
    intro s q h hq
    simp only [RBTree.ancestorSteps, Option.some.injEq] at h
    subst h; exact hq
  | succ k ih =>
    intro s q h hq fuel
    rw [RBTree.ancestorSteps] at h
    split at h
    · simp at h
    rename_i hp
    obtain ⟨s1, e1, h⟩ := Option.bind_eq_some.1 h
    simp only [RBTree.ancestorStep, Option.bind_eq_bind, Option.bind_eq_some,
      Option.some.injEq] at e1
    obtain ⟨t1, e1, pp, e2, rfl⟩ := e1
    cases fuel with
    | zero => rfl
    | succ fuel =>
      rw [RBTree.eraseFixupAncestors, if_neg hp]
      rcases eraseFixup_fuel_det e1 fuel with h0 | h0
      · rw [h0]; rfl
      · rw [h0]
        simp only [Option.bind_eq_bind, Option.some_bind, e2]
        exact ih h hq fuel

/-- The fix-up that enters the loop of case 2a never ends when the loop never ends. -/
theorem eraseFixup_of_blackNephewsStep {t : RBTree Key} {node : Ptr} {s : RBTree Key × Ptr}
    (h : t.blackNephewsStep node = some s)
    (hs : ∀ fuel, s.1.eraseFixupAncestors fuel s.2 = none) :
    ∀ fuel, t.eraseFixup fuel node = none := by
  intro fuel
  simp only [RBTree.blackNephewsStep, Option.bind_eq_bind, Option.bind_eq_some] at h
  obtain ⟨c1a, h1a, c1b, h1b, c2a, h2a, h⟩ := h
  split at h
  · simp at h
  rename_i hc
  simp only [not_or, Bool.not_eq_true, Decidable.not_not] at hc
  obtain ⟨rfl, rfl, hc3⟩ := hc
  have hc3 : c2a = true := by cases c2a <;> simp_all
  subst hc3
  simp only [Option.bind_eq_bind, Option.bind_eq_some] at h
  obtain ⟨color, e0, t1, e1, rs, e2, t2, e3, np, e4, h⟩ := h
  split at h
  swap
  · simp at h
  rename_i hc
  simp only [Option.some.injEq] at h
  subst h
  cases fuel with
  | zero => rfl
  | succ fuel =>
    rw [RBTree.eraseFixup]
    simp only [h1a, h1b, h2a, Option.bind_eq_bind, Option.some_bind, Bool.false_eq_true,
      if_false, if_true]
    cases fuel with
    | zero => rfl
    | succ fuel =>
      rw [RBTree.lNephewsBlackRNephewsBlack]
      simp only [e0, e1, e2, e3, e4, Option.bind_eq_bind, Option.some_bind, if_pos hc]
      exact hs fuel

/-- The unlinking of a node with at most one child does not depend on the fuel. -/
theorem eraseNode_fuel_succ {t : RBTree Key} {pos to_fix : Ptr} {color : Bool}
    {h : HowManyChildren} (hh : t.howManyChildren pos = some h) (h2 : h ≠ .two_children)
    (fuel : Nat) :
    t.eraseNode (fuel + 1) pos to_fix color = t.eraseNode 1 pos to_fix color := by
  rw [RBTree.eraseNode, RBTree.eraseNode]
  simp only [hh, Option.bind_eq_bind, Option.some_bind]
  cases h with
  | no_children => rfl
  | one_child => rfl
  | two_children => exact absurd rfl h2

/-- The call `erase(pos)` never returns when its run leads into the ping-pong. -/
theorem erase_of_pingPongAfter {t T : RBTree Key} {F : Nat} {pos : Ptr} {k x y : Nat}
    (h : t.pingPongAfter F pos k x y = some T) : ∀ fuel, t.erase fuel pos = none := by
  intro fuel
  simp only [RBTree.pingPongAfter, Option.bind_eq_bind, Option.bind_eq_some] at h
  obtain ⟨c0, hc0, hm, hhm, h⟩ := h
  split at h
  · simp at h
  rename_i h2
  simp only [Option.bind_eq_bind, Option.bind_eq_some] at h
  obtain ⟨r, hr, h⟩ := h
  split at h
  · simp at h
  rename_i hcond
  simp only [not_or, Bool.not_eq_true] at hcond
  simp only [Option.bind_eq_bind, Option.bind_eq_some] at h
  obtain ⟨s, hs, q, hq, h⟩ := h
  split at h
  swap
  · simp at h
  rename_i hfin
  have hdiv : ∀ fuel, r.1.eraseFixup fuel r.2.1 = none := by
    apply eraseFixup_of_blackNephewsStep hs
    apply eraseFixupAncestors_of_steps k hq
    intro fuel
    rw [hfin.1]
    exact (eraseFixupAncestors_pingPong fuel).1 (redLeafRightB_sound hfin.2)
  have hpos : pos ≠ none := by
    rintro rfl
    simp [RBTree.red, RBTree.deref] at hc0
  cases fuel with
  | zero =>
    simp [RBTree.erase, hpos, hc0, RBTree.eraseNode]
  | succ fuel =>
    simp only [RBTree.erase, if_neg hpos, hc0, Option.bind_eq_bind, Option.some_bind,
      eraseNode_fuel_succ hhm h2 fuel, hr]
    rw [if_pos ⟨by simp [hcond.1], hcond.2⟩, hdiv]
    rfl


/-- C1: eight duplicate-permitting inserts into an empty tree, of the keys 0 1 2 6 7 3 4 5,
leave a tree whose root-to-null paths carry different numbers of black nodes: two paths pass 2
black nodes and seven pass 3. -/
theorem C1_black_counts_differ_after_inserts :
    ((RBTree.empty natLess).run 20
        [.insert 0, .insert 1, .insert 2, .insert 6, .insert 7, .insert 3, .insert 4,
          .insert 5]).bind (fun t => t.blackCounts 20 t.root_)
      = some [2, 2, 3, 3, 3, 3, 3, 3, 3] := by
  decide!

/-- C2: after the inserts 3 11 1 13 8 10 9 7, the erase of the node holding 1, the insert of 6
and the erase of the node holding 3, the red node holding 6 has the red child holding 7. -/
theorem C2_red_node_with_red_child :
    ((RBTree.empty natLess).run 20
        [.insert 3, .insert 11, .insert 1, .insert 13, .insert 8, .insert 10, .insert 9,
          .insert 7, .erase (some 2), .insert 6, .erase (some 0)]).bind
        (fun t => t.redRedPairs 20 t.root_)
      = some [(6, 7)] := by
  decide!

theorem run_empty_good {cmp : Key → Key → Bool} {ops : List (Op Key)} {fuel : Nat}
    (hf : 3 * ops.length + 1 ≤ fuel) {t : RBTree Key}
    (h : (RBTree.empty cmp).run fuel ops = some t) :
    ∃ s, Good t s ∧ t.comparator_ = cmp ∧
      (StrictWeak cmp → (∀ op ∈ ops, op.isMulti = false) → StrictAt t s.addrs) := by
  obtain ⟨s, g, c, -, hst⟩ := run_good (good_empty cmp) (by simpa [Shape.addrs] using hf) h
  exact ⟨s, g, c, fun hw hm => hst hw hm List.Pairwise.nil⟩

theorem Reachable.is_good {cmp : Key → Key → Bool} {t : RBTree Key} (h : Reachable cmp t) :
    ∃ s, Good t s ∧ t.comparator_ = cmp := by
  obtain ⟨fuel, ops, hf, hr⟩ := h
  obtain ⟨s, g, c, -⟩ := run_empty_good hf hr
  exact ⟨s, g, c⟩

theorem Good.inorder {t : RBTree Key} {s : Shape} (h : Good t s) {fuel : Nat}
    (hf : t.size_ ≤ fuel) : t.inorder fuel t.root_ = some (keysAt t s.addrs) := by
  rw [h.wf.shaped.root]
  exact inorder_eq h.wf.shaped.rep (le_trans h.wf.height_le hf)

/-- C3: after every sequence of `insert`, `insertUnique` and `erase` calls on an initially
empty tree (each call having returned), the tree is empty or its root node is black. -/
theorem C3_root_black (cmp : Key → Key → Bool) (ops : List (Op Key)) (fuel : Nat)
    (hf : 3 * ops.length + 1 ≤ fuel) (t : RBTree Key)
    (h : (RBTree.empty cmp).run fuel ops = some t) :
    t.root_ = none ∨ t.red t.root_ = some false := by
  obtain ⟨s, g, -, -⟩ := run_empty_good hf h
  cases hr : t.root_ with
  | none => exact Or.inl rfl
  | some a => exact Or.inr (g.black a hr)

theorem C3_root_black_witness :
    ∃ t, (RBTree.empty natLess).run 20
        [.insert 3, .insertUnique 1, .insert 7, .erase (some 0), .insertUnique 1] = some t ∧
      (t.root_ = none ∨ t.red t.root_ = some false) := by
  have hsome : ((RBTree.empty natLess).run 20
      [.insert 3, .insertUnique 1, .insert 7, .erase (some 0), .insertUnique 1]).isSome
      = true := by decide!
  obtain ⟨t, ht⟩ := Option.isSome_iff_exists.1 hsome
  exact ⟨t, ht, C3_root_black natLess _ 20 (by decide) t ht⟩

/-- C4: under a comparator that is a strict weak order, after every sequence of `insert`,
`insertUnique` and `erase` calls on an initially empty tree the in-order traversal is
non-decreasing (no element is less than an earlier one); when no call is the
duplicate-permitting `insert`, it is strictly increasing. -/
theorem C4_inorder_sorted (cmp : Key → Key → Bool) (hw : StrictWeak cmp)
    (ops : List (Op Key)) (fuel : Nat) (hf : 3 * ops.length + 1 ≤ fuel) (t : RBTree Key)
    (h : (RBTree.empty cmp).run fuel ops = some t) :
    ∃ keys, t.inorder t.size_ t.root_ = some keys ∧
      keys.Pairwise (fun a b => cmp b a = false) ∧
      ((∀ op ∈ ops, op.isMulti = false) → keys.Pairwise (fun a b => cmp a b = true)) := by
  obtain ⟨s, g, c, hst⟩ := run_empty_good hf h
  refine ⟨_, g.inorder (le_refl _), ?_, fun hm => ?_⟩
  · have := g.sorted (c ▸ hw)
    unfold SortedAt at this
    rwa [c] at this
  · have := hst hw hm
    unfold StrictAt at this
    rwa [c] at this

theorem natLess_strictWeak : StrictWeak natLess where
  irrefl := fun a => by simp [natLess]
  trans := fun a b c h1 h2 => by simp only [natLess, decide_eq_true_eq] at *; omega
  negTrans := fun a b c h => by simp only [natLess, decide_eq_true_eq] at *; omega

theorem C4_inorder_sorted_witness :
    ∃ t, (RBTree.empty natLess).run 20
        [.insertUnique 3, .insertUnique 1, .insertUnique 3, .erase (some 0), .insertUnique 2]
          = some t ∧
      ∃ keys, t.inorder t.size_ t.root_ = some keys ∧
        keys.Pairwise (fun a b => natLess b a = false) ∧
        ((∀ op ∈ ([.insertUnique 3, .insertUnique 1, .insertUnique 3, .erase (some 0),
            .insertUnique 2] : List (Op Nat)), op.isMulti = false) →
          keys.Pairwise (fun a b => natLess a b = true)) := by
  have hsome : ((RBTree.empty natLess).run 20
      [.insertUnique 3, .insertUnique 1, .insertUnique 3, .erase (some 0),
        .insertUnique 2]).isSome = true := by decide!
  obtain ⟨t, ht⟩ := Option.isSome_iff_exists.1 hsome
  exact ⟨t, ht, C4_inorder_sorted natLess natLess_strictWeak _ 20 (by decide) t ht⟩


theorem keysAt_length {t : RBTree Key} {A : List Nat} (h : ∀ a ∈ A, ∃ n, t.mem a = some n) :
    (keysAt t A).length = A.length := by
  induction A with
  | nil => rfl
  | cons a A ih =>
    obtain ⟨n, hn⟩ := h a (List.mem_cons_self _ _)
    rw [keysAt_cons hn, List.length_cons, List.length_cons,
      ih fun b hb => h b (List.mem_cons_of_mem _ hb)]

theorem Good.keys_length {t : RBTree Key} {s : Shape} (h : Good t s) :
    (keysAt t s.addrs).length = t.size_ := by
  rw [h.wf.size]
  exact keysAt_length fun a ha => rep_live h.wf.shaped.rep ha

/-- C6: on every tree built by the public calls, under a strict weak order, the
duplicate-permitting `insert(k)` returns `(it, true)` with `*it == k`, `size()` grows by one,
and the in-order sequence becomes the old one with `k` put after the elements `A` that are
not greater than `k` and before the elements `B` that are greater than `k`. -/
theorem C6_insert_multi_succeeds (cmp : Key → Key → Bool) (hw : StrictWeak cmp)
    (t : RBTree Key) (hr : Reachable cmp t) (fuel : Nat) (hf : 3 * t.size_ + 1 ≤ fuel)
    (k : Key) :
    ∃ t' it A B, t.insertMulti fuel k = some (t', it, true) ∧ t'.key it = some k ∧
      t'.size = t.size + 1 ∧ t.inorder t.size_ t.root_ = some (A ++ B) ∧
      t'.inorder t'.size_ t'.root_ = some (A ++ k :: B) ∧
      (∀ a ∈ A, cmp k a = false) ∧ (∀ b ∈ B, cmp k b = true) := by
  obtain ⟨s, g, rfl⟩ := hr.is_good
  rcases insert_outcome g hw hf k false with ⟨hu, -⟩ | ⟨-, t', e, hl⟩
  · cases hu
  obtain ⟨s', A, B, g', h1, h2, hk, hord⟩ := hl.good g
  refine ⟨t', some t.fresh, keysAt t A, keysAt t B, e, ?_, hl.size, ?_, ?_, (hord hw).1,
    (hord hw).2⟩
  · have := hl.key
    simpa [RBTree.key, RBTree.deref] using this
  · rw [g.inorder (le_refl _), h1, keysAt_append]
  · rw [g'.inorder (le_refl _), hk]

theorem C6_insert_multi_succeeds_witness :
    ∃ t, (RBTree.empty natLess).run 20 [.insert 3, .insert 1, .insert 3] = some t ∧
      ∃ t' it A B, t.insertMulti 20 3 = some (t', it, true) ∧ t'.key it = some 3 ∧
        t'.size = t.size + 1 ∧ t.inorder t.size_ t.root_ = some (A ++ B) ∧
        t'.inorder t'.size_ t'.root_ = some (A ++ 3 :: B) ∧
        (∀ a ∈ A, natLess 3 a = false) ∧ (∀ b ∈ B, natLess 3 b = true) := by
  have hsome : ((RBTree.empty natLess).run 20 [.insert 3, .insert 1, .insert 3]).isSome
      = true := by decide!
  obtain ⟨t, ht⟩ := Option.isSome_iff_exists.1 hsome
  have hsz : t.size_ ≤ 3 := by
    obtain ⟨s, g, -, hl, -⟩ := run_good (good_empty natLess) (by simp [Shape.addrs]) ht
    rw [g.wf.size]
    simpa [Shape.addrs] using hl
  exact ⟨t, ht, C6_insert_multi_succeeds natLess natLess_strictWeak t ⟨20, _, by decide, ht⟩ 20
    (by omega) 3⟩

theorem Reachable.size_le {cmp : Key → Key → Bool} {ops : List (Op Key)} {fuel : Nat}
    (hf : 3 * ops.length + 1 ≤ fuel) {t : RBTree Key}
    (h : (RBTree.empty cmp).run fuel ops = some t) : t.size_ ≤ ops.length := by
  obtain ⟨s, g, -, hl, -⟩ := run_good (good_empty cmp) (by simpa [Shape.addrs] using hf) h
  rw [g.wf.size]
  simpa [Shape.addrs] using hl

/-- C7: on every tree built by the public calls, under a strict weak order, an insertion of
`k` returns a tree, an iterator and a flag. The flag is `false` exactly when the mode is
unique and the in-order sequence holds an element equivalent to `k`; then the in-order
sequence is unchanged. In every other case the flag is `true` and the in-order sequence is
the old one with `k` put into it. In both cases the tree holds an element equivalent to `k`
afterwards, so that `insertUnique(k)` on the result returns `false` and the
duplicate-permitting `insert(k)` on the result returns `true`. -/
theorem C7_insert_flag (cmp : Key → Key → Bool) (hw : StrictWeak cmp) (t : RBTree Key)
    (hr : Reachable cmp t) (fuel : Nat) (hf : 3 * t.size_ + 1 ≤ fuel) (k : Key)
    (unique : Bool) :
    ∃ t' it b keys keys', t.insert fuel k unique = some (t', it, b) ∧
      t.inorder t.size_ t.root_ = some keys ∧
      t'.inorder t'.size_ t'.root_ = some keys' ∧
      (b = false ↔ (unique = true ∧ ∃ e ∈ keys, Equiv cmp k e)) ∧
      (b = false → keys' = keys ∧ t'.size = t.size) ∧
      (b = true → t'.size = t.size + 1 ∧ ∃ A B, keys = A ++ B ∧ keys' = A ++ k :: B) ∧
      (∃ e ∈ keys', Equiv cmp k e) ∧
      (∃ t'' it', t'.insertUnique (fuel + 3) k = some (t'', it', false)) ∧
      (∃ t'' it', t'.insertMulti (fuel + 3) k = some (t'', it', true)) := by
  obtain ⟨s, g, rfl⟩ := hr.is_good
  have again : ∀ (t' : RBTree Key) (s' : Shape), Good t' s' →
      t'.comparator_ = t.comparator_ → t'.size_ ≤ t.size_ + 1 →
      (∃ e ∈ keysAt t' s'.addrs, Equiv t.comparator_ k e) →
      (∃ t'' it', t'.insertUnique (fuel + 3) k = some (t'', it', false)) ∧
      (∃ t'' it', t'.insertMulti (fuel + 3) k = some (t'', it', true)) := by
    intro t' s' g' hc hs hp
    have hw' : StrictWeak t'.comparator_ := hc ▸ hw
    have hf' : 3 * t'.size_ + 1 ≤ fuel + 3 := by omega
    have hp' : Present t' s' k := by
      obtain ⟨e, he, heq⟩ := hp
      exact ⟨e, he, hc ▸ heq⟩
    constructor
    · rcases insert_outcome g' hw' hf' k true with ⟨-, -, e⟩ | ⟨hn, -⟩
      · exact ⟨_, _, e⟩
      · exact absurd ⟨rfl, hp'⟩ hn
    · rcases insert_outcome g' hw' hf' k false with ⟨hu, -⟩ | ⟨-, t'', e, -⟩
      · cases hu
      · exact ⟨_, _, e⟩
  rcases insert_outcome g hw hf k unique with ⟨hu, hp, e⟩ | ⟨hn, t', e, hl⟩
  · have g' : Good { t with fresh := t.fresh + 1 } s := ⟨g.wf.bump, g.black, g.sorted⟩
    have hk : keysAt { t with fresh := t.fresh + 1 } s.addrs = keysAt t s.addrs :=
      keysAt_eq_of_mem fun _ _ => rfl
    obtain ⟨h1, h2⟩ := again _ s g' rfl (Nat.le_succ _) (hk ▸ hp)
    exact ⟨_, _, _, _, _, e, g.inorder (le_refl _), hk ▸ g'.inorder (le_refl _),
      ⟨fun _ => ⟨hu, hp⟩, fun _ => rfl⟩, fun _ => ⟨rfl, rfl⟩, fun h => (by cases h), hp,
      h1, h2⟩
  · obtain ⟨s', A, B, g', h1, h2, hk, -⟩ := hl.good g
    have hp : ∃ e ∈ keysAt t' s'.addrs, Equiv t.comparator_ k e :=
      ⟨k, by rw [hk]; simp, ⟨hw.irrefl k, hw.irrefl k⟩⟩
    obtain ⟨h3, h4⟩ := again t' s' g' hl.cmp (le_of_eq hl.size) hp
    refine ⟨_, _, _, _, _, e, g.inorder (le_refl _), g'.inorder (le_refl _),
      ⟨fun h => (by cases h), fun h => absurd h hn⟩, fun h => (by cases h),
      fun _ => ⟨hl.size, keysAt t A, keysAt t B, ?_, hk⟩, hp, h3, h4⟩
    rw [h1, keysAt_append]

theorem C7_insert_flag_witness :
    ∃ t, (RBTree.empty natLess).run 20 [.insertUnique 3, .insertUnique 1] = some t ∧
      t.inorder t.size_ t.root_ = some [1, 3] ∧
      (t.insert 20 3 true).map (fun r => (r.2.2, r.1.inorder r.1.size_ r.1.root_))
        = some (false, some [1, 3]) ∧
      (t.insert 20 2 true).map (fun r => (r.2.2, r.1.inorder r.1.size_ r.1.root_))
        = some (true, some [1, 2, 3]) ∧
      (t.insert 20 3 false).map (fun r => (r.2.2, r.1.inorder r.1.size_ r.1.root_))
        = some (true, some [1, 3, 3]) ∧
      ∃ t' it b keys keys', t.insert 20 3 true = some (t', it, b) ∧
        t.inorder t.size_ t.root_ = some keys ∧
        t'.inorder t'.size_ t'.root_ = some keys' ∧
        (b = false ↔ (true = true ∧ ∃ e ∈ keys, Equiv natLess 3 e)) ∧
        (b = false → keys' = keys ∧ t'.size = t.size) ∧
        (b = true → t'.size = t.size + 1 ∧ ∃ A B, keys = A ++ B ∧ keys' = A ++ 3 :: B) ∧
        (∃ e ∈ keys', Equiv natLess 3 e) ∧
        (∃ t'' it', t'.insertUnique (20 + 3) 3 = some (t'', it', false)) ∧
        (∃ t'' it', t'.insertMulti (20 + 3) 3 = some (t'', it', true)) := by
  have hsome : (((RBTree.empty natLess).run 20 [.insertUnique 3, .insertUnique 1]).bind
      fun t => if t.inorder t.size_ t.root_ = some [1, 3] ∧
        (t.insert 20 3 true).map (fun r => (r.2.2, r.1.inorder r.1.size_ r.1.root_))
          = some (false, some [1, 3]) ∧
        (t.insert 20 2 true).map (fun r => (r.2.2, r.1.inorder r.1.size_ r.1.root_))
          = some (true, some [1, 2, 3]) ∧
        (t.insert 20 3 false).map (fun r => (r.2.2, r.1.inorder r.1.size_ r.1.root_))
          = some (true, some [1, 3, 3]) then some t else none).isSome
      = true := by decide!
  obtain ⟨t, ht⟩ := Option.isSome_iff_exists.1 hsome
  obtain ⟨t0, ht0, h2⟩ := Option.bind_eq_some.1 ht
  split at h2
  · rename_i hin
    have hsz := Reachable.size_le (by decide) ht0
    simp only [List.length_cons, List.length_nil] at hsz
    exact ⟨t0, ht0, hin.1, hin.2.1, hin.2.2.1, hin.2.2.2,
      C7_insert_flag natLess natLess_strictWeak t0 ⟨20, _, by decide, ht0⟩ 20 (by omega) 3 true⟩
  · cases h2

/-- C8: on every tree built by the public calls, under a strict weak order, `insertUnique(k)`
for a key `k` with an equivalent element in the in-order sequence returns the flag `false` and
leaves `size()`, the in-order sequence, the root pointer and every node (key, colour, links)
as they were. -/
theorem C8_rejected_insert_unchanged (cmp : Key → Key → Bool) (hw : StrictWeak cmp)
    (t : RBTree Key) (hr : Reachable cmp t) (fuel : Nat) (hf : 3 * t.size_ + 1 ≤ fuel)
    (k : Key) (keys : List Key) (hk : t.inorder t.size_ t.root_ = some keys)
    (hp : ∃ e ∈ keys, Equiv cmp k e) :
    ∃ t' it, t.insertUnique fuel k = some (t', it, false) ∧ t'.size = t.size ∧
      t'.inorder t'.size_ t'.root_ = some keys ∧ t'.root_ = t.root_ ∧ t'.mem = t.mem := by
  obtain ⟨s, g, rfl⟩ := hr.is_good
  rw [g.inorder (le_refl _)] at hk
  simp only [Option.some.injEq] at hk
  subst hk
  rcases insert_outcome g hw hf k true with ⟨-, -, e⟩ | ⟨hn, -⟩
  · exact ⟨_, _, e, rfl, (⟨g.wf.bump, g.black, g.sorted⟩ : Good _ s).inorder (le_refl _), rfl,
      rfl⟩
  · exact absurd ⟨rfl, hp⟩ hn

theorem C8_rejected_insert_unchanged_witness :
    ∃ t, (RBTree.empty natLess).run 20 [.insertUnique 3, .insertUnique 1] = some t ∧
      ∃ t' it, t.insertUnique 20 3 = some (t', it, false) ∧ t'.size = t.size ∧
        t'.inorder t'.size_ t'.root_ = some [1, 3] ∧ t'.root_ = t.root_ ∧ t'.mem = t.mem := by
  have hsome : (((RBTree.empty natLess).run 20 [.insertUnique 3, .insertUnique 1]).bind
      fun t => if t.inorder t.size_ t.root_ = some [1, 3] then some t else none).isSome
      = true := by decide!
  obtain ⟨t, ht⟩ := Option.isSome_iff_exists.1 hsome
  obtain ⟨t0, ht0, h2⟩ := Option.bind_eq_some.1 ht
  split at h2
  · rename_i hin
    simp only [Option.some.injEq] at h2
    subst h2
    have hsz := Reachable.size_le (by decide) ht0
    simp only [List.length_cons, List.length_nil] at hsz
    exact ⟨t0, ht0, C8_rejected_insert_unchanged natLess natLess_strictWeak t0
      ⟨20, _, by decide, ht0⟩ 20 (by omega) 3 [1, 3] hin
      ⟨3, by simp, by simp [Equiv, natLess]⟩⟩
  · cases h2

/-- The lookup on a tree with the invariants, in terms of its in-order key sequence. -/
theorem Good.find {t : RBTree Key} {s : Shape} (g : Good t s) (hw : StrictWeak t.comparator_)
    {fuel : Nat} (hf : t.size_ ≤ fuel) (k : Key) :
    ∃ r, t.find fuel k = some r ∧
      (∀ a, r = some a →
        ∃ e, t.key (some a) = some e ∧ e ∈ keysAt t s.addrs ∧ Equiv t.comparator_ k e) ∧
      (r = none ↔ ∀ e ∈ keysAt t s.addrs, ¬ Equiv t.comparator_ k e) ∧
      t.contains fuel k = some (decide (r ≠ none)) := by
  obtain ⟨r, e, h1, h2, h3⟩ := find_spec hw g.wf.shaped (g.sorted hw) k
    (le_trans g.wf.height_le hf)
  refine ⟨r, e, fun a ha => ?_, h2, h3⟩
  obtain ⟨hm, e', he, heq⟩ := h1 a ha
  refine ⟨e', he, ?_, heq⟩
  obtain ⟨n, hn⟩ := rep_live g.wf.shaped.rep hm
  have : n.key_ = e' := by simpa [RBTree.key, RBTree.deref, hn] using he
  exact this ▸ mem_keysAt hn hm

/-- C9: on every tree built by the public calls, under a strict weak order (so that the
in-order sequence is sorted), `find(k)` returns an iterator to a stored element equivalent to
`k` whenever it is not `end()`, it is `end()` exactly when no stored element is equivalent to
`k`, and `contains(k)` is true exactly when `find(k)` is not `end()`. -/
theorem C9_find_contains (cmp : Key → Key → Bool) (hw : StrictWeak cmp) (t : RBTree Key)
    (hr : Reachable cmp t) (fuel : Nat) (hf : t.size_ ≤ fuel) (k : Key) :
    ∃ r keys, t.find fuel k = some r ∧ t.inorder t.size_ t.root_ = some keys ∧
      (∀ a, r = some a → ∃ e, t.key (some a) = some e ∧ e ∈ keys ∧ Equiv cmp k e) ∧
      (r = t.end_ ↔ ∀ e ∈ keys, ¬ Equiv cmp k e) ∧
      t.contains fuel k = some (decide (r ≠ t.end_)) := by
  obtain ⟨s, g, rfl⟩ := hr.is_good
  obtain ⟨r, e, h1, h2, h3⟩ := g.find hw hf k
  exact ⟨r, _, e, g.inorder (le_refl _), h1, h2, h3⟩

theorem C9_find_contains_witness :
    ∃ t, (RBTree.empty natLess).run 20 [.insert 3, .insert 1, .insert 3] = some t ∧
      ∃ r keys, t.find 20 3 = some r ∧ t.inorder t.size_ t.root_ = some keys ∧
        (∀ a, r = some a → ∃ e, t.key (some a) = some e ∧ e ∈ keys ∧ Equiv natLess 3 e) ∧
        (r = t.end_ ↔ ∀ e ∈ keys, ¬ Equiv natLess 3 e) ∧
        t.contains 20 3 = some (decide (r ≠ t.end_)) := by
  have hsome : ((RBTree.empty natLess).run 20 [.insert 3, .insert 1, .insert 3]).isSome
      = true := by decide!
  obtain ⟨t, ht⟩ := Option.isSome_iff_exists.1 hsome
  have hsz := Reachable.size_le (by decide) ht
  simp only [List.length_cons, List.length_nil] at hsz
  exact ⟨t, ht, C9_find_contains natLess natLess_strictWeak t ⟨20, _, by decide, ht⟩ 20
    (by omega) 3⟩

theorem findNodeLoop_bump (t : RBTree Key) (n : Nat) (key : Key) (fuel : Nat) (p : Ptr) :
    ({ t with fresh := n } : RBTree Key).findNodeLoop key fuel p =
      t.findNodeLoop key fuel p := by
  induction fuel generalizing p with
  | zero => cases p <;> rfl
  | succ fuel ih =>
    cases p with
    | none => rfl
    | some c =>
      simp only [RBTree.findNodeLoop]
      cases t.mem c with
      | none => rfl
      | some n => simp only [ih]

theorem find_bump (t : RBTree Key) (n : Nat) (key : Key) (fuel : Nat) :
    ({ t with fresh := n } : RBTree Key).find fuel key = t.find fuel key ∧
      ({ t with fresh := n } : RBTree Key).contains fuel key = t.contains fuel key := by
  simp only [RBTree.find, RBTree.contains, RBTree.findNode, findNodeLoop_bump, and_self]

theorem Equiv.refl_equiv {lt : Key → Key → Bool} (hw : StrictWeak lt) (a : Key) :
    Equiv lt a a := ⟨hw.irrefl a, hw.irrefl a⟩

theorem Equiv.symm_equiv {lt : Key → Key → Bool} {a b : Key} (h : Equiv lt a b) :
    Equiv lt b a := ⟨h.2, h.1⟩

/-- C10: on every tree built by the public calls, under a strict weak order, after `insert(k)`
or `insertUnique(k)` the lookup `find(k)` is not `end()` and designates an element equivalent
to `k`, and for every key `j` that is not equivalent to `k` the answer of `contains(j)` is the
same as before the insertion. -/
theorem C10_insert_find_round_trip (cmp : Key → Key → Bool) (hw : StrictWeak cmp)
    (t : RBTree Key) (hr : Reachable cmp t) (fuel : Nat) (hf : 3 * t.size_ + 1 ≤ fuel)
    (k : Key) (unique : Bool) :
    ∃ t' it b p e, t.insert fuel k unique = some (t', it, b) ∧
      t'.find fuel k = some (some p) ∧ t'.key (some p) = some e ∧ Equiv cmp k e ∧
      ∀ j, ¬ Equiv cmp j k → t'.contains fuel j = t.contains fuel j := by
  obtain ⟨s, g, rfl⟩ := hr.is_good
  rcases insert_outcome g hw hf k unique with ⟨hu, hp, e⟩ | ⟨hn, t', e, hl⟩
  · obtain ⟨r, e1, h1, h2, -⟩ := g.find hw (show t.size_ ≤ fuel by omega) k
    cases r with
    | none => exact absurd hp (fun ⟨e', he, heq⟩ => h2.1 rfl e' he heq)
    | some p =>
      obtain ⟨e', he, -, heq⟩ := h1 p rfl
      exact ⟨_, _, _, p, e', e, by rw [(find_bump t _ k fuel).1, e1], he, heq,
        fun j _ => (find_bump t _ j fuel).2⟩
  · obtain ⟨s', A, B, g', h1, h2, hk, -⟩ := hl.good g
    have hw' : StrictWeak t'.comparator_ := hl.cmp ▸ hw
    have hf' : t'.size_ ≤ fuel := by rw [hl.size]; omega
    obtain ⟨r, e1, r1, r2, -⟩ := g'.find hw' hf' k
    cases r with
    | none =>
      refine absurd (Equiv.refl_equiv hw' k) (r2.1 rfl k ?_)
      rw [hk]; simp
    | some p =>
      obtain ⟨e', he, -, heq⟩ := r1 p rfl
      refine ⟨t', _, _, p, e', e, e1, he, hl.cmp ▸ heq, fun j hj => ?_⟩
      obtain ⟨rj, -, -, j2, j3⟩ := g.find hw (show t.size_ ≤ fuel by omega) j
      obtain ⟨rj', -, -, j2', j3'⟩ := g'.find hw' hf' j
      rw [j3, j3']
      have hiff : rj' = none ↔ rj = none := by
        rw [j2, j2', hk, hl.cmp, h1, keysAt_append]
        simp only [List.mem_append, List.mem_cons]
        constructor
        · intro h e he
          exact h e (by tauto)
        · intro h e he
          rcases he with he | rfl | he
          · exact h e (Or.inl he)
          · exact hj
          · exact h e (Or.inr he)
      by_cases hr : rj = none
      · simp [hr, hiff.2 hr]
      · have hr' : rj' ≠ none := fun h => hr (hiff.1 h)
        simp [hr, hr']

theorem C10_insert_find_round_trip_witness :
    ∃ t, (RBTree.empty natLess).run 20 [.insert 3, .insert 1, .insert 3] = some t ∧
      ∃ t' it b p e, t.insert 20 2 true = some (t', it, b) ∧
        t'.find 20 2 = some (some p) ∧ t'.key (some p) = some e ∧ Equiv natLess 2 e ∧
        ∀ j, ¬ Equiv natLess j 2 → t'.contains 20 j = t.contains 20 j := by
  have hsome : ((RBTree.empty natLess).run 20 [.insert 3, .insert 1, .insert 3]).isSome
      = true := by decide!
  obtain ⟨t, ht⟩ := Option.isSome_iff_exists.1 hsome
  have hsz := Reachable.size_le (by decide) ht
  simp only [List.length_cons, List.length_nil] at hsz
  exact ⟨t, ht, C10_insert_find_round_trip natLess natLess_strictWeak t
    ⟨20, _, by decide, ht⟩ 20 (by omega) 2 true⟩

theorem RBTree.run_append (fuel : Nat) (a b : List (Op Key)) :
    ∀ t : RBTree Key, t.run fuel (a ++ b) = (t.run fuel a).bind fun t => t.run fuel b := by
  induction a with
  | nil => intro t; rfl
  | cons op a ih =>
    intro t
    rw [List.cons_append, RBTree.run, RBTree.run]
    cases t.apply fuel op with
    | none => rfl
    | some t1 => exact ih t1

/-- After every sequence of `insert`, `insertUnique` and `erase` calls on an initially empty
tree, each of which has returned, `size()` is the number of elements of the in-order traversal
and `empty()` is true exactly when that number is zero; from such a tree `insertUnique`
returns and adds one to `size()` when it reports `true` and leaves it when it reports `false`,
and an `erase` of an element that returns takes one off. -/
theorem size_counts_elements (cmp : Key → Key → Bool) (ops : List (Op Key)) (fuel : Nat)
    (hf : 3 * ops.length + 1 ≤ fuel) (t : RBTree Key)
    (h : (RBTree.empty cmp).run fuel ops = some t) :
    ∃ keys, t.inorder t.size_ t.root_ = some keys ∧ t.size = keys.length ∧
      (t.isEmpty = true ↔ keys.length = 0) ∧
      (∀ k, ∃ r, t.insertUnique fuel k = some r ∧
        r.1.size = if r.2.2 = true then t.size + 1 else t.size) ∧
      (∀ a t', t.erase fuel (some a) = some t' → t'.size + 1 = t.size) := by
  obtain ⟨s, g, -, -⟩ := run_empty_good hf h
  have hsz := Reachable.size_le hf h
  have hh := g.wf.height_le
  refine ⟨_, g.inorder (le_refl _), g.keys_length.symm, ?_, fun k => ?_,
    fun a t' ht' => ?_⟩
  · rw [g.keys_length]; simp [RBTree.isEmpty]
  · obtain ⟨t', b, e, hc⟩ := insert_total g.wf (show 3 * s.height + 1 ≤ fuel by omega) k true
    refine ⟨_, e, ?_⟩
    rcases hc with ⟨rfl, -, -, rfl⟩ | ⟨rfl, hl⟩
    · simp [RBTree.size]
    · simpa [RBTree.size] using hl.size
  · have he : a ∈ s.addrs := by
      simp only [RBTree.erase, reduceCtorEq, if_false, Option.bind_eq_bind,
        Option.bind_eq_some] at ht'
      obtain ⟨c, hc, -⟩ := ht'
      obtain ⟨n, hn, -⟩ := cell_of_red hc
      exact g.wf.live a n hn
    exact (erase_spec g.wf he (show s.height + 1 ≤ fuel by omega) ht').size

set_option maxRecDepth 1000000 in
/-- C12 (defect of the code): on an initially empty unique-mode tree the 30 calls
`insertUnique(0)`, ..., `insertUnique(29)` return and all succeed: `size()` is 30 and the
in-order traversal is 0, ..., 29. The 15 calls of `erase` at the positions of the distinct
present keys 22, 21, 18, 1, 5, 16, 23, 13, 25, 4, 24, 0, 26, 3, 19 that follow return, and
after them `size()` is `30 - 15` and the in-order traversal visits the 15 other keys. The
key 8 is present then (`find(8)` returns its position), and the sixteenth call, `erase` at
the position of the key 8, does not return, whatever the fuel: there is no state in which
`size()` is `30 - 16`. -/
theorem C12_erase_after_inserts_does_not_return :
    ∃ t0 t : RBTree Nat,
      (RBTree.empty natLess).run 200 ascendingInserts = some t0 ∧
      t0.size = 30 ∧ t0.inorder t0.size_ t0.root_ = some (List.range 30) ∧
      t0.run 200 erasesAfterInserts = some t ∧
      Reachable natLess t ∧
      (∀ op ∈ ascendingInserts ++ erasesAfterInserts, op.isMulti = false) ∧
      t.size = 30 - 15 ∧
      t.inorder t.size_ t.root_
        = some [2, 6, 7, 8, 9, 10, 11, 12, 14, 15, 17, 20, 27, 28, 29] ∧
      t.isEmpty = false ∧
      t.find 200 8 = some (some 8) ∧ t.key (some 8) = some 8 ∧
      ∀ fuel, t.erase fuel (some 8) = none := by
  have hsome : (((RBTree.empty natLess).run 200 ascendingInserts).bind fun t0 =>
      if t0.size = 30 ∧ t0.inorder t0.size_ t0.root_ = some (List.range 30) then
        (t0.run 200 erasesAfterInserts).bind fun t =>
          if t.size = 30 - 15 ∧
              t.inorder t.size_ t.root_
                = some [2, 6, 7, 8, 9, 10, 11, 12, 14, 15, 17, 20, 27, 28, 29] ∧
              t.isEmpty = false ∧
              t.find 200 8 = some (some 8) ∧ t.key (some 8) = some 8 then
            t.pingPongAfter 100 (some 8) 4 2 6
          else none
      else none).isSome = true := by decide!
  obtain ⟨T, hT⟩ := Option.isSome_iff_exists.1 hsome
  obtain ⟨t0, ht0, h⟩ := Option.bind_eq_some.1 hT
  split at h
  · rename_i h0
    obtain ⟨t, ht, h⟩ := Option.bind_eq_some.1 h
    split at h
    · rename_i h1
      have hr : (RBTree.empty natLess).run 200 (ascendingInserts ++ erasesAfterInserts)
          = some t := by
        rw [RBTree.run_append, ht0]
        exact ht
      exact ⟨t0, t, ht0, h0.1, h0.2, ht, ⟨200, _, by decide, hr⟩, by decide, h1.1, h1.2.1,
        h1.2.2.1, h1.2.2.2.1, h1.2.2.2.2, erase_of_pingPongAfter h⟩
    · simp at h
  · simp at h

/-- C14: in the multiset built by inserting 1, 2, 3, `upper_bound(2)` designates the element 2
and `upper_bound(3)` the element 3: the last element that is not greater than the key, where
the claim (and the doc comment of `upper_bound`) says the first element greater than the key,
that is 3 and `end()`. -/
theorem C14_upper_bound_last_not_greater :
    ((RBTree.empty natLess).run 20 [.insert 1, .insert 2, .insert 3]).bind
        (fun t => (t.upper_bound 20 2).bind fun a => (t.upper_bound 20 3).bind fun b =>
          some (t.key a, t.key b, decide (b = t.end_)))
      = some (some 2, some 3, false) := by
  decide!

/-- C15: in the multiset built by inserting 1, 2, 2, 3 the pair returned by `equal_range(2)`
is (first 2, last 2): one increment leads from `first` to `last` although `count(2)` is 2; and
in the multiset built by inserting 1, 3 the pair returned for the absent key 2 is (element 3,
element 1), so `first` and `last` differ. -/
theorem C15_equal_range_ends_at_last_equal :
    (((RBTree.empty natLess).run 20 [.insert 1, .insert 2, .insert 2, .insert 3]).bind
        (fun t => (MultiSet.equal_range t 20 2).bind fun r =>
          (t.increment 20 r.1).bind fun n => (t.count 20 2).map fun c =>
            (t.key r.1, decide (r.1 = r.2), decide (n = r.2), c))
      = some (some 2, false, true, 2)) ∧
    (((RBTree.empty natLess).run 20 [.insert 1, .insert 3]).bind
        (fun t => (MultiSet.equal_range t 20 2).map fun r =>
          (t.key r.1, t.key r.2, decide (r.1 = r.2)))
      = some (some 3, some 1, false)) := by
  constructor <;> decide!

/-- C18: in the set holding 1, the rejected `insertUnique(1)` returns the flag `false` and an
iterator to the node it has just allocated and deleted (cell 1, whose dereference is
undefined), not to the stored element: `find(1)` is the node at cell 0, which holds 1. -/
theorem C18_rejected_insert_returns_deleted_node :
    ((RBTree.empty natLess).run 20 [.insertUnique 1]).bind
        (fun t => (t.insertUnique 20 1).map fun r =>
          (r.2.2, r.2.1, r.1.key r.2.1, r.1.find 20 1, (r.1.find 20 1).bind r.1.key))
      = some (false, some 1, none, some (some 0), some 1) := by
  decide!


theorem Good.inorderNodes {t : RBTree Key} {s : Shape} (h : Good t s) {fuel : Nat}
    (hf : t.size_ ≤ fuel) : t.inorderNodes fuel t.root_ = some s.addrs := by
  rw [h.wf.shaped.root]
  exact inorderNodes_eq h.wf.shaped.rep (le_trans h.wf.height_le hf)

theorem Good.key_at {t : RBTree Key} {s : Shape} (h : Good t s) {A : List Nat}
    (hA : ∀ a ∈ A, a ∈ s.addrs) {a : Nat} (ha : a ∈ A) :
    ∃ e, t.key (some a) = some e ∧ e ∈ keysAt t A := by
  obtain ⟨n, hn⟩ := rep_live h.wf.shaped.rep (hA a ha)
  exact ⟨n.key_, read_key hn, mem_keysAt hn ha⟩

/-- C13: on every tree built by the public calls, under a strict weak order (so that the
in-order sequence is sorted), the in-order node sequence splits into the nodes `A` whose
elements are less than `k` and the nodes `B` whose elements are not less than `k`;
`lower_bound(k)` is the iterator to the first node of `B`, and `end()` when `B` is empty; and
when `A` is not empty, decrementing the result gives the iterator to the last node of `A`, the
greatest element less than `k`. -/
theorem C13_lower_bound (cmp : Key → Key → Bool) (hw : StrictWeak cmp) (t : RBTree Key)
    (hr : Reachable cmp t) (fuel : Nat) (hf : t.size_ ≤ fuel) (k : Key) :
    ∃ r A B, t.lower_bound fuel k = some r ∧ t.inorderNodes t.size_ t.root_ = some (A ++ B) ∧
      (∀ a ∈ A, ∃ e, t.key (some a) = some e ∧ cmp e k = true) ∧
      (∀ b ∈ B, ∃ e, t.key (some b) = some e ∧ cmp e k = false) ∧
      r = B.head? ∧ (r = t.end_ ↔ B = []) ∧
      (A ≠ [] → t.decrement fuel r = some A.getLast?) := by
  obtain ⟨s, g, rfl⟩ := hr.is_good
  have hh : s.height ≤ fuel := le_trans g.wf.height_le hf
  obtain ⟨A, B, h1, h2, h3, h4⟩ :=
    lowerBoundLoop_spec hw k g.wf.shaped.rep (g.sorted hw) hh none
  rw [← g.wf.shaped.root] at h4
  have hr : (if B = [] then none else B.head?) = B.head? := by
    cases B <;> simp
  rw [hr] at h4
  refine ⟨B.head?, A, B, h4, by rw [g.inorderNodes (le_refl _), h1], fun a ha => ?_,
    fun b hb => ?_, rfl, ?_, fun hA => ?_⟩
  · obtain ⟨e, he, hm⟩ := g.key_at (A := A) (fun x hx => by rw [h1]; simp [hx]) ha
    exact ⟨e, he, h2 e hm⟩
  · obtain ⟨e, he, hm⟩ := g.key_at (A := B) (fun x hx => by rw [h1]; simp [hx]) hb
    exact ⟨e, he, h3 e hm⟩
  · cases B <;> simp [RBTree.end_]
  · cases B with
    | nil =>
      have hne : s ≠ .nil := by
        rintro rfl
        simp only [Shape.addrs, List.append_nil] at h1
        exact hA h1.symm
      rw [List.head?_nil, decrement_end g.wf.shaped hne hh, h1, List.append_nil]
    | cons b B =>
      rw [List.head?_cons]
      exact decrement_spec g.wf.shaped h1 hh

theorem C13_lower_bound_witness :
    ∃ t, (RBTree.empty natLess).run 20 [.insert 3, .insert 1, .insert 3, .insert 7] = some t ∧
      ∃ r A B, t.lower_bound 20 3 = some r ∧
        t.inorderNodes t.size_ t.root_ = some (A ++ B) ∧
        (∀ a ∈ A, ∃ e, t.key (some a) = some e ∧ natLess e 3 = true) ∧
        (∀ b ∈ B, ∃ e, t.key (some b) = some e ∧ natLess e 3 = false) ∧
        r = B.head? ∧ (r = t.end_ ↔ B = []) ∧
        (A ≠ [] → t.decrement 20 r = some A.getLast?) := by
  have hsome : ((RBTree.empty natLess).run 20
      [.insert 3, .insert 1, .insert 3, .insert 7]).isSome = true := by decide!
  obtain ⟨t, ht⟩ := Option.isSome_iff_exists.1 hsome
  have hsz := Reachable.size_le (by decide) ht
  simp only [List.length_cons, List.length_nil] at hsz
  exact ⟨t, ht, C13_lower_bound natLess natLess_strictWeak t ⟨20, _, by decide, ht⟩ 20
    (by omega) 3⟩

/-- The in-order sequence after a run of duplicate-permitting insertions is a rearrangement of
the old sequence and the inserted values. -/
theorem inserts_perm {fuel : Nat} (vs : List Key) :
    ∀ {t t' : RBTree Key} {s : Shape}, Good t s →
      3 * (s.addrs.length + vs.length) + 1 ≤ fuel →
      t.run fuel (vs.map Op.insert) = some t' →
      ∃ s', Good t' s' ∧ (keysAt t' s'.addrs).Perm (vs ++ keysAt t s.addrs) := by
  induction vs with
  | nil =>
    intro t t' s g _ h
    simp only [List.map_nil, RBTree.run, Option.some.injEq] at h
    subst h
    exact ⟨s, g, by simp⟩
  | cons v vs ih =>
    intro t t' s g hf h
    simp only [List.map_cons, RBTree.run, RBTree.apply, Option.bind_eq_some,
      Option.map_eq_some'] at h
    obtain ⟨t1, ⟨r, hr, rfl⟩, h2⟩ := h
    simp only [List.length_cons] at hf
    have hh := s.height_le_length
    obtain ⟨t1', b, e, hc⟩ := insert_total g.wf (show 3 * s.height + 1 ≤ fuel by omega) v false
    rw [e] at hr
    simp only [Option.some.injEq] at hr
    subst hr
    rcases hc with ⟨-, hu, -⟩ | ⟨-, hl⟩
    · cases hu
    obtain ⟨s1, A, B, g1, h3, h4, hk, -⟩ := hl.good g
    have hlen : s1.addrs.length = s.addrs.length + 1 := by
      rw [h4, h3]; simp only [List.length_append, List.length_cons]; omega
    obtain ⟨s', g', hp⟩ := ih g1 (by rw [hlen]; omega) h2
    refine ⟨s', g', hp.trans ?_⟩
    rw [hk, h3, keysAt_append]
    simp only [List.cons_append]
    exact (List.Perm.append_left vs List.perm_middle).trans List.perm_middle

/-- C16: on every tree built by the public calls (the empty tree included), `count(k)` is the
number of elements equal to `k` in the in-order sequence; and when the tree was built by the
duplicate-permitting insertion of a list of values, it is the number of occurrences of `k` in
that list. -/
theorem C16_count_multiplicity [DecidableEq Key] (cmp : Key → Key → Bool) (t : RBTree Key)
    (hr : Reachable cmp t) (fuel : Nat) (hf : t.size_ ≤ fuel) (k : Key) :
    (∃ keys, t.inorder t.size_ t.root_ = some keys ∧ t.count fuel k = some (keys.count k)) ∧
      ∀ (vs : List Key) (fuel0 : Nat), 3 * vs.length + 1 ≤ fuel0 →
        (RBTree.empty cmp).run fuel0 (vs.map Op.insert) = some t →
        t.count fuel k = some (vs.count k) := by
  obtain ⟨s, g, rfl⟩ := hr.is_good
  have hc := count_spec g.wf.shaped k (show s.addrs.length ≤ fuel by rw [← g.wf.size]; exact hf)
  refine ⟨⟨_, g.inorder (le_refl _), hc⟩, fun vs fuel0 hf0 hrun => ?_⟩
  obtain ⟨s', g', hp⟩ := inserts_perm vs (good_empty t.comparator_)
    (by simpa [Shape.addrs] using hf0) hrun
  have hc' := count_spec g'.wf.shaped k
    (show s'.addrs.length ≤ fuel by rw [← g'.wf.size]; exact hf)
  rw [hc', hp.count_eq]
  simp [keysAt, Shape.addrs]

theorem C16_count_multiplicity_witness :
    ∃ t, (RBTree.empty natLess).run 20 ([3, 1, 3, 7].map Op.insert) = some t ∧
      ((∃ keys, t.inorder t.size_ t.root_ = some keys ∧ t.count 20 3 = some (keys.count 3)) ∧
        ∀ (vs : List Nat) (fuel0 : Nat), 3 * vs.length + 1 ≤ fuel0 →
          (RBTree.empty natLess).run fuel0 (vs.map Op.insert) = some t →
          t.count 20 3 = some (vs.count 3)) := by
  have hsome : ((RBTree.empty natLess).run 20 ([3, 1, 3, 7].map Op.insert)).isSome
      = true := by decide!
  obtain ⟨t, ht⟩ := Option.isSome_iff_exists.1 hsome
  have hsz := Reachable.size_le (by decide) ht
  simp only [List.map_cons, List.map_nil, List.length_cons, List.length_nil] at hsz
  exact ⟨t, ht, C16_count_multiplicity natLess t ⟨20, _, by decide, ht⟩ 20 (by omega) 3⟩


theorem Good.ne_nil {t : RBTree Key} {s : Shape} (g : Good t s) (h : t.root_ ≠ none) :
    s ≠ .nil := by
  rintro rfl
  exact h g.wf.shaped.root

/-- C17: `erase(end())` returns and leaves the tree as it is, whatever the tree; and on every
non-empty tree built by the public calls `begin()` decremented is `end()`, so that erasing
that iterator changes nothing. -/
theorem C17_erase_end_is_noop (cmp : Key → Key → Bool) (t : RBTree Key) (fuel : Nat) :
    t.erase fuel t.end_ = some t ∧
      (Reachable cmp t → t.size_ ≤ fuel → t.root_ ≠ none →
        ∃ b, t.begin fuel = some b ∧ t.decrement fuel b = some t.end_ ∧
          ((t.decrement fuel b).bind fun it => t.erase fuel it) = some t) := by
  have h0 : t.erase fuel t.end_ = some t := by simp [RBTree.erase, RBTree.end_]
  refine ⟨h0, fun hr hf hne => ?_⟩
  obtain ⟨s, g, -⟩ := hr.is_good
  have hh : s.height ≤ fuel := le_trans g.wf.height_le hf
  have hs := g.ne_nil hne
  obtain ⟨a, Y, hY⟩ : ∃ a Y, s.addrs = [] ++ a :: Y := by
    cases h : s.addrs with
    | nil => exact absurd h (Shape.addrs_ne_nil hs)
    | cons a Y => exact ⟨a, Y, rfl⟩
  have hb : t.begin fuel = some (some a) := by
    rw [begin_spec g.wf.shaped hs hh, hY]; rfl
  have hd : t.decrement fuel (some a) = some none := decrement_spec g.wf.shaped hY hh
  exact ⟨some a, hb, hd, by rw [hd]; exact h0⟩

theorem C17_erase_end_is_noop_witness :
    ∃ t, (RBTree.empty natLess).run 20
        [.insertUnique 3, .insertUnique 1, .insertUnique 7, .insertUnique 5] = some t ∧
      t.root_ ≠ none ∧
      ∃ b, t.begin 20 = some b ∧ t.decrement 20 b = some t.end_ ∧
        ((t.decrement 20 b).bind fun it => t.erase 20 it) = some t := by
  have hsome : (((RBTree.empty natLess).run 20
      [.insertUnique 3, .insertUnique 1, .insertUnique 7, .insertUnique 5]).bind
      fun t => if t.root_ ≠ none then some t else none).isSome = true := by decide!
  obtain ⟨t, ht⟩ := Option.isSome_iff_exists.1 hsome
  obtain ⟨t0, ht0, h2⟩ := Option.bind_eq_some.1 ht
  split at h2
  · rename_i hne
    have hsz := Reachable.size_le (by decide) ht0
    simp only [List.length_cons, List.length_nil] at hsz
    exact ⟨t0, ht0, hne, (C17_erase_end_is_noop natLess t0 20).2 ⟨20, _, by decide, ht0⟩
      (by omega) hne⟩
  · cases h2

/-- Walking from a tree node with `++` until `end()` visits the rest of the in-order
sequence. -/
theorem walk_spec {t : RBTree Key} {s : Shape} (g : Good t s) {fuel : Nat}
    (hf : s.height ≤ fuel) :
    ∀ (Y X : List Nat) (a n : Nat), s.addrs = X ++ a :: Y → Y.length + 1 ≤ n →
      t.walk fuel n (some a) = some (keysAt t (a :: Y)) := by
  intro Y
  induction Y with
  | nil =>
    intro X a n h hn
    obtain ⟨m, rfl⟩ : ∃ m, n = m + 1 := ⟨n - 1, by omega⟩
    obtain ⟨c, hc⟩ := rep_live g.wf.shaped.rep (show a ∈ s.addrs by rw [h]; simp)
    simp only [RBTree.walk, Option.bind_eq_bind, read_key hc, Option.some_bind,
      increment_spec g.wf.shaped h hf, List.head?_nil, keysAt_cons hc]
    cases m <;> simp [RBTree.walk, keysAt]
  | cons b Y ih =>
    intro X a n h hn
    obtain ⟨m, rfl⟩ : ∃ m, n = m + 1 := ⟨n - 1, by omega⟩
    obtain ⟨c, hc⟩ := rep_live g.wf.shaped.rep (show a ∈ s.addrs by rw [h]; simp)
    have h' : s.addrs = (X ++ [a]) ++ b :: Y := by rw [h]; simp
    simp only [RBTree.walk, Option.bind_eq_bind, read_key hc, Option.some_bind,
      increment_spec g.wf.shaped h hf, List.head?_cons, keysAt_cons hc,
      ih (X ++ [a]) b m h' (by simpa using hn)]

/-- On every non-empty tree built by the public calls, `++` at a node gives its in-order
successor (`end()` at the last node), and the walk from `begin()` to `end()` visits `size()`
elements, the in-order sequence. -/
theorem increment_traversal (cmp : Key → Key → Bool) (t : RBTree Key) (hr : Reachable cmp t)
    (fuel : Nat) (hf : t.size_ ≤ fuel) (hne : t.root_ ≠ none) :
    ∃ nodes keys, t.inorderNodes t.size_ t.root_ = some nodes ∧
      t.inorder t.size_ t.root_ = some keys ∧
      (∀ X a Y, nodes = X ++ a :: Y → t.increment fuel (some a) = some Y.head?) ∧
      ∃ b, t.begin fuel = some b ∧ t.walk fuel t.size b = some keys ∧
        keys.length = t.size := by
  obtain ⟨s, g, -⟩ := hr.is_good
  have hh : s.height ≤ fuel := le_trans g.wf.height_le hf
  have hs := g.ne_nil hne
  refine ⟨_, _, g.inorderNodes (le_refl _), g.inorder (le_refl _),
    fun X a Y h => increment_spec g.wf.shaped h hh, ?_⟩
  obtain ⟨a, Y, hY⟩ : ∃ a Y, s.addrs = [] ++ a :: Y := by
    cases h : s.addrs with
    | nil => exact absurd h (Shape.addrs_ne_nil hs)
    | cons a Y => exact ⟨a, Y, rfl⟩
  refine ⟨some a, by rw [begin_spec g.wf.shaped hs hh, hY]; rfl, ?_, g.keys_length⟩
  have := walk_spec g hh Y [] a t.size hY (by
    have := g.wf.size
    rw [hY] at this
    simp only [List.nil_append, List.length_cons] at this
    simp only [RBTree.size]; omega)
  rw [this, hY]; rfl

/-- C19: on the empty tree `begin()` has no defined result, whatever the fuel:
`findMinNode(root_)` reads `left_` of the null root. The walk from `begin()` to `end()` that
the claim describes, which should visit zero elements, cannot start. -/
theorem C19_begin_of_empty_tree_undefined (cmp : Key → Key → Bool) (fuel : Nat) :
    (RBTree.empty cmp).begin fuel = none := by
  cases fuel <;> rfl

/-- C20: on every non-empty tree built by the public calls, `--` at `end()` gives the last
node of the in-order sequence (the maximum), `--` at a node gives its in-order predecessor
(nothing before the first node), and `--` after `++` at a node gives that node back. -/
theorem C20_decrement (cmp : Key → Key → Bool) (t : RBTree Key) (hr : Reachable cmp t)
    (fuel : Nat) (hf : t.size_ ≤ fuel) (hne : t.root_ ≠ none) :
    ∃ nodes m, t.inorderNodes t.size_ t.root_ = some nodes ∧ nodes.getLast? = some m ∧
      t.decrement fuel t.end_ = some (some m) ∧
      ∀ X a Y, nodes = X ++ a :: Y →
        t.decrement fuel (some a) = some X.getLast? ∧
        ((t.increment fuel (some a)).bind fun n => t.decrement fuel n) = some (some a) := by
  obtain ⟨s, g, -⟩ := hr.is_good
  have hh : s.height ≤ fuel := le_trans g.wf.height_le hf
  have hs := g.ne_nil hne
  have hde := decrement_end g.wf.shaped hs hh
  obtain ⟨m, hm⟩ : ∃ m, s.addrs.getLast? = some m := by
    cases h : s.addrs.getLast? with
    | none => exact absurd (List.getLast?_eq_none_iff.1 h) (Shape.addrs_ne_nil hs)
    | some m => exact ⟨m, rfl⟩
  refine ⟨_, m, g.inorderNodes (le_refl _), hm, by rw [RBTree.end_, hde, hm],
    fun X a Y h => ⟨decrement_spec g.wf.shaped h hh, ?_⟩⟩
  rw [increment_spec g.wf.shaped h hh, Option.some_bind]
  cases Y with
  | nil =>
    rw [List.head?_nil, hde, h]
    simp
  | cons b Y =>
    have h' : s.addrs = (X ++ [a]) ++ b :: Y := by rw [h]; simp
    rw [List.head?_cons, decrement_spec g.wf.shaped h' hh]
    simp

theorem C20_decrement_witness :
    ∃ t, (RBTree.empty natLess).run 20
        [.insert 3, .insert 1, .insert 7, .erase (some 0), .insert 5] = some t ∧
      t.root_ ≠ none ∧
      ∃ nodes m, t.inorderNodes t.size_ t.root_ = some nodes ∧ nodes.getLast? = some m ∧
        t.decrement 20 t.end_ = some (some m) ∧
        ∀ X a Y, nodes = X ++ a :: Y →
          t.decrement 20 (some a) = some X.getLast? ∧
          ((t.increment 20 (some a)).bind fun n => t.decrement 20 n) = some (some a) := by
  have hsome : (((RBTree.empty natLess).run 20
      [.insert 3, .insert 1, .insert 7, .erase (some 0), .insert 5]).bind
      fun t => if t.root_ ≠ none then some t else none).isSome = true := by decide!
  obtain ⟨t, ht⟩ := Option.isSome_iff_exists.1 hsome
  obtain ⟨t0, ht0, h2⟩ := Option.bind_eq_some.1 ht
  split at h2
  · rename_i hne
    have hsz := Reachable.size_le (by decide) ht0
    simp only [List.length_cons, List.length_nil] at hsz
    exact ⟨t0, ht0, hne, C20_decrement natLess t0 ⟨20, _, by decide, ht0⟩ 20 (by omega) hne⟩
  · cases h2

theorem findNodeLoop_fuel_succ {t : RBTree Key} {key : Key} (fuel : Nat) :
    ∀ {c p : Ptr}, t.findNodeLoop key fuel c = some p →
      t.findNodeLoop key (fuel + 1) c = some p := by
  induction fuel with
  | zero =>
    intro c p h
    cases c with
    | none => simpa [RBTree.findNodeLoop] using h
    | some c => simp [RBTree.findNodeLoop] at h
  | succ fuel ih =>
    intro c p h
    cases c with
    | none => simpa [RBTree.findNodeLoop] using h
    | some c =>
      rw [RBTree.findNodeLoop] at h ⊢
      cases hm : t.mem c with
      | none => simp [hm] at h
      | some n =>
        simp only [hm] at h ⊢
        split
        · rename_i h1; rw [if_pos h1] at h; exact ih h
        · rename_i h1
          rw [if_neg h1] at h
          split
          · rename_i h2; rw [if_pos h2] at h; exact ih h
          · rename_i h2; rw [if_neg h2] at h; exact h

/-- Whatever the fuel, `find` either gives up or returns the one result. -/
theorem find_fuel_det {t : RBTree Key} {key : Key} {f : Nat} {p : Ptr}
    (h : t.find f key = some p) (g : Nat) : t.find g key = none ∨ t.find g key = some p := by
  have mono : ∀ {a b : Nat} {q : Ptr}, a ≤ b → t.find a key = some q → t.find b key = some q := by
    intro a b q hab hq
    induction hab with
    | refl => exact hq
    | step _ ih =>
      simp only [RBTree.find, RBTree.findNode, Option.map_eq_some'] at ih ⊢
      obtain ⟨r, hr, e⟩ := ih
      exact ⟨r, findNodeLoop_fuel_succ _ hr, e⟩
  cases hg : t.find g key with
  | none => exact Or.inl rfl
  | some q =>
    right
    have h1 := mono (Nat.le_max_left f g) h
    have h2 := mono (Nat.le_max_right f g) hg
    rw [h1] at h2
    exact h2.symm

set_option maxRecDepth 1000000 in
/-- C5 (defect of the code): a tree built by 27 `insertUnique` and `erase` calls and the
position of one of its 13 elements, the key 5, for which `erase(pos)` does not return, whatever
the fuel: the node is a black leaf, `eraseFixup` on its parent is case 2a on a black node, and
the loop of case 2a over the ancestors comes to a node whose only child is a red leaf, where
cases 4a and 4b rotate the two nodes back and forth for ever. The element is not removed and
the size is not decreased. -/
theorem C5_erase_does_not_return :
    ∃ t : RBTree Nat, Reachable natLess t ∧ t.key (some 10) = some 5 ∧
      ∀ fuel, t.erase fuel (some 10) = none := by
  have hsome : (((RBTree.empty natLess).run 100 eraseLoopOps).bind fun t =>
      if t.key (some 10) = some 5 then t.pingPongAfter 100 (some 10) 4 17 12
      else none).isSome = true := by decide!
  obtain ⟨T, hT⟩ := Option.isSome_iff_exists.1 hsome
  obtain ⟨t, ht, h⟩ := Option.bind_eq_some.1 hT
  split at h
  · rename_i hk
    exact ⟨t, ⟨100, eraseLoopOps, by decide, ht⟩, hk, erase_of_pingPongAfter h⟩
  · simp at h

set_option maxRecDepth 1000000 in
/-- C11 (defect of the code): a set built by 27 `insertUnique` and `erase` calls on which
`find(4)` returns the position of the stored key 4 and the call `erase(find(4))` does not
return, whatever the fuel of the two calls: there is no state after it in which `find(4)`
could return `end()` or the size could be one less. -/
theorem C11_erase_of_find_does_not_return :
    ∃ t : RBTree Nat, (RBTree.empty natLess).run 100 setEraseLoopOps = some t ∧
      (∀ op ∈ setEraseLoopOps, op.isMulti = false) ∧
      t.find 100 4 = some (some 10) ∧
      ∀ f1 f2, (t.find f1 4).bind (fun pos => t.erase f2 pos) = none := by
  have hsome : (((RBTree.empty natLess).run 100 setEraseLoopOps).bind fun t =>
      if t.find 100 4 = some (some 10) then t.pingPongAfter 100 (some 10) 4 12 2
      else none).isSome = true := by decide!
  obtain ⟨T, hT⟩ := Option.isSome_iff_exists.1 hsome
  obtain ⟨t, ht, h⟩ := Option.bind_eq_some.1 hT
  split at h
  · rename_i hk
    refine ⟨t, ht, by decide, hk, fun f1 f2 => ?_⟩
    rcases find_fuel_det hk f1 with h0 | h0
    · rw [h0]; rfl
    · rw [h0]; exact erase_of_pingPongAfter h f2
  · simp at h


theorem Shape.nonNil_flatten (u : Shape) : (u.nonNil.map Shape.addrs).flatten = u.addrs := by
  cases u <;> simp [Shape.nonNil, Shape.addrs]

/-- The loop of `deleteSubtree` on a stack of roots of disjoint linked subtrees returns, with
every node of these subtrees freed and nothing else changed. -/
theorem deleteSubtreeLoop_spec :
    ∀ (fuel : Nat) (t : RBTree Key) (ss : List Shape),
      (∀ s ∈ ss, s ≠ .nil ∧ ∃ par, Rep t.mem par s) →
      (ss.map Shape.addrs).flatten.Nodup →
      (ss.map fun s => s.addrs.length).sum ≤ fuel →
      ∃ t', t.deleteSubtreeLoop fuel (ss.map (·.root)) = some t' ∧ t'.root_ = t.root_ ∧
        t'.size_ = t.size_ ∧ t'.fresh = t.fresh ∧ t'.comparator_ = t.comparator_ ∧
        ∀ x, t'.mem x = if x ∈ (ss.map Shape.addrs).flatten then none else t.mem x := by
  intro fuel
  induction fuel with
  | zero =>
    intro t ss hss hnd hf
    cases ss with
    | nil => exact ⟨t, by simp [RBTree.deleteSubtreeLoop], rfl, rfl, rfl, rfl, by simp⟩
    | cons s rest =>
      obtain ⟨hne, -⟩ := hss s (List.mem_cons_self _ _)
      cases s with
      | nil => exact absurd rfl hne
      | node l a r => simp [Shape.addrs] at hf
  | succ k ih =>
    intro t ss hss hnd hf
    cases ss with
    | nil => exact ⟨t, by simp [RBTree.deleteSubtreeLoop], rfl, rfl, rfl, rfl, by simp⟩
    | cons s rest =>
      obtain ⟨hne, par, hr⟩ := hss s (List.mem_cons_self _ _)
      have hrest : ∀ s ∈ rest, s ≠ .nil ∧ ∃ par, Rep t.mem par s :=
        fun s hs => hss s (List.mem_cons_of_mem _ hs)
      cases s with
      | nil => exact absurd rfl hne
      | node l a r =>
        obtain ⟨n, hn, -, hl, hr', hL, hR⟩ := hr
        simp only [List.map_cons, List.sum_cons, Shape.addrs, List.length_append,
          List.length_cons] at hf
        simp only [List.map_cons, List.flatten_cons, Shape.addrs] at hnd
        have hnd' : (l.addrs ++ a :: r.addrs ++ (rest.map Shape.addrs).flatten).Nodup := hnd
        have ha : a ∉ l.addrs ∧ a ∉ r.addrs ∧ a ∉ (rest.map Shape.addrs).flatten := by
          simp only [List.nodup_append, List.nodup_cons, List.mem_append, List.mem_cons,
            List.disjoint_append_left, List.disjoint_cons_left, List.append_assoc,
            List.disjoint_append_right, List.disjoint_cons_right, List.cons_append,
            not_or] at hnd'
          tauto
        let t1 : RBTree Key := { t with mem := fun x => if x = a then none else t.mem x }
        have hfree : t.free (some a) = some t1 := by simp [RBTree.free, hn, t1]
        have hstep : t.deleteSubtreeLoop (k + 1) (List.map (·.root) (Shape.node l a r :: rest)) =
            t1.deleteSubtreeLoop k ((r.nonNil ++ (l.nonNil ++ rest)).map (·.root)) := by
          have e1 : List.map (·.root) (Shape.node l a r :: rest) =
              some a :: rest.map (·.root) := rfl
          rw [e1]
          simp only [RBTree.deleteSubtreeLoop, RBTree.deref, hn, hl, hr', hfree]
          rw [Shape.nonNil_root l, Shape.nonNil_root r]
          simp only [List.map_append, List.append_assoc]
        have hjoin : ((r.nonNil ++ (l.nonNil ++ rest)).map Shape.addrs).flatten =
            r.addrs ++ (l.addrs ++ (rest.map Shape.addrs).flatten) := by
          simp only [List.map_append, List.flatten_append, Shape.nonNil_flatten]
        have hmem1 : ∀ x, x ≠ a → t1.mem x = t.mem x := fun x hx => by simp [t1, hx]
        obtain ⟨t', e, h1, h2, h3, h4, h5⟩ := ih t1 (r.nonNil ++ (l.nonNil ++ rest))
          (by
            intro s hs
            simp only [List.mem_append] at hs
            rcases hs with hs | hs | hs
            · obtain ⟨rfl, h2⟩ := Shape.nonNil_mem hs
              exact ⟨h2, _, rep_frame (fun b hb => hmem1 b (by rintro rfl; exact ha.2.1 hb)) hR⟩
            · obtain ⟨rfl, h2⟩ := Shape.nonNil_mem hs
              exact ⟨h2, _, rep_frame (fun b hb => hmem1 b (by rintro rfl; exact ha.1 hb)) hL⟩
            · obtain ⟨h2, par', hr2⟩ := hrest s hs
              refine ⟨h2, par', rep_frame (fun b hb => hmem1 b ?_) hr2⟩
              rintro rfl
              exact ha.2.2 (List.mem_flatten.2 ⟨s.addrs, List.mem_map.2 ⟨s, hs, rfl⟩, hb⟩))
          (by
            rw [hjoin]
            have hp : (r.addrs ++ (l.addrs ++ (rest.map Shape.addrs).flatten)).Perm
                (l.addrs ++ r.addrs ++ (rest.map Shape.addrs).flatten) := by
              rw [← List.append_assoc]
              exact List.Perm.append_right _ List.perm_append_comm
            refine hp.nodup_iff.2 ?_
            have hsub : (l.addrs ++ r.addrs ++ (rest.map Shape.addrs).flatten).Sublist
                (l.addrs ++ a :: r.addrs ++ (rest.map Shape.addrs).flatten) := by
              apply List.Sublist.append_right
              exact List.Sublist.append_left (List.sublist_cons_self a r.addrs) _
            exact hnd'.sublist hsub)
          (by
            simp only [List.map_append, List.sum_append]
            rw [Shape.nonNil_sum l (fun s => s.addrs.length) (by simp [Shape.addrs]),
              Shape.nonNil_sum r (fun s => s.addrs.length) (by simp [Shape.addrs])]
            omega)
        refine ⟨t', by rw [hstep, e], h1, h2, h3, h4, fun x => ?_⟩
        rw [h5 x, hjoin]
        by_cases hx : x = a
        · subst hx; simp [t1, Shape.addrs]
        · rw [hmem1 x hx]
          have hiff : (x ∈ r.addrs ++ (l.addrs ++ (rest.map Shape.addrs).flatten)) ↔
              (x ∈ (List.map Shape.addrs (Shape.node l a r :: rest)).flatten) := by
            simp only [List.map_cons, List.flatten_cons, Shape.addrs, List.mem_append,
              List.mem_cons, hx, false_or]
            tauto
          by_cases h6 : x ∈ r.addrs ++ (l.addrs ++ (rest.map Shape.addrs).flatten)
          · rw [if_pos h6, if_pos (hiff.1 h6)]
          · rw [if_neg h6, if_neg (fun h7 => h6 (hiff.2 h7))]

/-- `deleteSubtree(root_)` on a well-formed tree returns and frees every node. -/
theorem deleteSubtree_spec {t : RBTree Key} {s : Shape} (h : WellFormed t s) {fuel : Nat}
    (hf : s.addrs.length ≤ fuel) :
    ∃ t', t.deleteSubtree fuel t.root_ = some t' ∧ t'.root_ = t.root_ ∧ t'.size_ = t.size_ ∧
      t'.fresh = t.fresh ∧ t'.comparator_ = t.comparator_ ∧ ∀ x, t'.mem x = none := by
  cases s with
  | nil =>
    have hroot : t.root_ = none := h.shaped.root
    refine ⟨t, by simp [RBTree.deleteSubtree, hroot], rfl, rfl, rfl, rfl, fun x => ?_⟩
    cases hx : t.mem x with
    | none => rfl
    | some n => exact absurd (h.live x n hx) (by simp [Shape.addrs])
  | node l a r =>
    have hroot : t.root_ = some a := h.shaped.root
    obtain ⟨t', e, h1, h2, h3, h4, h5⟩ := deleteSubtreeLoop_spec fuel t [.node l a r]
      (by simpa using ⟨_, h.shaped.rep⟩) (by simpa using h.shaped.nodup) (by simpa using hf)
    refine ⟨t', ?_, h1, h2, h3, h4, fun x => ?_⟩
    · rw [RBTree.deleteSubtree, if_neg (by rw [hroot]; simp), hroot]
      simpa [Shape.root] using e
    · rw [h5 x]
      split
      · rfl
      · rename_i hx
        cases hm : t.mem x with
        | none => rfl
        | some n => exact absurd (by simpa using h.live x n hm) hx

/-- `clear()` on a well-formed tree returns the empty tree. -/
theorem clear_spec {t : RBTree Key} {s : Shape} (h : WellFormed t s) {fuel : Nat}
    (hf : s.addrs.length ≤ fuel) :
    ∃ t', t.clear fuel = some t' ∧ t'.root_ = none ∧ t'.size_ = 0 ∧ t'.fresh = t.fresh ∧
      t'.comparator_ = t.comparator_ ∧ (∀ x, t'.mem x = none) ∧ Good t' .nil := by
  obtain ⟨t1, e, -, -, h3, h4, h5⟩ := deleteSubtree_spec h hf
  refine ⟨{ t1 with root_ := none, size_ := 0 }, by simp [RBTree.clear, e], rfl, rfl, h3, h4,
    h5, ?_⟩
  exact { wf := { shaped := ⟨rfl, trivial, List.nodup_nil⟩
                  unused := fun a _ => h5 a
                  live := fun a n hn => by
                    have := h5 a
                    simp only at hn
                    rw [this] at hn
                    cases hn
                  size := rfl }
          black := fun a ha => by cases ha
          sorted := fun _ => List.Pairwise.nil }

theorem apply_ofKey (t : RBTree Key) (fuel : Nat) (unique : Bool) (key : Key) :
    t.apply fuel (Op.ofKey unique key) = (t.insert fuel key unique).map (·.1) := by
  cases unique <;> rfl

/-- The loop over the elements of `other` from a node on performs the insertions of the rest
of the in-order sequence of `other`, in that order. -/
theorem insertRange_spec {other : RBTree Key} {s : Shape} (hs : Shaped other s) {fuel : Nat}
    (hf : s.height ≤ fuel) (unique : Bool) :
    ∀ (Y X : List Nat) (a n : Nat) (this : RBTree Key), s.addrs = X ++ a :: Y →
      Y.length + 1 ≤ n →
      other.insertRange fuel unique n this (some a) =
        this.run fuel ((keysAt other (a :: Y)).map (Op.ofKey unique)) := by
  intro Y
  induction Y with
  | nil =>
    intro X a n this h hn
    obtain ⟨m, rfl⟩ : ∃ m, n = m + 1 := ⟨n - 1, by omega⟩
    obtain ⟨c, hc⟩ := rep_live hs.rep (show a ∈ s.addrs by rw [h]; simp)
    simp only [RBTree.insertRange, Option.bind_eq_bind, read_key hc, Option.some_bind,
      increment_spec hs h hf, List.head?_nil, keysAt_cons hc, keysAt_nil, List.map_cons,
      List.map_nil, RBTree.run, apply_ofKey]
    cases this.insert fuel c.key_ unique with
    | none => rfl
    | some r => cases m <;> simp [RBTree.insertRange]
  | cons b Y ih =>
    intro X a n this h hn
    obtain ⟨m, rfl⟩ : ∃ m, n = m + 1 := ⟨n - 1, by omega⟩
    obtain ⟨c, hc⟩ := rep_live hs.rep (show a ∈ s.addrs by rw [h]; simp)
    have h' : s.addrs = (X ++ [a]) ++ b :: Y := by rw [h]; simp
    simp only [RBTree.insertRange, Option.bind_eq_bind, read_key hc, Option.some_bind,
      increment_spec hs h hf, List.head?_cons, keysAt_cons hc (b :: Y), List.map_cons,
      RBTree.run, apply_ofKey]
    cases this.insert fuel c.key_ unique with
    | none => rfl
    | some r =>
      simp only [Option.some_bind, Option.map_some']
      rw [ih (X ++ [a]) b m r.1 h' (by simpa using hn)]

/-- The loop over all elements of a non-empty tree `other`, from `begin()`. -/
theorem insertRange_begin {other : RBTree Key} {s : Shape} (g : Good other s)
    (hne : s ≠ .nil) {fuel : Nat} (hf : s.addrs.length ≤ fuel) (unique : Bool)
    (this : RBTree Key) :
    ∃ first, other.begin fuel = some first ∧
      other.insertRange fuel unique fuel this first =
        this.run fuel ((keysAt other s.addrs).map (Op.ofKey unique)) := by
  have hh : s.height ≤ fuel := le_trans s.height_le_length hf
  obtain ⟨a, Y, hY⟩ : ∃ a Y, s.addrs = [] ++ a :: Y := by
    cases h : s.addrs with
    | nil => exact absurd h (Shape.addrs_ne_nil hne)
    | cons a Y => exact ⟨a, Y, rfl⟩
  refine ⟨some a, by rw [begin_spec g.wf.shaped hne hh, hY]; rfl, ?_⟩
  rw [insertRange_spec g.wf.shaped hh unique Y [] a fuel this hY (by
    rw [hY] at hf; simpa using hf), hY]
  rfl

/-- A sequence of insertions into a tree with the invariants returns. -/
theorem run_inserts_total (unique : Bool) {fuel : Nat} (ks : List Key) :
    ∀ {t : RBTree Key} {s : Shape}, Good t s →
      3 * (s.addrs.length + ks.length) + 1 ≤ fuel →
      ∃ t' s', t.run fuel (ks.map (Op.ofKey unique)) = some t' ∧ Good t' s' ∧
        t'.comparator_ = t.comparator_ ∧ s'.addrs.length ≤ s.addrs.length + ks.length := by
  induction ks with
  | nil =>
    intro t s g _
    exact ⟨t, s, rfl, g, rfl, by simp⟩
  | cons k ks ih =>
    intro t s g hf
    simp only [List.length_cons] at hf
    have hh := s.height_le_length
    obtain ⟨t1, b, e, -⟩ := insert_total g.wf (show 3 * s.height + 1 ≤ fuel by omega) k unique
    obtain ⟨s1, g1, c1, l1, -⟩ := insert_step g (show 3 * s.addrs.length + 1 ≤ fuel by omega) e
    obtain ⟨t', s', e', g', c', l'⟩ := ih g1 (show 3 * (s1.addrs.length + ks.length) + 1 ≤ fuel
      by omega)
    refine ⟨t', s', ?_, g', c'.trans c1, by simp only [List.length_cons]; omega⟩
    simp only [List.map_cons, RBTree.run, apply_ofKey, e, Option.map_some', Option.some_bind]
    exact e'

/-- Inserting, with duplicates permitted, a sequence that continues the sorted in-order
sequence of the tree appends it. -/
theorem run_inserts_sorted {fuel : Nat} (ks : List Key) :
    ∀ {t t' : RBTree Key} {s : Shape}, Good t s → StrictWeak t.comparator_ →
      3 * (s.addrs.length + ks.length) + 1 ≤ fuel →
      (keysAt t s.addrs ++ ks).Pairwise (fun a b => t.comparator_ b a = false) →
      t.run fuel (ks.map (Op.ofKey false)) = some t' →
      ∃ s', Good t' s' ∧ keysAt t' s'.addrs = keysAt t s.addrs ++ ks := by
  induction ks with
  | nil =>
    intro t t' s g _ _ _ h
    simp only [List.map_nil, RBTree.run, Option.some.injEq] at h
    subst h
    exact ⟨s, g, by simp⟩
  | cons k ks ih =>
    intro t t' s g hw hf hp h
    simp only [List.map_cons, RBTree.run, apply_ofKey, Option.bind_eq_some,
      Option.map_eq_some'] at h
    obtain ⟨t1, ⟨r, hr, rfl⟩, h2⟩ := h
    simp only [List.length_cons] at hf
    have hh := s.height_le_length
    obtain ⟨t1', b, e, hc⟩ := insert_total g.wf (show 3 * s.height + 1 ≤ fuel by omega) k false
    rw [e] at hr
    simp only [Option.some.injEq] at hr
    subst hr
    rcases hc with ⟨-, hu, -⟩ | ⟨-, hl⟩
    · cases hu
    obtain ⟨s1, A, B, g1, h3, h4, hk, hord⟩ := hl.good g
    have hlen : s1.addrs.length = s.addrs.length + 1 := by
      rw [h4, h3]; simp only [List.length_append, List.length_cons]; omega
    have hsplit : keysAt t s.addrs = keysAt t A ++ keysAt t B := by rw [h3, keysAt_append]
    have hB : keysAt t B = [] := by
      cases hb : keysAt t B with
      | nil => rfl
      | cons x xs =>
        have h5 := (hord hw).2 x (by rw [hb]; simp)
        have h6 : t.comparator_ k x = false :=
          (List.pairwise_append.1 hp).2.2 x (by rw [hsplit, hb]; simp) k (by simp)
        rw [h5] at h6
        cases h6
    have hk1 : keysAt t1' s1.addrs = keysAt t s.addrs ++ [k] := by
      rw [hk, hsplit, hB]; simp
    obtain ⟨s', g', e'⟩ := ih g1 (hl.cmp ▸ hw) (by rw [hlen]; omega)
      (by rw [hk1, hl.cmp]; simpa using hp) h2
    exact ⟨s', g', by rw [e', hk1]; simp⟩

theorem present_iff_absent {t : RBTree Key} {s : Shape} {k : Key} :
    Present t s k ↔ absent t.comparator_ (keysAt t s.addrs) k = false := by
  unfold Present absent Equiv
  constructor
  · rintro ⟨e, he, h1, h2⟩
    rw [Bool.eq_false_iff]
    intro hall
    have := List.all_eq_true.1 hall e he
    simp [h1, h2] at this
  · intro h
    rw [Bool.eq_false_iff] at h
    by_contra hc
    apply h
    rw [List.all_eq_true]
    intro e he
    by_contra h3
    apply hc
    refine ⟨e, he, ?_, ?_⟩
    · cases h4 : t.comparator_ k e with
      | false => rfl
      | true => simp [h4] at h3
    · cases h4 : t.comparator_ e k with
      | false => rfl
      | true => simp [h4] at h3

theorem absent_perm {lt : Key → Key → Bool} {A B : List Key} (h : A.Perm B) (k : Key) :
    absent lt A k = absent lt B k := by
  unfold absent
  rw [Bool.eq_iff_iff, List.all_eq_true, List.all_eq_true]
  exact ⟨fun h1 e he => h1 e (h.mem_iff.2 he), fun h1 e he => h1 e (h.mem_iff.1 he)⟩

/-- Inserting, in unique mode, a strictly increasing sequence into a tree with a strictly
increasing in-order sequence keeps it strictly increasing and adds exactly the keys without an
equivalent element in the tree. -/
theorem run_inserts_unique {fuel : Nat} (ks : List Key) :
    ∀ {t t' : RBTree Key} {s : Shape}, Good t s → StrictWeak t.comparator_ →
      3 * (s.addrs.length + ks.length) + 1 ≤ fuel → StrictAt t s.addrs →
      ks.Pairwise (fun a b => t.comparator_ a b = true) →
      t.run fuel (ks.map (Op.ofKey true)) = some t' →
      ∃ s', Good t' s' ∧ StrictAt t' s'.addrs ∧
        (keysAt t' s'.addrs).Perm
          (keysAt t s.addrs ++ ks.filter (absent t.comparator_ (keysAt t s.addrs))) := by
  induction ks with
  | nil =>
    intro t t' s g _ _ hst _ h
    simp only [List.map_nil, RBTree.run, Option.some.injEq] at h
    subst h
    exact ⟨s, g, hst, by simp⟩
  | cons k ks ih =>
    intro t t' s g hw hf hst hp h
    simp only [List.map_cons, RBTree.run, apply_ofKey, Option.bind_eq_some,
      Option.map_eq_some'] at h
    obtain ⟨t1, ⟨r, hr, rfl⟩, h2⟩ := h
    simp only [List.length_cons] at hf
    obtain ⟨hk1, hks⟩ := List.pairwise_cons.1 hp
    rcases insert_outcome g hw (show 3 * t.size_ + 1 ≤ fuel by rw [g.wf.size]; omega) k true
      with ⟨-, hpr, e⟩ | ⟨hn, t1', e, hl⟩
    · rw [e] at hr
      simp only [Option.some.injEq] at hr
      subst hr
      have g1 : Good { t with fresh := t.fresh + 1 } s := ⟨g.wf.bump, g.black, g.sorted⟩
      obtain ⟨s', g', hst', e'⟩ := ih g1 hw (by omega) hst hks h2
      refine ⟨s', g', hst', ?_⟩
      have hab : absent t.comparator_ (keysAt t s.addrs) k = false := present_iff_absent.1 hpr
      rw [List.filter_cons, hab]
      exact e'
    · rw [e] at hr
      simp only [Option.some.injEq] at hr
      subst hr
      have hnp : ¬ Present t s k := fun hp' => hn ⟨rfl, hp'⟩
      obtain ⟨s1, A, B, g1, h3, h4, hk, hord⟩ := hl.good g
      have hlen : s1.addrs.length = s.addrs.length + 1 := by
        rw [h4, h3]; simp only [List.length_append, List.length_cons]; omega
      have hsplit : keysAt t s.addrs = keysAt t A ++ keysAt t B := by rw [h3, keysAt_append]
      have hst1 : StrictAt t1' s1.addrs := by
        unfold StrictAt at hst ⊢
        rw [hk, hl.cmp]
        rw [hsplit] at hst
        refine pairwise_insert hst (fun a ha => ?_) (fun b hb => (hord hw).2 b hb)
        by_contra hc
        apply hnp
        exact ⟨a, by rw [hsplit]; simp [ha], (hord hw).1 a ha, by simpa using hc⟩
      obtain ⟨s', g', hst', e'⟩ := ih g1 (hl.cmp ▸ hw) (by rw [hlen]; omega) hst1
        (by rw [hl.cmp]; exact hks) h2
      refine ⟨s', g', hst', e'.trans ?_⟩
      have hab : absent t.comparator_ (keysAt t s.addrs) k = true := by
        cases h5 : absent t.comparator_ (keysAt t s.addrs) k with
        | true => rfl
        | false => exact absurd (present_iff_absent.2 h5) hnp
      have hperm1 : (keysAt t1' s1.addrs).Perm (k :: keysAt t s.addrs) := by
        rw [hk, hsplit]; exact List.perm_middle
      have hfil : ks.filter (absent t1'.comparator_ (keysAt t1' s1.addrs)) =
          ks.filter (absent t.comparator_ (keysAt t s.addrs)) := by
        apply List.filter_congr
        intro x hx
        rw [hl.cmp, absent_perm hperm1 x]
        have hkx := hk1 x hx
        simp [absent, hkx]
      rw [hfil, List.filter_cons, hab, if_pos rfl]
      exact (List.Perm.append_right _ hperm1).trans (by
        simp only [List.cons_append]
        exact List.perm_middle.symm)

theorem UniqueReachable.is_strict {cmp : Key → Key → Bool} {t : RBTree Key}
    (h : UniqueReachable cmp t) (hw : StrictWeak cmp) :
    ∃ s, Good t s ∧ t.comparator_ = cmp ∧ StrictAt t s.addrs := by
  obtain ⟨fuel, ops, hf, hu, hr⟩ := h
  obtain ⟨s, g, c, hst⟩ := run_empty_good hf hr
  exact ⟨s, g, c, hst hw hu⟩

/-- The copy constructor on a non-empty tree built by the public calls, under a strict weak
order: it returns a tree with the same `size()` and the same in-order sequence. -/
theorem copy_spec (cmp : Key → Key → Bool) (hw : StrictWeak cmp) (t : RBTree Key)
    (hr : Reachable cmp t) (hne : t.root_ ≠ none) (fuel : Nat) (hf : 3 * t.size_ + 1 ≤ fuel) :
    ∃ t' keys, RBTree.copy cmp t fuel = some t' ∧ t.inorder t.size_ t.root_ = some keys ∧
      t'.inorder t'.size_ t'.root_ = some keys ∧ t'.size = t.size := by
  obtain ⟨s, g, c⟩ := hr.is_good
  have hs := g.ne_nil hne
  have hsz := g.wf.size
  have hkl := g.keys_length
  obtain ⟨first, hb, heq⟩ := insertRange_begin g hs (show s.addrs.length ≤ fuel by omega) false
    (RBTree.empty cmp)
  obtain ⟨t', s', e, g', -, -⟩ := run_inserts_total false (keysAt t s.addrs) (good_empty cmp)
    (show 3 * ((Shape.nil).addrs.length + (keysAt t s.addrs).length) + 1 ≤ fuel by
      simp only [Shape.addrs, List.length_nil]; omega)
  have hso := g.sorted (c ▸ hw)
  unfold SortedAt at hso
  rw [c] at hso
  obtain ⟨s'', g'', hk⟩ := run_inserts_sorted (keysAt t s.addrs) (good_empty cmp)
    (show StrictWeak (RBTree.empty cmp).comparator_ from hw)
    (show 3 * ((Shape.nil).addrs.length + (keysAt t s.addrs).length) + 1 ≤ fuel by
      simp only [Shape.addrs, List.length_nil]; omega)
    (by simpa [keysAt, Shape.addrs, RBTree.empty] using hso) e
  have hk' : keysAt t' s''.addrs = keysAt t s.addrs := by
    rw [hk]; simp [keysAt, Shape.addrs]
  refine ⟨t', keysAt t s.addrs, ?_, g.inorder (le_refl _), ?_, ?_⟩
  · simp only [RBTree.copy, Option.bind_eq_bind, hb, Option.some_bind, heq, e]
  · rw [g''.inorder (le_refl _), hk']
  · have := g''.keys_length
    rw [hk'] at this
    simp only [RBTree.size]
    omega

/-- What `merge` (`unique = false`) and `mergeUnique` (`unique = true`) do on two trees with
the invariants: the call returns, `this` is the result of inserting the in-order sequence of
`other` element by element, and `other` is the empty tree. -/
theorem merge_spec (unique : Bool) {a b : RBTree Key} {sa sb : Shape} (ga : Good a sa)
    (gb : Good b sb) {fuel : Nat}
    (hf : 3 * (sa.addrs.length + sb.addrs.length) + 1 ≤ fuel) :
    ∃ a' b', (cond unique (a.mergeUnique b fuel) (a.merge b fuel)) = some (a', b') ∧
      a.run fuel ((keysAt b sb.addrs).map (Op.ofKey unique)) = some a' ∧
      a'.comparator_ = a.comparator_ ∧ Good b' .nil ∧ b'.size_ = 0 ∧ b'.root_ = none := by
  by_cases hne : sb = .nil
  · subst hne
    have hsz : b.size_ = 0 := gb.wf.size
    refine ⟨a, b, ?_, rfl, rfl, gb, hsz, gb.wf.shaped.root⟩
    cases unique <;> simp [RBTree.merge, RBTree.mergeUnique, RBTree.isEmpty, hsz]
  · have hsz : b.size_ ≠ 0 := by
      rw [gb.wf.size]
      intro h0
      exact Shape.addrs_ne_nil hne (List.length_eq_zero.1 h0)
    have hkl := gb.keys_length
    have hbs := gb.wf.size
    obtain ⟨first, hb, heq⟩ := insertRange_begin gb hne (show sb.addrs.length ≤ fuel by omega)
      unique a
    obtain ⟨a', s', e, -, ca, -⟩ := run_inserts_total unique (keysAt b sb.addrs) ga
      (show 3 * (sa.addrs.length + (keysAt b sb.addrs).length) + 1 ≤ fuel by omega)
    obtain ⟨b', ec, hr, hz, -, -, -, gn⟩ := clear_spec gb.wf
      (show sb.addrs.length ≤ fuel by omega)
    rw [e] at heq
    refine ⟨a', b', ?_, e, ca, gn, hz, hr⟩
    cases unique <;>
      simp [RBTree.merge, RBTree.mergeUnique, RBTree.isEmpty, hsz, hb, heq, ec]

/-- `CopyTree` on a linked subtree of `other` returns: it allocates one node per node of the
subtree, changes no other cell and no member of `this`, and every new node has the parent
link `fake_node`. -/
theorem CopyTree_spec {other : RBTree Key} (fake_node : Ptr) :
    ∀ (s : Shape) {par : Ptr} (this : RBTree Key) {fuel : Nat}, Rep other.mem par s →
      s.height ≤ fuel → (∀ x, this.fresh ≤ x → this.mem x = none) →
      ∃ t' r, other.CopyTree fake_node fuel this s.root = some (t', r) ∧
        t'.size_ = this.size_ ∧ t'.fresh = this.fresh + s.addrs.length ∧
        (∀ x, x < this.fresh → t'.mem x = this.mem x) ∧
        (∀ x, this.fresh ≤ x → x < t'.fresh → ∃ n, t'.mem x = some n ∧ n.parent_ = fake_node) ∧
        (∀ x, t'.fresh ≤ x → t'.mem x = none) := by
  intro s
  induction s with
  | nil =>
    intro par this fuel _ _ hun
    refine ⟨this, none, by cases fuel <;> rfl, rfl, by simp [Shape.addrs], fun _ _ => rfl,
      fun x h1 h2 => by omega, hun⟩
  | node l a r ihl ihr =>
    intro par this fuel hr hf hun
    obtain ⟨n, hn, -, hl, hr', hL, hR⟩ := hr
    obtain ⟨k, rfl⟩ : ∃ k, fuel = k + 1 := ⟨fuel - 1, by simp [Shape.height] at hf; omega⟩
    simp only [Shape.height, Nat.add_le_add_iff_right, max_le_iff] at hf
    have hun0 : ∀ x, (this.alloc n.key_).1.fresh ≤ x → (this.alloc n.key_).1.mem x = none := by
      intro x hx
      have hx' : this.fresh + 1 ≤ x := hx
      have : x ≠ this.fresh := by omega
      simpa [RBTree.alloc, this] using hun x (by omega)
    obtain ⟨t1, rl, e1, z1, f1, m1, p1, u1⟩ := ihl (this.alloc n.key_).1 hL hf.1 hun0
    have f1' : t1.fresh = this.fresh + 1 + l.addrs.length := f1
    have hc1 : t1.mem this.fresh = some
        { parent_ := none, left_ := none, right_ := none, red_ := true, key_ := n.key_ } := by
      rw [m1 this.fresh (show this.fresh < this.fresh + 1 by omega)]
      simp [RBTree.alloc]
    have hun2 : ∀ x, (t1.store this.fresh
        { parent_ := none, left_ := rl, right_ := none, red_ := true, key_ := n.key_ }).fresh ≤ x →
        (t1.store this.fresh
          { parent_ := none, left_ := rl, right_ := none, red_ := true, key_ := n.key_ }).mem x
          = none := by
      intro x hx
      have hx' : t1.fresh ≤ x := hx
      have : x ≠ this.fresh := by omega
      simpa [RBTree.store, this] using u1 x hx'
    obtain ⟨t3, rr, e3, z3, f3, m3, p3, u3⟩ := ihr (t1.store this.fresh
      { parent_ := none, left_ := rl, right_ := none, red_ := true, key_ := n.key_ }) hR hf.2 hun2
    have f3' : t3.fresh = this.fresh + 1 + l.addrs.length + r.addrs.length := by
      rw [f3]; show t1.fresh + _ = _; rw [f1']
    have hc3 : t3.mem this.fresh = some
        { parent_ := none, left_ := rl, right_ := none, red_ := true, key_ := n.key_ } := by
      rw [m3 this.fresh (show this.fresh < t1.fresh by omega)]
      simp [RBTree.store]
    refine ⟨t3.store this.fresh
      { parent_ := fake_node, left_ := rl, right_ := rr, red_ := n.red_, key_ := n.key_ },
      some this.fresh, ?_, z3.trans z1, ?_, fun x hx => ?_, fun x h1 h2 => ?_, fun x hx => ?_⟩
    · have hroot : (Shape.node l a r).root = some a := rfl
      have ha : (this.alloc n.key_).2 = some this.fresh := rfl
      have s1 : t1.setLeft (some this.fresh) rl = some (t1.store this.fresh
          { parent_ := none, left_ := rl, right_ := none, red_ := true, key_ := n.key_ }) := by
        simp [RBTree.setLeft, hc1]
      have s2 : t3.setRight (some this.fresh) rr = some (t3.store this.fresh
          { parent_ := none, left_ := rl, right_ := rr, red_ := true, key_ := n.key_ }) := by
        simp [RBTree.setRight, hc3]
      have s3 : (t3.store this.fresh
          { parent_ := none, left_ := rl, right_ := rr, red_ := true, key_ := n.key_ }).setParent
            (some this.fresh) fake_node = some (t3.store this.fresh
          { parent_ := fake_node, left_ := rl, right_ := rr, red_ := true, key_ := n.key_ }) := by
        simp only [RBTree.setParent, RBTree.store, if_true, Option.map_some', Option.some.injEq]
        congr 1
        funext x
        by_cases hx : x = this.fresh <;> simp [hx]
      have s4 : (t3.store this.fresh
          { parent_ := fake_node, left_ := rl, right_ := rr, red_ := true, key_ := n.key_ }).setRed
            (some this.fresh) n.red_ = some (t3.store this.fresh
          { parent_ := fake_node, left_ := rl, right_ := rr, red_ := n.red_, key_ := n.key_ }) := by
        simp only [RBTree.setRed, RBTree.store, if_true, Option.map_some', Option.some.injEq]
        congr 1
        funext x
        by_cases hx : x = this.fresh <;> simp [hx]
      rw [hroot]
      simp only [RBTree.CopyTree, Option.bind_eq_bind, read_key hn, read_left hn,
        read_right hn, read_red hn, Option.some_bind, hl, hr', e1, ha, s1, e3, s2, s3, s4]
    · show t3.fresh = _
      rw [f3']
      simp only [Shape.addrs, List.length_append, List.length_cons]
      omega
    · have hne : x ≠ this.fresh := by omega
      show (if x = this.fresh then _ else t3.mem x) = _
      rw [if_neg hne, m3 x (show x < t1.fresh by omega)]
      show (if x = this.fresh then _ else t1.mem x) = _
      rw [if_neg hne, m1 x (show x < this.fresh + 1 by omega)]
      simp [RBTree.alloc, hne]
    · have h2' : x < t3.fresh := h2
      by_cases hx : x = this.fresh
      · subst hx
        simp only [RBTree.store, if_true]
        exact ⟨_, rfl, rfl⟩
      · show ∃ n, (if x = this.fresh then _ else t3.mem x) = some n ∧ _
        rw [if_neg hx]
        by_cases hx1 : x < t1.fresh
        · rw [m3 x hx1]
          show ∃ n, (if x = this.fresh then _ else t1.mem x) = some n ∧ _
          rw [if_neg hx]
          exact p1 x (show this.fresh + 1 ≤ x by omega) hx1
        · exact p3 x (show t1.fresh ≤ x by omega) h2'
    · have hx' : t3.fresh ≤ x := hx
      have hne : x ≠ this.fresh := by omega
      simp only [RBTree.store, if_neg hne]
      exact u3 x hx'

/-- Copy assignment between two trees with the invariants returns; `size()` of the
destination keeps its former value, and every node of the destination has the parent link
`fake_node`. -/
theorem copyAssign_spec {a b : RBTree Key} {sa sb : Shape} (ga : Good a sa) (gb : Good b sb)
    {fuel : Nat} (hf : a.size_ + b.size_ ≤ fuel) (fake_node : Ptr) :
    ∃ a', a.copyAssign b fuel fake_node = some a' ∧ a'.size_ = a.size_ ∧
      ∀ x n, a'.mem x = some n → n.parent_ = fake_node := by
  obtain ⟨t1, e1, -, z1, f1, -, m1⟩ := deleteSubtree_spec ga.wf
    (show sa.addrs.length ≤ fuel by rw [← ga.wf.size]; omega)
  obtain ⟨t', r, e2, z2, f2, m2, p2, u2⟩ := CopyTree_spec fake_node sb t1 gb.wf.shaped.rep
    (show sb.height ≤ fuel by have := gb.wf.height_le; omega) (fun x _ => m1 x)
  rw [← gb.wf.shaped.root] at e2
  refine ⟨{ t' with root_ := r, comparator_ := b.comparator_ }, ?_, z2.trans z1,
    fun x n hx => ?_⟩
  · simp only [RBTree.copyAssign, Option.bind_eq_bind, e1, Option.some_bind, e2]
  · have hx' : t'.mem x = some n := hx
    by_cases h1 : x < t1.fresh
    · rw [m2 x h1, m1 x] at hx'
      cases hx'
    · by_cases h2 : x < t'.fresh
      · obtain ⟨n', hn', hp⟩ := p2 x (by omega) h2
        rw [hn'] at hx'
        cases hx'
        exact hp
      · rw [u2 x (by omega)] at hx'
        cases hx'

/-- C21: the copy constructor on the empty tree has no defined result, whatever the fuel: its
loop over `other` starts with `other.begin()`, which is `findMinNode(root_)` and reads `left_`
of the null root. The claim asks for an empty copy. -/
theorem C21_copy_of_empty_tree_undefined (cmp : Key → Key → Bool) (fuel : Nat) :
    RBTree.copy cmp (RBTree.empty cmp) fuel = none := by
  cases fuel <;> rfl

/-- C22: copy assignment `a = b` of a tree `b` with the four elements 2, 3, 4, 1 to a tree `a`
with the two elements 2, 3 (the shapes of the repository test `Modifier_Insert`), where
`some 100` stands for the address of the member `fake_node_` of `a`: the call returns, the keys
and the child links are those of `b`, but `size()` of `a` is still 2 while `b.size()` is 4, and
the parent link of the left child of the root (as of every node) is the address of `fake_node_`
and not the root, whereas in `b` it is the root. -/
theorem C22_copy_assign_keeps_size_and_fake_parents :
    ∃ a b a', (RBTree.empty natLess).run 20 [.insertUnique 2, .insertUnique 3] = some a ∧
      (RBTree.empty natLess).run 20
        [.insertUnique 2, .insertUnique 3, .insertUnique 4, .insertUnique 1] = some b ∧
      a.copyAssign b 20 (some 100) = some a' ∧
      b.size = 4 ∧ a'.size = 2 ∧ a'.inorder 4 a'.root_ = some [1, 2, 3, 4] ∧
      a'.root_ = some 2 ∧ a'.left (some 2) = some (some 3) ∧
      a'.parent (some 3) = some (some 100) ∧
      b.root_ = some 1 ∧ b.left (some 1) = some (some 0) ∧
      b.parent (some 0) = some (some 1) := by
  have hsome : (((RBTree.empty natLess).run 20 [.insertUnique 2, .insertUnique 3]).bind
      fun a => ((RBTree.empty natLess).run 20
        [.insertUnique 2, .insertUnique 3, .insertUnique 4, .insertUnique 1]).bind
      fun b => (a.copyAssign b 20 (some 100)).bind
      fun a' => if b.size = 4 ∧ a'.size = 2 ∧ a'.inorder 4 a'.root_ = some [1, 2, 3, 4] ∧
          a'.root_ = some 2 ∧ a'.left (some 2) = some (some 3) ∧
          a'.parent (some 3) = some (some 100) ∧
          b.root_ = some 1 ∧ b.left (some 1) = some (some 0) ∧
          b.parent (some 0) = some (some 1) then some (a, b, a') else none).isSome
      = true := by decide!
  obtain ⟨r, hr⟩ := Option.isSome_iff_exists.1 hsome
  obtain ⟨a, ha, h1⟩ := Option.bind_eq_some.1 hr
  obtain ⟨b, hb, h2⟩ := Option.bind_eq_some.1 h1
  obtain ⟨a', ha', h3⟩ := Option.bind_eq_some.1 h2
  split at h3
  · rename_i hc
    exact ⟨a, b, a', ha, hb, ha', hc⟩
  · cases h3

/-- C23: the move constructor from any tree `s` gives a tree with the root, the nodes, the
size and the comparator of `s` (so with its in-order sequence and `size()`), and leaves `s`
empty; move assignment to a tree `this` built by the public calls returns and does the same. -/
theorem C23_move_transfers (cmp : Key → Key → Bool) (this s : RBTree Key)
    (hr : Reachable cmp this) (fuel : Nat) (hf : this.size_ ≤ fuel) :
    ((RBTree.move cmp s).1 = s ∧ (RBTree.move cmp s).2.size = 0 ∧
      (RBTree.move cmp s).2.isEmpty = true ∧ (RBTree.move cmp s).2.root_ = none) ∧
    ∃ d s', RBTree.moveAssign cmp this s fuel = some (d, s') ∧ d = s ∧ d.size = s.size ∧
      (∀ f, d.inorder f d.root_ = s.inorder f s.root_) ∧
      s'.size = 0 ∧ s'.isEmpty = true ∧ s'.root_ = none := by
  refine ⟨⟨rfl, rfl, rfl, rfl⟩, ?_⟩
  obtain ⟨st, g, -⟩ := hr.is_good
  obtain ⟨t1, e, -⟩ := deleteSubtree_spec g.wf (show st.addrs.length ≤ fuel by
    rw [← g.wf.size]; exact hf)
  refine ⟨s, (RBTree.move cmp s).2, ?_, rfl, rfl, fun _ => rfl, rfl, rfl, rfl⟩
  simp only [RBTree.moveAssign, Option.bind_eq_bind, e, Option.some_bind, RBTree.move]

theorem C23_move_transfers_witness :
    ∃ this s, (RBTree.empty natLess).run 20 [.insert 3, .insert 1] = some this ∧
      (RBTree.empty natLess).run 20 [.insert 5, .insert 4, .insert 5] = some s ∧
      (((RBTree.move natLess s).1 = s ∧ (RBTree.move natLess s).2.size = 0 ∧
        (RBTree.move natLess s).2.isEmpty = true ∧ (RBTree.move natLess s).2.root_ = none) ∧
      ∃ d s', RBTree.moveAssign natLess this s 20 = some (d, s') ∧ d = s ∧ d.size = s.size ∧
        (∀ f, d.inorder f d.root_ = s.inorder f s.root_) ∧
        s'.size = 0 ∧ s'.isEmpty = true ∧ s'.root_ = none) := by
  have h1 : ((RBTree.empty natLess).run 20 [.insert 3, .insert 1]).isSome = true := by decide!
  have h2 : ((RBTree.empty natLess).run 20 [.insert 5, .insert 4, .insert 5]).isSome = true := by
    decide!
  obtain ⟨this, ht⟩ := Option.isSome_iff_exists.1 h1
  obtain ⟨s, hs⟩ := Option.isSome_iff_exists.1 h2
  have hsz := Reachable.size_le (by decide) ht
  simp only [List.length_cons, List.length_nil] at hsz
  exact ⟨this, s, ht, hs, C23_move_transfers natLess this s ⟨20, _, by decide, ht⟩ 20
    (by omega)⟩

/-- C24: for all trees `a` and `b` (either may be empty), `RBTree::swap` leaves in `a` the
former `b` and in `b` the former `a` (root, nodes, size, comparator, hence in-order sequence
and `size()`), and so does the `swap` of `Set`, `MultiSet` and `Map`, which goes through the
move constructor and two move assignments and returns for every fuel; swapping twice restores
both. -/
theorem C24_swap_exchanges (cmp : Key → Key → Bool) (a b : RBTree Key) (fuel : Nat) :
    RBTree.swap a b = (b, a) ∧ Set.swap cmp a b fuel = some (b, a) ∧
      RBTree.swap (RBTree.swap a b).1 (RBTree.swap a b).2 = (a, b) ∧
      ((Set.swap cmp a b fuel).bind fun r => Set.swap cmp r.1 r.2 fuel) = some (a, b) := by
  have h : ∀ x y : RBTree Key, Set.swap cmp x y fuel = some (y, x) := fun x y => by
    simp [Set.swap, RBTree.move, RBTree.moveAssign, RBTree.deleteSubtree, RBTree.clear]
  exact ⟨rfl, h a b, rfl, by rw [h a b, Option.some_bind, h b a]⟩

/-- C25: for two trees `a` and `b` built by `insertUnique` and `erase` calls (the trees of two
Sets or Maps), under a strict weak order, `mergeUnique` returns; afterwards `b` is empty, and
the in-order sequence of `a` is strictly increasing and is a rearrangement of the former
elements of `a` followed by the former elements of `b` that had no equivalent element in `a`;
`size()` of `a` is its length, and it is the sum of the two sizes when no element of `b` is
equivalent to an element of `a`. -/
theorem C25_merge_unique (cmp : Key → Key → Bool) (hw : StrictWeak cmp) (a b : RBTree Key)
    (ha : UniqueReachable cmp a) (hb : UniqueReachable cmp b) (fuel : Nat)
    (hf : 3 * (a.size_ + b.size_) + 1 ≤ fuel) :
    ∃ a' b' ka kb k', a.inorder a.size_ a.root_ = some ka ∧
      b.inorder b.size_ b.root_ = some kb ∧
      a.mergeUnique b fuel = some (a', b') ∧
      b'.size = 0 ∧ b'.isEmpty = true ∧ b'.inorder b'.size_ b'.root_ = some [] ∧
      a'.inorder a'.size_ a'.root_ = some k' ∧ a'.size = k'.length ∧
      k'.Pairwise (fun x y => cmp x y = true) ∧
      k'.Perm (ka ++ kb.filter (absent cmp ka)) ∧
      ((∀ x ∈ ka, ∀ y ∈ kb, ¬ Equiv cmp y x) → a'.size = a.size + b.size) := by
  obtain ⟨sa, ga, ca, hsa⟩ := ha.is_strict hw
  obtain ⟨sb, gb, cb, hsb⟩ := hb.is_strict hw
  have hfa : 3 * (sa.addrs.length + sb.addrs.length) + 1 ≤ fuel := by
    rw [← ga.wf.size, ← gb.wf.size]; exact hf
  obtain ⟨a', b', e, hrun, ca', gn, hz, hr⟩ := merge_spec true ga gb hfa
  have hfk : 3 * (sa.addrs.length + (keysAt b sb.addrs).length) + 1 ≤ fuel := by
    rw [gb.keys_length, ← ga.wf.size]; exact hf
  unfold StrictAt at hsb
  obtain ⟨s', g', hst', hp⟩ := run_inserts_unique (keysAt b sb.addrs) ga (ca ▸ hw) hfk hsa
    (by rw [ca, ← cb]; exact hsb) hrun
  unfold StrictAt at hst'
  rw [ca', ca] at hst'
  rw [ca] at hp
  have hlen := g'.keys_length
  refine ⟨a', b', keysAt a sa.addrs, keysAt b sb.addrs, keysAt a' s'.addrs,
    ga.inorder (le_refl _), gb.inorder (le_refl _), e, hz, by simp [RBTree.isEmpty, hz],
    by rw [hr, hz]; rfl, g'.inorder (le_refl _), hlen.symm, hst', hp, fun hd => ?_⟩
  have hfil : (keysAt b sb.addrs).filter (absent cmp (keysAt a sa.addrs)) = keysAt b sb.addrs := by
    rw [List.filter_eq_self]
    intro y hy
    cases h5 : absent cmp (keysAt a sa.addrs) y with
    | true => rfl
    | false =>
      obtain ⟨x, hx, heq⟩ := (present_iff_absent (t := a) (s := sa)).2 (by rw [ca]; exact h5)
      rw [ca] at heq
      exact absurd heq (hd x hx y hy)
  have := hp.length_eq
  rw [hfil, List.length_append, hlen, ga.keys_length, gb.keys_length] at this
  exact this

theorem C25_merge_unique_witness :
    ∃ a b, (RBTree.empty natLess).run 20 [.insertUnique 1, .insertUnique 3] = some a ∧
      (RBTree.empty natLess).run 20 [.insertUnique 2, .insertUnique 3] = some b ∧
      ∃ a' b' ka kb k', a.inorder a.size_ a.root_ = some ka ∧
        b.inorder b.size_ b.root_ = some kb ∧
        a.mergeUnique b 20 = some (a', b') ∧
        b'.size = 0 ∧ b'.isEmpty = true ∧ b'.inorder b'.size_ b'.root_ = some [] ∧
        a'.inorder a'.size_ a'.root_ = some k' ∧ a'.size = k'.length ∧
        k'.Pairwise (fun x y => natLess x y = true) ∧
        k'.Perm (ka ++ kb.filter (absent natLess ka)) ∧
        ((∀ x ∈ ka, ∀ y ∈ kb, ¬ Equiv natLess y x) → a'.size = a.size + b.size) := by
  have h1 : ((RBTree.empty natLess).run 20 [.insertUnique 1, .insertUnique 3]).isSome = true := by
    decide!
  have h2 : ((RBTree.empty natLess).run 20 [.insertUnique 2, .insertUnique 3]).isSome = true := by
    decide!
  obtain ⟨a, ha⟩ := Option.isSome_iff_exists.1 h1
  obtain ⟨b, hb⟩ := Option.isSome_iff_exists.1 h2
  have hsa := Reachable.size_le (by decide) ha
  have hsb := Reachable.size_le (by decide) hb
  simp only [List.length_cons, List.length_nil] at hsa hsb
  exact ⟨a, b, ha, hb, C25_merge_unique natLess natLess_strictWeak a b
    ⟨20, _, by decide, by decide, ha⟩ ⟨20, _, by decide, by decide, hb⟩ 20 (by omega)⟩

/-- C26: for two trees `a` and `b` built by the public calls (the trees of two MultiSets),
under a strict weak order, `merge` returns; afterwards `b` is empty, `size()` of `a` is the sum
of the two sizes, and the in-order sequence of `a` is sorted and is a rearrangement of the
former elements of `a` and of `b`, every duplicate kept. -/
theorem C26_merge_multi (cmp : Key → Key → Bool) (hw : StrictWeak cmp) (a b : RBTree Key)
    (ha : Reachable cmp a) (hb : Reachable cmp b) (fuel : Nat)
    (hf : 3 * (a.size_ + b.size_) + 1 ≤ fuel) :
    ∃ a' b' ka kb k', a.inorder a.size_ a.root_ = some ka ∧
      b.inorder b.size_ b.root_ = some kb ∧
      a.merge b fuel = some (a', b') ∧
      b'.size = 0 ∧ b'.isEmpty = true ∧ b'.inorder b'.size_ b'.root_ = some [] ∧
      a'.size = a.size + b.size ∧
      a'.inorder a'.size_ a'.root_ = some k' ∧ k'.Perm (ka ++ kb) ∧
      k'.Pairwise (fun x y => cmp y x = false) := by
  obtain ⟨sa, ga, ca⟩ := ha.is_good
  obtain ⟨sb, gb, cb⟩ := hb.is_good
  have hfa : 3 * (sa.addrs.length + sb.addrs.length) + 1 ≤ fuel := by
    rw [← ga.wf.size, ← gb.wf.size]; exact hf
  obtain ⟨a', b', e, hrun, ca', gn, hz, hr⟩ := merge_spec false ga gb hfa
  have hfk : 3 * (sa.addrs.length + (keysAt b sb.addrs).length) + 1 ≤ fuel := by
    rw [gb.keys_length, ← ga.wf.size]; exact hf
  have hfun : (Op.ofKey false : Key → Op Key) = Op.insert := funext fun _ => rfl
  rw [hfun] at hrun
  obtain ⟨s', g', hp⟩ := inserts_perm (keysAt b sb.addrs) ga hfk hrun
  have hlen := g'.keys_length
  have hso := g'.sorted (by rw [ca', ca]; exact hw)
  unfold SortedAt at hso
  rw [ca', ca] at hso
  refine ⟨a', b', keysAt a sa.addrs, keysAt b sb.addrs, keysAt a' s'.addrs,
    ga.inorder (le_refl _), gb.inorder (le_refl _), e, hz, by simp [RBTree.isEmpty, hz],
    by rw [hr, hz]; rfl, ?_, g'.inorder (le_refl _), hp.trans List.perm_append_comm, hso⟩
  have := hp.length_eq
  rw [List.length_append, hlen, ga.keys_length, gb.keys_length] at this
  simp only [RBTree.size]
  omega

theorem C26_merge_multi_witness :
    ∃ a b, (RBTree.empty natLess).run 20 [.insert 1, .insert 3, .insert 1] = some a ∧
      (RBTree.empty natLess).run 20 [.insert 3, .insert 2] = some b ∧
      ∃ a' b' ka kb k', a.inorder a.size_ a.root_ = some ka ∧
        b.inorder b.size_ b.root_ = some kb ∧
        a.merge b 20 = some (a', b') ∧
        b'.size = 0 ∧ b'.isEmpty = true ∧ b'.inorder b'.size_ b'.root_ = some [] ∧
        a'.size = a.size + b.size ∧
        a'.inorder a'.size_ a'.root_ = some k' ∧ k'.Perm (ka ++ kb) ∧
        k'.Pairwise (fun x y => natLess y x = false) := by
  have h1 : ((RBTree.empty natLess).run 20 [.insert 1, .insert 3, .insert 1]).isSome = true := by
    decide!
  have h2 : ((RBTree.empty natLess).run 20 [.insert 3, .insert 2]).isSome = true := by
    decide!
  obtain ⟨a, ha⟩ := Option.isSome_iff_exists.1 h1
  obtain ⟨b, hb⟩ := Option.isSome_iff_exists.1 h2
  have hsa := Reachable.size_le (by decide) ha
  have hsb := Reachable.size_le (by decide) hb
  simp only [List.length_cons, List.length_nil] at hsa hsb
  exact ⟨a, b, ha, hb, C26_merge_multi natLess natLess_strictWeak a b
    ⟨20, _, by decide, ha⟩ ⟨20, _, by decide, hb⟩ 20 (by omega)⟩

theorem MapComparator_strictWeak {K V : Type} {lt : K → K → Bool} (hw : StrictWeak lt) :
    StrictWeak (MapComparator lt : K × V → K × V → Bool) where
  irrefl := fun a => hw.irrefl a.1
  trans := fun a b c => hw.trans a.1 b.1 c.1
  negTrans := fun a b c => hw.negTrans a.1 b.1 c.1

theorem keysAt_store_fst {K V : Type} {m : RBTree (K × V)} {a : Nat} {n : RBTNode (K × V)}
    (hn : m.mem a = some n) (obj : V) (A : List Nat) :
    (keysAt (m.store a { n with key_ := (n.key_.1, obj) }) A).map Prod.fst =
      (keysAt m A).map Prod.fst := by
  induction A with
  | nil => rfl
  | cons x A ih =>
    by_cases hx : x = a
    · subst hx
      rw [keysAt_cons hn, keysAt_cons (t := m.store x { n with key_ := (n.key_.1, obj) })
        (n := { n with key_ := (n.key_.1, obj) }) (by simp [RBTree.store])]
      simp [ih]
    · cases hm : m.mem x with
      | none =>
        have h1 : keysAt m (x :: A) = keysAt m A := by simp [keysAt, hm]
        have h2 : keysAt (m.store a { n with key_ := (n.key_.1, obj) }) (x :: A) =
            keysAt (m.store a { n with key_ := (n.key_.1, obj) }) A := by
          simp [keysAt, RBTree.store, hx, hm]
        rw [h1, h2, ih]
      | some c =>
        rw [keysAt_cons hm, keysAt_cons (t := m.store a { n with key_ := (n.key_.1, obj) })
          (n := c) (by simp [RBTree.store, hx, hm])]
        simp [ih]

/-- The assignment `it->second = obj` at a node of a map changes the value stored there and
nothing else; the invariants are kept. -/
theorem assignSecond_good {K V : Type} {lt : K → K → Bool} {m : RBTree (K × V)} {s : Shape}
    (g : Good m s) (hc : m.comparator_ = MapComparator lt) {a : Nat} {n : RBTNode (K × V)}
    (hn : m.mem a = some n) (obj : V) :
    ∃ m', m.assignSecond (some a) obj = some m' ∧ Good m' s ∧
      m'.comparator_ = m.comparator_ ∧ m'.size_ = m.size_ ∧ m'.root_ = m.root_ ∧
      m'.key (some a) = some (n.key_.1, obj) ∧
      (StrictAt m s.addrs → StrictAt m' s.addrs) ∧
      ∃ A B, s.addrs = A ++ a :: B ∧ keysAt m s.addrs = keysAt m A ++ n.key_ :: keysAt m B ∧
        keysAt m' s.addrs = keysAt m A ++ (n.key_.1, obj) :: keysAt m B := by
  have ha : a ∈ s.addrs := g.wf.live a n hn
  refine ⟨m.store a { n with key_ := (n.key_.1, obj) }, by simp [RBTree.assignSecond, hn],
    ⟨⟨⟨g.wf.shaped.root, rep_of_sameLinks (fun b _ => ?_) g.wf.shaped.rep, g.wf.shaped.nodup⟩,
      fun x hx => ?_, fun x c hx => ?_, g.wf.size⟩, fun r hr => ?_, fun hw => ?_⟩,
    rfl, rfl, rfl, by simp [RBTree.key, RBTree.deref, RBTree.store], fun hst => ?_, ?_⟩
  · unfold SameLinks
    by_cases hb : b = a
    · subst hb; simp [RBTree.store, hn, RBTNode.links]
    · simp [RBTree.store, hb]
  · have hlt := g.wf.lt_fresh ha
    have hxa : x ≠ a := by
      have : m.fresh ≤ x := hx
      omega
    simpa [RBTree.store, hxa] using g.wf.unused x hx
  · by_cases hxa : x = a
    · subst hxa; exact ha
    · exact g.wf.live x c (by simpa [RBTree.store, hxa] using hx)
  · have := g.black r hr
    by_cases hra : r = a
    · subst hra
      simpa [RBTree.red, RBTree.deref, RBTree.store, hn] using this
    · simpa [RBTree.red, RBTree.deref, RBTree.store, hra] using this
  · have hso := g.sorted hw
    unfold SortedAt at hso ⊢
    have hcm : (m.store a { n with key_ := (n.key_.1, obj) }).comparator_ = MapComparator lt :=
      hc
    rw [hcm]
    rw [hc] at hso
    have h1 := (List.pairwise_map (f := Prod.fst) (R := fun x y => lt y x = false)).2 hso
    rw [← keysAt_store_fst hn obj] at h1
    exact (List.pairwise_map (f := Prod.fst) (R := fun x y => lt y x = false)).1 h1
  · unfold StrictAt at hst ⊢
    have hcm : (m.store a { n with key_ := (n.key_.1, obj) }).comparator_ = MapComparator lt :=
      hc
    rw [hcm]
    rw [hc] at hst
    have h1 := (List.pairwise_map (f := Prod.fst) (R := fun x y => lt x y = true)).2 hst
    rw [← keysAt_store_fst hn obj] at h1
    exact (List.pairwise_map (f := Prod.fst) (R := fun x y => lt x y = true)).1 h1
  · obtain ⟨A, B, hAB⟩ := List.append_of_mem ha
    have hnd := g.wf.shaped.nodup
    rw [hAB] at hnd
    have haA : a ∉ A := fun h => (List.nodup_append.1 hnd).2.2 h (by simp)
    have haB : a ∉ B := (List.nodup_cons.1 (List.nodup_append.1 hnd).2.1).1
    refine ⟨A, B, hAB, by rw [hAB, keysAt_append, keysAt_cons hn], ?_⟩
    rw [hAB, keysAt_append, keysAt_cons (t := m.store a { n with key_ := (n.key_.1, obj) })
      (n := { n with key_ := (n.key_.1, obj) }) (by simp [RBTree.store])]
    rw [keysAt_eq_of_mem (t := m) (A := A) fun x hx => by
        have : x ≠ a := fun h => haA (h ▸ hx)
        simp [RBTree.store, this],
      keysAt_eq_of_mem (t := m) (A := B) fun x hx => by
        have : x ≠ a := fun h => haB (h ▸ hx)
        simp [RBTree.store, this]]

/-- An accepted unique-mode insertion into a tree with a strictly increasing in-order
sequence. -/
theorem insert_absent {t : RBTree Key} {s : Shape} (g : Good t s)
    (hw : StrictWeak t.comparator_) {fuel : Nat} (hf : 3 * t.size_ + 1 ≤ fuel) (key : Key)
    (hst : StrictAt t s.addrs) (hn : ¬ Present t s key) :
    ∃ t' s' A B, t.insert fuel key true = some (t', some t.fresh, true) ∧ Good t' s' ∧
      StrictAt t' s'.addrs ∧ t'.comparator_ = t.comparator_ ∧ t'.size_ = t.size_ + 1 ∧
      t'.key (some t.fresh) = some key ∧ s.addrs = A ++ B ∧ s'.addrs = A ++ t.fresh :: B ∧
      keysAt t' s'.addrs = keysAt t A ++ key :: keysAt t B := by
  rcases insert_outcome g hw hf key true with ⟨-, hpr, -⟩ | ⟨-, t', e, hl⟩
  · exact absurd hpr hn
  obtain ⟨s1, A, B, g1, h3, h4, hk, hord⟩ := hl.good g
  have hsplit : keysAt t s.addrs = keysAt t A ++ keysAt t B := by rw [h3, keysAt_append]
  have hst1 : StrictAt t' s1.addrs := by
    unfold StrictAt at hst ⊢
    rw [hk, hl.cmp]
    rw [hsplit] at hst
    refine pairwise_insert hst (fun a ha => ?_) (fun b hb => (hord hw).2 b hb)
    by_contra hc
    apply hn
    exact ⟨a, by rw [hsplit]; simp [ha], (hord hw).1 a ha, by simpa using hc⟩
  refine ⟨t', s1, A, B, e, g1, hst1, hl.cmp, hl.size, ?_, h3, h4, hk⟩
  have := hl.key
  simpa [RBTree.key, RBTree.deref] using this

/-- In a strictly increasing sequence of entries at most one has a key equivalent to `k`. -/
theorem strict_unique {K V : Type} {lt : K → K → Bool} (hw : StrictWeak lt) {k : K} :
    ∀ {l : List (K × V)}, l.Pairwise (fun x y => lt x.1 y.1 = true) →
      ∀ {e e' : K × V}, e ∈ l → e' ∈ l → Equiv lt k e.1 → Equiv lt k e'.1 → e = e' := by
  have hno : ∀ x y : K × V, Equiv lt k x.1 → Equiv lt k y.1 → lt x.1 y.1 = true → False := by
    intro x y hx hy hxy
    rcases hw.negTrans x.1 k y.1 hxy with h | h
    · rw [hx.2] at h; cases h
    · rw [hy.1] at h; cases h
  intro l hl
  induction l with
  | nil => intro e e' he; cases he
  | cons x l ih =>
    obtain ⟨hx, hl'⟩ := List.pairwise_cons.1 hl
    intro e e' he he' h1 h2
    rcases List.mem_cons.1 he with h5 | h5
    · rcases List.mem_cons.1 he' with h6 | h6
      · rw [h5, h6]
      · subst h5
        exact absurd (hx e' h6) (fun h => hno _ _ h1 h2 h)
    · rcases List.mem_cons.1 he' with h6 | h6
      · subst h6
        exact absurd (hx e h5) (fun h => hno _ _ h2 h1 h)
      · exact ih hl' h5 h6 h1 h2

/-- `Map::find` on a map with the invariants. -/
theorem map_find_spec {K V : Type} {lt : K → K → Bool} (hw : StrictWeak lt)
    {m : RBTree (K × V)} {s : Shape} (g : Good m s) (hc : m.comparator_ = MapComparator lt)
    {fuel : Nat} (hf : m.size_ ≤ fuel) (dflt : V) (k : K) :
    ∃ it, Map.find m fuel dflt k = some it ∧
      (∀ a, it = some a → ∃ n, m.mem a = some n ∧ n.key_ ∈ keysAt m s.addrs ∧
        Equiv lt k n.key_.1) ∧
      (it = none ↔ ∀ e ∈ keysAt m s.addrs, ¬ Equiv lt k e.1) := by
  obtain ⟨r, h1, h2, h3, -⟩ := g.find (hc ▸ MapComparator_strictWeak hw) hf (k, dflt)
  refine ⟨r, h1, fun a ha => ?_, ?_⟩
  · obtain ⟨e, he, hm, heq⟩ := h2 a ha
    rw [hc] at heq
    cases hn : m.mem a with
    | none => simp [RBTree.key, RBTree.deref, hn] at he
    | some n =>
      have : n.key_ = e := by simpa [RBTree.key, RBTree.deref, hn] using he
      subst this
      exact ⟨n, rfl, hm, heq⟩
  · rw [h3, hc]
    exact Iff.rfl

/-- `Map::at` on a map with the invariants. -/
theorem map_at_spec {K V : Type} {lt : K → K → Bool} (hw : StrictWeak lt)
    {m : RBTree (K × V)} {s : Shape} (g : Good m s) (hc : m.comparator_ = MapComparator lt)
    {fuel : Nat} (hf : m.size_ ≤ fuel) (dflt : V) (k : K) :
    ∃ r, Map.at m fuel dflt k = some r ∧
      (r = .error .mk ↔ ∀ e ∈ keysAt m s.addrs, ¬ Equiv lt k e.1) ∧
      (∀ v, r = .ok v → ∃ e ∈ keysAt m s.addrs, Equiv lt k e.1 ∧ e.2 = v) := by
  obtain ⟨it, h1, h2, h3⟩ := map_find_spec hw g hc hf dflt k
  cases it with
  | none =>
    refine ⟨.error .mk, by simp [Map.at, h1, RBTree.end_], ⟨fun _ => h3.1 rfl, fun _ => rfl⟩,
      fun v hv => by cases hv⟩
  | some a =>
    obtain ⟨n, hn, hm, heq⟩ := h2 a rfl
    refine ⟨.ok n.key_.2, by simp [Map.at, h1, RBTree.end_, RBTree.key, RBTree.deref, hn],
      ⟨fun h => (by cases h), fun h => absurd heq (h _ hm)⟩, fun v hv => ?_⟩
    simp only [Except.ok.injEq] at hv
    exact ⟨n.key_, hm, heq, hv⟩

/-- `Map::operator[]` on a map with the invariants. -/
theorem map_subscript_spec {K V : Type} {lt : K → K → Bool} (hw : StrictWeak lt)
    {m : RBTree (K × V)} {s : Shape} (g : Good m s) (hc : m.comparator_ = MapComparator lt)
    (hst : StrictAt m s.addrs) {fuel : Nat} (hf : 3 * m.size_ + 1 ≤ fuel) (dflt : V) (k : K) :
    ∃ m' a n s', Map.subscript m fuel dflt k = some (m', some a) ∧ m'.mem a = some n ∧
      Good m' s' ∧ m'.comparator_ = MapComparator lt ∧ StrictAt m' s'.addrs ∧
      s'.addrs.length ≤ s.addrs.length + 1 ∧
      ((∃ e ∈ keysAt m s.addrs, Equiv lt k e.1) →
        m' = m ∧ n.key_ ∈ keysAt m s.addrs ∧ Equiv lt k n.key_.1) ∧
      ((∀ e ∈ keysAt m s.addrs, ¬ Equiv lt k e.1) →
        m'.size_ = m.size_ + 1 ∧ n.key_ = (k, dflt) ∧
        ∃ e1 e2, keysAt m s.addrs = e1 ++ e2 ∧
          keysAt m' s'.addrs = e1 ++ (k, dflt) :: e2) := by
  obtain ⟨it, h1, h2, h3⟩ := map_find_spec hw g hc (show m.size_ ≤ fuel by omega) dflt k
  cases it with
  | some a =>
    obtain ⟨n, hn, hm, heq⟩ := h2 a rfl
    refine ⟨m, a, n, s, by simp [Map.subscript, h1, RBTree.end_, RBTree.key, RBTree.deref, hn],
      hn, g, hc, hst, by omega, fun _ => ⟨rfl, hm, heq⟩, fun h => absurd heq (h _ hm)⟩
  | none =>
    have habs := h3.1 rfl
    have hnp : ¬ Present m s (k, dflt) := by
      rintro ⟨e, he, heq⟩
      rw [hc] at heq
      exact habs e he heq
    obtain ⟨m', s', A, B, e, g', hst', c', hsz, hk, h4, h5, h6⟩ :=
      insert_absent g (hc ▸ MapComparator_strictWeak hw) hf (k, dflt) hst hnp
    obtain ⟨n, hn, hkn⟩ : ∃ n, m'.mem m.fresh = some n ∧ n.key_ = (k, dflt) := by
      cases hn : m'.mem m.fresh with
      | none => simp [RBTree.key, RBTree.deref, hn] at hk
      | some n => exact ⟨n, rfl, by simpa [RBTree.key, RBTree.deref, hn] using hk⟩
    refine ⟨m', m.fresh, n, s', ?_, hn, g', c'.trans hc, hst', by rw [h5, h4]; simp only [List.length_append, List.length_cons]; omega,
      fun ⟨e0, he0, hq⟩ => absurd hq (habs e0 he0),
      fun _ => ⟨hsz, hkn, keysAt m A, keysAt m B, by rw [h4, keysAt_append], h6⟩⟩
    simp [Map.subscript, h1, RBTree.end_, RBTree.insertUnique, e, hk]

/-- `Map::insert_or_assign` on a map with the invariants. -/
theorem map_insert_or_assign_spec {K V : Type} {lt : K → K → Bool} (hw : StrictWeak lt)
    {m : RBTree (K × V)} {s : Shape} (g : Good m s) (hc : m.comparator_ = MapComparator lt)
    (hst : StrictAt m s.addrs) {fuel : Nat} (hf : 3 * m.size_ + 1 ≤ fuel) (dflt : V) (k : K)
    (obj : V) :
    ∃ m' it b s', Map.insert_or_assign m fuel dflt k obj = some (m', it, b) ∧
      Good m' s' ∧ m'.comparator_ = MapComparator lt ∧ StrictAt m' s'.addrs ∧
      s'.addrs.length ≤ s.addrs.length + 1 ∧
      ((∃ e ∈ keysAt m s.addrs, Equiv lt k e.1) →
        b = false ∧ m'.size_ = m.size_ ∧
        ∃ e1 old e2, keysAt m s.addrs = e1 ++ old :: e2 ∧ Equiv lt k old.1 ∧
          keysAt m' s'.addrs = e1 ++ (old.1, obj) :: e2 ∧ m'.key it = some (old.1, obj)) ∧
      ((∀ e ∈ keysAt m s.addrs, ¬ Equiv lt k e.1) →
        b = true ∧ m'.size_ = m.size_ + 1 ∧
        ∃ e1 e2, keysAt m s.addrs = e1 ++ e2 ∧
          keysAt m' s'.addrs = e1 ++ (k, obj) :: e2 ∧ m'.key it = some (k, obj)) := by
  obtain ⟨it, h1, h2, h3⟩ := map_find_spec hw g hc (show m.size_ ≤ fuel by omega) dflt k
  cases it with
  | some a =>
    obtain ⟨n, hn, hm, heq⟩ := h2 a rfl
    obtain ⟨m', e, g', c', hsz, -, hk, hst', A, B, -, h5, h6⟩ := assignSecond_good g hc hn obj
    refine ⟨m', some a, false, s, by simp [Map.insert_or_assign, h1, RBTree.end_, e], g',
      c'.trans hc, hst' hst, by omega,
      fun _ => ⟨rfl, hsz, keysAt m A, n.key_, keysAt m B, h5, heq, h6, hk⟩,
      fun h => absurd heq (h _ hm)⟩
  | none =>
    have habs := h3.1 rfl
    have hnp : ¬ Present m s (k, obj) := by
      rintro ⟨e, he, heq⟩
      rw [hc] at heq
      exact habs e he heq
    obtain ⟨m', s', A, B, e, g', hst', c', hsz, hk, h4, h5, h6⟩ :=
      insert_absent g (hc ▸ MapComparator_strictWeak hw) hf (k, obj) hst hnp
    refine ⟨m', some m.fresh, true, s', ?_, g', c'.trans hc, hst', by rw [h5, h4]; simp only [List.length_append, List.length_cons]; omega,
      fun ⟨e0, he0, hq⟩ => absurd hq (habs e0 he0),
      fun _ => ⟨rfl, hsz, keysAt m A, keysAt m B, by rw [h4, keysAt_append], h6, hk⟩⟩
    simp [Map.insert_or_assign, h1, RBTree.end_, RBTree.insertUnique, e]

/-- One returned call on a map keeps the invariants. -/
theorem map_apply_step {K V : Type} {lt : K → K → Bool} (hw : StrictWeak lt)
    {m : RBTree (K × V)} {s : Shape} (g : Good m s) (hc : m.comparator_ = MapComparator lt)
    (hst : StrictAt m s.addrs) {fuel : Nat} (hf : 3 * s.addrs.length + 1 ≤ fuel) {dflt : V}
    {op : MapOp K V} {m' : RBTree (K × V)} (h : Map.apply m fuel dflt op = some m') :
    ∃ s', Good m' s' ∧ m'.comparator_ = MapComparator lt ∧ StrictAt m' s'.addrs ∧
      s'.addrs.length ≤ s.addrs.length + 1 := by
  have hw' : StrictWeak m.comparator_ := hc ▸ MapComparator_strictWeak hw
  have hf' : 3 * m.size_ + 1 ≤ fuel := by rw [g.wf.size]; exact hf
  cases op with
  | insert value =>
    obtain ⟨s', g', c', l', hs'⟩ := apply_step g hf
      (show m.apply fuel (.insertUnique value) = some m' from h)
    exact ⟨s', g', c'.trans hc, hs' hw' rfl hst, l'⟩
  | erase pos =>
    obtain ⟨s', g', c', l', hs'⟩ := apply_step g hf
      (show m.apply fuel (.erase pos) = some m' from h)
    exact ⟨s', g', c'.trans hc, hs' hw' rfl hst, l'⟩
  | insert_or_assign key obj =>
    obtain ⟨m1, it, b, s', e, g', c', hs', l', -⟩ :=
      map_insert_or_assign_spec hw g hc hst hf' dflt key obj
    simp only [Map.apply, e, Option.map_some', Option.some.injEq] at h
    subst h
    exact ⟨s', g', c', hs', l'⟩
  | subscript key =>
    obtain ⟨m1, a, n, s', e, -, g', c', hs', l', -⟩ := map_subscript_spec hw g hc hst hf' dflt key
    simp only [Map.apply, e, Option.map_some', Option.some.injEq] at h
    subst h
    exact ⟨s', g', c', hs', l'⟩
  | assign key obj =>
    obtain ⟨m1, a, n, s', e, hn, g', c', hs', l', -⟩ :=
      map_subscript_spec hw g hc hst hf' dflt key
    obtain ⟨m2, e2, g2, c2, -, -, -, hs2, -⟩ := assignSecond_good g' c' hn obj
    simp only [Map.apply, Map.subscriptAssign, Option.bind_eq_bind, e, Option.some_bind, e2,
      Option.some.injEq] at h
    subst h
    exact ⟨s', g2, c2.trans c', hs2 hs', l'⟩

/-- Every returned sequence of calls on a map keeps the invariants. -/
theorem map_run_good {K V : Type} {lt : K → K → Bool} (hw : StrictWeak lt) {dflt : V}
    {ops : List (MapOp K V)} {m : RBTree (K × V)} {s : Shape} (g : Good m s)
    (hc : m.comparator_ = MapComparator lt) (hst : StrictAt m s.addrs) {fuel : Nat}
    (hf : 3 * (s.addrs.length + ops.length) + 1 ≤ fuel) {m' : RBTree (K × V)}
    (h : Map.run m fuel dflt ops = some m') :
    ∃ s', Good m' s' ∧ m'.comparator_ = MapComparator lt ∧ StrictAt m' s'.addrs ∧
      s'.addrs.length ≤ s.addrs.length + ops.length := by
  induction ops generalizing m s with
  | nil =>
    simp only [Map.run, Option.some.injEq] at h
    subst h
    exact ⟨s, g, hc, hst, by simp⟩
  | cons op ops ih =>
    simp only [Map.run, Option.bind_eq_some] at h
    obtain ⟨m1, h1, h2⟩ := h
    simp only [List.length_cons] at hf
    obtain ⟨s1, g1, c1, hs1, l1⟩ := map_apply_step hw g hc hst (by omega) h1
    obtain ⟨s', g', c', hs', l'⟩ := ih g1 c1 hs1 (by omega) h2
    exact ⟨s', g', c', hs', by simp only [List.length_cons]; omega⟩

theorem MapReachable.invariants {K V : Type} {lt : K → K → Bool} {dflt : V}
    {m : RBTree (K × V)} (h : MapReachable lt dflt m) (hw : StrictWeak lt) :
    ∃ s, Good m s ∧ m.comparator_ = MapComparator lt ∧ StrictAt m s.addrs := by
  obtain ⟨fuel, ops, hf, hr⟩ := h
  obtain ⟨s, g, c, hs, -⟩ := map_run_good hw (good_empty (MapComparator lt)) rfl
    List.Pairwise.nil (by simpa [Shape.addrs] using hf) hr
  exact ⟨s, g, c, hs⟩

theorem map_size_le {K V : Type} {lt : K → K → Bool} {dflt : V}
    (hw : StrictWeak lt) {ops : List (MapOp K V)} {fuel : Nat}
    (hf : 3 * ops.length + 1 ≤ fuel) {m : RBTree (K × V)}
    (h : Map.run (RBTree.empty (MapComparator lt)) fuel dflt ops = some m) :
    m.size_ ≤ ops.length := by
  obtain ⟨s, g, -, -, hl⟩ := map_run_good hw (good_empty (MapComparator lt)) rfl
    List.Pairwise.nil (by simpa [Shape.addrs] using hf) h
  rw [g.wf.size]
  simpa [Shape.addrs] using hl

/-- C27: on every map built by the public calls, over a strict weak order of the keys,
`operator[](k)` returns a reference into a stored entry `e`; when an entry with a key
equivalent to `k` is stored, the map is unchanged and `e` is the stored entry with that key;
otherwise `e` is the new entry `(k, default value)`, `size()` has grown by one and the in-order
sequence is the former one with the new entry put in. -/
theorem C27_subscript {K V : Type} (lt : K → K → Bool) (hw : StrictWeak lt) (dflt : V)
    (m : RBTree (K × V)) (hr : MapReachable lt dflt m) (fuel : Nat)
    (hf : 3 * m.size_ + 1 ≤ fuel) (k : K) :
    ∃ entries m' it e, m.inorder m.size_ m.root_ = some entries ∧
      Map.subscript m fuel dflt k = some (m', it) ∧ m'.key it = some e ∧
      ((∃ x ∈ entries, Equiv lt k x.1) → m' = m ∧ e ∈ entries ∧ Equiv lt k e.1) ∧
      ((∀ x ∈ entries, ¬ Equiv lt k x.1) →
        e = (k, dflt) ∧ m'.size = m.size + 1 ∧
        ∃ e1 e2, entries = e1 ++ e2 ∧
          m'.inorder m'.size_ m'.root_ = some (e1 ++ (k, dflt) :: e2)) := by
  obtain ⟨s, g, hc, hst⟩ := hr.invariants hw
  obtain ⟨m', a, n, s', e, hn, g', -, -, -, h1, h2⟩ := map_subscript_spec hw g hc hst hf dflt k
  refine ⟨_, m', some a, n.key_, g.inorder (le_refl _), e, by simp [RBTree.key, RBTree.deref, hn],
    h1, fun h => ?_⟩
  obtain ⟨hsz, hk, e1, e2, h3, h4⟩ := h2 h
  exact ⟨hk, hsz, e1, e2, h3, by rw [g'.inorder (le_refl _), h4]⟩

theorem C27_subscript_witness :
    ∃ m, Map.run (RBTree.empty (MapComparator natLess)) 20 0
        [.insert (2, 20), .insert_or_assign 1 10, .assign 2 21] = some m ∧
      ∃ entries m' it e, m.inorder m.size_ m.root_ = some entries ∧
        Map.subscript m 20 0 3 = some (m', it) ∧ m'.key it = some e ∧
        ((∃ x ∈ entries, Equiv natLess 3 x.1) → m' = m ∧ e ∈ entries ∧ Equiv natLess 3 e.1) ∧
        ((∀ x ∈ entries, ¬ Equiv natLess 3 x.1) →
          e = (3, 0) ∧ m'.size = m.size + 1 ∧
          ∃ e1 e2, entries = e1 ++ e2 ∧
            m'.inorder m'.size_ m'.root_ = some (e1 ++ (3, 0) :: e2)) := by
  have hsome : (Map.run (RBTree.empty (MapComparator natLess)) 20 0
      [.insert (2, 20), .insert_or_assign 1 10, .assign 2 21]).isSome = true := by decide!
  obtain ⟨m, hm⟩ := Option.isSome_iff_exists.1 hsome
  have hsz := map_size_le natLess_strictWeak (by decide) hm
  simp only [List.length_cons, List.length_nil] at hsz
  exact ⟨m, hm, C27_subscript natLess natLess_strictWeak 0 m ⟨20, _, by decide, hm⟩ 20
    (by omega) 3⟩

/-- C28: on every map built by the public calls, over a strict weak order of the keys,
`at(k)` returns (it gives back only the exception or the value; the map is not written):
the result is the out-of-range exception exactly when no stored entry has a key equivalent to
`k`, and otherwise it is the value of the stored entry with such a key, of which there is
one. -/
theorem C28_at {K V : Type} (lt : K → K → Bool) (hw : StrictWeak lt) (dflt : V)
    (m : RBTree (K × V)) (hr : MapReachable lt dflt m) (fuel : Nat) (hf : m.size_ ≤ fuel)
    (k : K) :
    ∃ entries r, m.inorder m.size_ m.root_ = some entries ∧ Map.at m fuel dflt k = some r ∧
      (r = .error .mk ↔ ∀ x ∈ entries, ¬ Equiv lt k x.1) ∧
      (∀ v, r = .ok v → ∃ x ∈ entries, Equiv lt k x.1 ∧ x.2 = v ∧
        ∀ y ∈ entries, Equiv lt k y.1 → y = x) := by
  obtain ⟨s, g, hc, hst⟩ := hr.invariants hw
  obtain ⟨r, e, h1, h2⟩ := map_at_spec hw g hc hf dflt k
  refine ⟨_, r, g.inorder (le_refl _), e, h1, fun v hv => ?_⟩
  obtain ⟨x, hx, hq, hv'⟩ := h2 v hv
  unfold StrictAt at hst
  rw [hc] at hst
  exact ⟨x, hx, hq, hv', fun y hy hqy => strict_unique hw hst hy hx hqy hq⟩

theorem C28_at_witness :
    ∃ m, Map.run (RBTree.empty (MapComparator natLess)) 20 0
        [.insert (2, 20), .insert_or_assign 1 10, .assign 2 21] = some m ∧
      ∃ entries r, m.inorder m.size_ m.root_ = some entries ∧ Map.at m 20 0 2 = some r ∧
        (r = .error .mk ↔ ∀ x ∈ entries, ¬ Equiv natLess 2 x.1) ∧
        (∀ v, r = .ok v → ∃ x ∈ entries, Equiv natLess 2 x.1 ∧ x.2 = v ∧
          ∀ y ∈ entries, Equiv natLess 2 y.1 → y = x) := by
  have hsome : (Map.run (RBTree.empty (MapComparator natLess)) 20 0
      [.insert (2, 20), .insert_or_assign 1 10, .assign 2 21]).isSome = true := by decide!
  obtain ⟨m, hm⟩ := Option.isSome_iff_exists.1 hsome
  have hsz := map_size_le natLess_strictWeak (by decide) hm
  simp only [List.length_cons, List.length_nil] at hsz
  exact ⟨m, hm, C28_at natLess natLess_strictWeak 0 m ⟨20, _, by decide, hm⟩ 20
    (by omega) 2⟩

/-- C29: on every map built by the public calls, over a strict weak order of the keys,
`insert_or_assign(k, v)` returns; when an entry with a key equivalent to `k` is stored, the
flag is `false`, `size()` is unchanged and that entry now carries the value `v`, in place;
otherwise the flag is `true`, `size()` has grown by one and the entry `(k, v)` is put in; in
both cases every other entry of the in-order sequence is as before and `at(k)` gives `v`. -/
theorem C29_insert_or_assign {K V : Type} (lt : K → K → Bool) (hw : StrictWeak lt) (dflt : V)
    (m : RBTree (K × V)) (hr : MapReachable lt dflt m) (fuel : Nat)
    (hf : 3 * m.size_ + 1 ≤ fuel) (k : K) (v : V) :
    ∃ entries m' it b entries', m.inorder m.size_ m.root_ = some entries ∧
      Map.insert_or_assign m fuel dflt k v = some (m', it, b) ∧
      m'.inorder m'.size_ m'.root_ = some entries' ∧
      Map.at m' fuel dflt k = some (.ok v) ∧
      ((∃ x ∈ entries, Equiv lt k x.1) →
        b = false ∧ m'.size = m.size ∧
        ∃ e1 old e2, entries = e1 ++ old :: e2 ∧ Equiv lt k old.1 ∧
          entries' = e1 ++ (old.1, v) :: e2) ∧
      ((∀ x ∈ entries, ¬ Equiv lt k x.1) →
        b = true ∧ m'.size = m.size + 1 ∧
        ∃ e1 e2, entries = e1 ++ e2 ∧ entries' = e1 ++ (k, v) :: e2) := by
  obtain ⟨s, g, hc, hst⟩ := hr.invariants hw
  obtain ⟨m', it, b, s', e, g', c', hst', -, h1, h2⟩ :=
    map_insert_or_assign_spec hw g hc hst hf dflt k v
  have hnew : ∃ x ∈ keysAt m' s'.addrs, Equiv lt k x.1 ∧ x.2 = v ∧ m'.size_ ≤ m.size_ + 1 := by
    by_cases hp : ∃ x ∈ keysAt m s.addrs, Equiv lt k x.1
    · obtain ⟨-, hsz, e1, old, e2, -, hq, h3, -⟩ := h1 hp
      exact ⟨(old.1, v), by rw [h3]; simp, hq, rfl, by omega⟩
    · obtain ⟨-, hsz, e1, e2, -, h3, -⟩ := h2 (fun x hx hq => hp ⟨x, hx, hq⟩)
      exact ⟨(k, v), by rw [h3]; simp, Equiv.refl_equiv hw k, rfl, by omega⟩
  obtain ⟨x, hx, hq, hxv, hsz'⟩ := hnew
  obtain ⟨r, er, h3, h4⟩ := map_at_spec hw g' c' (show m'.size_ ≤ fuel by omega) dflt k
  have hat : Map.at m' fuel dflt k = some (.ok v) := by
    rw [er]
    cases r with
    | error x0 =>
      cases x0
      exact absurd hq (h3.1 rfl x hx)
    | ok v' =>
      obtain ⟨y, hy, hqy, hv'⟩ := h4 v' rfl
      unfold StrictAt at hst'
      rw [c'] at hst'
      have := strict_unique hw hst' hy hx hqy hq
      rw [← hv', this, hxv]
  refine ⟨_, m', it, b, _, g.inorder (le_refl _), e, g'.inorder (le_refl _), hat,
    fun hp => ?_, fun hp => ?_⟩
  · obtain ⟨hb, hsz, e1, old, e2, h5, h6, h7, -⟩ := h1 hp
    exact ⟨hb, hsz, e1, old, e2, h5, h6, h7⟩
  · obtain ⟨hb, hsz, e1, e2, h5, h6, -⟩ := h2 hp
    exact ⟨hb, hsz, e1, e2, h5, h6⟩

theorem C29_insert_or_assign_witness :
    ∃ m, Map.run (RBTree.empty (MapComparator natLess)) 20 0
        [.insert (2, 20), .insert (3, 30)] = some m ∧
      ∃ entries m' it b entries', m.inorder m.size_ m.root_ = some entries ∧
        Map.insert_or_assign m 20 0 2 22 = some (m', it, b) ∧
        m'.inorder m'.size_ m'.root_ = some entries' ∧
        Map.at m' 20 0 2 = some (.ok 22) ∧
        ((∃ x ∈ entries, Equiv natLess 2 x.1) →
          b = false ∧ m'.size = m.size ∧
          ∃ e1 old e2, entries = e1 ++ old :: e2 ∧ Equiv natLess 2 old.1 ∧
            entries' = e1 ++ (old.1, 22) :: e2) ∧
        ((∀ x ∈ entries, ¬ Equiv natLess 2 x.1) →
          b = true ∧ m'.size = m.size + 1 ∧
          ∃ e1 e2, entries = e1 ++ e2 ∧ entries' = e1 ++ (2, 22) :: e2) := by
  have hsome : (Map.run (RBTree.empty (MapComparator natLess)) 20 0
      [.insert (2, 20), .insert (3, 30)]).isSome = true := by decide!
  obtain ⟨m, hm⟩ := Option.isSome_iff_exists.1 hsome
  have hsz := map_size_le natLess_strictWeak (by decide) hm
  simp only [List.length_cons, List.length_nil] at hsz
  exact ⟨m, hm, C29_insert_or_assign natLess natLess_strictWeak 0 m ⟨20, _, by decide, hm⟩ 20
    (by omega) 2 22⟩

theorem set_insertManyLoop_eq (fuel : Nat) (args : List Key) :
    ∀ (t : RBTree Key) (acc : List (Ptr × Bool)),
      Set.insertManyLoop fuel t args acc =
        (Set.insertEach fuel t args).map fun r => (r.1, acc ++ r.2) := by
  induction args with
  | nil => intro t acc; simp [Set.insertManyLoop, Set.insertEach]
  | cons a args ih =>
    intro t acc
    simp only [Set.insertManyLoop, Set.insertEach, Option.bind_eq_bind]
    cases Set.insert t fuel a with
    | none => rfl
    | some r =>
      simp only [Option.some_bind, ih]
      cases Set.insertEach fuel r.1 args <;> simp

theorem multiset_insertManyLoop_eq (fuel : Nat) (args : List Key) :
    ∀ (t : RBTree Key) (acc : List Ptr),
      MultiSet.insertManyLoop fuel t args acc =
        (MultiSet.insertEach fuel t args).map fun r => (r.1, acc ++ r.2) := by
  induction args with
  | nil => intro t acc; simp [MultiSet.insertManyLoop, MultiSet.insertEach]
  | cons a args ih =>
    intro t acc
    simp only [MultiSet.insertManyLoop, MultiSet.insertEach, Option.bind_eq_bind]
    cases MultiSet.insert t fuel a with
    | none => rfl
    | some r =>
      simp only [Option.some_bind, ih]
      cases MultiSet.insertEach fuel r.1 args <;> simp

theorem map_insertManyLoop_eq {K V : Type} (fuel : Nat) (args : List (K × V)) :
    ∀ (t : RBTree (K × V)) (acc : List (Ptr × Bool)),
      Map.insertManyLoop fuel t args acc =
        (Map.insertEach fuel t args).map fun r => (r.1, acc ++ r.2) := by
  induction args with
  | nil => intro t acc; simp [Map.insertManyLoop, Map.insertEach]
  | cons a args ih =>
    intro t acc
    simp only [Map.insertManyLoop, Map.insertEach, Option.bind_eq_bind]
    cases Map.insert t fuel a with
    | none => rfl
    | some r =>
      simp only [Option.some_bind, ih]
      cases Map.insertEach fuel r.1 args <;> simp

theorem set_insert_many_eq (t : RBTree Key) (fuel : Nat) (args : List Key) :
    Set.insert_many t fuel args = Set.insertEach fuel t args := by
  rw [Set.insert_many, set_insertManyLoop_eq]
  cases Set.insertEach fuel t args <;> simp

theorem multiset_insert_many_eq (t : RBTree Key) (fuel : Nat) (args : List Key) :
    MultiSet.insert_many t fuel args = MultiSet.insertEach fuel t args := by
  rw [MultiSet.insert_many, multiset_insertManyLoop_eq]
  cases MultiSet.insertEach fuel t args <;> simp

theorem map_insert_many_eq {K V : Type} (t : RBTree (K × V)) (fuel : Nat)
    (args : List (K × V)) : Map.insert_many t fuel args = Map.insertEach fuel t args := by
  rw [Map.insert_many, map_insertManyLoop_eq]
  cases Map.insertEach fuel t args <;> simp

theorem set_insertEach_eq (fuel : Nat) (args : List Key) :
    ∀ t : RBTree Key, Set.insertEach fuel t args = RBTree.insertEach true fuel t args := by
  induction args with
  | nil => intro t; rfl
  | cons a args ih =>
    intro t
    simp only [Set.insertEach, RBTree.insertEach, Set.insert, RBTree.insertUnique, ih]

theorem map_insertEach_eq {K V : Type} (fuel : Nat) (args : List (K × V)) :
    ∀ t : RBTree (K × V), Map.insertEach fuel t args = RBTree.insertEach true fuel t args := by
  induction args with
  | nil => intro t; rfl
  | cons a args ih =>
    intro t
    simp only [Map.insertEach, RBTree.insertEach, Map.insert, RBTree.insertUnique, ih]

theorem multiset_insertEach_eq (fuel : Nat) (args : List Key) :
    ∀ t : RBTree Key, MultiSet.insertEach fuel t args =
      (RBTree.insertEach false fuel t args).map fun r => (r.1, r.2.map (·.1)) := by
  induction args with
  | nil => intro t; rfl
  | cons a args ih =>
    intro t
    simp only [MultiSet.insertEach, RBTree.insertEach, MultiSet.insert, RBTree.insertMulti, ih,
      Option.bind_eq_bind]
    cases t.insert fuel a false with
    | none => rfl
    | some r =>
      simp only [Option.map_some', Option.some_bind]
      cases RBTree.insertEach false fuel r.1 args <;> simp

/-- The insertions of a list of elements into a tree with the invariants, one after the
other: all return, there are as many results as elements, and the result at the place of an
element is the result of its insertion into the tree after the insertions before it, with the
flag `false` exactly for a unique-mode insertion of a key with an equivalent element. -/
theorem insertEach_spec (unique : Bool) {fuel : Nat} (args : List Key) :
    ∀ {t : RBTree Key} {s : Shape}, Good t s → StrictWeak t.comparator_ →
      3 * (s.addrs.length + args.length) + 1 ≤ fuel →
      ∃ r, RBTree.insertEach unique fuel t args = some r ∧ r.2.length = args.length ∧
        ∀ pre a post, args = pre ++ a :: post →
          ∃ p ra sp, RBTree.insertEach unique fuel t pre = some p ∧ Good p.1 sp ∧
            p.1.comparator_ = t.comparator_ ∧ p.1.insert fuel a unique = some ra ∧
            r.2[pre.length]? = some ra.2 ∧
            (ra.2.2 = false ↔ (unique = true ∧ Present p.1 sp a)) := by
  induction args with
  | nil =>
    intro t s g hw hf
    refine ⟨(t, []), rfl, rfl, fun pre a post h => ?_⟩
    cases pre <;> cases h
  | cons x xs ih =>
    intro t s g hw hf
    simp only [List.length_cons] at hf
    have hsz := g.wf.size
    have hout := insert_outcome g hw (show 3 * t.size_ + 1 ≤ fuel by omega) x unique
    obtain ⟨r0, e0, hflag⟩ : ∃ r0, t.insert fuel x unique = some r0 ∧
        (r0.2.2 = false ↔ (unique = true ∧ Present t s x)) := by
      rcases hout with ⟨hu, hp, e⟩ | ⟨hn, t', e, -⟩
      · exact ⟨_, e, ⟨fun _ => ⟨hu, hp⟩, fun _ => rfl⟩⟩
      · exact ⟨_, e, ⟨fun h => (by cases h), fun h => absurd h hn⟩⟩
    obtain ⟨s1, g1, c1, l1, -⟩ := insert_step g (show 3 * s.addrs.length + 1 ≤ fuel by omega) e0
    obtain ⟨r1, e1, hl1, hsp⟩ := ih g1 (c1 ▸ hw) (show 3 * (s1.addrs.length + xs.length) + 1 ≤ fuel
      by omega)
    refine ⟨(r1.1, r0.2 :: r1.2), by simp [RBTree.insertEach, e0, e1], by simp [hl1],
      fun pre a post h => ?_⟩
    cases pre with
    | nil =>
      simp only [List.nil_append, List.cons.injEq] at h
      obtain ⟨rfl, rfl⟩ := h
      exact ⟨(t, []), r0, s, rfl, g, rfl, e0, by simp, hflag⟩
    | cons y pre =>
      simp only [List.cons_append, List.cons.injEq] at h
      obtain ⟨rfl, rfl⟩ := h
      obtain ⟨p, ra, sp, ep, gp, cp, ea, hget, hfl⟩ := hsp pre a post rfl
      exact ⟨(p.1, r0.2 :: p.2), ra, sp, by simp [RBTree.insertEach, e0, ep], gp, cp.trans c1,
        ea, by simpa using hget, hfl⟩

theorem flag_true_iff {lt : Key → Key → Bool} {t : RBTree Key} {s : Shape} {a : Key}
    {b : Bool} (hc : t.comparator_ = lt) (h : b = false ↔ (true = true ∧ Present t s a)) :
    b = true ↔ ∀ e ∈ keysAt t s.addrs, ¬ Equiv lt a e := by
  subst hc
  constructor
  · intro hb e he hq
    have := h.2 ⟨rfl, e, he, hq⟩
    rw [hb] at this
    cases this
  · intro hn
    cases hb : b with
    | true => rfl
    | false =>
      obtain ⟨-, e, he, hq⟩ := h.1 hb
      exact absurd hq (hn e he)

/-- C30: for `Set`, `MultiSet` and `Map`, `insert_many(a1, ..., an)` is the sequence of calls
`insert(a1)`, ..., `insert(an)` with the list of their results (same final container, same
results, for every fuel). On a container built by the public calls, under a strict weak order
and with enough fuel, it returns, the list has `n` entries, and the entry at the place of an
argument is the result of the single `insert` of that argument into the container after the
single inserts of the arguments before it; for `Set` and `Map` its flag is `true` exactly when
no element (entry with a key) equivalent to the argument is stored at that point. -/
theorem C30_insert_many {K V : Type} (cmp : Key → Key → Bool) (lt : K → K → Bool) (dflt : V)
    (t : RBTree Key) (m : RBTree (K × V)) (fuel : Nat) (args : List Key)
    (margs : List (K × V)) :
    (Set.insert_many t fuel args = Set.insertEach fuel t args ∧
      MultiSet.insert_many t fuel args = MultiSet.insertEach fuel t args ∧
      Map.insert_many m fuel margs = Map.insertEach fuel m margs) ∧
    (StrictWeak cmp → Reachable cmp t → 3 * (t.size_ + args.length) + 1 ≤ fuel →
      (∃ r, Set.insert_many t fuel args = some r ∧ r.2.length = args.length ∧
        ∀ pre a post, args = pre ++ a :: post →
          ∃ p ra keys, Set.insertEach fuel t pre = some p ∧
            Set.insert p.1 fuel a = some ra ∧ r.2[pre.length]? = some ra.2 ∧
            p.1.inorder p.1.size_ p.1.root_ = some keys ∧
            (ra.2.2 = true ↔ ∀ e ∈ keys, ¬ Equiv cmp a e)) ∧
      (∃ r, MultiSet.insert_many t fuel args = some r ∧ r.2.length = args.length ∧
        ∀ pre a post, args = pre ++ a :: post →
          ∃ p ra, MultiSet.insertEach fuel t pre = some p ∧
            MultiSet.insert p.1 fuel a = some ra ∧ r.2[pre.length]? = some ra.2)) ∧
    (StrictWeak lt → MapReachable lt dflt m → 3 * (m.size_ + margs.length) + 1 ≤ fuel →
      ∃ r, Map.insert_many m fuel margs = some r ∧ r.2.length = margs.length ∧
        ∀ pre a post, margs = pre ++ a :: post →
          ∃ p ra entries, Map.insertEach fuel m pre = some p ∧
            Map.insert p.1 fuel a = some ra ∧ r.2[pre.length]? = some ra.2 ∧
            p.1.inorder p.1.size_ p.1.root_ = some entries ∧
            (ra.2.2 = true ↔ ∀ e ∈ entries, ¬ Equiv lt a.1 e.1)) := by
  refine ⟨⟨set_insert_many_eq t fuel args, multiset_insert_many_eq t fuel args,
    map_insert_many_eq m fuel margs⟩, fun hw hr hf => ⟨?_, ?_⟩, fun hw hr hf => ?_⟩
  · obtain ⟨s, g, c⟩ := hr.is_good
    obtain ⟨r, e, hl, hsp⟩ := insertEach_spec true args g (c ▸ hw)
      (show 3 * (s.addrs.length + args.length) + 1 ≤ fuel by rw [← g.wf.size]; exact hf)
    refine ⟨r, by rw [set_insert_many_eq, set_insertEach_eq, e], hl, fun pre a post h => ?_⟩
    obtain ⟨p, ra, sp, ep, gp, cp, ea, hget, hfl⟩ := hsp pre a post h
    exact ⟨p, ra, _, by rw [set_insertEach_eq, ep], ea, hget, gp.inorder (le_refl _),
      flag_true_iff (cp.trans c) hfl⟩
  · obtain ⟨s, g, c⟩ := hr.is_good
    obtain ⟨r, e, hl, hsp⟩ := insertEach_spec false args g (c ▸ hw)
      (show 3 * (s.addrs.length + args.length) + 1 ≤ fuel by rw [← g.wf.size]; exact hf)
    refine ⟨(r.1, r.2.map (·.1)), by rw [multiset_insert_many_eq, multiset_insertEach_eq, e]; rfl,
      by simp [hl], fun pre a post h => ?_⟩
    obtain ⟨p, ra, sp, ep, gp, cp, ea, hget, -⟩ := hsp pre a post h
    refine ⟨(p.1, p.2.map (·.1)), (ra.1, ra.2.1), by rw [multiset_insertEach_eq, ep]; rfl,
      by simp [MultiSet.insert, RBTree.insertMulti, ea], ?_⟩
    simp only [List.getElem?_map, hget, Option.map_some']
  · obtain ⟨s, g, hc, hst⟩ := hr.invariants hw
    obtain ⟨r, e, hl, hsp⟩ := insertEach_spec true margs g (hc ▸ MapComparator_strictWeak hw)
      (show 3 * (s.addrs.length + margs.length) + 1 ≤ fuel by rw [← g.wf.size]; exact hf)
    refine ⟨r, by rw [map_insert_many_eq, map_insertEach_eq, e], hl, fun pre a post h => ?_⟩
    obtain ⟨p, ra, sp, ep, gp, cp, ea, hget, hfl⟩ := hsp pre a post h
    exact ⟨p, ra, _, by rw [map_insertEach_eq, ep], ea, hget, gp.inorder (le_refl _),
      flag_true_iff (cp.trans hc) hfl⟩

theorem C30_insert_many_witness :
    ∃ t m, (RBTree.empty natLess).run 20 [.insert 3, .insert 1] = some t ∧
      Map.run (RBTree.empty (MapComparator natLess)) 20 0
        [.insert (2, 20), .insert_or_assign 1 10] = some m ∧
      (∃ r, Set.insert_many t 20 [3, 5, 5] = some r ∧ r.2.length = [3, 5, 5].length ∧
        ∀ pre a post, [3, 5, 5] = pre ++ a :: post →
          ∃ p ra keys, Set.insertEach 20 t pre = some p ∧
            Set.insert p.1 20 a = some ra ∧ r.2[pre.length]? = some ra.2 ∧
            p.1.inorder p.1.size_ p.1.root_ = some keys ∧
            (ra.2.2 = true ↔ ∀ e ∈ keys, ¬ Equiv natLess a e)) ∧
      (∃ r, Map.insert_many m 20 [(1, 11), (4, 40)] = some r ∧
        r.2.length = [(1, 11), (4, 40)].length ∧
        ∀ pre a post, [(1, 11), (4, 40)] = pre ++ a :: post →
          ∃ p ra entries, Map.insertEach 20 m pre = some p ∧
            Map.insert p.1 20 a = some ra ∧ r.2[pre.length]? = some ra.2 ∧
            p.1.inorder p.1.size_ p.1.root_ = some entries ∧
            (ra.2.2 = true ↔ ∀ e ∈ entries, ¬ Equiv natLess a.1 e.1)) := by
  have h1 : ((RBTree.empty natLess).run 20 [.insert 3, .insert 1]).isSome = true := by decide!
  have h2 : (Map.run (RBTree.empty (MapComparator natLess)) 20 0
      [.insert (2, 20), .insert_or_assign 1 10]).isSome = true := by decide!
  obtain ⟨t, ht⟩ := Option.isSome_iff_exists.1 h1
  obtain ⟨m, hm⟩ := Option.isSome_iff_exists.1 h2
  have hst := Reachable.size_le (by decide) ht
  have hsm := map_size_le natLess_strictWeak (by decide) hm
  simp only [List.length_cons, List.length_nil] at hst hsm
  have h := C30_insert_many natLess natLess 0 t m 20 [3, 5, 5] [(1, 11), (4, 40)]
  exact ⟨t, m, ht, hm,
    (h.2.1 natLess_strictWeak ⟨20, _, by decide, ht⟩
      (by simp only [List.length_cons, List.length_nil]; omega)).1,
    h.2.2 natLess_strictWeak ⟨20, _, by decide, hm⟩
      (by simp only [List.length_cons, List.length_nil]; omega)⟩

/-- C33: the tree built by the ten inserts 9, 8, ..., 0 satisfies the red-black invariants
(black root, no red node with a red child, three black nodes on each of the eleven
root-to-null paths, sorted in-order sequence); `erase` at the node of the key 7, a black leaf,
returns a tree whose root-to-null paths carry 4, 2 and 1 black nodes. -/
theorem C33_erase_breaks_black_count :
    ∃ t t', (RBTree.empty natLess).run 40
        [.insert 9, .insert 8, .insert 7, .insert 6, .insert 5, .insert 4, .insert 3, .insert 2,
          .insert 1, .insert 0] = some t ∧
      t.red t.root_ = some false ∧ t.redRedPairs 10 t.root_ = some [] ∧
      t.blackCounts 10 t.root_ = some [3, 3, 3, 3, 3, 3, 3, 3, 3, 3, 3] ∧
      t.inorder 10 t.root_ = some [0, 1, 2, 3, 4, 5, 6, 7, 8, 9] ∧
      t.key (some 2) = some 7 ∧ t.erase 40 (some 2) = some t' ∧
      t'.inorder 10 t'.root_ = some [0, 1, 2, 3, 4, 5, 6, 8, 9] ∧
      t'.blackCounts 10 t'.root_ = some [4, 4, 4, 4, 4, 4, 4, 2, 1, 1] := by
  have hsome : (((RBTree.empty natLess).run 40
      [.insert 9, .insert 8, .insert 7, .insert 6, .insert 5, .insert 4, .insert 3, .insert 2,
        .insert 1, .insert 0]).bind fun t => (t.erase 40 (some 2)).bind fun t' =>
      if t.red t.root_ = some false ∧ t.redRedPairs 10 t.root_ = some [] ∧
          t.blackCounts 10 t.root_ = some [3, 3, 3, 3, 3, 3, 3, 3, 3, 3, 3] ∧
          t.inorder 10 t.root_ = some [0, 1, 2, 3, 4, 5, 6, 7, 8, 9] ∧
          t.key (some 2) = some 7 ∧
          t'.inorder 10 t'.root_ = some [0, 1, 2, 3, 4, 5, 6, 8, 9] ∧
          t'.blackCounts 10 t'.root_ = some [4, 4, 4, 4, 4, 4, 4, 2, 1, 1]
      then some (t, t') else none).isSome = true := by decide!
  obtain ⟨r, hr⟩ := Option.isSome_iff_exists.1 hsome
  obtain ⟨t, ht, h1⟩ := Option.bind_eq_some.1 hr
  obtain ⟨t', ht', h2⟩ := Option.bind_eq_some.1 h1
  split at h2
  · rename_i hc
    obtain ⟨c1, c2, c3, c4, c5, c6, c7⟩ := hc
    exact ⟨t, t', ht, c1, c2, c3, c4, c5, ht', c6, c7⟩
  · cases h2

/-- C34: in the tree built by the inserts 0, 1, 2, 6, 7, 3, 4 the node of the key 3 (address 5)
is the left child of the node of 6 (address 3), which is red and the right child of the root
(address 1); its uncle, the left child of the root (address 0), exists and is black, and
`redUncle` returns `true`: the colour of the parent. -/
theorem C34_redUncle_reads_parent :
    ∃ t, (RBTree.empty natLess).run 30
        [.insert 0, .insert 1, .insert 2, .insert 6, .insert 7, .insert 3, .insert 4] = some t ∧
      t.parent (some 5) = some (some 3) ∧ t.parent (some 3) = some (some 1) ∧
      t.left (some 3) = some (some 5) ∧ t.right (some 1) = some (some 3) ∧
      t.left (some 1) = some (some 0) ∧ t.red (some 0) = some false ∧
      t.red (some 3) = some true ∧ t.redUncle (some 5) = some true := by
  have hsome : (((RBTree.empty natLess).run 30
      [.insert 0, .insert 1, .insert 2, .insert 6, .insert 7, .insert 3, .insert 4]).bind
      fun t =>
      if t.parent (some 5) = some (some 3) ∧ t.parent (some 3) = some (some 1) ∧
          t.left (some 3) = some (some 5) ∧ t.right (some 1) = some (some 3) ∧
          t.left (some 1) = some (some 0) ∧ t.red (some 0) = some false ∧
          t.red (some 3) = some true ∧ t.redUncle (some 5) = some true
      then some t else none).isSome = true := by decide!
  obtain ⟨r, hr⟩ := Option.isSome_iff_exists.1 hsome
  obtain ⟨t, ht, h1⟩ := Option.bind_eq_some.1 hr
  split at h1
  · rename_i hc
    exact ⟨t, ht, hc⟩
  · cases h1

/-- C35: after every sequence of `insert`, `insertUnique` and `erase` calls on an initially
empty tree (each call having returned), the parent link of the root is null, the parent link
of the left and of the right child of a node is that node, a node with a parent is the left or
the right child of it, and the nodes reached from the root, `size()` many and each once, are
exactly the allocated ones. -/
theorem C35_links_consistent (cmp : Key → Key → Bool) (ops : List (Op Key)) (fuel : Nat)
    (hf : 3 * ops.length + 1 ≤ fuel) (t : RBTree Key)
    (h : (RBTree.empty cmp).run fuel ops = some t) :
    (∀ a, t.root_ = some a → t.parent (some a) = some none) ∧
    (∀ n c, t.left (some n) = some (some c) → t.parent (some c) = some (some n)) ∧
    (∀ n c, t.right (some n) = some (some c) → t.parent (some c) = some (some n)) ∧
    (∀ c n, t.parent (some c) = some (some n) →
      t.left (some n) = some (some c) ∨ t.right (some n) = some (some c)) ∧
    ∃ nodes, t.inorderNodes t.size_ t.root_ = some nodes ∧ nodes.Nodup ∧
      nodes.length = t.size ∧ ∀ a, a ∈ nodes ↔ ∃ node, t.mem a = some node := by
  obtain ⟨s, g, -, -⟩ := run_empty_good hf h
  have hs := g.wf.shaped
  have live : ∀ {a : Nat} {f : RBTNode Key → Ptr} {q : Ptr},
      (t.deref (some a)).map f = some q → a ∈ s.addrs := by
    intro a f q hq
    cases hm : t.mem a with
    | none => simp [RBTree.deref, hm] at hq
    | some n => exact g.wf.live a n hm
  refine ⟨fun a ha => ?_, fun n c hl => ?_, fun n c hr => ?_, fun c n hp => ?_,
    s.addrs, g.inorderNodes (le_refl _), hs.nodup, g.wf.size.symm, fun a => ⟨fun ha =>
      rep_live hs.rep ha, fun ⟨n, hn⟩ => g.wf.live a n hn⟩⟩
  · obtain ⟨n, hn, hp⟩ := rep_root hs.rep (hs.root ▸ ha)
    simp [RBTree.parent, RBTree.deref, hn, hp]
  · obtain ⟨fs, l, r, n', rfl, hn, -, hl', -⟩ := hs.cell (live hl)
    simp only [RBTree.left, RBTree.deref, hn, Option.map_some', Option.some.injEq] at hl
    obtain ⟨-, -, -, -, -, hL, -⟩ := hs.focus
    obtain ⟨nc, hc, hp⟩ := rep_root hL (hl' ▸ hl)
    simp [RBTree.parent, RBTree.deref, hc, hp]
  · obtain ⟨fs, l, r, n', rfl, hn, -, -, hr'⟩ := hs.cell (live hr)
    simp only [RBTree.right, RBTree.deref, hn, Option.map_some', Option.some.injEq] at hr
    obtain ⟨-, -, -, -, -, -, hR⟩ := hs.focus
    obtain ⟨nc, hc, hp⟩ := rep_root hR (hr' ▸ hr)
    simp [RBTree.parent, RBTree.deref, hc, hp]
  · obtain ⟨fs, l, r, n', rfl, hn, hpar, -, -⟩ := hs.cell (live hp)
    simp only [RBTree.parent, RBTree.deref, hn, Option.map_some', Option.some.injEq] at hp
    rw [hpar] at hp
    cases fs with
    | nil => simp [holeParent] at hp
    | cons f fs =>
      obtain ⟨b1, p, u1⟩ := f
      simp only [holeParent, Option.some.injEq] at hp
      subst hp
      obtain ⟨ny, np, -, hnp, -, -, -, -, e5, e6, -⟩ := hs.cells1
      cases b1 with
      | true => left; simpa [RBTree.left, RBTree.deref, hnp] using e5
      | false => right; simpa [RBTree.right, RBTree.deref, hnp] using e6

theorem C35_links_consistent_witness :
    ∃ t, (RBTree.empty natLess).run 20
        [.insert 3, .insertUnique 1, .insert 7, .erase (some 0), .insert 5] = some t ∧
      ((∀ a, t.root_ = some a → t.parent (some a) = some none) ∧
      (∀ n c, t.left (some n) = some (some c) → t.parent (some c) = some (some n)) ∧
      (∀ n c, t.right (some n) = some (some c) → t.parent (some c) = some (some n)) ∧
      (∀ c n, t.parent (some c) = some (some n) →
        t.left (some n) = some (some c) ∨ t.right (some n) = some (some c)) ∧
      ∃ nodes, t.inorderNodes t.size_ t.root_ = some nodes ∧ nodes.Nodup ∧
        nodes.length = t.size ∧ ∀ a, a ∈ nodes ↔ ∃ node, t.mem a = some node) := by
  have hsome : ((RBTree.empty natLess).run 20
      [.insert 3, .insertUnique 1, .insert 7, .erase (some 0), .insert 5]).isSome = true := by
    decide!
  obtain ⟨t, ht⟩ := Option.isSome_iff_exists.1 hsome
  exact ⟨t, ht, C35_links_consistent natLess _ 20 (by decide) t ht⟩

/-- C36: a tree built by 27 `insert` and `erase` calls and the position of one of its 13
elements, the key 4, for which `erase(pos)` does not terminate: for every fuel the model's
`erase` runs out of it. After the unlinking of the node, a black leaf, `eraseFixup` on its
parent is case 2a on a black node, and the fourth iteration of the loop of case 2a over the
ancestors stands on a node without a left child whose right child is a red leaf; there case 4a
rotates the leaf over the node, the loop steps to the parent, which is the former leaf, case 4b
rotates back, and so on: a case applies in every state. -/
theorem C36_erase_runs_forever :
    ∃ t : RBTree Nat, (RBTree.empty natLess).run 100 multiEraseLoopOps = some t ∧
      t.key (some 10) = some 4 ∧ t.size = 13 ∧ ∀ fuel, t.erase fuel (some 10) = none := by
  have hsome : (((RBTree.empty natLess).run 100 multiEraseLoopOps).bind fun t =>
      if t.key (some 10) = some 4 ∧ t.size = 13 then t.pingPongAfter 100 (some 10) 4 12 2
      else none).isSome = true := by decide!
  obtain ⟨T, hT⟩ := Option.isSome_iff_exists.1 hsome
  obtain ⟨t, ht, h⟩ := Option.bind_eq_some.1 hT
  split at h
  · rename_i hk
    exact ⟨t, ht, hk.1, hk.2, erase_of_pingPongAfter h⟩
  · simp at h

/-- C37: the tree `t` built by the ten inserts 0, 1, ..., 9 is a valid red-black tree and the
node of the key 2 (address 2) is a leaf of it. Erasing that node from `t` gives a tree with
three black nodes on every root-to-null path; erasing it from the mirror image of `t` gives a
tree whose paths carry 4, 2 and 1 black nodes, so the two results are not mirror images of
each other. -/
theorem C37_erase_not_mirror_symmetric :
    ∃ t e m, (RBTree.empty natLess).run 40
        [.insert 0, .insert 1, .insert 2, .insert 3, .insert 4, .insert 5, .insert 6, .insert 7,
          .insert 8, .insert 9] = some t ∧
      t.red t.root_ = some false ∧ t.redRedPairs 10 t.root_ = some [] ∧
      t.blackCounts 10 t.root_ = some [3, 3, 3, 3, 3, 3, 3, 3, 3, 3, 3] ∧
      t.key (some 2) = some 2 ∧ t.left (some 2) = some none ∧ t.right (some 2) = some none ∧
      t.erase 40 (some 2) = some e ∧ t.mirror.erase 40 (some 2) = some m ∧
      e.blackCounts 10 e.root_ = some [3, 3, 3, 3, 3, 3, 3, 3, 3, 3] ∧
      m.blackCounts 10 m.root_ = some [4, 4, 4, 4, 4, 4, 4, 2, 1, 1] ∧
      (e.colourTree 10 e.root_).map ColourTree.mirror ≠ m.colourTree 10 m.root_ := by
  have hsome : (((RBTree.empty natLess).run 40
      [.insert 0, .insert 1, .insert 2, .insert 3, .insert 4, .insert 5, .insert 6, .insert 7,
        .insert 8, .insert 9]).bind fun t => (t.erase 40 (some 2)).bind fun e =>
      (t.mirror.erase 40 (some 2)).bind fun m =>
      if t.red t.root_ = some false ∧ t.redRedPairs 10 t.root_ = some [] ∧
          t.blackCounts 10 t.root_ = some [3, 3, 3, 3, 3, 3, 3, 3, 3, 3, 3] ∧
          t.key (some 2) = some 2 ∧ t.left (some 2) = some none ∧
          t.right (some 2) = some none ∧
          e.blackCounts 10 e.root_ = some [3, 3, 3, 3, 3, 3, 3, 3, 3, 3] ∧
          m.blackCounts 10 m.root_ = some [4, 4, 4, 4, 4, 4, 4, 2, 1, 1] ∧
          (e.colourTree 10 e.root_).map ColourTree.mirror ≠ m.colourTree 10 m.root_
      then some (t, e, m) else none).isSome = true := by decide!
  obtain ⟨r, hr⟩ := Option.isSome_iff_exists.1 hsome
  obtain ⟨t, ht, h1⟩ := Option.bind_eq_some.1 hr
  obtain ⟨e, he, h2⟩ := Option.bind_eq_some.1 h1
  obtain ⟨m, hm, h3⟩ := Option.bind_eq_some.1 h2
  split at h3
  · rename_i hc
    obtain ⟨c1, c2, c3, c4, c5, c6, c7, c8, c9⟩ := hc
    exact ⟨t, e, m, ht, c1, c2, c3, c4, c5, c6, he, hm, c7, c8, c9⟩
  · cases h3

/-- C38: on the default-constructed tree, on a moved-from tree and on a tree after `clear()`,
`begin()` has no defined result, whatever the fuel: the root is null and `findMinNode(root_)`
reads `left_` of it. On every tree built by `insert`, `insertUnique` and `erase` calls
`clear()` returns (with fuel for the nodes of the tree) and leaves a tree of size 0 on which
`begin()` has no defined result. -/
theorem C38_begin_without_root_undefined (cmp : Key → Key → Bool) (s : RBTree Key)
    (fuel f : Nat) :
    (RBTree.empty cmp).begin fuel = none ∧ (RBTree.move cmp s).2.begin fuel = none ∧
      ((s.clear f).bind fun t => t.begin fuel) = none ∧
      ∀ (ops : List (Op Key)) (n : Nat), 3 * ops.length + 1 ≤ n →
        (RBTree.empty cmp).run n ops = some s → s.size ≤ f →
        ∃ t, s.clear f = some t ∧ t.size = 0 ∧ t.begin fuel = none := by
  refine ⟨by cases fuel <;> rfl, by cases fuel <;> rfl, ?_, ?_⟩
  · cases hc : s.clear f with
    | none => rfl
    | some t =>
      simp only [RBTree.clear, Option.bind_eq_bind, Option.bind_eq_some] at hc
      obtain ⟨t1, -, ht⟩ := hc
      simp only [Option.some.injEq] at ht
      subst ht
      cases fuel <;> rfl
  · intro ops n hn h hf
    obtain ⟨sh, g, -, -⟩ := run_empty_good hn h
    have hfl : sh.addrs.length ≤ f := by rw [← g.wf.size]; exact hf
    obtain ⟨t, ht, hr, hs, -⟩ := clear_spec g.wf hfl
    refine ⟨t, ht, hs, ?_⟩
    unfold RBTree.begin
    rw [hr]
    cases fuel <;> rfl

theorem C38_begin_without_root_undefined_witness :
    ∃ s : RBTree Nat, (RBTree.empty natLess).run 10 [.insert 2, .insert 1, .insert 3] = some s ∧
      s.size ≤ 3 ∧ ∃ t, s.clear 3 = some t ∧ t.size = 0 ∧ t.begin 5 = none := by
  have hsome : (((RBTree.empty natLess).run 10 [.insert 2, .insert 1, .insert 3]).bind
      fun s => if s.size ≤ 3 then some s else none).isSome = true := by decide!
  obtain ⟨x, hx⟩ := Option.isSome_iff_exists.1 hsome
  obtain ⟨s, hs, h1⟩ := Option.bind_eq_some.1 hx
  split at h1
  · rename_i hc
    exact ⟨s, hs, hc, (C38_begin_without_root_undefined natLess s 5 3).2.2.2
      [.insert 2, .insert 1, .insert 3] 10 (by decide) hs hc⟩
  · cases h1

theorem cells_split {T : Type} (cells : List T) (p size : Nat) (hp : p ≤ size)
    (hs : size + 1 ≤ cells.length) :
    ∃ A B c C, cells = A ++ B ++ c :: C ∧ A.length = p ∧ B.length = size - p := by
  refine ⟨cells.take p, (cells.drop p).take (size - p),
    (cells.drop size).head (by
      intro h
      have := congrArg List.length h
      simp at this
      omega),
    (cells.drop size).tail, ?_, by simp; omega, by simp; omega⟩
  have h1 : cells = cells.take p ++ cells.drop p := (List.take_append_drop p cells).symm
  have h2 : cells.drop p = (cells.drop p).take (size - p) ++ (cells.drop p).drop (size - p) :=
    (List.take_append_drop _ _).symm
  have h3 : (cells.drop p).drop (size - p) = cells.drop size := by
    rw [List.drop_drop]
    congr 1
    omega
  rw [List.head_cons_tail, ← h3, List.append_assoc, ← h2, ← h1]

theorem insert_cells {T : Type} (cells : List T) (p size : Nat) (value : T) (hp : p ≤ size)
    (hs : size + 1 ≤ cells.length) :
    (((writeRange cells (p + 1) ((cells.drop p).take (size - p))).set p value).take (size + 1)
        = (cells.take size).take p ++ value :: (cells.take size).drop p) ∧
      ((writeRange cells (p + 1) ((cells.drop p).take (size - p))).set p value).length
        = cells.length := by
  obtain ⟨A, B, c, C, rfl, hA, hB⟩ := cells_split cells p size hp hs
  have hsz : size = A.length + B.length := by omega
  subst hA
  have e1 : (A ++ B ++ c :: C).drop A.length = B ++ c :: C := by
    rw [List.append_assoc, List.drop_left]
  have e2 : (B ++ c :: C).take (size - A.length) = B := by
    rw [hB.symm, List.take_left]
  have e3 : (A ++ B ++ c :: C).take (A.length + 1) = A ++ (B ++ c :: C).take 1 := by
    rw [List.append_assoc, List.take_append]
  have e4 : (A ++ B ++ c :: C).drop (A.length + 1 + B.length) = C := by
    have : A.length + 1 + B.length = (A ++ B).length + 1 := by simp; omega
    rw [this, List.drop_append]
    rfl
  have e5 : (A ++ B ++ c :: C).take size = A ++ B := by
    rw [hsz, ← List.length_append, List.take_left]
  rw [e1, e2, e5, List.take_left, List.drop_left]
  unfold writeRange
  rw [e3, e4]
  obtain ⟨x, hx⟩ : ∃ x, (B ++ c :: C).take 1 = [x] := by
    cases B <;> simp
  rw [hx]
  have e6 : (A ++ [x] ++ B ++ C).set A.length value = A ++ [value] ++ B ++ C := by
    simp [List.set_append]
  rw [e6]
  refine ⟨?_, by simp; omega⟩
  have : size + 1 = (A ++ [value] ++ B).length := by simp; omega
  rw [this, List.take_left]
  simp

theorem writeRange_zero {T : Type} (cells xs : List T) (h : xs.length ≤ cells.length) :
    (writeRange cells 0 xs).length = cells.length ∧
      (writeRange cells 0 xs).take xs.length = xs := by
  unfold writeRange
  simp
  omega

theorem vector.toList_length {T : Type} {v : vector T} (hv : v.WellFormed) :
    v.toList.length = v.size_ := by
  obtain ⟨h1, h2, h3⟩ := hv
  unfold vector.toList
  cases hd : v.data_ with
  | none =>
    rw [hd] at h3
    simp only at h3 ⊢
    simp
    omega
  | some d =>
    obtain ⟨b, cells⟩ := d
    rw [hd] at h3
    simp only at h3 ⊢
    simp
    omega

theorem vector.end_isSome {T : Type} {v : vector T} (hv : v.WellFormed) :
    v.end_ = some (v.data_.map fun d => (d.1, v.size_)) := by
  obtain ⟨h1, h2, h3⟩ := hv
  unfold vector.end_ vector.begin vector.ptrAdd
  cases hd : v.data_ with
  | none =>
    rw [hd] at h3
    simp only at h3
    have : v.size_ = 0 := by omega
    simp [this]
  | some d =>
    obtain ⟨b, cells⟩ := d
    rw [hd] at h3
    simp only at h3
    simp [hd]
    omega

theorem vector.reserve_spec {T : Type} [Inhabited T] {v : vector T} (hv : v.WellFormed)
    {size : Nat} (hs : v.capacity_ < size) :
    ∃ cells, v.reserve size = some ⟨v.size_, size, some (v.fresh, cells), v.fresh + 1⟩ ∧
      cells.length = size ∧ cells.take v.size_ = v.toList := by
  have hl := vector.toList_length hv
  have he := vector.end_isSome hv
  obtain ⟨h1, h2, h3⟩ := hv
  have hw := writeRange_zero (List.replicate size (default : T)) v.toList
    (by rw [hl, List.length_replicate]; omega)
  refine ⟨writeRange (List.replicate size default) 0 v.toList, ?_, by
    rw [hw.1, List.length_replicate], by rw [← hl, hw.2]⟩
  unfold vector.reserve
  rw [if_pos hs, he]
  simp only
  rw [if_pos (by omega)]
  rfl

theorem vector.iterator_sub_at {T : Type} {v : vector T} (hv : v.WellFormed) {p q : Nat}
    (hp : p ≤ v.size_) (hq : q ≤ v.size_) :
    vector.iterator.sub (v.iteratorAt p) (v.iteratorAt q) = some ((p : Int) - (q : Int)) := by
  obtain ⟨h1, h3, h4⟩ := hv
  unfold vector.iteratorAt
  cases hd : v.data_ with
  | none =>
    rw [hd] at h4
    simp only at h4
    have hp0 : p = 0 := by omega
    have hq0 : q = 0 := by omega
    simp [vector.iterator.sub, hp0, hq0]
  | some d => simp [vector.iterator.sub]

/-- The call `insert(begin() + p, value)` on a vector with the class invariant: the vector
`v1` after the reallocation, if there is one, its array `b1` with the cells `cells1`, and the
result in terms of the value read through `value` after `std::move_backward`. -/
theorem vector.insert_eq {T : Type} [Inhabited T] {v : vector T} (hv : v.WellFormed)
    (h2 : v.size_ < 2 ^ 63) {p : Nat} (hp : p ≤ v.size_) (value : vector.const_reference T) :
    ∃ (v1 : vector T) (b1 : Nat) (cells1 : List T),
      v1.size_ = v.size_ ∧ v1.data_ = some (b1, cells1) ∧ cells1.length = v1.capacity_ ∧
      b1 < v1.fresh ∧ v1.capacity_ < 2 ^ 64 ∧ cells1.take v.size_ = v.toList ∧
      v.size_ + 1 ≤ cells1.length ∧
      v1.capacity_ = (if v.size_ < v.capacity_ then v.capacity_
        else if v.capacity_ = 0 then 1 else 2 * v.capacity_) ∧
      (v.size_ < v.capacity_ → v1 = v) ∧ (v.size_ = v.capacity_ → b1 = v.fresh) ∧
      v.insert (v.iteratorAt p) value =
        match value.read b1
          (writeRange cells1 (p + 1) ((cells1.drop p).take (v1.size_ - p))) with
        | none => none
        | some x =>
          some (.ok (some (b1, p),
            { v1 with
              size_ := sizeT (v1.size_ + 1),
              data_ := some (b1, (writeRange cells1 (p + 1)
                ((cells1.drop p).take (v1.size_ - p))).set p x) })) := by
  have he := vector.end_isSome hv
  have hwf := hv
  obtain ⟨h1, h3, h4⟩ := hv
  -- the vector after the reallocation, if there is one
  obtain ⟨v1, b1, cells1, hres, hsz, hd1, hlen, hfr, hcap, htl, hle, hcap1, hsame, hnew⟩ :
      ∃ (v1 : vector T) (b1 : Nat) (cells1 : List T),
        (if v.size_ = v.capacity_ then
            v.reserve (if v.capacity_ = 0 then 1 else sizeT (2 * v.capacity_))
          else some v) = some v1 ∧
        v1.size_ = v.size_ ∧ v1.data_ = some (b1, cells1) ∧ cells1.length = v1.capacity_ ∧
        b1 < v1.fresh ∧ v1.capacity_ < 2 ^ 64 ∧ cells1.take v.size_ = v.toList ∧
        v.size_ + 1 ≤ cells1.length ∧
        v1.capacity_ = (if v.size_ < v.capacity_ then v.capacity_
          else if v.capacity_ = 0 then 1 else 2 * v.capacity_) ∧
        (v.size_ < v.capacity_ → v1 = v) ∧ (v.size_ = v.capacity_ → b1 = v.fresh) := by
    by_cases hc : v.size_ = v.capacity_
    · rw [if_pos hc]
      have hn0 : (if v.capacity_ = 0 then 1 else sizeT (2 * v.capacity_)) =
          (if v.capacity_ = 0 then 1 else 2 * v.capacity_) := by
        unfold sizeT
        rw [Nat.mod_eq_of_lt (by omega)]
      have hn : v.capacity_ < (if v.capacity_ = 0 then 1 else sizeT (2 * v.capacity_)) := by
        rw [hn0]
        split <;> omega
      have hn64 : (if v.capacity_ = 0 then 1 else sizeT (2 * v.capacity_)) < 2 ^ 64 := by
        rw [hn0]
        split <;> omega
      obtain ⟨cells, hr, hl, ht⟩ := vector.reserve_spec hwf hn
      refine ⟨_, v.fresh, cells, hr, rfl, rfl, hl, Nat.lt_succ_self _, hn64, ht, ?_, ?_, ?_,
        fun _ => rfl⟩
      · rw [hl]; omega
      · rw [if_neg (show ¬ v.size_ < v.capacity_ by omega)]
        exact hn0
      · intro h; omega
    · rw [if_neg hc]
      cases hd : v.data_ with
      | none =>
        rw [hd] at h4
        simp only at h4
        omega
      | some d =>
        obtain ⟨b, cells⟩ := d
        rw [hd] at h4
        simp only at h4
        refine ⟨v, b, cells, rfl, rfl, hd, h4.1, h4.2, h3, ?_, ?_, ?_, fun _ => rfl,
          fun h => absurd h hc⟩
        · simp [vector.toList, hd]
        · rw [h4.1]; omega
        · rw [if_pos (show v.size_ < v.capacity_ by omega)]
  refine ⟨v1, b1, cells1, hsz, hd1, hlen, hfr, hcap, htl, hle, hcap1, hsame, hnew, ?_⟩
  have hb : v.begin = v.iteratorAt 0 := rfl
  have he2 : v.end_ = some (v.iteratorAt v.size_) := he
  unfold vector.insert
  rw [he2]
  simp only [hb, vector.iterator_sub_at hwf hp (Nat.zero_le _),
    vector.iterator_sub_at hwf hp (le_refl _)]
  rw [if_neg (by omega)]
  simp only [hres, hd1]
  rw [if_pos (by omega)]
  simp

theorem vector.insert_spec {T : Type} [Inhabited T] {v : vector T} (hv : v.WellFormed)
    (h2 : v.size_ < 2 ^ 63) {p : Nat} (hp : p ≤ v.size_) (value : T) :
    ∃ v' b, v.insert (v.iteratorAt p) (.object value) = some (.ok (some (b, p), v')) ∧
      v'.WellFormed ∧ v'.size_ = v.size_ + 1 ∧ (∃ cells, v'.data_ = some (b, cells)) ∧
      v'.toList = v.toList.take p ++ value :: v.toList.drop p ∧
      v'.capacity_ = (if v.size_ < v.capacity_ then v.capacity_
        else if v.capacity_ = 0 then 1 else 2 * v.capacity_) ∧
      (v.size_ < v.capacity_ → v'.begin = v.begin ∧ v'.fresh = v.fresh) := by
  obtain ⟨v1, b1, cells1, hsz, hd1, hlen, hfr, hcap, htl, hle, hcap1, hsame, -, heq⟩ :=
    vector.insert_eq hv h2 hp (.object value)
  have hwf := hv
  obtain ⟨h1, h3, h4⟩ := hv
  have hl := vector.toList_length hwf
  obtain ⟨hins, hlen2⟩ := insert_cells cells1 p v.size_ value hp hle
  refine ⟨{ v1 with size_ := sizeT (v1.size_ + 1),
                    data_ := some (b1, (writeRange cells1 (p + 1)
                      ((cells1.drop p).take (v1.size_ - p))).set p value) }, b1, ?_, ?_, ?_,
    ⟨_, rfl⟩, ?_, hcap1, ?_⟩
  · rw [heq]
    rfl
  · refine ⟨?_, ?_, ?_⟩
    · simp only [sizeT]
      rw [Nat.mod_eq_of_lt (by omega)]
      omega
    · exact hcap
    · simp only
      exact ⟨by rw [hsz, hlen2, hlen], hfr⟩
  · simp only [sizeT]
    rw [Nat.mod_eq_of_lt (by omega)]
    omega
  · simp only [vector.toList, sizeT]
    rw [Nat.mod_eq_of_lt (by omega), hsz, hins, htl]
    rfl
  · intro h
    have := hsame h
    subst this
    refine ⟨?_, rfl⟩
    simp [vector.begin, hd1]

theorem vector.push_back_spec {T : Type} [Inhabited T] {v : vector T} (hv : v.WellFormed)
    (h2 : v.size_ < 2 ^ 63) (value : T) :
    ∃ v', v.push_back (.object value) = some (.ok v') ∧ v'.WellFormed ∧
      v'.size_ = v.size_ + 1 ∧
      v'.toList = v.toList ++ [value] ∧
      v'.capacity_ = (if v.size_ < v.capacity_ then v.capacity_
        else if v.capacity_ = 0 then 1 else 2 * v.capacity_) := by
  obtain ⟨v', b, hi, hw, hs, -, ht, hc, -⟩ := vector.insert_spec hv h2 (le_refl v.size_) value
  have hl := vector.toList_length hv
  refine ⟨v', ?_, hw, hs, ?_, hc⟩
  · have he : v.end_ = some (v.iteratorAt v.size_) := vector.end_isSome hv
    unfold vector.push_back
    rw [he]
    simp only [hi]
    rfl
  · rw [ht, ← hl, List.take_length, List.drop_length]

theorem writeRange_nil {T : Type} (cells : List T) (n : Nat) :
    writeRange cells n [] = cells := by
  unfold writeRange
  simp

/-- The call `push_back(data_[i])`, the argument a reference to a cell of the vector itself:
without a reallocation the value of the cell is appended; with a reallocation (`size_ ==
capacity_`) the reference is to a cell of the array that `reserve` has freed when
`*pos = value` reads it, and the call has no defined result. -/
theorem vector.push_back_own_cell {T : Type} [Inhabited T] {v : vector T} (hv : v.WellFormed)
    (h2 : v.size_ < 2 ^ 63) {b : Nat} {cells : List T} (hd : v.data_ = some (b, cells))
    (i : Nat) :
    (v.size_ = v.capacity_ → v.push_back (.cell b i) = none) ∧
    (v.size_ < v.capacity_ → ∀ x, v.toList.get? i = some x →
      ∃ v', v.push_back (.cell b i) = some (.ok v') ∧ v'.WellFormed ∧
        v'.size_ = v.size_ + 1 ∧ v'.toList = v.toList ++ [x] ∧
        v'.capacity_ = v.capacity_) := by
  obtain ⟨v1, b1, cells1, hsz, hd1, hlen, hfr, hcap, htl, hle, hcap1, hsame, hnew, heq⟩ :=
    vector.insert_eq hv h2 (le_refl v.size_) (.cell b i)
  have he : v.end_ = some (v.iteratorAt v.size_) := vector.end_isSome hv
  have hl := vector.toList_length hv
  have hwf := hv
  obtain ⟨h1, h3, h4⟩ := hv
  rw [hd] at h4
  simp only at h4
  constructor
  · intro hc
    have hb : b ≠ b1 := by
      rw [hnew hc]
      omega
    unfold vector.push_back
    rw [he]
    simp only
    rw [heq]
    simp [vector.const_reference.read, hb]
  · intro hc x hx
    have hv1 := hsame hc
    subst hv1
    rw [hd] at hd1
    simp only [Option.some.injEq, Prod.mk.injEq] at hd1
    obtain ⟨rfl, rfl⟩ := hd1
    have hmoved : writeRange cells (v1.size_ + 1) ((cells.drop v1.size_).take (v1.size_ - v1.size_))
        = cells := by
      rw [Nat.sub_self, List.take_zero, writeRange_nil]
    have hi : i < v1.size_ := by
      have := List.get?_eq_some.1 hx
      obtain ⟨h, -⟩ := this
      rw [hl] at h
      exact h
    have hread : cells.get? i = some x := by
      rw [← htl] at hx
      rw [List.get?_eq_getElem?] at hx ⊢
      rw [List.getElem?_take_of_lt hi] at hx
      exact hx
    obtain ⟨hins, hlen2⟩ := insert_cells cells v1.size_ v1.size_ x (le_refl _) hle
    rw [hmoved] at hins hlen2
    simp only [Nat.sub_self, List.take_zero, writeRange_nil] at heq
    have hr : vector.const_reference.read (.cell b i) b cells = some x := by
      show (if b = b then cells.get? i else none) = some x
      rw [if_pos rfl]
      exact hread
    rw [hr] at heq
    simp only at heq
    have hs1 : sizeT (v1.size_ + 1) = v1.size_ + 1 := by
      unfold sizeT
      exact Nat.mod_eq_of_lt (by omega)
    refine ⟨{ v1 with size_ := sizeT (v1.size_ + 1), data_ := some (b, cells.set v1.size_ x) },
      ?_, ⟨?_, h3, ?_⟩, hs1, ?_, rfl⟩
    · unfold vector.push_back
      rw [he]
      simp only
      rw [heq]
      rfl
    · show sizeT (v1.size_ + 1) ≤ v1.capacity_
      rw [hs1]
      omega
    · show (cells.set v1.size_ x).length = v1.capacity_ ∧ b < v1.fresh
      exact ⟨by rw [hlen2]; exact h4.1, h4.2⟩
    · show (cells.set v1.size_ x).take (sizeT (v1.size_ + 1)) = v1.toList ++ [x]
      rw [hs1, hins, htl, ← hl, List.take_length, List.drop_length]

theorem vector.at_spec {T : Type} {v : vector T} (hv : v.WellFormed) (hs : 0 < v.size_)
    (pos : Nat) :
    v.at pos = if pos < v.size_ then (v.toList.get? pos).map Except.ok
      else some (.error .mk) := by
  obtain ⟨h1, h3, h4⟩ := hv
  have e : sizeT.pred v.size_ = v.size_ - 1 := by
    unfold sizeT.pred
    rw [if_neg (by omega)]
  unfold vector.at
  rw [e]
  by_cases hp : pos < v.size_
  · rw [if_neg (by omega), if_pos hp]
    cases hd : v.data_ with
    | none =>
      rw [hd] at h4
      simp only at h4
      omega
    | some d =>
      obtain ⟨b, cells⟩ := d
      simp only [vector.toList, hd]
      rw [List.get?_eq_getElem?, List.get?_eq_getElem?, List.getElem?_take_of_lt hp]
  · rw [if_pos (by omega), if_neg hp]

theorem vector.back_spec {T : Type} {v : vector T} (hv : v.WellFormed) (hs : 0 < v.size_) :
    v.back = v.toList.getLast?.map Except.ok := by
  have hl := vector.toList_length hv
  have e : sizeT.pred v.size_ = v.size_ - 1 := by
    unfold sizeT.pred
    rw [if_neg (by omega)]
  unfold vector.back
  rw [vector.at_spec hv hs, e, if_pos (by omega), List.getLast?_eq_getElem?, hl,
    List.get?_eq_getElem?]

theorem vector.pop_back_spec {T : Type} {v : vector T} (hv : v.WellFormed) :
    v.pop_back.WellFormed ∧ v.pop_back.size_ = v.size_ - 1 ∧
      v.pop_back.toList = v.toList.dropLast := by
  have hl := vector.toList_length hv
  obtain ⟨h1, h3, h4⟩ := hv
  by_cases h0 : v.size_ = 0
  · have hnil : v.toList = [] := List.length_eq_zero.1 (by rw [hl, h0])
    have hp : v.pop_back = v := by simp [vector.pop_back, vector.empty, h0]
    rw [hp]
    exact ⟨⟨h1, h3, h4⟩, by omega, by rw [hnil]; rfl⟩
  · have e : sizeT.pred v.size_ = v.size_ - 1 := by
      unfold sizeT.pred
      rw [if_neg (by omega)]
    have hb : (v.size_ == 0) = false := by simpa using h0
    have hp : v.pop_back = { v with size_ := v.size_ - 1 } := by
      unfold vector.pop_back vector.empty
      rw [hb, e]
      rfl
    rw [hp]
    refine ⟨⟨?_, h3, h4⟩, rfl, ?_⟩
    · show v.size_ - 1 ≤ v.capacity_
      omega
    · rw [List.dropLast_eq_take, hl]
      simp only [vector.toList]
      cases v.data_ with
      | none => simp
      | some d =>
        simp only
        rw [List.take_take, Nat.min_eq_left (Nat.sub_le _ _)]

theorem vector.ofRange_spec {T : Type} [Inhabited T] (fresh : Nat) (items : List T)
    (h : items.length < 2 ^ 64) :
    (vector.ofRange fresh items).WellFormed ∧ (vector.ofRange fresh items).toList = items ∧
      (vector.ofRange fresh items).size_ = items.length := by
  have hw := writeRange_zero (List.replicate items.length (default : T)) items (by simp)
  refine ⟨⟨le_refl _, h, ?_⟩, ?_, rfl⟩
  · simp only [vector.ofRange, vector.ofSize, Option.map_some']
    exact ⟨by rw [hw.1, List.length_replicate], Nat.lt_succ_self _⟩
  · simp only [vector.toList, vector.ofRange, vector.ofSize, Option.map_some']
    exact hw.2

theorem vector.copy_ctor_spec {T : Type} [Inhabited T] {v : vector T} (hv : v.WellFormed) :
    ∃ c, v.copy = some c ∧ c.WellFormed ∧ c.toList = v.toList ∧ c.size_ = v.size_ := by
  have hl := vector.toList_length hv
  obtain ⟨h1, h3, h4⟩ := hv
  unfold vector.copy
  cases hd : v.data_ with
  | none =>
    rw [hd] at h4
    simp only at h4
    have h0 : v.size_ = 0 := by omega
    have hnil : v.toList = [] := List.length_eq_zero.1 (by rw [hl, h0])
    simp only [h0, if_true]
    obtain ⟨a, b, c⟩ := vector.ofRange_spec (T := T) v.fresh [] (by simp)
    exact ⟨_, rfl, a, by rw [b, hnil], by rw [c]; rfl⟩
  | some d =>
    obtain ⟨b, cells⟩ := d
    rw [hd] at h4
    simp only at h4
    simp only
    rw [if_pos (by omega)]
    have ht : v.toList = cells.take v.size_ := by simp [vector.toList, hd]
    obtain ⟨a, b, c⟩ := vector.ofRange_spec (T := T) v.fresh (cells.take v.size_) (by
      rw [← ht, hl]; omega)
    exact ⟨_, rfl, a, by rw [b, ht], by rw [c, ← ht, hl]⟩

theorem stack.popAll_spec {T : Type} (fuel : Nat) :
    ∀ s : stack T, s.base.WellFormed → s.size ≤ fuel →
      s.popAll fuel = some s.base.toList.reverse := by
  induction fuel with
  | zero =>
    intro s hs hf
    have hl := vector.toList_length hs
    have h0 : s.base.size_ = 0 := Nat.le_zero.1 hf
    have hnil : s.base.toList = [] := List.length_eq_zero.1 (by rw [hl, h0])
    have hb : s.empty = true := by
      unfold stack.empty vector.empty
      rw [h0]
      rfl
    rw [stack.popAll, if_pos hb, hnil]
    rfl
  | succ fuel ih =>
    intro s hs hf
    have hl := vector.toList_length hs
    by_cases h0 : s.base.size_ = 0
    · have hnil : s.base.toList = [] := List.length_eq_zero.1 (by rw [hl, h0])
      have hb : s.empty = true := by
        unfold stack.empty vector.empty
        rw [h0]
        rfl
      rw [stack.popAll, if_pos hb, hnil]
      rfl
    · have hb : ¬ s.empty = true := by
        unfold stack.empty vector.empty
        simpa using h0
      obtain ⟨pw, ps, pt⟩ := vector.pop_back_spec hs
      have hne : s.base.toList ≠ [] := by
        intro h
        rw [h] at hl
        exact h0 hl.symm
      have htop : s.top = some (.ok (s.base.toList.getLast hne)) := by
        unfold stack.top
        rw [vector.back_spec hs (Nat.pos_of_ne_zero h0), List.getLast?_eq_getLast _ hne]
        rfl
      have hrec := ih s.pop pw (by
        show s.base.pop_back.size_ ≤ fuel
        rw [ps]
        have : s.base.size_ ≤ fuel + 1 := hf
        omega)
      have hpop : s.pop.base.toList = s.base.toList.dropLast := pt
      rw [stack.popAll, if_neg hb, htop]
      simp only
      rw [hrec, hpop, Option.map_some']
      congr 1
      conv_rhs => rw [← List.dropLast_append_getLast hne]
      rw [List.reverse_append]
      rfl

theorem vector.ptrAdd_begin {T : Type} {v : vector T} (hv : v.WellFormed) {p : Nat}
    (hp : p ≤ v.size_) : v.ptrAdd v.begin p = some (v.iteratorAt p) := by
  obtain ⟨h1, h2, h3⟩ := hv
  unfold vector.begin vector.ptrAdd vector.iteratorAt
  cases hd : v.data_ with
  | none =>
    rw [hd] at h3
    simp only at h3
    have : p = 0 := by omega
    simp [this]
  | some d =>
    obtain ⟨b, cells⟩ := d
    rw [hd] at h3
    simp only at h3
    simp [hd]
    omega

theorem vector.iteratorAt_congr {T : Type} {v w : vector T} (h : w.begin = v.begin) (i : Nat) :
    w.iteratorAt i = v.iteratorAt i := by
  unfold vector.begin at h
  unfold vector.iteratorAt
  cases hv : v.data_ <;> cases hw : w.data_ <;> rw [hv, hw] at h <;> simp at h ⊢
  exact h

theorem vector.ofSize_spec {T : Type} [Inhabited T] (fresh n : Nat) (h : n < 2 ^ 64) :
    (vector.ofSize fresh n : vector T).WellFormed ∧
      (vector.ofSize fresh n : vector T).toList = List.replicate n default ∧
      (vector.ofSize fresh n : vector T).size_ = n ∧
      (vector.ofSize fresh n : vector T).capacity_ = n := by
  refine ⟨⟨le_refl _, h, ?_⟩, ?_, rfl, rfl⟩
  · exact ⟨List.length_replicate _ _, Nat.lt_succ_self _⟩
  · simp [vector.toList, vector.ofSize]

theorem vector.insertManyLoop_spec {T : Type} [Inhabited T] (args : List T) :
    ∀ (v : vector T) (results : vector vector.iterator) (q : Nat),
      v.WellFormed → v.size_ + args.length ≤ v.capacity_ → v.size_ + args.length < 2 ^ 63 →
      q ≤ v.size_ → results.WellFormed →
      results.capacity_ ≤ 2 * (results.size_ + args.length) →
      4 * (results.size_ + args.length) < 2 ^ 64 →
      ∃ results' v', vector.insertManyLoop v results (v.iteratorAt q)
            (args.map vector.const_reference.object) = some (.ok (results', v')) ∧
        v'.WellFormed ∧ v'.size_ = v.size_ + args.length ∧ v'.capacity_ = v.capacity_ ∧
        v'.begin = v.begin ∧
        v'.toList = v.toList.take q ++ args ++ v.toList.drop q ∧
        results'.WellFormed ∧ results'.size_ = results.size_ + args.length ∧
        results'.toList = results.toList ++
          (List.range args.length).map (fun i => v.iteratorAt (q + i)) := by
  induction args with
  | nil =>
    intro v results q hv _ _ hq hr _ _
    have hl := vector.toList_length hv
    exact ⟨results, v, rfl, hv, rfl, rfl, rfl, by simp, hr, rfl, by simp⟩
  | cons a args ih =>
    intro v results q hv hcap h63 hq hr hrc hr64
    have hl := vector.toList_length hv
    simp only [List.length_cons] at hcap h63 hrc hr64
    have hlt : v.size_ < v.capacity_ := by omega
    obtain ⟨v1, b1, hi, hw1, hs1, ⟨cells1, hd1⟩, ht1, hc1, hsame⟩ :=
      vector.insert_spec hv (by omega) hq a
    obtain ⟨hb1, -⟩ := hsame hlt
    rw [if_pos hlt] at hc1
    have hit : some (b1, q) = v.iteratorAt q := by
      rw [← vector.iteratorAt_congr hb1 q]
      simp [vector.iteratorAt, hd1]
    obtain ⟨r1, hp, hrw1, hrs1, hrt1, hrc1⟩ :=
      vector.push_back_spec hr (by omega) (some (b1, q))
    have hinc : v.ptrAdd (v.iteratorAt q) 1 = some (v.iteratorAt (q + 1)) := by
      obtain ⟨h1, h2, h3⟩ := hv
      unfold vector.ptrAdd vector.iteratorAt
      cases hd : v.data_ with
      | none =>
        rw [hd] at h3
        simp only at h3
        omega
      | some d =>
        obtain ⟨b, cells⟩ := d
        rw [hd] at h3
        simp only at h3
        simp
        omega
    obtain ⟨r2, v2, hloop, hw2, hs2, hc2, hb2, ht2, hrw2, hrs2, hrt2⟩ :=
      ih v1 r1 (q + 1) hw1 (by omega) (by omega) (by omega) hrw1
        (by rw [hrc1, hrs1]; split <;> [skip; split] <;> omega) (by rw [hrs1]; omega)
    refine ⟨r2, v2, ?_, hw2, by rw [hs2, hs1, List.length_cons]; omega, by rw [hc2, hc1],
      by rw [hb2, hb1], ?_, hrw2, by rw [hrs2, hrs1, List.length_cons]; omega, ?_⟩
    · rw [List.map_cons, vector.insertManyLoop, hinc]
      simp only [hi, hp]
      rw [← vector.iteratorAt_congr hb1 (q + 1)]
      exact hloop
    · rw [ht2, ht1]
      have hq' : (v.toList.take q ++ [a]).length = q + 1 := by
        rw [List.length_append, List.length_take, hl, List.length_singleton]
        omega
      have e0 : v.toList.take q ++ a :: v.toList.drop q
          = (v.toList.take q ++ [a]) ++ v.toList.drop q := by simp
      rw [e0, List.take_left' hq', List.drop_left' hq']
      simp
    · rw [hrt2, hrt1, List.length_cons, List.range_succ_eq_map, List.map_cons, List.map_map,
        hit]
      simp only [List.append_assoc, List.singleton_append, Nat.add_zero]
      congr 2
      apply List.map_congr_left
      intro i _
      simp only [Function.comp]
      rw [vector.iteratorAt_congr hb1, Nat.add_assoc, Nat.add_comm 1 i]

theorem vector.insert_many_spec {T : Type} [Inhabited T] {v : vector T} (hv : v.WellFormed)
    (args : List T) (hn : v.size_ + args.length < 2 ^ 61) {p : Nat} (hp : p ≤ v.size_) :
    ∃ results v', v.insert_many (v.iteratorAt p) (args.map vector.const_reference.object)
        = some (.ok (results, v')) ∧
      v'.WellFormed ∧ v'.size_ = v.size_ + args.length ∧
      v'.toList = v.toList.take p ++ args ++ v.toList.drop p ∧
      results.WellFormed ∧ results.size_ = 2 * args.length ∧
      results.toList = List.replicate args.length none ++
        (List.range args.length).map (fun i => v'.iteratorAt (p + i)) := by
  have hwf := hv
  obtain ⟨h1, h2, h3⟩ := hv
  obtain ⟨rw0, rt0, rs0, rc0⟩ :=
    vector.ofSize_spec (T := vector.iterator) 0 args.length (by omega)
  have hsz : sizeT (v.size + args.length) = v.size_ + args.length := by
    unfold sizeT vector.size
    exact Nat.mod_eq_of_lt (by omega)
  -- the vector after `reserve`
  obtain ⟨v1, hres, hw1, hs1, ht1, hc1⟩ : ∃ v1, v.reserve (v.size_ + args.length) = some v1 ∧
      v1.WellFormed ∧ v1.size_ = v.size_ ∧ v1.toList = v.toList ∧
      v.size_ + args.length ≤ v1.capacity_ := by
    by_cases hc : v.capacity_ < v.size_ + args.length
    · obtain ⟨cells, hr, hl, ht⟩ := vector.reserve_spec hwf hc
      refine ⟨_, hr, ⟨?_, ?_, ?_⟩, rfl, ?_, le_refl _⟩
      · show v.size_ ≤ v.size_ + args.length
        omega
      · show v.size_ + args.length < 2 ^ 64
        omega
      · exact ⟨hl, Nat.lt_succ_self _⟩
      · simp only [vector.toList]
        exact ht
    · refine ⟨v, ?_, hwf, rfl, rfl, by omega⟩
      unfold vector.reserve
      rw [if_neg (by omega)]
  obtain ⟨r2, v2, hloop, hw2, hs2, hc2, hb2, ht2, hrw2, hrs2, hrt2⟩ :=
    vector.insertManyLoop_spec args v1 (vector.ofSize 0 args.length) p hw1 (by omega)
      (by omega) (by omega) rw0 (by rw [rs0, rc0]; omega) (by rw [rs0]; omega)
  refine ⟨r2, v2, ?_, hw2, by rw [hs2, hs1], by rw [ht2, ht1], hrw2, by rw [hrs2, rs0]; omega,
    ?_⟩
  · have hb : v.begin = v.iteratorAt 0 := rfl
    unfold vector.insert_many
    rw [List.length_map, hb, vector.iterator_sub_at hwf hp (Nat.zero_le _), hsz]
    simp only [hres]
    rw [if_neg (by omega), Nat.cast_zero, sub_zero, Int.toNat_ofNat,
      vector.ptrAdd_begin hw1 (by omega)]
    exact hloop
  · rw [hrt2, rt0]
    congr 1
    apply List.map_congr_left
    intro i _
    exact (vector.iteratorAt_congr hb2 _).symm

theorem vector.back_reference_spec {T : Type} {v : vector T} (hv : v.WellFormed)
    (hs : 0 < v.size_) :
    ∃ b cells x, v.data_ = some (b, cells) ∧
      v.back_reference = some (.ok (.cell b (v.size_ - 1))) ∧
      v.back = some (.ok x) ∧ v.toList.get? (v.size_ - 1) = some x := by
  have hl := vector.toList_length hv
  have hb := vector.back_spec hv hs
  obtain ⟨h1, h3, h4⟩ := hv
  have e : sizeT.pred v.size_ = v.size_ - 1 := by
    unfold sizeT.pred
    rw [if_neg (by omega)]
  cases hd : v.data_ with
  | none =>
    rw [hd] at h4
    simp only at h4
    omega
  | some d =>
    obtain ⟨b, cells⟩ := d
    rw [hd] at h4
    simp only at h4
    have hne : v.toList ≠ [] := by
      intro h
      rw [h] at hl
      simp at hl
      omega
    refine ⟨b, cells, v.toList.getLast hne, rfl, ?_, ?_, ?_⟩
    · unfold vector.back_reference vector.at_reference
      rw [e, if_neg (by omega), hd]
      simp only
      rw [if_pos (by omega)]
    · rw [hb, List.getLast?_eq_getLast _ hne]
      rfl
    · rw [List.get?_eq_getElem?, ← hl, ← List.getLast?_eq_getElem?,
        List.getLast?_eq_getLast _ hne]

/-- C31: for every stack `s` that satisfies the class invariant and has fewer than `2 ^ 63`
elements. With an argument that is an object outside the stack, of the value `v`, `push`
returns; after it `top()` returns `v`, `size()` is one larger and the elements are those of
`s` followed by `v`; a `pop()` after it restores the elements and the size of `s`. Popping a
stack until it is empty gives its elements in the reverse of their order, the copy of a stack
has the elements of the original, and the stack built from an initializer list has the
elements of the list in their order; the empty stack satisfies the invariant and `push` and
`pop` preserve it. With the argument `s.top()`, the reference to the last element of the
stack itself, `s.push(s.top())` does the same while `size() < capacity()`; when
`size() == capacity()` it has no defined result: `reserve` frees the array that holds the
element before `*pos = value` reads it. -/
theorem C31_push_of_top_reference_undefined {T : Type} [Inhabited T] (s : stack T)
    (hs : s.base.WellFormed) (hn : s.size < 2 ^ 63) (v : T) :
    (∃ s', s.push (.object v) = some (.ok s') ∧ s'.base.WellFormed ∧
      s'.top = some (.ok v) ∧
      s'.size = s.size + 1 ∧ s'.base.toList = s.base.toList ++ [v] ∧
      s'.pop.base.WellFormed ∧ s'.pop.base.toList = s.base.toList ∧ s'.pop.size = s.size ∧
      s'.popAll s'.size = some (v :: s.base.toList.reverse)) ∧
    s.popAll s.size = some s.base.toList.reverse ∧
    (∃ c, s.copy = some c ∧ c.base.WellFormed ∧ c.size = s.size ∧
      c.base.toList = s.base.toList ∧ c.popAll c.size = some s.base.toList.reverse) ∧
    (∀ items : List T, items.length < 2 ^ 64 →
      (stack.ofList items).base.WellFormed ∧ (stack.ofList items).base.toList = items ∧
      (stack.ofList items).popAll items.length = some items.reverse) ∧
    (stack.create : stack T).base.WellFormed ∧
    (0 < s.size → ∃ r x, s.top_reference = some (.ok r) ∧ s.top = some (.ok x) ∧
      (s.size < s.base.capacity → ∃ s', s.push r = some (.ok s') ∧ s'.base.WellFormed ∧
        s'.top = some (.ok x) ∧ s'.size = s.size + 1 ∧
        s'.base.toList = s.base.toList ++ [x]) ∧
      (s.size = s.base.capacity → s.push r = none)) := by
  refine ⟨?_, stack.popAll_spec _ s hs (le_refl _), ?_, ?_, ?_, ?_⟩
  · obtain ⟨v', hp, hw, hsz, ht, -⟩ := vector.push_back_spec hs hn v
    obtain ⟨pw, ps, pt⟩ := vector.pop_back_spec hw
    refine ⟨⟨v'⟩, ?_, hw, ?_, hsz, ht, pw, ?_, ?_, ?_⟩
    · unfold stack.push
      rw [hp]
      rfl
    · unfold stack.top
      rw [vector.back_spec hw (by omega), ht, List.getLast?_concat]
      rfl
    · show v'.pop_back.toList = _
      rw [pt, ht, List.dropLast_concat]
    · show v'.pop_back.size_ = s.base.size_
      rw [ps, hsz]
      rfl
    · rw [stack.popAll_spec _ ⟨v'⟩ hw (le_refl _)]
      show some v'.toList.reverse = _
      rw [ht, List.reverse_append]
      rfl
  · obtain ⟨c, hc, hw, ht, hsz⟩ := vector.copy_ctor_spec hs
    refine ⟨⟨c⟩, ?_, hw, hsz, ht, ?_⟩
    · unfold stack.copy
      rw [hc]
      rfl
    · rw [stack.popAll_spec _ ⟨c⟩ hw (le_refl _)]
      show some c.toList.reverse = _
      rw [ht]
  · intro items hi
    obtain ⟨hw, ht, hsz⟩ := vector.ofRange_spec (T := T) 0 items hi
    refine ⟨hw, ht, ?_⟩
    rw [stack.popAll_spec _ (stack.ofList items) hw (le_of_eq hsz)]
    show some (vector.ofRange 0 items).toList.reverse = _
    rw [ht]
  · exact ⟨le_refl _, show (0 : Nat) < 2 ^ 64 by norm_num, rfl⟩
  · intro hpos
    obtain ⟨b, cells, x, hd, hr, hb, hx⟩ := vector.back_reference_spec hs hpos
    obtain ⟨hfull, hfree⟩ := vector.push_back_own_cell hs hn hd (s.base.size_ - 1)
    refine ⟨.cell b (s.base.size_ - 1), x, hr, hb, fun hc => ?_, fun hc => ?_⟩
    · obtain ⟨v', hp, hw, hsz, ht, -⟩ := hfree hc x hx
      refine ⟨⟨v'⟩, ?_, hw, ?_, hsz, ht⟩
      · unfold stack.push
        rw [hp]
        rfl
      · unfold stack.top
        rw [vector.back_spec hw (by omega), ht, List.getLast?_concat]
        rfl
    · unfold stack.push
      rw [hfull hc]
      rfl

theorem C31_push_of_top_reference_undefined_witness :
    (stack.ofList [1, 2] : stack Nat).base.WellFormed ∧
    (stack.ofList [1, 2] : stack Nat).size = 2 ∧
    (stack.ofList [1, 2] : stack Nat).base.capacity = 2 ∧
    (stack.ofList [1, 2] : stack Nat).top = some (.ok 2) ∧
    (stack.ofList [1, 2] : stack Nat).top_reference = some (.ok (.cell 0 1)) ∧
    (stack.ofList [1, 2] : stack Nat).push (.cell 0 1) = none ∧
    (∃ r x, (stack.ofList [1, 2] : stack Nat).top_reference = some (.ok r) ∧
      (stack.ofList [1, 2] : stack Nat).top = some (.ok x) ∧
      ((stack.ofList [1, 2] : stack Nat).size < (stack.ofList [1, 2] : stack Nat).base.capacity →
        ∃ s', (stack.ofList [1, 2] : stack Nat).push r = some (.ok s') ∧ s'.base.WellFormed ∧
          s'.top = some (.ok x) ∧ s'.size = (stack.ofList [1, 2] : stack Nat).size + 1 ∧
          s'.base.toList = (stack.ofList [1, 2] : stack Nat).base.toList ++ [x]) ∧
      ((stack.ofList [1, 2] : stack Nat).size = (stack.ofList [1, 2] : stack Nat).base.capacity →
        (stack.ofList [1, 2] : stack Nat).push r = none)) ∧
    ∃ s', (stack.ofList [1, 2] : stack Nat).push (.object 3) = some (.ok s') ∧
      s'.top = some (.ok 3) ∧ s'.base.toList = [1, 2, 3] ∧ s'.size = 3 :=
  ⟨(vector.ofRange_spec 0 [1, 2] (by norm_num)).1, rfl, rfl, rfl, rfl, rfl,
    (C31_push_of_top_reference_undefined (stack.ofList [1, 2])
      (vector.ofRange_spec 0 [1, 2] (by norm_num)).1 (show 2 < 2 ^ 63 by norm_num) 3).2.2.2.2.2
      (show 0 < 2 by norm_num),
    (by
      obtain ⟨s', h1, -, h2, h3, h4, -⟩ :=
        (C31_push_of_top_reference_undefined (stack.ofList [1, 2])
          (vector.ofRange_spec 0 [1, 2] (by norm_num)).1 (show 2 < 2 ^ 63 by norm_num) 3).1
      exact ⟨s', h1, h2, h4, h3⟩)⟩

/-- C32: `at` on a vector without elements never signals the out-of-range error: `size_-1`
wraps to `2 ^ 64 - 1`, which no index exceeds. On the default-constructed vector `at(0)` reads
through the null pointer and on the vector of the empty initializer list beyond an array of
length 0, both undefined; on a vector emptied by `clear()` it returns the stale element, and
`back()` on it reads the index `2 ^ 64 - 1`. On a vector of the two elements 7, 8 `at(1)`
returns 8 and `at(2)` signals the error. -/
theorem C32_at_on_empty_vector :
    (∀ (v : vector Nat) (pos : Nat), v.size = 0 → pos < 2 ^ 64 →
      v.at pos ≠ some (.error .mk)) ∧
    (vector.create : vector Nat).at 0 = none ∧
    (vector.ofList ([] : List Nat)).at 0 = none ∧
    (vector.ofList [7, 8]).clear.size = 0 ∧
    (vector.ofList [7, 8]).clear.at 1 = some (.ok 8) ∧
    (vector.ofList [7, 8]).clear.back = none ∧
    (vector.ofList [7, 8]).at 1 = some (.ok 8) ∧
    (vector.ofList [7, 8]).at 2 = some (.error .mk) := by
  refine ⟨?_, rfl, rfl, rfl, rfl, rfl, rfl, rfl⟩
  intro v pos h0 hp
  have h0' : v.size_ = 0 := h0
  unfold vector.at sizeT.pred
  rw [h0', if_pos rfl, if_neg (by omega)]
  cases v.data_ with
  | none => simp
  | some d =>
    simp only
    cases d.2.get? pos <;> simp

theorem C32_at_on_empty_vector_witness :
    (vector.create : vector Nat).size = 0 ∧ 5 < 2 ^ 64 ∧
      (vector.create : vector Nat).at 5 ≠ some (.error .mk) :=
  ⟨rfl, by norm_num, C32_at_on_empty_vector.1 vector.create 5 rfl (by norm_num)⟩

/-- C39: for every vector `v` that satisfies the class invariant, every position `begin() + p`
with `p <= size()` and all arguments `a1..an`, objects outside the vector (with
`size() + n < 2 ^ 61`),
`insert_many(begin() + p, a1, ..., an)` returns; afterwards the elements are those before
index `p`, then `a1..an` in their order, then those from index `p` on. The returned vector has
`2 * n` entries: `n` null pointers, from `vector<iterator> results(sizeof...(args))`, followed
by the `n` iterators `begin() + p + i` to the inserted elements. -/
theorem C39_insert_many_returns_2n {T : Type} [Inhabited T] (v : vector T)
    (hv : v.WellFormed) (args : List T) (hn : v.size + args.length < 2 ^ 61) (p : Nat)
    (hp : p ≤ v.size) :
    ∃ results v', v.insert_many (v.iteratorAt p) (args.map vector.const_reference.object)
        = some (.ok (results, v')) ∧
      v'.WellFormed ∧ v'.size = v.size + args.length ∧
      v'.toList = v.toList.take p ++ args ++ v.toList.drop p ∧
      results.size = 2 * args.length ∧
      results.toList = List.replicate args.length none ++
        (List.range args.length).map (fun i => v'.iteratorAt (p + i)) ∧
      (args ≠ [] → results.size ≠ args.length ∧ results.at 0 = some (.ok none)) := by
  obtain ⟨results, v', h, hw, hs, ht, hrw, hrs, hrt⟩ := vector.insert_many_spec hv args hn hp
  refine ⟨results, v', h, hw, hs, ht, hrs, hrt, fun hne => ?_⟩
  have hpos : 0 < args.length := List.length_pos.2 hne
  refine ⟨by show results.size_ ≠ _; omega, ?_⟩
  rw [vector.at_spec hrw (by omega), if_pos (by omega), hrt]
  obtain ⟨n, hn'⟩ : ∃ n, args.length = n + 1 := ⟨args.length - 1, by omega⟩
  rw [hn', List.replicate_succ]
  rfl

theorem C39_insert_many_returns_2n_witness :
    ∃ results v', (vector.ofList [1, 2, 3]).insert_many
        ((vector.ofList [1, 2, 3]).iteratorAt 3)
        ([1, 2, 3].map vector.const_reference.object) = some (.ok (results, v')) ∧
      v'.WellFormed ∧ v'.size = (vector.ofList [1, 2, 3]).size + [1, 2, 3].length ∧
      v'.toList = (vector.ofList [1, 2, 3]).toList.take 3 ++ [1, 2, 3] ++
        (vector.ofList [1, 2, 3]).toList.drop 3 ∧
      results.size = 2 * [1, 2, 3].length ∧
      results.toList = List.replicate [1, 2, 3].length none ++
        (List.range [1, 2, 3].length).map (fun i => v'.iteratorAt (3 + i)) ∧
      ([1, 2, 3] ≠ [] → results.size ≠ [1, 2, 3].length ∧ results.at 0 = some (.ok none)) :=
  C39_insert_many_returns_2n (vector.ofList [1, 2, 3])
    (vector.ofRange_spec 0 [1, 2, 3] (by norm_num)).1 [1, 2, 3]
    (show 3 + 3 < 2 ^ 61 by norm_num) 3 (le_refl 3)

theorem list.walk_stuck {T : Type} (m : list.Memory T) (last it : list.iterator)
    (hne : it ≠ last) (hd : list.iterator.deref m it = none) (fuel : Nat) :
    list.walk m last fuel it = none := by
  cases fuel with
  | zero => rw [list.walk, if_neg hne]
  | succ fuel => rw [list.walk, if_neg hne, hd]

theorem list.setNext_spec {T : Type} {m : list.Memory T} {p : Nat} (q : Nat)
    (h : (m.mem p).isSome = true) :
    ∃ m', m.setNext p q = some m' ∧ m'.fresh = m.fresh ∧
      ∀ c, m'.mem c = (m.mem c).map fun n =>
        { prev_ := n.prev_, next_ := if c = p then q else n.next_, value_ := n.value_ } := by
  obtain ⟨n, hn⟩ := Option.isSome_iff_exists.1 h
  refine ⟨{ m with mem := fun a => if a = p then some { n with next_ := q } else m.mem a },
    ?_, rfl, fun c => ?_⟩
  · simp only [list.Memory.setNext, hn, Option.map_some']
  · by_cases hc : c = p
    · subst hc
      simp [hn]
    · simp [hc]

theorem list.setPrev_spec {T : Type} {m : list.Memory T} {p : Nat} (q : Nat)
    (h : (m.mem p).isSome = true) :
    ∃ m', m.setPrev p q = some m' ∧ m'.fresh = m.fresh ∧
      ∀ c, m'.mem c = (m.mem c).map fun n =>
        { prev_ := if c = p then q else n.prev_, next_ := n.next_, value_ := n.value_ } := by
  obtain ⟨n, hn⟩ := Option.isSome_iff_exists.1 h
  refine ⟨{ m with mem := fun a => if a = p then some { n with prev_ := q } else m.mem a },
    ?_, rfl, fun c => ?_⟩
  · simp only [list.Memory.setPrev, hn, Option.map_some']
  · by_cases hc : c = p
    · subst hc
      simp [hn]
    · simp [hc]

theorem list.splice_mem {T : Type} (m : list.Memory T) (l : list T) (pos : list.iterator)
    (other : list T) (pn bn : list.BaseNode T) (hp : m.mem pos = some pn)
    (hb : m.mem other.fakeNode_ = some bn) (h1 : (m.mem pn.prev_).isSome = true)
    (h2 : (m.mem bn.next_).isSome = true) (h3 : (m.mem bn.prev_).isSome = true) :
    ∃ m', list.splice m l pos other
        = some (m', { l with sz_ := sizeT (l.sz_ + other.sz_) }, { other with sz_ := 0 }) ∧
      ∀ c, m'.mem c = (m.mem c).map fun n =>
        { prev_ := if c = other.fakeNode_ then other.fakeNode_
            else if c = bn.next_ then pn.prev_ else if c = pos then bn.prev_ else n.prev_,
          next_ := if c = other.fakeNode_ then other.fakeNode_
            else if c = bn.prev_ then pos else if c = pn.prev_ then bn.next_ else n.next_,
          value_ := n.value_ } := by
  obtain ⟨m1, e1, -, f1⟩ := list.setNext_spec bn.next_ h1
  obtain ⟨m2, e2, -, f2⟩ := list.setPrev_spec (m := m1) (p := pos) bn.prev_
    (by rw [f1, hp]; rfl)
  obtain ⟨m3, e3, -, f3⟩ := list.setPrev_spec (m := m2) (p := bn.next_) pn.prev_
    (by rw [f2, f1]; simpa using h2)
  obtain ⟨m4, e4, -, f4⟩ := list.setNext_spec (m := m3) (p := bn.prev_) pos
    (by rw [f3, f2, f1]; simpa using h3)
  obtain ⟨m5, e5, -, f5⟩ := list.setNext_spec (m := m4) (p := other.fakeNode_) other.fakeNode_
    (by rw [f4, f3, f2, f1, hb]; rfl)
  obtain ⟨m6, e6, -, f6⟩ := list.setPrev_spec (m := m5) (p := other.fakeNode_) other.fakeNode_
    (by rw [f5, f4, f3, f2, f1, hb]; rfl)
  refine ⟨m6, ?_, fun c => ?_⟩
  · simp only [list.splice, hp, hb, e1, e2, e3, e4, e5, e6]
  · rw [f6, f5, f4, f3, f2, f1]
    cases m.mem c with
    | none => rfl
    | some n => rfl

theorem chain_positions {α : Type} {R : α → α → Prop} :
    ∀ {L : List α}, List.Chain' R L →
      List.Chain' (fun x y => x ∈ L.dropLast ∧ y ∈ L.tail ∧ R x y) L
  | [], _ => List.chain'_nil
  | [_], _ => List.chain'_singleton _
  | a :: b :: l, h => by
    rw [List.chain'_cons] at h ⊢
    refine ⟨⟨by simp, by simp, h.1⟩, ?_⟩
    refine (chain_positions h.2).imp ?_
    intro x y hxy
    refine ⟨?_, ?_, hxy.2.2⟩
    · rw [List.dropLast_cons₂]
      exact List.mem_cons_of_mem _ hxy.1
    · exact List.mem_of_mem_tail hxy.2.1

theorem nodup_getLast_not_mem_dropLast {α : Type} {L : List α} (h : L.Nodup) {z : α}
    (hz : L.getLast? = some z) : z ∉ L.dropLast := by
  have hne : L ≠ [] := by
    intro h0
    rw [h0] at hz
    cases hz
  have hL := List.dropLast_append_getLast? z hz
  rw [← hL] at h
  intro hmem
  exact (List.disjoint_of_nodup_append h) hmem (List.mem_singleton_self z)

theorem nodup_head_not_mem_tail {α : Type} {L : List α} (h : L.Nodup) {z : α}
    (hz : L.head? = some z) : z ∉ L.tail := by
  cases L with
  | nil => cases hz
  | cons a l =>
    simp only [List.head?_cons, Option.some.injEq] at hz
    subst hz
    exact (List.nodup_cons.1 h).1

theorem list.ring_split {T : Type} {m : list.Memory T} {a : list T} {A : List (Nat × T)}
    (ha : list.Ring m a A) (i : Nat) :
    List.Chain' (list.Linked m) ((a.fakeNode_ :: (A.take i).map Prod.fst) ++
        ((A.drop i).map Prod.fst ++ [a.fakeNode_])) ∧
      ((a.fakeNode_ :: (A.take i).map Prod.fst) ++ (A.drop i).map Prod.fst).Nodup := by
  have e : A.map Prod.fst = (A.take i).map Prod.fst ++ (A.drop i).map Prod.fst := by
    rw [← List.map_append, List.take_append_drop]
  obtain ⟨h1, h2, -⟩ := ha
  have e2 : a.fakeNode_ :: A.map Prod.fst ++ [a.fakeNode_]
      = (a.fakeNode_ :: (A.take i).map Prod.fst) ++
        ((A.drop i).map Prod.fst ++ [a.fakeNode_]) := by
    rw [e]
    simp only [List.cons_append, List.append_assoc]
  refine ⟨by rw [← e2]; exact h1, ?_⟩
  show (a.fakeNode_ :: ((A.take i).map Prod.fst ++ (A.drop i).map Prod.fst)).Nodup
  rw [← e]
  exact h2

theorem list.splice_setup {T : Type} {m : list.Memory T} {a b : list T}
    {A B : List (Nat × T)} (ha : list.Ring m a A) (hb : list.Ring m b B) (i : Nat) :
    ∃ prev first last m',
      (a.fakeNode_ :: (A.take i).map Prod.fst).getLast? = some prev ∧
      (B.map Prod.fst ++ [b.fakeNode_]).head? = some first ∧
      (b.fakeNode_ :: B.map Prod.fst).getLast? = some last ∧
      ((A.drop i).map Prod.fst ++ [a.fakeNode_]).head? = some (a.position A i) ∧
      list.Linked m prev (a.position A i) ∧ list.Linked m b.fakeNode_ first ∧
      list.Linked m last b.fakeNode_ ∧
      list.splice m a (a.position A i) b
        = some (m', { a with sz_ := sizeT (a.sz_ + b.sz_) }, { b with sz_ := 0 }) ∧
      ∀ c, m'.mem c = (m.mem c).map fun n =>
        { prev_ := if c = b.fakeNode_ then b.fakeNode_
            else if c = first then prev else if c = a.position A i then last else n.prev_,
          next_ := if c = b.fakeNode_ then b.fakeNode_
            else if c = last then a.position A i else if c = prev then first else n.next_,
          value_ := n.value_ } := by
  obtain ⟨prev, hprev⟩ : ∃ prev, (a.fakeNode_ :: (A.take i).map Prod.fst).getLast? = some prev :=
    Option.isSome_iff_exists.1 (by simp)
  obtain ⟨first, hfirst⟩ : ∃ first, (B.map Prod.fst ++ [b.fakeNode_]).head? = some first :=
    Option.isSome_iff_exists.1 (by cases B <;> simp)
  obtain ⟨last, hlast⟩ : ∃ last, (b.fakeNode_ :: B.map Prod.fst).getLast? = some last :=
    Option.isSome_iff_exists.1 (by simp)
  have hpos : ((A.drop i).map Prod.fst ++ [a.fakeNode_]).head? = some (a.position A i) := by
    unfold list.position
    cases (A.drop i).map Prod.fst <;> simp
  -- the links of the two rings at the places of the surgery
  obtain ⟨hca, -⟩ := list.ring_split ha i
  have l1 : list.Linked m prev (a.position A i) :=
    (List.chain'_append.1 hca).2.2 prev hprev _ hpos
  have hcb : List.Chain' (list.Linked m) (b.fakeNode_ :: (B.map Prod.fst ++ [b.fakeNode_])) := by
    simpa using hb.1
  have l2 : list.Linked m b.fakeNode_ first := by
    have := (List.chain'_cons'.1 hcb).1
    exact this first hfirst
  have l3 : list.Linked m last b.fakeNode_ := by
    have hcb' : List.Chain' (list.Linked m) ((b.fakeNode_ :: B.map Prod.fst) ++ [b.fakeNode_]) :=
      hb.1
    exact (List.chain'_append.1 hcb').2.2 last hlast _ rfl
  obtain ⟨pn, hpn, hpp⟩ : ∃ pn, m.mem (a.position A i) = some pn ∧ pn.prev_ = prev := by
    have := l1.2
    cases h : m.mem (a.position A i) with
    | none => rw [h] at this; cases this
    | some pn => rw [h] at this; exact ⟨pn, rfl, by simpa using this⟩
  obtain ⟨bn, hbn, hbnext, hbprev⟩ :
      ∃ bn, m.mem b.fakeNode_ = some bn ∧ bn.next_ = first ∧ bn.prev_ = last := by
    have h1 := l2.1
    have h2 := l3.2
    cases h : m.mem b.fakeNode_ with
    | none => rw [h] at h1; cases h1
    | some bn =>
      rw [h] at h1 h2
      exact ⟨bn, rfl, by simpa using h1, by simpa using h2⟩
  have a1 : (m.mem prev).isSome = true := by
    have := l1.1
    cases h : m.mem prev with
    | none => rw [h] at this; cases this
    | some _ => rfl
  have a2 : (m.mem first).isSome = true := by
    have := l2.2
    cases h : m.mem first with
    | none => rw [h] at this; cases this
    | some _ => rfl
  have a3 : (m.mem last).isSome = true := by
    have := l3.1
    cases h : m.mem last with
    | none => rw [h] at this; cases this
    | some _ => rfl
  obtain ⟨m', hs, hm⟩ := list.splice_mem m a (a.position A i) b pn bn hpn hbn
    (by rw [hpp]; exact a1) (by rw [hbnext]; exact a2) (by rw [hbprev]; exact a3)
  rw [hpp, hbnext, hbprev] at hm
  exact ⟨prev, first, last, m', hprev, hfirst, hlast, hpos, l1, l2, l3, hs, hm⟩

theorem list.walk_chain {T : Type} (m : list.Memory T) (last : Nat) :
    ∀ (P : List (Nat × T)) (fuel : Nat),
      List.Chain' (list.Linked m) (P.map Prod.fst ++ [last]) →
      (∀ p ∈ P, (m.mem p.1).map (fun n => n.value_) = some (some p.2)) →
      (∀ p ∈ P, p.1 ≠ last) → P.length ≤ fuel →
      list.walk m last fuel ((P.map Prod.fst ++ [last]).headD last) = some (P.map Prod.snd)
  | [], fuel, _, _, _, _ => by
    cases fuel <;> simp [list.walk]
  | (x, v) :: P, 0, _, _, _, hf => by simp at hf
  | (x, v) :: P, fuel + 1, hc, hv, hne, hf => by
    have hx : x ≠ last := hne (x, v) (List.mem_cons_self _ _)
    have hc' : List.Chain' (list.Linked m) (x :: (P.map Prod.fst ++ [last])) := hc
    obtain ⟨y, hy⟩ : ∃ y, (P.map Prod.fst ++ [last]).head? = some y :=
      Option.isSome_iff_exists.1 (by cases P <;> simp)
    have hyD : (P.map Prod.fst ++ [last]).headD last = y := by
      rw [List.headD_eq_head?_getD, hy]
      rfl
    have hl : list.Linked m x y := (List.chain'_cons'.1 hc').1 y hy
    have hval := hv (x, v) (List.mem_cons_self _ _)
    have ih := list.walk_chain m last P fuel (List.chain'_cons'.1 hc').2
      (fun p hp => hv p (List.mem_cons_of_mem _ hp))
      (fun p hp => hne p (List.mem_cons_of_mem _ hp)) (by simpa using hf)
    have hd : list.iterator.deref m x = some v := by
      unfold list.iterator.deref
      simp only at hval
      cases h : m.mem x with
      | none => rw [h] at hval; cases hval
      | some n =>
        rw [h] at hval
        simpa using hval
    have hi : list.iterator.incr m x = some y := hl.1
    show list.walk m last (fuel + 1) x = _
    rw [list.walk, if_neg hx, hd, hi]
    simp only
    rw [← hyD, ih]
    rfl

theorem list.Ring.toList_eq {T : Type} {m : list.Memory T} {l : list T}
    {nodes : List (Nat × T)} (h : list.Ring m l nodes) {fuel : Nat}
    (hf : nodes.length ≤ fuel) : l.toList m fuel = some (nodes.map Prod.snd) := by
  obtain ⟨h1, h2, h3, -, -⟩ := h
  have hc : List.Chain' (list.Linked m) (l.fakeNode_ :: (nodes.map Prod.fst ++ [l.fakeNode_])) :=
    h1
  obtain ⟨y, hy⟩ : ∃ y, (nodes.map Prod.fst ++ [l.fakeNode_]).head? = some y :=
    Option.isSome_iff_exists.1 (by cases nodes <;> simp)
  have hyD : (nodes.map Prod.fst ++ [l.fakeNode_]).headD l.fakeNode_ = y := by
    rw [List.headD_eq_head?_getD, hy]
    rfl
  have hl : list.Linked m l.fakeNode_ y := (List.chain'_cons'.1 hc).1 y hy
  have hw := list.walk_chain m l.fakeNode_ nodes fuel (List.chain'_cons'.1 hc).2 h3
    (fun p hp e => (List.nodup_cons.1 h2).1 (e ▸ List.mem_map_of_mem Prod.fst hp)) hf
  unfold list.toList list.begin list.end_
  rw [hl.1, ← hyD]
  exact hw

theorem list.linked_isSome {T : Type} {m : list.Memory T} {p q : Nat}
    (h : list.Linked m p q) : (∃ n, m.mem p = some n) ∧ ∃ n, m.mem q = some n := by
  obtain ⟨h1, h2⟩ := h
  constructor
  · cases h : m.mem p with
    | none => rw [h] at h1; cases h1
    | some n => exact ⟨n, rfl⟩
  · cases h : m.mem q with
    | none => rw [h] at h2; cases h2
    | some n => exact ⟨n, rfl⟩

theorem list.splice_spec {T : Type} {m : list.Memory T} {a b : list T}
    {A B : List (Nat × T)} (ha : list.Ring m a A) (hb : list.Ring m b B) (hB : B ≠ [])
    (i : Nat) (hdis : ∀ x ∈ a.fakeNode_ :: A.map Prod.fst, x ∉ b.fakeNode_ :: B.map Prod.fst)
    (hsz : a.sz_ + b.sz_ < 2 ^ 64) :
    ∃ m', list.splice m a (a.position A i) b
        = some (m', ⟨a.fakeNode_, a.sz_ + b.sz_⟩, ⟨b.fakeNode_, 0⟩) ∧
      list.Ring m' ⟨a.fakeNode_, a.sz_ + b.sz_⟩ (A.take i ++ B ++ A.drop i) ∧
      list.Ring m' ⟨b.fakeNode_, 0⟩ [] := by
  obtain ⟨prev, first, last, m', hprev, hfirst, hlast, hpos, l1, l2, l3, hs, hm⟩ :=
    list.splice_setup ha hb i
  obtain ⟨hca, hna⟩ := list.ring_split ha i
  have hnb : (b.fakeNode_ :: B.map Prod.fst).Nodup := hb.2.1
  have hcb : List.Chain' (list.Linked m) (b.fakeNode_ :: (B.map Prod.fst ++ [b.fakeNode_])) :=
    hb.1
  have hBa : B.map Prod.fst ≠ [] := by simpa using hB
  -- abbreviations
  generalize hT : (A.take i).map Prod.fst = Tk at *
  generalize hD : (A.drop i).map Prod.fst = Dr at *
  generalize hBd : B.map Prod.fst = Ba at *
  generalize hP : a.position A i = pos at *
  have hAm : A.map Prod.fst = Tk ++ Dr := by
    rw [← hT, ← hD, ← List.map_append, List.take_append_drop]
  rw [hAm] at hdis
  -- where the five cells are
  have hfirst' : Ba.head? = some first := by
    cases Ba with
    | nil => exact absurd rfl hBa
    | cons x xs => simpa using hfirst
  have hlast' : Ba.getLast? = some last := by
    cases Ba with
    | nil => exact absurd rfl hBa
    | cons x xs => simpa [List.getLast?_cons_cons] using hlast
  have mfirst : first ∈ Ba := List.mem_of_mem_head? hfirst'
  have mlast : last ∈ Ba := List.mem_of_mem_getLast? hlast'
  have mprev : prev ∈ a.fakeNode_ :: Tk := List.mem_of_mem_getLast? hprev
  have mpos : pos ∈ Dr ++ [a.fakeNode_] := List.mem_of_mem_head? hpos
  have cellA : ∀ x, x ∈ a.fakeNode_ :: Tk ∨ x ∈ Dr ++ [a.fakeNode_] →
      x ≠ b.fakeNode_ ∧ x ∉ Ba := by
    intro x hx
    have hx' : x ∈ a.fakeNode_ :: (Tk ++ Dr) := by
      rcases hx with hx | hx
      · rcases List.mem_cons.1 hx with h | h
        · exact h ▸ List.mem_cons_self _ _
        · exact List.mem_cons_of_mem _ (List.mem_append_left _ h)
      · rcases List.mem_append.1 hx with h | h
        · exact List.mem_cons_of_mem _ (List.mem_append_right _ h)
        · rw [List.mem_singleton.1 h]
          exact List.mem_cons_self _ _
    have := hdis x hx'
    exact ⟨fun e => this (e ▸ List.mem_cons_self _ _), fun e => this (List.mem_cons_of_mem _ e)⟩
  have nfb : b.fakeNode_ ∉ Ba := (List.nodup_cons.1 hnb).1
  have nBa : Ba.Nodup := (List.nodup_cons.1 hnb).2
  have nS1 : (a.fakeNode_ :: Tk).Nodup := (List.nodup_append.1 hna).1
  have nDr : Dr.Nodup := (List.nodup_append.1 hna).2.1
  have dTD : ∀ x, x ∈ a.fakeNode_ :: Tk → x ∉ Dr := fun x hx hx' =>
    (List.nodup_append.1 hna).2.2 hx hx'
  have nS3 : (Dr ++ [a.fakeNode_]).Nodup := by
    rw [List.nodup_append]
    refine ⟨nDr, List.nodup_singleton _, ?_⟩
    intro x hx hx'
    rw [List.mem_singleton.1 hx'] at hx
    exact dTD _ (List.mem_cons_self _ _) hx
  have posS1 : ∀ y, y ∈ Tk → y ≠ pos := by
    intro y hy e
    rw [e] at hy
    rcases List.mem_append.1 mpos with h | h
    · exact dTD pos (List.mem_cons_of_mem _ hy) h
    · rw [List.mem_singleton.1 h] at hy
      exact (List.nodup_cons.1 nS1).1 hy
  have prevS3 : ∀ x, x ∈ Dr → x ≠ prev := by
    intro x hx e
    rw [e] at hx
    exact dTD prev mprev hx
  -- links that the surgery keeps
  have keep : ∀ x y, list.Linked m x y → x ≠ b.fakeNode_ → x ≠ last → x ≠ prev →
      y ≠ b.fakeNode_ → y ≠ first → y ≠ pos → list.Linked m' x y := by
    intro x y hl h1 h2 h3 h4 h5 h6
    unfold list.Linked at hl ⊢
    rw [hm x, hm y]
    simp only [Option.map_map, Function.comp, if_neg h1, if_neg h2, if_neg h3, if_neg h4,
      if_neg h5, if_neg h6]
    exact hl
  have hval : ∀ c, (m'.mem c).map (fun n => n.value_) = (m.mem c).map (fun n => n.value_) := by
    intro c
    rw [hm c]
    cases m.mem c <;> rfl
  -- the chains of the parts
  have c1 : List.Chain' (list.Linked m') (a.fakeNode_ :: Tk) := by
    refine (chain_positions (List.chain'_append.1 hca).1).imp ?_
    intro x y ⟨hx, hy, hl⟩
    have hx1 : x ∈ a.fakeNode_ :: Tk := List.mem_of_mem_dropLast hx
    have hy1 : y ∈ Tk := hy
    have ax := cellA x (Or.inl hx1)
    have ay := cellA y (Or.inl (List.mem_cons_of_mem _ hy1))
    exact keep x y hl ax.1 (fun e => ax.2 (e ▸ mlast))
      (fun e => nodup_getLast_not_mem_dropLast nS1 hprev (e ▸ hx))
      ay.1 (fun e => ay.2 (e ▸ mfirst)) (posS1 y hy1)
  have c3 : List.Chain' (list.Linked m') (Dr ++ [a.fakeNode_]) := by
    refine (chain_positions (List.chain'_append.1 hca).2.1).imp ?_
    intro x y ⟨hx, hy, hl⟩
    have hx1 : x ∈ Dr := by
      rw [List.dropLast_concat] at hx
      exact hx
    have hy1 : y ∈ Dr ++ [a.fakeNode_] := List.mem_of_mem_tail hy
    have ax := cellA x (Or.inr (List.mem_append_left _ hx1))
    have ay := cellA y (Or.inr hy1)
    exact keep x y hl ax.1 (fun e => ax.2 (e ▸ mlast)) (prevS3 x hx1)
      ay.1 (fun e => ay.2 (e ▸ mfirst))
      (fun e => nodup_head_not_mem_tail nS3 hpos (e ▸ hy))
  have c2 : List.Chain' (list.Linked m') Ba := by
    refine (chain_positions
      (List.chain'_append.1 (List.chain'_cons'.1 hcb).2).1).imp ?_
    intro x y ⟨hx, hy, hl⟩
    have hx1 : x ∈ Ba := List.mem_of_mem_dropLast hx
    have hy1 : y ∈ Ba := List.mem_of_mem_tail hy
    exact keep x y hl (fun e => nfb (e ▸ hx1))
      (fun e => nodup_getLast_not_mem_dropLast nBa hlast' (e ▸ hx))
      (fun e => (cellA prev (Or.inl mprev)).2 (e ▸ hx1))
      (fun e => nfb (e ▸ hy1))
      (fun e => nodup_head_not_mem_tail nBa hfirst' (e ▸ hy))
      (fun e => (cellA pos (Or.inr mpos)).2 (e ▸ hy1))
  -- the two new links
  have aprev := cellA prev (Or.inl mprev)
  have apos := cellA pos (Or.inr mpos)
  have p1 : prev ≠ b.fakeNode_ := aprev.1
  have p2 : prev ≠ last := fun e => aprev.2 (e ▸ mlast)
  have f1 : first ≠ b.fakeNode_ := fun e => nfb (e ▸ mfirst)
  have la1 : last ≠ b.fakeNode_ := fun e => nfb (e ▸ mlast)
  have po1 : pos ≠ b.fakeNode_ := apos.1
  have po2 : pos ≠ first := fun e => apos.2 (e ▸ mfirst)
  have j1 : list.Linked m' prev first := by
    obtain ⟨⟨n1, e1⟩, -⟩ := list.linked_isSome l1
    obtain ⟨-, ⟨n2, e2⟩⟩ := list.linked_isSome l2
    unfold list.Linked
    rw [hm prev, hm first, e1, e2]
    simp [p1, p2, f1]
  have j2 : list.Linked m' last pos := by
    obtain ⟨⟨n1, e1⟩, -⟩ := list.linked_isSome l3
    obtain ⟨-, ⟨n2, e2⟩⟩ := list.linked_isSome l1
    unfold list.Linked
    rw [hm last, hm pos, e1, e2]
    simp [la1, po1, po2]
  have j3 : list.Linked m' b.fakeNode_ b.fakeNode_ := by
    obtain ⟨⟨n1, e1⟩, -⟩ := list.linked_isSome l2
    unfold list.Linked
    rw [hm b.fakeNode_, e1]
    simp
  have hsize : sizeT (a.sz_ + b.sz_) = a.sz_ + b.sz_ := Nat.mod_eq_of_lt hsz
  rw [hsize] at hs
  refine ⟨m', hs, ⟨?_, ?_, ?_, ?_, ?_⟩, ⟨?_, by simp, by simp, ?_, rfl⟩⟩
  · -- the chain of the new ring
    have e : a.fakeNode_ :: (A.take i ++ B ++ A.drop i).map Prod.fst ++ [a.fakeNode_]
        = (a.fakeNode_ :: Tk) ++ (Ba ++ (Dr ++ [a.fakeNode_])) := by
      rw [List.map_append, List.map_append, hT, hD, hBd]
      simp only [List.cons_append, List.append_assoc]
    show List.Chain' (list.Linked m')
      (a.fakeNode_ :: (A.take i ++ B ++ A.drop i).map Prod.fst ++ [a.fakeNode_])
    rw [e]
    refine List.chain'_append.2 ⟨c1, List.chain'_append.2 ⟨c2, c3, ?_⟩, ?_⟩
    · intro x hx y hy
      rw [Option.mem_def] at hx hy
      rw [hlast'] at hx
      rw [hpos] at hy
      rw [← Option.some.inj hx, ← Option.some.inj hy]
      exact j2
    · intro x hx y hy
      rw [Option.mem_def] at hx hy
      rw [hprev] at hx
      have hy' : (Ba ++ (Dr ++ [a.fakeNode_])).head? = some first := by
        cases Ba with
        | nil => exact absurd rfl hBa
        | cons x xs => simpa using hfirst'
      rw [hy'] at hy
      rw [← Option.some.inj hx, ← Option.some.inj hy]
      exact j1
  · -- the cells are distinct
    show (a.fakeNode_ :: (A.take i ++ B ++ A.drop i).map Prod.fst).Nodup
    rw [List.map_append, List.map_append, hT, hD, hBd]
    have hperm : List.Perm (a.fakeNode_ :: (Tk ++ Ba ++ Dr))
        (a.fakeNode_ :: (Tk ++ Dr ++ Ba)) := by
      refine List.Perm.cons _ ?_
      rw [List.append_assoc, List.append_assoc]
      exact List.Perm.append_left _ List.perm_append_comm
    have e' : a.fakeNode_ :: (Tk ++ Dr ++ Ba) = (a.fakeNode_ :: Tk ++ Dr) ++ Ba := by
      simp only [List.cons_append]
    rw [hperm.nodup_iff, e', List.nodup_append]
    refine ⟨hna, nBa, ?_⟩
    intro x hx hx'
    exact hdis x hx (List.mem_cons_of_mem _ hx')
  · -- the values
    intro p hp
    show (m'.mem p.1).map (fun n => n.value_) = some (some p.2)
    rw [hval]
    rcases List.mem_append.1 hp with h | h
    · rcases List.mem_append.1 h with h | h
      · exact ha.2.2.1 p (List.mem_of_mem_take h)
      · exact hb.2.2.1 p h
    · exact ha.2.2.1 p (List.mem_of_mem_drop h)
  · show (m'.mem a.fakeNode_).map (fun n => n.value_) = some none
    rw [hval]
    exact ha.2.2.2.1
  · show a.sz_ + b.sz_ = (A.take i ++ B ++ A.drop i).length
    rw [List.length_append, List.length_append, List.length_take, List.length_drop,
      ha.2.2.2.2, hb.2.2.2.2]
    omega
  · show List.Chain' (list.Linked m') [b.fakeNode_, b.fakeNode_]
    exact List.chain'_pair.2 j3
  · show (m'.mem b.fakeNode_).map (fun n => n.value_) = some none
    rw [hval]
    exact hb.2.2.2.1

theorem list.walk_none_of_chain {T : Type} (m : list.Memory T) (last : Nat) :
    ∀ (Q : List Nat) (hQ : Q ≠ []),
      List.Chain' (fun x y => list.iterator.incr m x = some y) Q →
      (∀ x ∈ Q, x ≠ last) → list.iterator.deref m (Q.getLast hQ) = none →
      ∀ fuel, list.walk m last fuel (Q.head hQ) = none
  | [], hQ, _, _, _, _ => absurd rfl hQ
  | [x], _, _, hne, hd, fuel =>
    list.walk_stuck m last x (hne x (List.mem_singleton_self x)) hd fuel
  | x :: y :: Q, _, hc, hne, hd, fuel => by
    have hx : x ≠ last := hne x (List.mem_cons_self _ _)
    have hi : list.iterator.incr m x = some y := (List.chain'_cons.1 hc).1
    have ih := list.walk_none_of_chain m last (y :: Q) (List.cons_ne_nil _ _)
      (List.chain'_cons.1 hc).2 (fun z hz => hne z (List.mem_cons_of_mem _ hz))
      (by rw [List.getLast_cons (List.cons_ne_nil y Q)] at hd; exact hd)
    show list.walk m last fuel x = none
    cases fuel with
    | zero => rw [list.walk, if_neg hx]
    | succ fuel =>
      rw [list.walk, if_neg hx, hi]
      cases hdx : list.iterator.deref m x with
      | none => rfl
      | some v =>
        simp only
        have := ih fuel
        simp only [List.head_cons] at this
        rw [this]
        rfl

theorem list.splice_empty {T : Type} {m : list.Memory T} {a b : list T}
    {A : List (Nat × T)} (ha : list.Ring m a A) (hb : list.Ring m b []) (i : Nat)
    (hdis : b.fakeNode_ ∉ a.fakeNode_ :: A.map Prod.fst) :
    ∃ m', list.splice m a (a.position A i) b
        = some (m', { a with sz_ := sizeT (a.sz_ + b.sz_) }, { b with sz_ := 0 }) ∧
      (∀ (l : list T) (fuel : Nat), l.fakeNode_ = a.fakeNode_ → l.toList m' fuel = none) ∧
      ∀ (l : list T) (nodes : List (Nat × T)), l.fakeNode_ = a.fakeNode_ →
        ¬ list.Ring m' l nodes := by
  obtain ⟨prev, first, last, m', hprev, hfirst, hlast, hpos, l1, l2, l3, hs, hm⟩ :=
    list.splice_setup ha hb i
  obtain ⟨hca, hna⟩ := list.ring_split ha i
  have hf : first = b.fakeNode_ := by
    simp only [List.map_nil, List.nil_append, List.head?_cons, Option.some.injEq] at hfirst
    exact hfirst.symm
  have hl : last = b.fakeNode_ := by
    simp only [List.map_nil, List.getLast?_singleton, Option.some.injEq] at hlast
    exact hlast.symm
  subst hf
  subst hl
  generalize hT : (A.take i).map Prod.fst = Tk at *
  generalize hD : (A.drop i).map Prod.fst = Dr at *
  generalize hP : a.position A i = pos at *
  have hAm : A.map Prod.fst = Tk ++ Dr := by
    rw [← hT, ← hD, ← List.map_append, List.take_append_drop]
  rw [hAm] at hdis
  have nS1 : (a.fakeNode_ :: Tk).Nodup := (List.nodup_append.1 hna).1
  have mprev : prev ∈ a.fakeNode_ :: Tk := List.mem_of_mem_getLast? hprev
  have cellA : ∀ x, x ∈ a.fakeNode_ :: Tk → x ≠ b.fakeNode_ := by
    intro x hx e
    apply hdis
    rw [← e]
    rcases List.mem_cons.1 hx with h | h
    · exact h ▸ List.mem_cons_self _ _
    · exact List.mem_cons_of_mem _ (List.mem_append_left _ h)
  have hincr : ∀ c, list.iterator.incr m' c = (m.mem c).map fun n =>
      if c = b.fakeNode_ then b.fakeNode_ else if c = prev then b.fakeNode_ else n.next_ := by
    intro c
    unfold list.iterator.incr
    rw [hm c]
    cases m.mem c with
    | none => rfl
    | some n =>
      simp only [Option.map_some', Option.some.injEq]
      by_cases h1 : c = b.fakeNode_
      · simp [h1]
      · simp [h1]
  -- the path from the sentinel of `a` into the sentinel of `b`
  have c1 : List.Chain' (fun x y => list.iterator.incr m' x = some y) (a.fakeNode_ :: Tk) := by
    refine (chain_positions (List.chain'_append.1 hca).1).imp ?_
    intro x y ⟨hx, _, hl⟩
    have hx1 : x ∈ a.fakeNode_ :: Tk := List.mem_of_mem_dropLast hx
    have h1 : x ≠ b.fakeNode_ := cellA x hx1
    have h2 : x ≠ prev := fun e => nodup_getLast_not_mem_dropLast nS1 hprev (e ▸ hx)
    rw [hincr x]
    simp only [if_neg h1, if_neg h2]
    exact hl.1
  have j : list.iterator.incr m' prev = some b.fakeNode_ := by
    obtain ⟨⟨n1, e1⟩, -⟩ := list.linked_isSome l1
    rw [hincr prev, e1]
    simp
  have hc : List.Chain' (fun x y => list.iterator.incr m' x = some y)
      (a.fakeNode_ :: (Tk ++ [b.fakeNode_])) := by
    have : a.fakeNode_ :: (Tk ++ [b.fakeNode_]) = (a.fakeNode_ :: Tk) ++ [b.fakeNode_] := rfl
    rw [this]
    refine List.chain'_append.2 ⟨c1, List.chain'_singleton _, ?_⟩
    intro x hx y hy
    rw [Option.mem_def] at hx hy
    rw [hprev] at hx
    simp only [List.head?_cons, Option.some.injEq] at hy
    rw [← Option.some.inj hx, ← hy]
    exact j
  have hQ : Tk ++ [b.fakeNode_] ≠ [] := by simp
  have hderef : list.iterator.deref m' ((Tk ++ [b.fakeNode_]).getLast hQ) = none := by
    rw [List.getLast_append_singleton]
    have h := hb.2.2.2.1
    unfold list.iterator.deref
    rw [hm b.fakeNode_]
    cases hmf : m.mem b.fakeNode_ with
    | none => rfl
    | some n =>
      rw [hmf] at h
      simp only [Option.map_some', Option.some.injEq] at h
      simp [h]
  have hne : ∀ x ∈ Tk ++ [b.fakeNode_], x ≠ a.fakeNode_ := by
    intro x hx e
    rcases List.mem_append.1 hx with h | h
    · rw [e] at h
      exact (List.nodup_cons.1 nS1).1 h
    · rw [List.mem_singleton.1 h] at e
      exact cellA a.fakeNode_ (List.mem_cons_self _ _) e.symm
  have hbegin : list.iterator.incr m' a.fakeNode_ = some ((Tk ++ [b.fakeNode_]).head hQ) := by
    have := (List.chain'_cons'.1 hc).1 ((Tk ++ [b.fakeNode_]).head hQ) (List.head?_eq_head hQ)
    exact this
  have hwalk := list.walk_none_of_chain m' a.fakeNode_ (Tk ++ [b.fakeNode_]) hQ
    (List.chain'_cons'.1 hc).2 hne hderef
  have hnone : ∀ (l : list T) (fuel : Nat), l.fakeNode_ = a.fakeNode_ →
      l.toList m' fuel = none := by
    intro l fuel hlf
    unfold list.toList list.begin list.end_
    rw [hlf]
    have hb' : (m'.mem a.fakeNode_).map (fun n => n.next_)
        = some ((Tk ++ [b.fakeNode_]).head hQ) := hbegin
    rw [hb']
    exact hwalk fuel
  refine ⟨m', hs, hnone, ?_⟩
  intro l nodes hlf hr
  have h1 := hr.toList_eq (le_refl _)
  rw [hnone l _ hlf] at h1
  cases h1

/-- C40: for all lists `a` and `b` that are well-formed circular lists through their own
sentinels, with disjoint cells, and every position `pos` of `a` (the node with index `i`, or
`end()`), `a.splice(pos, b)` returns with `a.size()` the sum of both sizes and `b.size() = 0`.
If `b` is not empty, `a` is afterwards the well-formed circular list of
`a[0..i) ++ b ++ a[i..)` through its own sentinel and `b` is the empty circular list. If `b` is
empty, `a` is no well-formed circular list of any nodes afterwards, and the loop from
`a.begin()` to `a.end()` has no result, whatever the fuel: the sentinel of `b` has been linked
into the list of `a` and then made a self-loop. -/
theorem C40_splice_of_empty_list_breaks_ring {T : Type} (m : list.Memory T) (a b : list T)
    (A B : List (Nat × T)) (i : Nat) (ha : list.Ring m a A) (hb : list.Ring m b B)
    (hdis : ∀ x ∈ a.fakeNode_ :: A.map Prod.fst, x ∉ b.fakeNode_ :: B.map Prod.fst)
    (hsz : a.sz_ + b.sz_ < 2 ^ 64) :
    ∃ m', list.splice m a (a.position A i) b
        = some (m', ⟨a.fakeNode_, a.sz_ + b.sz_⟩, ⟨b.fakeNode_, 0⟩) ∧
      (B ≠ [] →
        list.Ring m' ⟨a.fakeNode_, a.sz_ + b.sz_⟩ (A.take i ++ B ++ A.drop i) ∧
        list.Ring m' ⟨b.fakeNode_, 0⟩ [] ∧
        list.toList m' ⟨a.fakeNode_, a.sz_ + b.sz_⟩ (a.sz_ + b.sz_)
          = some ((A.take i).map Prod.snd ++ B.map Prod.snd ++ (A.drop i).map Prod.snd)) ∧
      (B = [] →
        (∀ nodes, ¬ list.Ring m' ⟨a.fakeNode_, a.sz_ + b.sz_⟩ nodes) ∧
        ∀ fuel, list.toList m' ⟨a.fakeNode_, a.sz_ + b.sz_⟩ fuel = none) := by
  have hsize : sizeT (a.sz_ + b.sz_) = a.sz_ + b.sz_ := Nat.mod_eq_of_lt hsz
  by_cases hB : B = []
  · subst hB
    obtain ⟨m', hs, h1, h2⟩ := list.splice_empty ha hb i
      (fun h => hdis _ h (List.mem_cons_self _ _))
    rw [hsize] at hs
    exact ⟨m', hs, fun h => absurd rfl h, fun _ => ⟨fun nodes => h2 _ nodes rfl,
      fun fuel => h1 _ fuel rfl⟩⟩
  · obtain ⟨m', hs, h1, h2⟩ := list.splice_spec ha hb hB i hdis hsz
    refine ⟨m', hs, fun _ => ⟨h1, h2, ?_⟩, fun h => absurd h hB⟩
    have hfl : (A.take i ++ B ++ A.drop i).length ≤ a.sz_ + b.sz_ :=
      le_of_eq h1.2.2.2.2.symm
    have := h1.toList_eq hfl
    rw [this, List.map_append, List.map_append]

theorem list.chainB_iff {T : Type} (m : list.Memory T) :
    ∀ L : List Nat, list.chainB m L = true ↔ List.Chain' (list.Linked m) L
  | [] => by simp [list.chainB]
  | [_] => by simp [list.chainB]
  | x :: y :: l => by
    rw [list.chainB, List.chain'_cons, Bool.and_eq_true, decide_eq_true_iff,
      list.chainB_iff m (y :: l)]

theorem C40_splice_of_empty_list_breaks_ring_witness :
    ∃ (m0 m : list.Memory Nat) (a b : list Nat),
      list.ofList list.Memory.empty [1, 2] = some (m0, a) ∧ list.create m0 = (m, b) ∧
      list.Ring m a [(1, 1), (2, 2)] ∧ list.Ring m b [] ∧
      (∀ x ∈ a.fakeNode_ :: [(1, 1), (2, 2)].map Prod.fst,
        x ∉ b.fakeNode_ :: ([] : List (Nat × Nat)).map Prod.fst) ∧
      a.sz_ + b.sz_ < 2 ^ 64 ∧
      ∃ m', list.splice m a (a.position [(1, 1), (2, 2)] 0) b
          = some (m', ⟨a.fakeNode_, a.sz_ + b.sz_⟩, ⟨b.fakeNode_, 0⟩) ∧
        (([] : List (Nat × Nat)) ≠ [] →
          list.Ring m' ⟨a.fakeNode_, a.sz_ + b.sz_⟩
            (([(1, 1), (2, 2)] : List (Nat × Nat)).take 0 ++ [] ++
              ([(1, 1), (2, 2)] : List (Nat × Nat)).drop 0) ∧
          list.Ring m' ⟨b.fakeNode_, 0⟩ [] ∧
          list.toList m' ⟨a.fakeNode_, a.sz_ + b.sz_⟩ (a.sz_ + b.sz_)
            = some ((([(1, 1), (2, 2)] : List (Nat × Nat)).take 0).map Prod.snd ++
                ([] : List (Nat × Nat)).map Prod.snd ++
                (([(1, 1), (2, 2)] : List (Nat × Nat)).drop 0).map Prod.snd)) ∧
        (([] : List (Nat × Nat)) = [] →
          (∀ nodes, ¬ list.Ring m' ⟨a.fakeNode_, a.sz_ + b.sz_⟩ nodes) ∧
          ∀ fuel, list.toList m' ⟨a.fakeNode_, a.sz_ + b.sz_⟩ fuel = none) := by
  have hsome : ((list.ofList list.Memory.empty [1, 2]).bind fun r =>
      if (list.chainB (list.create r.1).1
            (r.2.fakeNode_ :: [(1, 1), (2, 2)].map Prod.fst ++ [r.2.fakeNode_]) = true ∧
          (r.2.fakeNode_ :: [(1, 1), (2, 2)].map Prod.fst).Nodup ∧
          (∀ p ∈ [((1 : Nat), (1 : Nat)), (2, 2)],
            ((list.create r.1).1.mem p.1).map (fun n => n.value_) = some (some p.2)) ∧
          ((list.create r.1).1.mem r.2.fakeNode_).map (fun n => n.value_) = some none ∧
          r.2.sz_ = [((1 : Nat), (1 : Nat)), (2, 2)].length) ∧
        (list.chainB (list.create r.1).1
            ((list.create r.1).2.fakeNode_ :: ([] : List (Nat × Nat)).map Prod.fst ++
              [(list.create r.1).2.fakeNode_]) = true ∧
          ((list.create r.1).2.fakeNode_ :: ([] : List (Nat × Nat)).map Prod.fst).Nodup ∧
          (∀ p ∈ ([] : List (Nat × Nat)),
            ((list.create r.1).1.mem p.1).map (fun n => n.value_) = some (some p.2)) ∧
          ((list.create r.1).1.mem (list.create r.1).2.fakeNode_).map (fun n => n.value_)
            = some none ∧
          (list.create r.1).2.sz_ = ([] : List (Nat × Nat)).length) ∧
        (∀ x ∈ r.2.fakeNode_ :: [(1, 1), (2, 2)].map Prod.fst,
          x ∉ (list.create r.1).2.fakeNode_ :: ([] : List (Nat × Nat)).map Prod.fst) ∧
        r.2.sz_ + (list.create r.1).2.sz_ < 2 ^ 64
      then some r else none).isSome = true := by decide!
  obtain ⟨x, hx⟩ := Option.isSome_iff_exists.1 hsome
  obtain ⟨r, hr, h1⟩ := Option.bind_eq_some.1 hx
  split at h1
  · rename_i hc
    obtain ⟨⟨a1, a2, a3, a4, a5⟩, ⟨b1, b2, b3, b4, b5⟩, c3, c4⟩ := hc
    have c1 : list.Ring (list.create r.1).1 r.2 [(1, 1), (2, 2)] :=
      ⟨(list.chainB_iff _ _).1 a1, a2, a3, a4, a5⟩
    have c2 : list.Ring (list.create r.1).1 (list.create r.1).2 [] :=
      ⟨(list.chainB_iff _ _).1 b1, b2, b3, b4, b5⟩
    exact ⟨r.1, (list.create r.1).1, r.2, (list.create r.1).2, hr, rfl, c1, c2, c3, c4,
      C40_splice_of_empty_list_breaks_ring (list.create r.1).1 r.2 (list.create r.1).2
        [(1, 1), (2, 2)] [] 0 c1 c2 c3 c4⟩
  · cases h1

end s21
